import Mathlib

/-!
# Verification development for `vec` (integer geometry, obstacle graphs, path finding)

Shallow embedding of `i2.go`, `graph.go`, `ray.go` and `rect.go`.

Modelling conventions.  The source is embedded twice.

* The machine model (the names that end in `64`): Go `int` and `int64` values are
  64-bit two's-complement integers, every operation reduced by `wrap64`; a division by
  zero is a panic (`none`); a `float64` is a value of `F64` and its operations round
  to the nearest value, ties to even, as IEEE 754 binary64 does.
* The exact model (the names of the source): Go `int` and `int64` values are unbounded
  integers (`Int`), Go's `/` truncates toward zero and is `Int.tdiv`; `float64`
  distances live in a linearly ordered type `D` with an addition, `math.Inf(1)` is the
  top element of `WithTop D`, and `sqrt : Int → D` stands for
  `math.Sqrt(float64(·))`; the `float64` parameters of `CellsTouchingSegment` are exact
  rationals (`ℚ`).  The exact model is what the program computes as long as no integer
  wraps and no `float64` operation rounds; the theorems about the machine model show
  where the two agree.
* A Go `map[K]V` is an association list with distinct keys (`AList`); the order of
  its entries is the order in which a `range` loop visits them.  Every theorem
  quantifies over all such lists, hence over every iteration order of the maps that
  are passed in.  The maps that `FindPath` builds itself (`q`, `endN`) are ranged
  over many times; the order of each such loop is supplied by a `RangeOrder`.
* The callback of `CellsTouchingSegment` threads a state of any type, and its two
  `for` loops take the number of iterations allowed as an argument; `walkBound`
  iterations (exact model) and `walkBound64` iterations (machine model, coordinates of
  magnitude at most 2^50) are shown to suffice.
-/

set_option linter.unusedSectionVars false

namespace Vec

/-! ## i2.go -/

/-- I2 is a pair of integers, (X,Y). -/
structure I2 where
  X : Int
  Y : Int
deriving DecidableEq

/-- Add returns v + w. -/
def I2.Add (v w : I2) : I2 := ⟨v.X + w.X, v.Y + w.Y⟩

/-- Sub returns v - w. -/
def I2.Sub (v w : I2) : I2 := ⟨v.X - w.X, v.Y - w.Y⟩

/-- MulDiv does both scalar multiplication and division (truncating, as in Go). -/
def I2.MulDiv (v : I2) (n d : Int) : I2 := ⟨(v.X * n).tdiv d, (v.Y * n).tdiv d⟩

/-- Dot returns the dot product, v dot w. -/
def I2.Dot (v w : I2) : Int := v.X * w.X + v.Y * w.Y

/-- Normal returns a vector perpendicular to v of the same length. -/
def I2.Normal (v : I2) : I2 := ⟨-v.Y, v.X⟩

/-- InRect tests if v is in the rectangle ul-dr. -/
def I2.InRect (v ul dr : I2) : Bool :=
  decide (v.X ≥ ul.X) && decide (v.X ≤ dr.X) && decide (v.Y ≥ ul.Y) && decide (v.Y ≤ dr.Y)

/-- Abs is the absolute value of x. -/
def Abs (x : Int) : Int := if x < 0 then -x else x

/-- Sgn is the sign of x (-1, 0, or 1). -/
def Sgn (x : Int) : Int := if x < 0 then -1 else if x > 0 then 1 else 0

/-- SegmentIntersectI tests for the intersection of the line segments p-q, a-b and
returns an approximation of the point of intersection. -/
def SegmentIntersectI (p q a b : I2) : I2 × Bool :=
  let dx1 := p.X - q.X
  let dy1 := p.Y - q.Y
  let dx2 := a.X - b.X
  let dy2 := a.Y - b.Y
  let det := dy2 * dx1 - dx2 * dy1
  if det = 0 then (⟨0, 0⟩, false) else
  let apy := a.Y - p.Y
  let t := (a.X * (b.Y - p.Y) - b.X * apy + p.X * dy2) * Sgn det
  if t < 0 ∨ t > Abs det then (⟨0, 0⟩, false) else
  let t := (p.X * (a.Y - q.Y) - q.X * apy - a.X * dy1) * Sgn det
  if t < 0 ∨ t > Abs det then (⟨0, 0⟩, false) else
  (((b.Sub a).MulDiv t (Abs det)).Add a, true)

/-- SignedArea2 returns double the signed area of the triangle abc. -/
def SignedArea2 (a b c : I2) : Int :=
  a.Y * (c.X - b.X) + b.Y * (a.X - c.X) + c.Y * (b.X - a.X)

/-- LineNearestPoint locates the point on the line through u, v that is closest to p,
and returns the point and the square of the distance.  Exact model: unbounded
integers; `LineNearestPoint64` is the function on 64-bit integers. -/
def LineNearestPoint (u v p : I2) : I2 × Int :=
  if u = v then
    let p := p.Sub u
    (u, p.Dot p)
  else
    let n := (v.Sub u).Normal
    let n2 := n.Dot n
    let sa := SignedArea2 u v p
    (p.Sub (n.MulDiv sa n2), (sa * sa).tdiv n2)

/-- SegmentNearestPoint locates the point on the segment uv that is closest to p,
and returns the point and the square of the distance.  Exact model: unbounded
integers; `SegmentNearestPoint64` is the function on 64-bit integers. -/
def SegmentNearestPoint (u v p : I2) : I2 × Int :=
  let qd := LineNearestPoint u v p
  if u = v then qd else
  let qu := qd.1.Sub u
  let vu := v.Sub u
  let qu : I2 := ⟨qu.X * Sgn vu.X, qu.Y * Sgn vu.Y⟩
  if qu.X < 0 ∨ qu.Y < 0 then
    let pu := p.Sub u
    (u, pu.Dot pu)
  else if qu.X > Abs vu.X ∨ qu.Y > Abs vu.Y then
    let vp := v.Sub p
    (v, vp.Dot vp)
  else qd

/-! ## graph.go: the graph and its edge iteration -/

/-- VertexSet is a set of vertices, `map[I2]bool`. -/
abbrev VertexSet := AList (fun _ : I2 => Bool)

/-- Edge describes an edge between two I2 vertices. -/
structure Edge where
  U : I2
  V : I2
deriving DecidableEq

/-- Graph is an adjacency-set implementation of a graph:
`V` are the vertices and `E[u] = {v : u-v is an edge}`. -/
structure Graph where
  V : VertexSet
  E : AList (fun _ : I2 => VertexSet)

/-- NewGraph creates a new empty graph. -/
def NewGraph : Graph := ⟨∅, ∅⟩

/-- AddEdge adds the edge u-v to the graph. -/
def Graph.AddEdge (g : Graph) (u v : I2) : Graph :=
  { V := (g.V.insert u true).insert v true
    E := g.E.insert u (((g.E.lookup u).getD ∅).insert v true) }

/-- The inner loop of AllEdges: `for v, y := range l`, threading the state `s` that
the callback `f` may update; the Boolean is false when `f` asked to stop. -/
def allEdgesInner {σ : Type} (f : I2 → I2 → σ → Bool × σ) (u : I2) :
    List (Sigma (fun _ : I2 => Bool)) → σ → Bool × σ
  | [], s => (true, s)
  | e :: rest, s =>
    if !e.2 then allEdgesInner f u rest s
    else
      let r := f u e.1 s
      if !r.1 then (false, r.2) else allEdgesInner f u rest r.2

/-- The outer loop of AllEdges: `for u, l := range g.E`. -/
def allEdgesOuter {σ : Type} (f : I2 → I2 → σ → Bool × σ) :
    List (Sigma (fun _ : I2 => VertexSet)) → σ → Bool × σ
  | [], s => (true, s)
  | e :: rest, s =>
    let r := allEdgesInner f e.1 e.2.entries s
    if !r.1 then (false, r.2) else allEdgesOuter f rest r.2

/-- AllEdges runs a function for every edge. -/
def Graph.AllEdges {σ : Type} (g : Graph) (f : I2 → I2 → σ → Bool × σ) (s : σ) : Bool × σ :=
  allEdgesOuter f g.E.entries s

/-- AllEdgesFacing calls f for every edge that is somewhat facing p. -/
def Graph.AllEdgesFacing {σ : Type} (g : Graph) (p : I2) (f : I2 → I2 → σ → Bool × σ)
    (s : σ) : Bool × σ :=
  g.AllEdges (fun u v s => if SignedArea2 p u v > 0 then f u v s else (true, s)) s

/-- Edges returns all the edges as a slice. -/
def Graph.Edges (g : Graph) : List Edge :=
  (g.AllEdges (fun u v (edges : List Edge) => (true, edges ++ [Edge.mk u v])) []).2

/-- Blocks determines if the graph intersects the straight line segment start-end.
Only edges facing start are considered. -/
def Graph.Blocks (g : Graph) (start end_ : I2) : Bool :=
  !(g.AllEdgesFacing start (fun u v (s : Unit) => (!(SegmentIntersectI u v start end_).2, s)) ()).1

/-- FullyBlocks determines if the graph intersects the straight line segment
start-end, including back-facing edges. -/
def Graph.FullyBlocks (g : Graph) (start end_ : I2) : Bool :=
  !(g.AllEdges (fun u v (s : Unit) => (!(SegmentIntersectI u v start end_).2, s)) ()).1

/-- The edge u-v is in the graph: `g.E[u][v]` is present and true (the edges that
AllEdges visits). -/
def Graph.HasEdge (g : Graph) (u v : I2) : Prop :=
  ∃ l, g.E.lookup u = some l ∧ l.lookup v = some true

/-! ## graph.go: the nearest-intersection query -/

/-- Length returns the length of u-v: `math.Sqrt(float64(v.Dot(v)))` after
`v = v.Sub(u)`.  Exact model: the dot product does not wrap and the square root is the
parameter `sqrt`; `Length64` is the function on 64-bit integers and float64. -/
def Length {D : Type} (sqrt : Int → D) (u v : I2) : D :=
  let v := v.Sub u
  sqrt (v.Dot v)

/-- NearestBlock returns the intersection with the graph nearest to start.  The state
threaded through AllEdgesFacing is the triple of captured variables
`(found, min, pos)`.  Exact model; `Graph.NearestBlock64` is the function on 64-bit
integers and float64. -/
def Graph.NearestBlock {D : Type} [LinearOrder D] (sqrt : Int → D) (g : Graph)
    (start end_ : I2) : I2 × Bool :=
  let r := (g.AllEdgesFacing start
    (fun u v (s : Bool × WithTop D × I2) =>
      let py := SegmentIntersectI u v start end_
      if !py.2 then (true, s)
      else
        let t : WithTop D := ((Length sqrt start py.1 : D) : WithTop D)
        if t < s.2.1 then (true, (true, t, py.1)) else (true, s))
    (false, ⊤, ⟨0, 0⟩)).2
  (r.2.2, r.1)

/-! ## graph.go: FindPath -/

/-- The order in which a `range` loop visits the keys of a map that FindPath built:
`perm n keys` is the order used by the loop numbered `n`; it is any rearrangement of
the keys. -/
structure RangeOrder where
  perm : Nat → List I2 → List I2
  isPerm : ∀ n l, List.Perm (perm n l) l

/-- The range order that visits the keys as stored. -/
def RangeOrder.id : RangeOrder := ⟨fun _ l => l, fun _ l => List.Perm.refl l⟩

/-- The result of FindPath: a path with a nil error, or one of its two errors. -/
inductive PathResult where
  /-- `return path, nil` -/
  | path (p : List I2)
  /-- `return nil, errors.New("no paths possible")` -/
  | noPathsPossible
  /-- `return nil, errors.New("no path")` -/
  | noPath
deriving DecidableEq

/-- The error value of a result: nil for a path, else the text given to `errors.New`. -/
def PathResult.error : PathResult → Option String
  | PathResult.path _ => none
  | PathResult.noPathsPossible => some "no paths possible"
  | PathResult.noPath => some "no path"

/-- The local maps of FindPath.  `dists` is only read through `dists[k]`, which yields
0 for an absent key, so it is a total function; `prev` is a map; `endN` and `q` are
vertex sets that only ever hold `true`, kept as their lists of keys. -/
structure PathState (D : Type) where
  dists : I2 → WithTop D
  prev : AList (fun _ : I2 => I2)
  endN : List I2
  q : List I2

/-- One iteration of the loop `for v, y := range paths.V` of FindPath. -/
def seedStep {D : Type} (sqrt : Int → D) (obstacles : Graph)
    (start end_ boundsUL boundsDR : I2) (s : PathState D) (e : Sigma (fun _ : I2 => Bool)) :
    PathState D :=
  if !e.2 || !e.1.InRect boundsUL boundsDR then s
  else
    let s1 : PathState D :=
      { s with q := s.q.insert e.1, dists := Function.update s.dists e.1 ⊤ }
    let s2 : PathState D :=
      if !obstacles.Blocks start e.1 then
        { s1 with dists := Function.update s1.dists e.1 ((Length sqrt start e.1 : D) : WithTop D)
                  prev := s1.prev.insert e.1 start }
      else s1
    if !obstacles.Blocks e.1 end_ then { s2 with endN := s2.endN.insert e.1 } else s2

/-- The state of FindPath after the loop over `paths.V`. -/
def seed {D : Type} [Zero D] (sqrt : Int → D) (obstacles paths : Graph)
    (start end_ boundsUL boundsDR : I2) : PathState D :=
  paths.V.entries.foldl (seedStep sqrt obstacles start end_ boundsUL boundsDR)
    { dists := fun _ => 0, prev := ∅, endN := [], q := [end_] }

/-- The closure `relax` of FindPath, on the captured `dists` and `prev`.  Exact model:
the sum is the addition of `D`; `relax64` adds in float64. -/
def relax {D : Type} [LinearOrder D] [Add D] (sqrt : Int → D) (u v : I2) (s : PathState D) :
    PathState D :=
  if v ∉ s.q then s
  else if ((Length sqrt u v : D) : WithTop D) + s.dists u < s.dists v then
    { s with dists := Function.update s.dists v (((Length sqrt u v : D) : WithTop D) + s.dists u)
             prev := s.prev.insert v u }
  else s

/-- The selection loop `for v := range q` of FindPath on `(dist, u)`. -/
def selectMin {D : Type} [LinearOrder D] (dists : I2 → WithTop D) (l : List I2) :
    WithTop D × I2 :=
  l.foldl (fun (acc : WithTop D × I2) v => if dists v < acc.1 then (dists v, v) else acc)
    (⊤, ⟨0, 0⟩)

/-- The loop `for len(q) > 0` of FindPath; `none` when the fuel is used up before the
loop ends.  The iteration that runs with fuel `n + 1` ranges over `q` in the order
`ro.perm (2 * n)` and over `endN` in the order `ro.perm (2 * n + 1)`. -/
def search {D : Type} [LinearOrder D] [Add D] (sqrt : Int → D) (ro : RangeOrder)
    (paths : Graph) (end_ : I2) : Nat → PathState D → Option (PathState D)
  | 0, _ => none
  | n + 1, s =>
    if s.q.length > 0 then
      let m := selectMin s.dists (ro.perm (2 * n) s.q)
      if m.2 = end_ ∨ m.1 = ⊤ then some s
      else
        let s1 : PathState D := { s with q := s.q.filter (fun v => v ≠ m.2) }
        let s2 := ((paths.E.lookup m.2).getD ∅).keys.foldl (fun s v => relax sqrt m.2 v s) s1
        let s3 := (ro.perm (2 * n + 1) s.endN).foldl (fun s v => relax sqrt v end_ s) s2
        search sqrt ro paths end_ n s3
    else some s

/-- The loop `for v != start` of FindPath, which collects `rpath`; `none` when the
fuel is used up before `start` is reached. -/
def walk (prev : AList (fun _ : I2 => I2)) (start : I2) : Nat → I2 → List I2 → Option (List I2)
  | 0, _, _ => none
  | n + 1, v, rpath =>
    if v = start then some rpath
    else walk prev start n ((prev.lookup v).getD ⟨0, 0⟩) (rpath ++ [v])

/-- FindPath finds a path from start to end, even if start and end are not vertices.
The path will only use vertices contained in the rectangle boundsUL-boundsDR.
The result is `none` if one of the two loops does not finish within its fuel.
Exact model: unbounded integers and distances in `D`; `FindPath64` is the function on
64-bit integers and float64. -/
def FindPath {D : Type} [LinearOrder D] [Add D] [Zero D] (sqrt : Int → D) (ro : RangeOrder)
    (obstacles paths : Graph) (start end_ boundsUL boundsDR : I2) : Option PathResult :=
  if !obstacles.Blocks start end_ then some (PathResult.path [end_])
  else
    let s := seed sqrt obstacles paths start end_ boundsUL boundsDR
    if s.prev.entries.length = 0 ∨ s.endN.length = 0 then some PathResult.noPathsPossible
    else
      let s0 : PathState D :=
        { s with dists := Function.update (Function.update s.dists start 0) end_ ⊤ }
      match search sqrt ro paths end_ (s0.q.length + 1) s0 with
      | none => none
      | some s1 =>
        if (s1.prev.lookup end_).isNone then some PathResult.noPath
        else
          match walk s1.prev start (s.q.length + 2) end_ [] with
          | none => none
          | some rpath => some (PathResult.path rpath.reverse)

/-- The integer square root, by search below `n + 1`; used to run FindPath on
examples whose lengths are whole numbers. -/
def floorSqrt (n : Int) : Nat :=
  ((List.range (n.toNat + 1)).filter (fun k => k * k ≤ n.toNat)).length - 1

/-! ## ray.go

Exact model: the integers are unbounded and the `float64` values of `ray.go` are exact
rationals (`ℚ`); `CellsTouchingSegment64` is the function on 64-bit integers and
float64.  The two loops take the
number of iterations they may run as `fuel`; the result is `none` when the fuel is
used up before the loop returns.  The callback `touch` may update a state, which is
threaded through the loop. -/

/-- F2 is a tuple of float64 numbers, (X,Y); here of exact rationals. -/
structure F2 where
  X : ℚ
  Y : ℚ
deriving DecidableEq

/-- F2 casts this I2 to an F2. -/
def I2.F2 (v : I2) : F2 := ⟨(v.X : ℚ), (v.Y : ℚ)⟩

/-- EMul returns the element-wise product of v and w. -/
def I2.EMul (v w : I2) : I2 := ⟨v.X * w.X, v.Y * w.Y⟩

/-- Sgn returns a "unit-ish" vector (each component is normalised). -/
def I2.Sgn (v : I2) : I2 := ⟨Vec.Sgn v.X, Vec.Sgn v.Y⟩

/-- The function `divDown` of ray.go, with Go's truncating division.  Exact model:
`n - d + 1` does not wrap; `divDown64` is the function on 64-bit integers. -/
def divDown (n d : Int) : Int :=
  if n ≥ 0 then n.tdiv d else (n - d + 1).tdiv d

/-- The function `cell` of ray.go. -/
def cell (v cellSize : I2) : I2 :=
  ⟨divDown v.X cellSize.X, divDown v.Y cellSize.Y⟩

/-- The loop of the axis-aligned case of CellsTouchingSegment. -/
def axisLoop {σ : Type} (touch : I2 → σ → Bool × σ) (q s : I2) :
    Nat → I2 → σ → Option (Bool × σ)
  | 0, _, _ => none
  | n + 1, p, st =>
    let r := touch p st
    if !r.1 then some (false, r.2)
    else if p = q then some (true, r.2)
    else axisLoop touch q s n (p.Add s) r.2

/-- The loop of the general case of CellsTouchingSegment.  Exact model: the parameters
t and the steps d are rationals and the sums do not round; `generalLoop64` is the loop
on float64. -/
def generalLoop {σ : Type} (touch : I2 → σ → Bool × σ) (q s : I2) (d : F2) :
    Nat → I2 → F2 → σ → Option (Bool × σ)
  | 0, _, _, _ => none
  | n + 1, p, t, st =>
    let r := touch p st
    if !r.1 then some (false, r.2)
    else if p = q then some (true, r.2)
    else if t.X > 1 ∧ t.Y > 1 then some (true, r.2)
    else if t.X < t.Y then generalLoop touch q s d n ⟨p.X + s.X, p.Y⟩ ⟨t.X + d.X, t.Y⟩ r.2
    else generalLoop touch q s d n ⟨p.X, p.Y + s.Y⟩ ⟨t.X, t.Y + d.Y⟩ r.2

/-- CellsTouchingSegment calls touch for every rectangular cell that the line segment
(start-end) overlaps, stopping at end or when touch returns false.  Exact model:
unbounded integers and exact rationals; `CellsTouchingSegment64` is the function on
64-bit integers and float64. -/
def CellsTouchingSegment {σ : Type} (fuel : Nat) (cellSize start end_ : I2)
    (touch : I2 → σ → Bool × σ) (st : σ) : Option (Bool × σ) :=
  let p := cell start cellSize
  let q := cell end_ cellSize
  let s := (q.Sub p).Sgn
  if s.X = 0 ∨ s.Y = 0 then axisLoop touch q s fuel p st
  else
    let v : F2 := ((end_.Sub start).EMul s).F2
    let d : F2 := cellSize.F2
    let d : F2 := ⟨d.X / v.X, d.Y / v.Y⟩
    let t : F2 :=
      ⟨if s.X > 0 then (((p.X + 1) * cellSize.X - start.X : Int) : ℚ)
        else ((start.X - p.X * cellSize.X : Int) : ℚ),
       if s.Y > 0 then (((p.Y + 1) * cellSize.Y - start.Y : Int) : ℚ)
        else ((start.Y - p.Y * cellSize.Y : Int) : ℚ)⟩
    let t : F2 := ⟨t.X / v.X, t.Y / v.Y⟩
    generalLoop touch q s d fuel p t st

/-- A callback that always returns true and appends the cell to the list of cells it
was called on. -/
def recordTouch (c : I2) (cells : List I2) : Bool × List I2 := (true, cells ++ [c])

/-- The callback `touch` together with a log of its calls: the cell and the answer. -/
def logTouch {σ : Type} (touch : I2 → σ → Bool × σ) (c : I2) (st : σ × List (I2 × Bool)) :
    Bool × (σ × List (I2 × Bool)) :=
  ((touch c st.1).1, ((touch c st.1).2, st.2 ++ [(c, (touch c st.1).1)]))

/-! ## rect.go -/

/-- Rect is a rectangle given by its corners UL and DR. -/
structure Rect where
  UL : I2
  DR : I2
deriving DecidableEq

/-- Contains tests if the point p is in the rectangle r. -/
def Rect.Contains (r : Rect) (p : I2) : Bool :=
  decide (p.X ≥ r.UL.X) && decide (p.X < r.DR.X) && decide (p.Y ≥ r.UL.Y) &&
    decide (p.Y < r.DR.Y)

/-- Overlaps tests if the rectangles r and s overlap. -/
def Rect.Overlaps (r s : Rect) : Bool :=
  decide (s.DR.X > r.UL.X) && decide (s.UL.X < r.DR.X) && decide (s.DR.Y > r.UL.Y) &&
    decide (s.UL.Y < r.DR.Y)

/-! ## i2.go with the run-time panic of integer division

Go panics when an integer is divided by zero.  The functions below are the functions
of `i2.go` that divide, with that panic as the result `none`. -/

/-- Go's integer division `n / d`: truncating, and a panic (`none`) when d is zero. -/
def goDiv (n d : Int) : Option Int := if d = 0 then none else some (n.tdiv d)

/-- MulDiv, with the panic of a division by zero. -/
def I2.MulDivChecked (v : I2) (n d : Int) : Option I2 :=
  match goDiv (v.X * n) d, goDiv (v.Y * n) d with
  | some x, some y => some ⟨x, y⟩
  | _, _ => none

/-- SegmentIntersectI, with the panic of a division by zero. -/
def SegmentIntersectIChecked (p q a b : I2) : Option (I2 × Bool) :=
  let dx1 := p.X - q.X
  let dy1 := p.Y - q.Y
  let dx2 := a.X - b.X
  let dy2 := a.Y - b.Y
  let det := dy2 * dx1 - dx2 * dy1
  if det = 0 then some (⟨0, 0⟩, false) else
  let apy := a.Y - p.Y
  let t := (a.X * (b.Y - p.Y) - b.X * apy + p.X * dy2) * Sgn det
  if t < 0 ∨ t > Abs det then some (⟨0, 0⟩, false) else
  let t := (p.X * (a.Y - q.Y) - q.X * apy - a.X * dy1) * Sgn det
  if t < 0 ∨ t > Abs det then some (⟨0, 0⟩, false) else
  match (b.Sub a).MulDivChecked t (Abs det) with
  | some m => some (m.Add a, true)
  | none => none

/-! ## i2.go with 64-bit integers

SegmentIntersectI with `int` and `int64` as 64-bit two's-complement integers: the
result of every addition, subtraction, multiplication, negation and division is
reduced modulo 2^64 into the range from -2^63 to 2^63 - 1. -/

/-- The 64-bit two's-complement value of an integer. -/
def wrap64 (x : Int) : Int := (x + 2 ^ 63) % 2 ^ 64 - 2 ^ 63

/-- Addition of 64-bit integers. -/
def add64 (x y : Int) : Int := wrap64 (x + y)

/-- Subtraction of 64-bit integers. -/
def sub64 (x y : Int) : Int := wrap64 (x - y)

/-- Multiplication of 64-bit integers. -/
def mul64 (x y : Int) : Int := wrap64 (x * y)

/-- Division of 64-bit integers (truncating). -/
def div64 (x y : Int) : Int := wrap64 (x.tdiv y)

/-- Abs on 64-bit integers. -/
def Abs64 (x : Int) : Int := if x < 0 then wrap64 (-x) else x

/-- SegmentIntersectI on 64-bit integers. -/
def SegmentIntersectI64 (p q a b : I2) : I2 × Bool :=
  let dx1 := sub64 p.X q.X
  let dy1 := sub64 p.Y q.Y
  let dx2 := sub64 a.X b.X
  let dy2 := sub64 a.Y b.Y
  let det := sub64 (mul64 dy2 dx1) (mul64 dx2 dy1)
  if det = 0 then (⟨0, 0⟩, false) else
  let apy := sub64 a.Y p.Y
  let t := mul64 (add64 (sub64 (mul64 a.X (sub64 b.Y p.Y)) (mul64 b.X apy)) (mul64 p.X dy2))
    (Sgn det)
  if t < 0 ∨ t > Abs64 det then (⟨0, 0⟩, false) else
  let t := mul64 (sub64 (sub64 (mul64 p.X (sub64 a.Y q.Y)) (mul64 q.X apy)) (mul64 a.X dy1))
    (Sgn det)
  if t < 0 ∨ t > Abs64 det then (⟨0, 0⟩, false) else
  let ba : I2 := ⟨sub64 b.X a.X, sub64 b.Y a.Y⟩
  let m : I2 := ⟨div64 (mul64 ba.X t) (Abs64 det), div64 (mul64 ba.Y t) (Abs64 det)⟩
  (⟨add64 m.X a.X, add64 m.Y a.Y⟩, true)

/-! ## Definitions used in the proofs -/

/-- The edges in the order AllEdges visits them. -/
def Graph.edgeList (g : Graph) : List (I2 × I2) :=
  g.E.entries.flatMap
    (fun e => e.2.entries.filterMap (fun x => if x.2 then some (e.1, x.1) else none))

/-- A loop over a list of edges that stops as soon as the callback returns false. -/
def runEdges {σ : Type} (f : I2 → I2 → σ → Bool × σ) : List (I2 × I2) → σ → Bool × σ
  | [], s => (true, s)
  | e :: rest, s =>
    let r := f e.1 e.2 s
    if !r.1 then (false, r.2) else runEdges f rest r.2

/-- One callback of NearestBlock on the captured variables `(found, min, pos)`. -/
def nearestBlockStep {D : Type} [LinearOrder D] (sqrt : Int → D) (start end_ : I2)
    (u v : I2) (s : Bool × WithTop D × I2) : Bool × WithTop D × I2 :=
  if SignedArea2 start u v > 0 then
    if !(SegmentIntersectI u v start end_).2 then s
    else if ((Length sqrt start (SegmentIntersectI u v start end_).1 : D) : WithTop D) < s.2.1 then
      (true, ((Length sqrt start (SegmentIntersectI u v start end_).1 : D) : WithTop D),
        (SegmentIntersectI u v start end_).1)
    else s
  else s

/-- The vertex v is a candidate of FindPath: `paths.V[v]` is true and v lies in the
rectangle boundsUL-boundsDR. -/
def Candidate (paths : Graph) (boundsUL boundsDR : I2) (v : I2) : Prop :=
  paths.V.lookup v = some true ∧ v.InRect boundsUL boundsDR = true

/-- The map `g.E[u]` has the key v: the loop `for v := range paths.E[u]` visits v. -/
def Graph.Adj (g : Graph) (u v : I2) : Prop :=
  v ∈ ((g.E.lookup u).getD ∅).keys

/-- The entry `(v, true)` is in the list of entries and v lies in the bounds. -/
def candIn (boundsUL boundsDR : I2) (l : List (Sigma (fun _ : I2 => Bool))) (v : I2) : Prop :=
  (⟨v, true⟩ : Sigma (fun _ : I2 => Bool)) ∈ l ∧ v.InRect boundsUL boundsDR = true

/-- A hop u → v that FindPath may record in `prev`: the first hop from `start` to a
candidate not blocked from `start`, a hop along an entry of `paths.E[u]` out of a
candidate, or the last hop to `end` from a candidate not blocked towards `end`. -/
def Hop (obstacles paths : Graph) (start end_ boundsUL boundsDR : I2) (u v : I2) : Prop :=
  (u = start ∧ Candidate paths boundsUL boundsDR v ∧ obstacles.Blocks start v = false) ∨
  (Candidate paths boundsUL boundsDR u ∧ paths.Adj u v) ∨
  (v = end_ ∧ Candidate paths boundsUL boundsDR u ∧ obstacles.Blocks u end_ = false)

/-- `SPath … prev q w r`: following `prev` from w leads to `start` through candidates
that have left `q`; r lists the vertices met, w first and `start` left out. -/
inductive SPath (obstacles paths : Graph) (start end_ boundsUL boundsDR : I2)
    (prev : AList (fun _ : I2 => I2)) (q : List I2) : I2 → List I2 → Prop where
  | base : SPath obstacles paths start end_ boundsUL boundsDR prev q start []
  | step {w u : I2} {r : List I2} : w ≠ start → w ∉ q →
      Candidate paths boundsUL boundsDR w → prev.lookup w = some u →
      Hop obstacles paths start end_ boundsUL boundsDR u w →
      SPath obstacles paths start end_ boundsUL boundsDR prev q u r →
      SPath obstacles paths start end_ boundsUL boundsDR prev q w (w :: r)

/-- `Route … w L`: there is a route start → w1 → … → w of length L in which w1 is a
candidate not blocked from `start` and every further hop follows an entry of
`paths.E` into a candidate. -/
inductive Route {D : Type} [Add D] (sqrt : Int → D) (obstacles paths : Graph)
    (start boundsUL boundsDR : I2) : I2 → D → Prop where
  | seed {v : I2} : Candidate paths boundsUL boundsDR v → obstacles.Blocks start v = false →
      Route sqrt obstacles paths start boundsUL boundsDR v (Length sqrt start v)
  | edge {u v : I2} {L : D} : Route sqrt obstacles paths start boundsUL boundsDR u L →
      Candidate paths boundsUL boundsDR v → paths.Adj u v →
      Route sqrt obstacles paths start boundsUL boundsDR v (Length sqrt u v + L)

/-- The relaxations out of a vertex u that has left `q` have been done: every
neighbour still in `q`, and `end` when u sees it, is at most one hop further than u. -/
def Relaxed {D : Type} [LinearOrder D] [Add D] (sqrt : Int → D) (obstacles paths : Graph)
    (end_ : I2) (s : PathState D) (u : I2) : Prop :=
  (∀ v, v ∈ s.q → paths.Adj u v →
    s.dists v ≤ ((Length sqrt u v : D) : WithTop D) + s.dists u) ∧
  (obstacles.Blocks u end_ = false →
    s.dists end_ ≤ ((Length sqrt u end_ : D) : WithTop D) + s.dists u)

/-- The invariant of the search loop of FindPath after k vertices have left `q`;
K is the length of `q` when the loop starts. -/
structure Inv {D : Type} [LinearOrder D] [Add D] (sqrt : Int → D) (obstacles paths : Graph)
    (start end_ boundsUL boundsDR : I2) (K k : Nat) (s : PathState D) : Prop where
  end_mem : end_ ∈ s.q
  q_sub : ∀ v, v ∈ s.q → v = end_ ∨ Candidate paths boundsUL boundsDR v
  endN_iff : ∀ v, v ∈ s.endN ↔
    (Candidate paths boundsUL boundsDR v ∧ obstacles.Blocks v end_ = false)
  count : k + s.q.length ≤ K
  prev_ok : ∀ v u, s.prev.lookup v = some u → v ≠ start →
    (v = end_ ∨ Candidate paths boundsUL boundsDR v) ∧
    Hop obstacles paths start end_ boundsUL boundsDR u v ∧
    ((Length sqrt u v : D) : WithTop D) + s.dists u ≤ s.dists v ∧
    ((∃ r, SPath obstacles paths start end_ boundsUL boundsDR s.prev s.q u r ∧ r.length ≤ k) ∨
      (v = end_ ∧ u ≠ start ∧ u ≠ end_ ∧ u ∈ s.q ∧ (s.prev.lookup u).isSome = true))
  fin_prev : ∀ v, (v = end_ ∨ Candidate paths boundsUL boundsDR v) → s.dists v < ⊤ →
    v = start ∨ (s.prev.lookup v).isSome = true
  settled : ∀ w, Candidate paths boundsUL boundsDR w → w ∉ s.q →
    ∃ r, SPath obstacles paths start end_ boundsUL boundsDR s.prev s.q w r ∧ r.length ≤ k
  opt : ∀ w, Candidate paths boundsUL boundsDR w → w ∉ s.q →
    ∀ L, Route sqrt obstacles paths start boundsUL boundsDR w L → s.dists w ≤ ((L : D) : WithTop D)
  seeded : ∀ v, Candidate paths boundsUL boundsDR v → obstacles.Blocks start v = false →
    s.dists v ≤ ((Length sqrt start v : D) : WithTop D)
  prev_fin : ∀ v u, s.prev.lookup v = some u → s.dists v < ⊤
  blocked : obstacles.Blocks start end_ = true

/-- The vertex a may be used as the source of a relaxation into b: the relaxation
does nothing (a = b), or a is linked to `start` through vertices that have left `q`,
or a is a vertex of `q` other than `start` being relaxed into `end`. -/
def Anch (obstacles paths : Graph) (start end_ boundsUL boundsDR : I2) (k : Nat)
    {D : Type} (s : PathState D) (a b : I2) : Prop :=
  a = b ∨
  (∃ r, SPath obstacles paths start end_ boundsUL boundsDR s.prev s.q a r ∧ r.length ≤ k) ∨
  (b = end_ ∧ a ≠ start ∧ a ∈ s.q)

/-- `PChain prev start w r`: the loop `for v != start` of FindPath, started at w,
collects exactly r (w first) and stops at `start`. -/
inductive PChain (prev : AList (fun _ : I2 => I2)) (start : I2) : I2 → List I2 → Prop where
  | base : PChain prev start start []
  | step {w u : I2} {r : List I2} : w ≠ start → prev.lookup w = some u →
      PChain prev start u r → PChain prev start w (w :: r)

/-- The length of the route a → v1 → … → vn through the listed vertices, added up the
way FindPath does: the length of each hop is added, on the left, to the length `acc`
of the route so far (`Length(u, v) + dists[u]`). -/
def accLen {D : Type} [Add D] (sqrt : Int → D) (a : I2) : List I2 → D → D
  | [], acc => acc
  | b :: l, acc => accLen sqrt b l (Length sqrt a b + acc)

/-- The laws of the distances that the proofs about the search of FindPath use: no
distance is below zero, adding zero changes nothing, a sum is not below its right
summand, and adding on the left keeps the order.  The float64 values that are not
negative obey them although their addition rounds and is not associative. -/
class DistLaws (D : Type) [LinearOrder D] [Add D] [Zero D] : Prop where
  zero_le : ∀ a : D, 0 ≤ a
  add_zero : ∀ a : D, a + 0 = a
  le_add : ∀ a b : D, b ≤ a + b
  add_mono : ∀ a b c : D, b ≤ c → a + b ≤ a + c

/-- Exact arithmetic obeys the laws of distances. -/
instance (D : Type) [CanonicallyLinearOrderedAddCommMonoid D] : DistLaws D :=
  ⟨fun a => zero_le a, fun a => add_zero a, fun _ _ => le_add_self,
    fun a _ _ h => add_le_add_left h a⟩

/-- The obstacle used in the examples: the wall from (0,-3) to (0,3), entered in both
directions so that it blocks from either side. -/
def exampleWall : Graph := (NewGraph.AddEdge ⟨0, 3⟩ ⟨0, -3⟩).AddEdge ⟨0, -3⟩ ⟨0, 3⟩

/-- A waypoint graph with the single edge (0,4) → (0,-4) around the wall. -/
def exampleAround : Graph := NewGraph.AddEdge ⟨0, 4⟩ ⟨0, -4⟩

/-- A waypoint graph whose single edge (-3,0) → (1,0) crosses the wall. -/
def exampleAcross : Graph := NewGraph.AddEdge ⟨-3, 0⟩ ⟨1, 0⟩

/-- A waypoint graph whose single edge (-3,0) → (3,0) joins the two end points. -/
def exampleJoin : Graph := NewGraph.AddEdge ⟨-3, 0⟩ ⟨3, 0⟩

/-- A short wall from (100000,-1) to (100000,1), entered in both directions, half way
between (0,0) and (200000,0). -/
def exampleGate : Graph :=
  (NewGraph.AddEdge ⟨100000, 1⟩ ⟨100000, -1⟩).AddEdge ⟨100000, -1⟩ ⟨100000, 1⟩

/-- A waypoint graph with the two vertices (100000,5) and (100001,5) above the short
wall. -/
def exampleTwo : Graph := NewGraph.AddEdge ⟨100000, 5⟩ ⟨100001, 5⟩

/-- Both coordinates of v have magnitude at most b. -/
def I2.Within (v : I2) (b : Int) : Prop :=
  -b ≤ v.X ∧ v.X ≤ b ∧ -b ≤ v.Y ∧ v.Y ≤ b

/-- The determinant that SegmentIntersectI computes: the cross product of q-p and b-a. -/
def segDet (p q a b : I2) : Int :=
  (a.Y - b.Y) * (p.X - q.X) - (a.X - b.X) * (p.Y - q.Y)

/-- The first numerator of SegmentIntersectI, before the sign of the determinant is
applied: how far along p-q the lines meet, times the determinant. -/
def segNum1 (p _q a b : I2) : Int :=
  a.X * (b.Y - p.Y) - b.X * (a.Y - p.Y) + p.X * (a.Y - b.Y)

/-- The second numerator of SegmentIntersectI, before the sign of the determinant is
applied: how far along a-b the lines meet, times the determinant. -/
def segNum2 (p q a _b : I2) : Int :=
  p.X * (a.Y - q.Y) - q.X * (a.Y - p.Y) - a.X * (p.Y - q.Y)

/-- The callback `touch` run over a list of cells in order, stopping at the first
cell on which it returns false. -/
def runTouch {σ : Type} (touch : I2 → σ → Bool × σ) : List I2 → σ → Bool × σ
  | [], st => (true, st)
  | c :: cs, st =>
    let r := touch c st
    if !r.1 then (false, r.2) else runTouch touch cs r.2

/-- The cells the loop of the axis-aligned case visits when touch never returns
false. -/
def axisCells (q s : I2) : Nat → I2 → Option (List I2)
  | 0, _ => none
  | n + 1, p =>
    if p = q then some [p] else (axisCells q s n (p.Add s)).map (fun cs => p :: cs)

/-- The cells the loop of the general case visits when touch never returns false. -/
def generalCells (q s : I2) (d : F2) : Nat → I2 → F2 → Option (List I2)
  | 0, _, _ => none
  | n + 1, p, t =>
    if p = q then some [p]
    else if t.X > 1 ∧ t.Y > 1 then some [p]
    else if t.X < t.Y then
      (generalCells q s d n ⟨p.X + s.X, p.Y⟩ ⟨t.X + d.X, t.Y⟩).map (fun cs => p :: cs)
    else (generalCells q s d n ⟨p.X, p.Y + s.Y⟩ ⟨t.X, t.Y + d.Y⟩).map (fun cs => p :: cs)

/-- The cells CellsTouchingSegment visits when touch never returns false. -/
def segmentCells (fuel : Nat) (cellSize start end_ : I2) : Option (List I2) :=
  let p := cell start cellSize
  let q := cell end_ cellSize
  let s := (q.Sub p).Sgn
  if s.X = 0 ∨ s.Y = 0 then axisCells q s fuel p
  else
    let v : F2 := ((end_.Sub start).EMul s).F2
    let d : F2 := cellSize.F2
    let d : F2 := ⟨d.X / v.X, d.Y / v.Y⟩
    let t : F2 :=
      ⟨if s.X > 0 then (((p.X + 1) * cellSize.X - start.X : Int) : ℚ)
        else ((start.X - p.X * cellSize.X : Int) : ℚ),
       if s.Y > 0 then (((p.Y + 1) * cellSize.Y - start.Y : Int) : ℚ)
        else ((start.Y - p.Y * cellSize.Y : Int) : ℚ)⟩
    let t : F2 := ⟨t.X / v.X, t.Y / v.Y⟩
    generalCells q s d fuel p t

/-- The number of unit steps between the cell of start and the cell of end. -/
def cellDist (cellSize start end_ : I2) : Nat :=
  ((cell end_ cellSize).X - (cell start cellSize).X).natAbs +
    ((cell end_ cellSize).Y - (cell start cellSize).Y).natAbs

/-- A number of loop iterations that suffices for CellsTouchingSegment on the given
segment. -/
def walkBound (cellSize start end_ : I2) : Nat :=
  cellDist cellSize start end_ + (end_.X - start.X).natAbs + (end_.Y - start.Y).natAbs + 3

/-- One axis of the general case: the parameter at which the segment from a to b
leaves the column c of width w when it travels in the direction σ. -/
def exitAxis (w a b c σ : Int) : ℚ :=
  (if σ > 0 then (((c + 1) * w - a : Int) : ℚ) else ((a - c * w : Int) : ℚ)) /
    (((b - a) * σ : Int) : ℚ)

/-- One axis of the general case: the parameter length of one column of width w. -/
def stepAxis (w a b σ : Int) : ℚ := (w : ℚ) / (((b - a) * σ : Int) : ℚ)

/-- The parameters (t.X, t.Y) the general case holds when its current cell is c: the
parameter values at which the segment start-end leaves the column and the row of c. -/
def exitParam (cellSize start end_ c : I2) : F2 :=
  let s := ((cell end_ cellSize).Sub (cell start cellSize)).Sgn
  ⟨exitAxis cellSize.X start.X end_.X c.X s.X, exitAxis cellSize.Y start.Y end_.Y c.Y s.Y⟩

/-- The steps (d.X, d.Y) of the general case. -/
def stepParam (cellSize start end_ : I2) : F2 :=
  let s := ((cell end_ cellSize).Sub (cell start cellSize)).Sgn
  ⟨stepAxis cellSize.X start.X end_.X s.X, stepAxis cellSize.Y start.Y end_.Y s.Y⟩

/-- The invariant of the general case: the segment enters the column and the row of
the current cell no later than the parameter 1 and no later than it leaves the row and
the column. -/
def walkInv (t d : F2) : Prop :=
  0 ≤ t.X ∧ 0 ≤ t.Y ∧ t.X - d.X ≤ 1 ∧ t.Y - d.Y ≤ 1 ∧ t.X - d.X ≤ t.Y ∧ t.Y - d.Y ≤ t.X

/-- The value x fits a 64-bit two's-complement integer. -/
def InInt64 (x : Int) : Prop := -2 ^ 63 ≤ x ∧ x < 2 ^ 63

/-- Negation of 64-bit integers. -/
def neg64 (x : Int) : Int := wrap64 (-x)

/-- Go's `n / d` on 64-bit integers: truncating, and a panic (`none`) when d is zero. -/
def goDiv64 (n d : Int) : Option Int := if d = 0 then none else some (div64 n d)

/-- Add returns v + w, on 64-bit integers. -/
def I2.Add64 (v w : I2) : I2 := ⟨add64 v.X w.X, add64 v.Y w.Y⟩

/-- Sub returns v - w, on 64-bit integers. -/
def I2.Sub64 (v w : I2) : I2 := ⟨sub64 v.X w.X, sub64 v.Y w.Y⟩

/-- EMul returns the element-wise product of v and w, on 64-bit integers. -/
def I2.EMul64 (v w : I2) : I2 := ⟨mul64 v.X w.X, mul64 v.Y w.Y⟩

/-- Dot returns the dot product, v dot w, on 64-bit integers. -/
def I2.Dot64 (v w : I2) : Int := add64 (mul64 v.X w.X) (mul64 v.Y w.Y)

/-- Normal returns a vector perpendicular to v of the same length, on 64-bit
integers. -/
def I2.Normal64 (v : I2) : I2 := ⟨neg64 v.Y, v.X⟩

/-- MulDiv on 64-bit integers; `none` when d is zero. -/
def I2.MulDiv64 (v : I2) (n d : Int) : Option I2 :=
  match goDiv64 (mul64 v.X n) d, goDiv64 (mul64 v.Y n) d with
  | some x, some y => some ⟨x, y⟩
  | _, _ => none

/-- SignedArea2 on 64-bit integers. -/
def SignedArea2_64 (a b c : I2) : Int :=
  add64 (add64 (mul64 a.Y (sub64 c.X b.X)) (mul64 b.Y (sub64 a.X c.X)))
    (mul64 c.Y (sub64 b.X a.X))

/-- LineNearestPoint on 64-bit integers; `none` when `n.Dot(n)` is zero and the
divisions panic. -/
def LineNearestPoint64 (u v p : I2) : Option (I2 × Int) :=
  if u = v then
    let p := p.Sub64 u
    some (u, p.Dot64 p)
  else
    let n := (v.Sub64 u).Normal64
    let n2 := n.Dot64 n
    let sa := SignedArea2_64 u v p
    match n.MulDiv64 sa n2, goDiv64 (mul64 sa sa) n2 with
    | some m, some d => some (p.Sub64 m, d)
    | _, _ => none

/-- SegmentNearestPoint on 64-bit integers; `none` when LineNearestPoint panics. -/
def SegmentNearestPoint64 (u v p : I2) : Option (I2 × Int) :=
  match LineNearestPoint64 u v p with
  | none => none
  | some qd =>
    if u = v then some qd else
    let qu := qd.1.Sub64 u
    let vu := v.Sub64 u
    let qu : I2 := ⟨mul64 qu.X (Sgn vu.X), mul64 qu.Y (Sgn vu.Y)⟩
    if qu.X < 0 ∨ qu.Y < 0 then
      let pu := p.Sub64 u
      some (u, pu.Dot64 pu)
    else if qu.X > Abs64 vu.X ∨ qu.Y > Abs64 vu.Y then
      let vp := v.Sub64 p
      some (v, vp.Dot64 vp)
    else some qd

/-- NearestPoint on 64-bit integers.  The state threaded through AllEdges is
`(d, e, q)`, or `none` once SegmentNearestPoint has panicked, which ends the run. -/
def Graph.NearestPoint64 (g : Graph) (p : I2) : Option (Edge × I2) :=
  let r := (g.AllEdges
    (fun u v (s : Option (Int × Edge × I2)) =>
      match s with
      | none => (false, none)
      | some s =>
        match SegmentNearestPoint64 u v p with
        | none => (false, none)
        | some rt =>
          if rt.2 < s.1 then (true, some (rt.2, Edge.mk u v, rt.1)) else (true, some s))
    (some (2 ^ 63 - 1, ⟨⟨0, 0⟩, ⟨0, 0⟩⟩, ⟨0, 0⟩))).2
  r.map (fun s => (s.2.1, s.2.2))

/-- The function `divDown` of ray.go on 64-bit integers; `none` when d is zero. -/
def divDown64 (n d : Int) : Option Int :=
  if n ≥ 0 then goDiv64 n d else goDiv64 (add64 (sub64 n d) 1) d

/-- The function `cell` of ray.go on 64-bit integers; `none` when a component of the
cell size is zero. -/
def cell64 (v cellSize : I2) : Option I2 :=
  match divDown64 v.X cellSize.X, divDown64 v.Y cellSize.Y with
  | some x, some y => some ⟨x, y⟩
  | _, _ => none

/-! ## float64

A `float64` is a finite value, an infinity or a NaN.  A finite value is the rational
number it stands for (the two zeros are one value).  Arithmetic follows IEEE 754
binary64 with the default rounding: the exact result is rounded to the nearest value
with 53 significant binary digits and an exponent from -1022 to 1023 (gradual underflow
below 2^-1022), ties go to the value whose last digit is even, and a rounded result of
magnitude 2^1024 or more is an infinity. -/

/-- A float64 value. -/
inductive F64 where
  /-- a finite value -/
  | fin (q : ℚ)
  /-- `+Inf` (neg = false) or `-Inf` (neg = true) -/
  | inf (neg : Bool)
  /-- a NaN -/
  | nan
deriving DecidableEq

/-- The number of binary digits of n after the first: the floor of log2 n, for n > 0.
The first argument bounds the number of halvings; n itself suffices. -/
def log2Floor : Nat → Nat → Nat
  | 0, _ => 0
  | f + 1, n => if n < 2 then 0 else log2Floor f (n / 2) + 1

/-- The binary exponent of a positive rational a: the integer e with
2^e <= a < 2^(e+1). -/
def expo (a : ℚ) : Int :=
  let e0 : Int := (log2Floor a.num.natAbs a.num.natAbs : Int) - (log2Floor a.den a.den : Int)
  if (2 : ℚ) ^ e0 ≤ a then e0 else e0 - 1

/-- The integer nearest to x, ties to the even one. -/
def rne (x : ℚ) : Int :=
  if x - ⌊x⌋ < 1 / 2 then ⌊x⌋
  else if 1 / 2 < x - ⌊x⌋ then ⌊x⌋ + 1
  else if ⌊x⌋ % 2 = 0 then ⌊x⌋ else ⌊x⌋ + 1

/-- The unit in the last place for the magnitude a > 0: 2^(e-52), where e is the
exponent of a and at least -1022. -/
def ulp (a : ℚ) : ℚ := (2 : ℚ) ^ (max (expo a) (-1022) - 52)

/-- The value with 53 significant binary digits nearest to q (ties to even), without
a bound on its magnitude. -/
def roundQ (q : ℚ) : ℚ :=
  if q = 0 then 0
  else if q < 0 then -((rne (-q / ulp (-q)) : ℚ) * ulp (-q))
  else (rne (q / ulp q) : ℚ) * ulp q

/-- The float64 nearest to the exact value q: the result of an operation whose exact
result is q. -/
def round64 (q : ℚ) : F64 :=
  if (2 : ℚ) ^ (1024 : Int) ≤ |roundQ q| then F64.inf (decide (q < 0)) else F64.fin (roundQ q)

/-- The conversion `float64(x)` of an integer. -/
def F64.ofInt (x : Int) : F64 := round64 (x : ℚ)

/-- The sum `x + y` of float64 values. -/
def F64.add : F64 → F64 → F64
  | F64.fin a, F64.fin b => round64 (a + b)
  | F64.fin _, F64.inf s => F64.inf s
  | F64.inf s, F64.fin _ => F64.inf s
  | F64.inf s, F64.inf s' => if s = s' then F64.inf s else F64.nan
  | _, _ => F64.nan

/-- The quotient `x / y` of float64 values.  A finite value divided by zero is an
infinity with the sign of the dividend (the zero divisors of `ray.go` come from
integers and are +0), and 0 / 0 is a NaN. -/
def F64.div : F64 → F64 → F64
  | F64.fin a, F64.fin b =>
    if b = 0 then (if a = 0 then F64.nan else F64.inf (decide (a < 0))) else round64 (a / b)
  | F64.fin _, F64.inf _ => F64.fin 0
  | F64.inf s, F64.fin b => F64.inf (xor s (decide (b < 0)))
  | _, _ => F64.nan

/-- The comparison `x < y` of float64 values; false when either is a NaN. -/
def F64.lt : F64 → F64 → Bool
  | F64.fin a, F64.fin b => decide (a < b)
  | F64.fin _, F64.inf s => !s
  | F64.inf s, F64.fin _ => s
  | F64.inf s, F64.inf s' => s && !s'
  | _, _ => false

/-- The floor of the square root of n.  The first argument bounds the depth of the
recursion; n itself suffices. -/
def natSqrt : Nat → Nat → Nat
  | 0, n => n
  | f + 1, n =>
    if n < 2 then n
    else if (2 * natSqrt f (n / 4) + 1) * (2 * natSqrt f (n / 4) + 1) ≤ n
    then 2 * natSqrt f (n / 4) + 1 else 2 * natSqrt f (n / 4)

/-- The square root of q >= 0 to 100 binary places, with one more place that is set
when digits were dropped: no float64 and no midpoint of two neighbouring float64
values lies strictly between this value and the exact root when the exact root is at
least 2^-46, so both round to the same float64. -/
def sqrtApprox (q : ℚ) : ℚ :=
  if (natSqrt ⌊q * 4 ^ 100⌋.toNat ⌊q * 4 ^ 100⌋.toNat : ℚ) *
      (natSqrt ⌊q * 4 ^ 100⌋.toNat ⌊q * 4 ^ 100⌋.toNat : ℚ) = q * 4 ^ 100
  then (natSqrt ⌊q * 4 ^ 100⌋.toNat ⌊q * 4 ^ 100⌋.toNat : ℚ) / 2 ^ 100
  else ((2 * natSqrt ⌊q * 4 ^ 100⌋.toNat ⌊q * 4 ^ 100⌋.toNat + 1 : Nat) : ℚ) / 2 ^ 101

/-- The function `math.Sqrt`: the float64 nearest to the exact square root, NaN for a
negative argument.  It is only applied to `float64(n)` for an integer n, which is zero
or at least 1. -/
def F64.sqrt : F64 → F64
  | F64.fin q => if q < 0 then F64.nan else round64 (sqrtApprox q)
  | F64.inf false => F64.inf false
  | _ => F64.nan

/-! ## graph.go on 64-bit integers and float64 -/

/-- Length returns the length of u-v: `math.Sqrt(float64(v.Dot(v)))` after
`v = v.Sub(u)`. -/
def Length64 (u v : I2) : F64 :=
  let v := v.Sub64 u
  F64.sqrt (F64.ofInt (v.Dot64 v))

/-- AllEdgesFacing calls f for every edge that is somewhat facing p. -/
def Graph.AllEdgesFacing64 {σ : Type} (g : Graph) (p : I2) (f : I2 → I2 → σ → Bool × σ)
    (s : σ) : Bool × σ :=
  g.AllEdges (fun u v s => if SignedArea2_64 p u v > 0 then f u v s else (true, s)) s

/-- Blocks determines if the graph intersects the straight line segment start-end.
Only edges facing start are considered. -/
def Graph.Blocks64 (g : Graph) (start end_ : I2) : Bool :=
  !(g.AllEdgesFacing64 start
    (fun u v (s : Unit) => (!(SegmentIntersectI64 u v start end_).2, s)) ()).1

/-- NearestBlock returns the intersection with the graph nearest to start.  The state
threaded through AllEdgesFacing is the triple of captured variables
`(found, min, pos)`, with `min` starting at `math.Inf(1)`. -/
def Graph.NearestBlock64 (g : Graph) (start end_ : I2) : I2 × Bool :=
  let r := (g.AllEdgesFacing64 start
    (fun u v (s : Bool × F64 × I2) =>
      let py := SegmentIntersectI64 u v start end_
      if !py.2 then (true, s)
      else
        let t := Length64 start py.1
        if t.lt s.2.1 then (true, (true, t, py.1)) else (true, s))
    (false, F64.inf false, ⟨0, 0⟩)).2
  (r.2.2, r.1)

/-- The local maps of FindPath, with float64 distances.  `dists` is only read through
`dists[k]`, which yields 0 for an absent key, so it is a total function. -/
structure PathState64 where
  dists : I2 → F64
  prev : AList (fun _ : I2 => I2)
  endN : List I2
  q : List I2

/-- One iteration of the loop `for v, y := range paths.V` of FindPath. -/
def seedStep64 (obstacles : Graph) (start end_ boundsUL boundsDR : I2) (s : PathState64)
    (e : Sigma (fun _ : I2 => Bool)) : PathState64 :=
  if !e.2 || !e.1.InRect boundsUL boundsDR then s
  else
    let s1 : PathState64 :=
      { s with q := s.q.insert e.1, dists := Function.update s.dists e.1 (F64.inf false) }
    let s2 : PathState64 :=
      if !obstacles.Blocks64 start e.1 then
        { s1 with dists := Function.update s1.dists e.1 (Length64 start e.1)
                  prev := s1.prev.insert e.1 start }
      else s1
    if !obstacles.Blocks64 e.1 end_ then { s2 with endN := s2.endN.insert e.1 } else s2

/-- The state of FindPath after the loop over `paths.V`. -/
def seed64 (obstacles paths : Graph) (start end_ boundsUL boundsDR : I2) : PathState64 :=
  paths.V.entries.foldl (seedStep64 obstacles start end_ boundsUL boundsDR)
    { dists := fun _ => F64.fin 0, prev := ∅, endN := [], q := [end_] }

/-- The closure `relax` of FindPath, on the captured `dists` and `prev`. -/
def relax64 (u v : I2) (s : PathState64) : PathState64 :=
  if v ∉ s.q then s
  else if ((Length64 u v).add (s.dists u)).lt (s.dists v) then
    { s with dists := Function.update s.dists v ((Length64 u v).add (s.dists u))
             prev := s.prev.insert v u }
  else s

/-- The selection loop `for v := range q` of FindPath on `(dist, u)`. -/
def selectMin64 (dists : I2 → F64) (l : List I2) : F64 × I2 :=
  l.foldl (fun (acc : F64 × I2) v => if (dists v).lt acc.1 then (dists v, v) else acc)
    (F64.inf false, ⟨0, 0⟩)

/-- The loop `for len(q) > 0` of FindPath; `none` when the fuel is used up before the
loop ends.  The iteration that runs with fuel `n + 1` ranges over `q` in the order
`ro.perm (2 * n)` and over `endN` in the order `ro.perm (2 * n + 1)`. -/
def search64 (ro : RangeOrder) (paths : Graph) (end_ : I2) :
    Nat → PathState64 → Option PathState64
  | 0, _ => none
  | n + 1, s =>
    if s.q.length > 0 then
      let m := selectMin64 s.dists (ro.perm (2 * n) s.q)
      if m.2 = end_ ∨ m.1 = F64.inf false then some s
      else
        let s1 : PathState64 := { s with q := s.q.filter (fun v => v ≠ m.2) }
        let s2 := ((paths.E.lookup m.2).getD ∅).keys.foldl (fun s v => relax64 m.2 v s) s1
        let s3 := (ro.perm (2 * n + 1) s.endN).foldl (fun s v => relax64 v end_ s) s2
        search64 ro paths end_ n s3
    else some s

/-- FindPath on 64-bit integers and float64.  The result is `none` if one of the two
loops does not finish within its fuel. -/
def FindPath64 (ro : RangeOrder) (obstacles paths : Graph)
    (start end_ boundsUL boundsDR : I2) : Option PathResult :=
  if !obstacles.Blocks64 start end_ then some (PathResult.path [end_])
  else
    let s := seed64 obstacles paths start end_ boundsUL boundsDR
    if s.prev.entries.length = 0 ∨ s.endN.length = 0 then some PathResult.noPathsPossible
    else
      let d0 := Function.update (Function.update s.dists start (F64.fin 0)) end_ (F64.inf false)
      let s0 : PathState64 := { s with dists := d0 }
      match search64 ro paths end_ (s0.q.length + 1) s0 with
      | none => none
      | some s1 =>
        if (s1.prev.lookup end_).isNone then some PathResult.noPath
        else
          match walk s1.prev start (s.q.length + 2) end_ [] with
          | none => none
          | some rpath => some (PathResult.path rpath.reverse)

/-! ## ray.go on 64-bit integers and float64 -/

/-- F2 is a tuple of float64 numbers, (X,Y). -/
structure F2_64 where
  X : F64
  Y : F64
deriving DecidableEq

/-- The loop of the axis-aligned case of CellsTouchingSegment. -/
def axisLoop64 {σ : Type} (touch : I2 → σ → Bool × σ) (q s : I2) :
    Nat → I2 → σ → Option (Bool × σ)
  | 0, _, _ => none
  | n + 1, p, st =>
    let r := touch p st
    if !r.1 then some (false, r.2)
    else if p = q then some (true, r.2)
    else axisLoop64 touch q s n (p.Add64 s) r.2

/-- The loop of the general case of CellsTouchingSegment. -/
def generalLoop64 {σ : Type} (touch : I2 → σ → Bool × σ) (q s : I2) (d : F2_64) :
    Nat → I2 → F2_64 → σ → Option (Bool × σ)
  | 0, _, _, _ => none
  | n + 1, p, t, st =>
    let r := touch p st
    if !r.1 then some (false, r.2)
    else if p = q then some (true, r.2)
    else if (F64.fin 1).lt t.X && (F64.fin 1).lt t.Y then some (true, r.2)
    else if t.X.lt t.Y then
      generalLoop64 touch q s d n ⟨add64 p.X s.X, p.Y⟩ ⟨t.X.add d.X, t.Y⟩ r.2
    else generalLoop64 touch q s d n ⟨p.X, add64 p.Y s.Y⟩ ⟨t.X, t.Y.add d.Y⟩ r.2

/-- CellsTouchingSegment on 64-bit integers and float64.  The result is `none` when
`cell` panics (a cell size with a zero component) or when the fuel is used up before
the loop returns. -/
def CellsTouchingSegment64 {σ : Type} (fuel : Nat) (cellSize start end_ : I2)
    (touch : I2 → σ → Bool × σ) (st : σ) : Option (Bool × σ) :=
  match cell64 start cellSize, cell64 end_ cellSize with
  | some p, some q =>
    let s := (q.Sub64 p).Sgn
    if s.X = 0 ∨ s.Y = 0 then axisLoop64 touch q s fuel p st
    else
      let v := (end_.Sub64 start).EMul64 s
      let d : F2_64 := ⟨(F64.ofInt cellSize.X).div (F64.ofInt v.X),
        (F64.ofInt cellSize.Y).div (F64.ofInt v.Y)⟩
      let t : F2_64 :=
        ⟨if s.X > 0 then F64.ofInt (sub64 (mul64 (add64 p.X 1) cellSize.X) start.X)
          else F64.ofInt (sub64 start.X (mul64 p.X cellSize.X)),
         if s.Y > 0 then F64.ofInt (sub64 (mul64 (add64 p.Y 1) cellSize.Y) start.Y)
          else F64.ofInt (sub64 start.Y (mul64 p.Y cellSize.Y))⟩
      let t : F2_64 := ⟨t.X.div (F64.ofInt v.X), t.Y.div (F64.ofInt v.Y)⟩
      generalLoop64 touch q s d fuel p t st
  | _, _ => none

/-! ## Definitions used in the proofs about float64 -/

/-- The value of `math.Sqrt(float64(n))` as a rational; 0 when it is not finite. -/
def sqrtQ (n : Int) : ℚ :=
  match F64.sqrt (F64.ofInt n) with
  | F64.fin x => x
  | _ => 0

/-- The finite float64 values that are not negative: the lengths and distances of
`graph.go` when nothing overflows. -/
abbrev NNF := { x : ℚ // 0 ≤ x ∧ roundQ x = x }

/-- The float64 zero. -/
instance : Zero NNF := ⟨⟨0, le_refl 0, if_pos rfl⟩⟩

/-- The float64 sum of two values of NNF, without the overflow to `+Inf`: the rounded
exact sum. -/
instance : Add NNF :=
  ⟨fun a b =>
    if h : 0 ≤ roundQ (a.1 + b.1) ∧ roundQ (roundQ (a.1 + b.1)) = roundQ (a.1 + b.1)
    then ⟨roundQ (a.1 + b.1), h⟩ else 0⟩

/-- The value of `math.Sqrt(float64(n))` in NNF. -/
def sqrtNN (n : Int) : NNF :=
  if h : 0 ≤ sqrtQ n ∧ roundQ (sqrtQ n) = sqrtQ n then ⟨sqrtQ n, h⟩ else 0

/-- The float64 that a distance of the exact model stands for: `+Inf` for the top
element. -/
def embF : WithTop NNF → F64
  | none => F64.inf false
  | some x => F64.fin x.1

/-- The cells the loop of the axis-aligned case visits on 64-bit integers when touch
never returns false. -/
def axisCells64 (q s : I2) : Nat → I2 → Option (List I2)
  | 0, _ => none
  | n + 1, p =>
    if p = q then some [p] else (axisCells64 q s n (p.Add64 s)).map (fun cs => p :: cs)

/-- The cells the loop of the general case visits on 64-bit integers and float64 when
touch never returns false. -/
def generalCells64 (q s : I2) (d : F2_64) : Nat → I2 → F2_64 → Option (List I2)
  | 0, _, _ => none
  | n + 1, p, t =>
    if p = q then some [p]
    else if (F64.fin 1).lt t.X && (F64.fin 1).lt t.Y then some [p]
    else if t.X.lt t.Y then
      (generalCells64 q s d n ⟨add64 p.X s.X, p.Y⟩ ⟨t.X.add d.X, t.Y⟩).map (fun cs => p :: cs)
    else
      (generalCells64 q s d n ⟨p.X, add64 p.Y s.Y⟩ ⟨t.X, t.Y.add d.Y⟩).map (fun cs => p :: cs)

/-- The cells CellsTouchingSegment visits on 64-bit integers and float64 when touch
never returns false. -/
def segmentCells64 (fuel : Nat) (cellSize start end_ : I2) : Option (List I2) :=
  match cell64 start cellSize, cell64 end_ cellSize with
  | some p, some q =>
    let s := (q.Sub64 p).Sgn
    if s.X = 0 ∨ s.Y = 0 then axisCells64 q s fuel p
    else
      let v := (end_.Sub64 start).EMul64 s
      let d : F2_64 := ⟨(F64.ofInt cellSize.X).div (F64.ofInt v.X),
        (F64.ofInt cellSize.Y).div (F64.ofInt v.Y)⟩
      let t : F2_64 :=
        ⟨if s.X > 0 then F64.ofInt (sub64 (mul64 (add64 p.X 1) cellSize.X) start.X)
          else F64.ofInt (sub64 start.X (mul64 p.X cellSize.X)),
         if s.Y > 0 then F64.ofInt (sub64 (mul64 (add64 p.Y 1) cellSize.Y) start.Y)
          else F64.ofInt (sub64 start.Y (mul64 p.Y cellSize.Y))⟩
      let t : F2_64 := ⟨t.X.div (F64.ofInt v.X), t.Y.div (F64.ofInt v.Y)⟩
      generalCells64 q s d fuel p t
  | _, _ => none

/-- The rational x is a finite float64: rounding does not change it and its magnitude
is below 2^1024. -/
def IsF64 (x : ℚ) : Prop := roundQ x = x ∧ |x| < (2 : ℚ) ^ (1024 : Int)

/-- No float64 operation of CellsTouchingSegment rounds on the segment start-end: the
walk is axis-aligned (it runs no float64 operation), or the two steps and, for every
number k of steps up to walkBound, the parameters after k steps along an axis are
float64 values. -/
def exactWalk (cellSize start end_ : I2) : Prop :=
  ((cell end_ cellSize).Sub (cell start cellSize)).Sgn.X = 0 ∨
  ((cell end_ cellSize).Sub (cell start cellSize)).Sgn.Y = 0 ∨
  (IsF64 (stepParam cellSize start end_).X ∧ IsF64 (stepParam cellSize start end_).Y ∧
    ∀ k : Nat, k ≤ walkBound cellSize start end_ →
      IsF64 ((exitParam cellSize start end_ (cell start cellSize)).X +
        (k : ℚ) * (stepParam cellSize start end_).X) ∧
      IsF64 ((exitParam cellSize start end_ (cell start cellSize)).Y +
        (k : ℚ) * (stepParam cellSize start end_).Y))

/-- A number of loop iterations that suffices for CellsTouchingSegment on 64-bit
integers and float64 when all coordinates have magnitude at most 2^50. -/
def walkBound64 (cellSize start end_ : I2) : Nat := walkBound cellSize start end_ + 2 ^ 54 + 1

/-- A bound on the number of steps the general case can still take along an axis whose
parameter is x: a step is taken only while x is at most 1 and adds at least 2^-52. -/
def walkMeasure (x : ℚ) : Nat := ⌊(2 - x) * 2 ^ 52⌋.toNat

/-- The float64 length of the route a → v1 → … → vn through the listed vertices, added
up the way FindPath does: the length of each hop is added, on the left, to the length
`acc` of the route so far (`Length(u, v) + dists[u]`). -/
def accLen64 (a : I2) : List I2 → F64 → F64
  | [], acc => acc
  | b :: l, acc => accLen64 b l ((Length64 a b).add acc)

/-- The float64 state of FindPath that a state of the model without overflow stands
for. -/
def toState64 (s : PathState NNF) : PathState64 :=
  ⟨fun v => embF (s.dists v), s.prev, s.endN, s.q⟩

/-- Every finite distance of the state is at most c. -/
def Bounded (s : PathState NNF) (c : ℚ) : Prop :=
  ∀ (v : I2) (y : NNF), s.dists v = ((y : NNF) : WithTop NNF) → y.1 ≤ c

/-! ## Theorems: edge iteration, Blocks, FullyBlocks, NearestBlock -/

theorem runEdges_append {σ : Type} (f : I2 → I2 → σ → Bool × σ) (l₁ l₂ : List (I2 × I2))
    (s : σ) :
    runEdges f (l₁ ++ l₂) s =
      if !(runEdges f l₁ s).1 then (false, (runEdges f l₁ s).2)
      else runEdges f l₂ (runEdges f l₁ s).2 := by
  induction l₁ generalizing s with
  | nil => simp [runEdges]
  | cons e rest ih =>
    simp only [List.cons_append, runEdges]
    by_cases h : (f e.1 e.2 s).1 = true
    · simp [h, ih]
    · simp [h]

theorem allEdgesInner_eq {σ : Type} (f : I2 → I2 → σ → Bool × σ) (u : I2)
    (l : List (Sigma (fun _ : I2 => Bool))) (s : σ) :
    allEdgesInner f u l s =
      runEdges f (l.filterMap (fun x => if x.2 then some (u, x.1) else none)) s := by
  induction l generalizing s with
  | nil => simp [allEdgesInner, runEdges]
  | cons e rest ih =>
    by_cases hy : e.2 = true
    · by_cases h : (f u e.1 s).1 = true
      · simp [allEdgesInner, runEdges, List.filterMap_cons, hy, h, ih]
      · simp [allEdgesInner, runEdges, List.filterMap_cons, hy, h]
    · simp [allEdgesInner, List.filterMap_cons, hy, ih]

theorem allEdgesOuter_eq {σ : Type} (f : I2 → I2 → σ → Bool × σ)
    (l : List (Sigma (fun _ : I2 => VertexSet))) (s : σ) :
    allEdgesOuter f l s =
      runEdges f (l.flatMap (fun e =>
        e.2.entries.filterMap (fun x => if x.2 then some (e.1, x.1) else none))) s := by
  induction l generalizing s with
  | nil => simp [allEdgesOuter, runEdges]
  | cons e rest ih =>
    simp only [allEdgesOuter, List.flatMap_cons, runEdges_append, allEdgesInner_eq, ih]

theorem AllEdges_eq_runEdges {σ : Type} (g : Graph) (f : I2 → I2 → σ → Bool × σ) (s : σ) :
    g.AllEdges f s = runEdges f g.edgeList s :=
  allEdgesOuter_eq f g.E.entries s

theorem mem_edgeList (g : Graph) (u v : I2) : (u, v) ∈ g.edgeList ↔ g.HasEdge u v := by
  unfold Graph.edgeList Graph.HasEdge
  simp only [List.mem_flatMap, List.mem_filterMap]
  constructor
  · rintro ⟨⟨u', l⟩, hl, ⟨v', y⟩, hx, hxy⟩
    by_cases hy : y = true
    · subst hy
      simp only [if_true, Option.some.injEq, Prod.mk.injEq] at hxy
      obtain ⟨rfl, rfl⟩ := hxy
      exact ⟨l, AList.mem_lookup_iff.mpr hl, AList.mem_lookup_iff.mpr hx⟩
    · simp [hy] at hxy
  · rintro ⟨l, hl, hv⟩
    exact ⟨⟨u, l⟩, AList.mem_lookup_iff.mp hl, ⟨v, true⟩, AList.mem_lookup_iff.mp hv, by simp⟩

/-- A callback that never touches the state: the loop is a `List.all`. -/
theorem runEdges_pure {σ : Type} (p : I2 → I2 → Bool) (l : List (I2 × I2)) (s : σ) :
    runEdges (fun u v s => (p u v, s)) l s = (l.all (fun e => p e.1 e.2), s) := by
  induction l with
  | nil => simp [runEdges]
  | cons e rest ih =>
    by_cases h : p e.1 e.2 = true
    · simp [runEdges, h, ih]
    · simp [runEdges, h]

/-- A callback that never asks to stop: the loop is a fold. -/
theorem runEdges_fold {σ : Type} (h : I2 → I2 → σ → σ) (l : List (I2 × I2)) (s : σ) :
    runEdges (fun u v s => (true, h u v s)) l s = (true, l.foldl (fun s e => h e.1 e.2 s) s) := by
  induction l generalizing s with
  | nil => simp [runEdges]
  | cons e rest ih => simp [runEdges, ih]

theorem FullyBlocks_eq_any (g : Graph) (start end_ : I2) :
    g.FullyBlocks start end_ =
      g.edgeList.any (fun e => (SegmentIntersectI e.1 e.2 start end_).2) := by
  unfold Graph.FullyBlocks
  rw [AllEdges_eq_runEdges, runEdges_pure]
  simp [List.all_eq_not_any_not]

theorem Blocks_eq_any (g : Graph) (start end_ : I2) :
    g.Blocks start end_ =
      g.edgeList.any (fun e =>
        decide (SignedArea2 start e.1 e.2 > 0) && (SegmentIntersectI e.1 e.2 start end_).2) := by
  unfold Graph.Blocks Graph.AllEdgesFacing
  rw [AllEdges_eq_runEdges]
  have hf : (fun u v (s : Unit) =>
      if SignedArea2 start u v > 0 then (!(SegmentIntersectI u v start end_).2, s)
      else (true, s)) =
      (fun u v (s : Unit) =>
        (!(decide (SignedArea2 start u v > 0) && (SegmentIntersectI u v start end_).2), s)) := by
    funext u v s
    by_cases h : SignedArea2 start u v > 0 <;> simp [h]
  rw [hf, runEdges_pure]
  simp [List.all_eq_not_any_not]

theorem Blocks_true_iff (g : Graph) (start end_ : I2) :
    g.Blocks start end_ = true ↔
      ∃ u v, g.HasEdge u v ∧ SignedArea2 start u v > 0 ∧
        (SegmentIntersectI u v start end_).2 = true := by
  rw [Blocks_eq_any, List.any_eq_true]
  constructor
  · rintro ⟨⟨u, v⟩, hmem, h⟩
    simp only [Bool.and_eq_true, decide_eq_true_eq] at h
    exact ⟨u, v, (mem_edgeList g u v).mp hmem, h.1, h.2⟩
  · rintro ⟨u, v, he, hs, hi⟩
    exact ⟨(u, v), (mem_edgeList g u v).mpr he, by simp [hs, hi]⟩

/-- C7: Blocks(start, end) is true exactly when the graph has an edge (u, v) facing
start (SignedArea2(start, u, v) > 0) on which SegmentIntersectI(u, v, start, end)
reports an intersection; in particular, when every edge that intersects has
SignedArea2(start, u, v) <= 0, Blocks is false. -/
theorem Blocks_iff_facing_edge_intersects (g : Graph) (start end_ : I2) :
    (g.Blocks start end_ = true ↔
      ∃ u v, g.HasEdge u v ∧ SignedArea2 start u v > 0 ∧
        (SegmentIntersectI u v start end_).2 = true) ∧
    ((∀ u v, g.HasEdge u v → (SegmentIntersectI u v start end_).2 = true →
        SignedArea2 start u v ≤ 0) → g.Blocks start end_ = false) := by
  refine ⟨Blocks_true_iff g start end_, fun hall => ?_⟩
  by_contra hb
  rw [Bool.not_eq_false] at hb
  obtain ⟨u, v, he, hs, hi⟩ := (Blocks_true_iff g start end_).mp hb
  have := hall u v he hi
  omega

/-- C8: FullyBlocks(start, end) is true exactly when some edge (u, v) of the graph,
facing or not, has SegmentIntersectI(u, v, start, end) reporting an intersection;
consequently Blocks(start, end) implies FullyBlocks(start, end). -/
theorem FullyBlocks_iff_edge_intersects (g : Graph) (start end_ : I2) :
    (g.FullyBlocks start end_ = true ↔
      ∃ u v, g.HasEdge u v ∧ (SegmentIntersectI u v start end_).2 = true) ∧
    (g.Blocks start end_ = true → g.FullyBlocks start end_ = true) := by
  have key : g.FullyBlocks start end_ = true ↔
      ∃ u v, g.HasEdge u v ∧ (SegmentIntersectI u v start end_).2 = true := by
    rw [FullyBlocks_eq_any, List.any_eq_true]
    constructor
    · rintro ⟨⟨u, v⟩, hmem, h⟩
      exact ⟨u, v, (mem_edgeList g u v).mp hmem, h⟩
    · rintro ⟨u, v, he, hi⟩
      exact ⟨(u, v), (mem_edgeList g u v).mpr he, hi⟩
  refine ⟨key, fun hb => ?_⟩
  obtain ⟨u, v, he, _, hi⟩ := (Blocks_true_iff g start end_).mp hb
  exact key.mpr ⟨u, v, he, hi⟩

theorem NearestBlock_eq_fold {D : Type} [LinearOrder D] (sqrt : Int → D) (g : Graph)
    (start end_ : I2) :
    g.NearestBlock sqrt start end_ =
      (((g.edgeList.foldl (fun s e => nearestBlockStep sqrt start end_ e.1 e.2 s)
          (false, ⊤, ⟨0, 0⟩)).2.2),
       ((g.edgeList.foldl (fun s e => nearestBlockStep sqrt start end_ e.1 e.2 s)
          (false, ⊤, ⟨0, 0⟩)).1)) := by
  unfold Graph.NearestBlock Graph.AllEdgesFacing
  rw [AllEdges_eq_runEdges]
  have hf : (fun u v (s : Bool × WithTop D × I2) =>
      if SignedArea2 start u v > 0 then
        (let py := SegmentIntersectI u v start end_
         if !py.2 then (true, s)
         else
          let t : WithTop D := ((Length sqrt start py.1 : D) : WithTop D)
          if t < s.2.1 then (true, (true, t, py.1)) else (true, s))
      else (true, s)) =
      (fun u v s => (true, nearestBlockStep sqrt start end_ u v s)) := by
    funext u v s
    unfold nearestBlockStep
    by_cases h1 : SignedArea2 start u v > 0
    · by_cases h2 : (SegmentIntersectI u v start end_).2 = true
      · by_cases h3 : ((Length sqrt start (SegmentIntersectI u v start end_).1 : D) : WithTop D)
            < s.2.1
        · simp [h1, h2, h3]
        · simp [h1, h2, h3]
      · simp [h1, h2]
    · simp [h1]
  rw [hf, runEdges_fold]

/-- What the fold of NearestBlock computes: the running minimum never increases, it
is below the length of every intersection point of a facing edge already seen, and
the state is either untouched or was written at such an edge. -/
theorem nearestBlock_fold_spec {D : Type} [LinearOrder D] (sqrt : Int → D) (start end_ : I2)
    (l : List (I2 × I2)) (s : Bool × WithTop D × I2) :
    let r := l.foldl (fun s e => nearestBlockStep sqrt start end_ e.1 e.2 s) s
    r.2.1 ≤ s.2.1 ∧
    (∀ e ∈ l, SignedArea2 start e.1 e.2 > 0 → (SegmentIntersectI e.1 e.2 start end_).2 = true →
      r.2.1 ≤ ((Length sqrt start (SegmentIntersectI e.1 e.2 start end_).1 : D) : WithTop D)) ∧
    (r = s ∨ ∃ e ∈ l, SignedArea2 start e.1 e.2 > 0 ∧
      (SegmentIntersectI e.1 e.2 start end_).2 = true ∧
      r = (true, ((Length sqrt start (SegmentIntersectI e.1 e.2 start end_).1 : D) : WithTop D),
            (SegmentIntersectI e.1 e.2 start end_).1)) := by
  induction l generalizing s with
  | nil => simp
  | cons e rest ih =>
    simp only [List.foldl_cons]
    obtain ⟨h1, h2, h3⟩ := ih (nearestBlockStep sqrt start end_ e.1 e.2 s)
    have hstep : (nearestBlockStep sqrt start end_ e.1 e.2 s).2.1 ≤ s.2.1 := by
      unfold nearestBlockStep
      split_ifs with a b c
      · exact le_refl _
      · exact le_of_lt c
      · exact le_refl _
      · exact le_refl _
    refine ⟨le_trans h1 hstep, ?_, ?_⟩
    · intro e' he' hs hi
      rcases List.mem_cons.mp he' with rfl | hmem
      · refine le_trans h1 ?_
        unfold nearestBlockStep
        simp only [hs, hi, if_true, Bool.not_true, Bool.false_eq_true, if_false]
        split_ifs with c
        · exact le_refl _
        · exact not_lt.mp c
      · exact h2 e' hmem hs hi
    · rcases h3 with h3 | ⟨e', he', hs, hi, hr⟩
      · rw [h3]
        unfold nearestBlockStep
        split_ifs with a b c
        · exact Or.inl rfl
        · refine Or.inr ⟨e, List.mem_cons_self _ _, a, ?_, rfl⟩
          simpa using b
        · exact Or.inl rfl
        · exact Or.inl rfl
      · exact Or.inr ⟨e', List.mem_cons_of_mem _ he', hs, hi, hr⟩

/-- In the exact model, for any length function: NearestBlock returns found = true
exactly when Blocks(start, end) is true; then the returned point is the intersection
point SegmentIntersectI reports for some edge facing start, and its Length from start
is minimal among the intersection points of all facing edges; when no facing edge
intersects it returns the zero point and false. -/
theorem nearestBlock_ideal {D : Type} [LinearOrder D] (sqrt : Int → D) (g : Graph)
    (start end_ : I2) :
    (g.NearestBlock sqrt start end_).2 = g.Blocks start end_ ∧
    ((g.NearestBlock sqrt start end_).2 = true →
      ∃ u v, g.HasEdge u v ∧ SignedArea2 start u v > 0 ∧
        SegmentIntersectI u v start end_ = ((g.NearestBlock sqrt start end_).1, true) ∧
        ∀ u' v', g.HasEdge u' v' → SignedArea2 start u' v' > 0 →
          (SegmentIntersectI u' v' start end_).2 = true →
          Length sqrt start (g.NearestBlock sqrt start end_).1 ≤
            Length sqrt start (SegmentIntersectI u' v' start end_).1 ∧
          ((∀ a b : Int, 0 ≤ a → a < b → sqrt a < sqrt b) →
            ((g.NearestBlock sqrt start end_).1.Sub start).Dot
                ((g.NearestBlock sqrt start end_).1.Sub start) ≤
              ((SegmentIntersectI u' v' start end_).1.Sub start).Dot
                ((SegmentIntersectI u' v' start end_).1.Sub start))) ∧
    (g.Blocks start end_ = false → g.NearestBlock sqrt start end_ = (⟨0, 0⟩, false)) := by
  have hspec := nearestBlock_fold_spec sqrt start end_ g.edgeList (false, ⊤, ⟨0, 0⟩)
  have hblk := Blocks_true_iff g start end_
  rw [NearestBlock_eq_fold]
  simp only at hspec ⊢
  obtain ⟨-, h2, h3⟩ := hspec
  rcases h3 with h3 | ⟨e, he, hs, hi, hr⟩
  · -- the state was never written: no facing edge intersects
    have hnb : g.Blocks start end_ = false := by
      by_contra hb
      rw [Bool.not_eq_false] at hb
      obtain ⟨u, v, hedge, hs, hi⟩ := hblk.mp hb
      have := h2 (u, v) ((mem_edgeList g u v).mpr hedge) hs hi
      rw [h3] at this
      simp at this
    rw [h3, hnb]
    simp
  · have hb : g.Blocks start end_ = true :=
      hblk.mpr ⟨e.1, e.2, (mem_edgeList g e.1 e.2).mp he, hs, hi⟩
    rw [hr, hb]
    refine ⟨rfl, fun _ => ⟨e.1, e.2, (mem_edgeList g e.1 e.2).mp he, hs, ?_, ?_⟩, by simp⟩
    · exact Prod.ext rfl hi
    · intro u' v' hedge hs' hi'
      have := h2 (u', v') ((mem_edgeList g u' v').mpr hedge) hs' hi'
      rw [hr] at this
      have hle := WithTop.coe_le_coe.mp this
      refine ⟨hle, fun hmono => ?_⟩
      by_contra hcon
      rw [not_le] at hcon
      have hnn : 0 ≤ ((SegmentIntersectI u' v' start end_).1.Sub start).Dot
          ((SegmentIntersectI u' v' start end_).1.Sub start) := by
        simp only [I2.Dot]
        nlinarith [mul_self_nonneg ((SegmentIntersectI u' v' start end_).1.Sub start).X,
          mul_self_nonneg ((SegmentIntersectI u' v' start end_).1.Sub start).Y]
      exact absurd (hmono _ _ hnn hcon) (not_lt.mpr hle)

/-! ## The laws of distances, with `+Inf` -/

section Dist

variable {D : Type} [LinearOrder D] [Add D] [Zero D] [DistLaws D]

theorem wt_zero_le (a : WithTop D) : 0 ≤ a := by
  induction a using WithTop.recTopCoe with
  | top => exact le_top
  | coe x =>
    rw [← WithTop.coe_zero, WithTop.coe_le_coe]
    exact DistLaws.zero_le x

theorem wt_add_zero (a : WithTop D) : a + 0 = a := by
  induction a using WithTop.recTopCoe with
  | top => exact WithTop.top_add _
  | coe x => rw [← WithTop.coe_zero, ← WithTop.coe_add, DistLaws.add_zero]

theorem wt_le_add {a b : WithTop D} : b ≤ a + b := by
  induction a using WithTop.recTopCoe with
  | top => rw [WithTop.top_add]; exact le_top
  | coe x =>
    induction b using WithTop.recTopCoe with
    | top => rw [WithTop.add_top]
    | coe y =>
      rw [← WithTop.coe_add, WithTop.coe_le_coe]
      exact DistLaws.le_add x y

theorem wt_add_mono {b c : WithTop D} (h : b ≤ c) (a : WithTop D) : a + b ≤ a + c := by
  induction a using WithTop.recTopCoe with
  | top => rw [WithTop.top_add, WithTop.top_add]
  | coe x =>
    induction c using WithTop.recTopCoe with
    | top => rw [WithTop.add_top]; exact le_top
    | coe z =>
      induction b using WithTop.recTopCoe with
      | top => exact absurd h (not_le.mpr (WithTop.coe_lt_top z))
      | coe y =>
        rw [← WithTop.coe_add, ← WithTop.coe_add, WithTop.coe_le_coe]
        exact DistLaws.add_mono x y z (WithTop.coe_le_coe.mp h)

end Dist

/-! ## FindPath: the seeding loop -/

section Seed

variable {D : Type} [LinearOrder D] [Add D] [Zero D] [DistLaws D] (sqrt : Int → D)
  (obstacles paths : Graph) (start end_ boundsUL boundsDR : I2)

theorem candIn_cons (e : Sigma (fun _ : I2 => Bool)) (l : List (Sigma (fun _ : I2 => Bool)))
    (v : I2) :
    candIn boundsUL boundsDR (e :: l) v ↔
      (e.1 = v ∧ e.2 = true ∧ v.InRect boundsUL boundsDR = true) ∨ candIn boundsUL boundsDR l v := by
  unfold candIn
  rw [List.mem_cons]
  constructor
  · rintro ⟨h | h, hr⟩
    · left
      obtain ⟨k, y⟩ := e
      cases h
      exact ⟨rfl, rfl, hr⟩
    · exact Or.inr ⟨h, hr⟩
  · rintro (⟨h1, h2, h3⟩ | ⟨h, hr⟩)
    · obtain ⟨k, y⟩ := e
      simp only at h1 h2
      subst h1 h2
      exact ⟨Or.inl rfl, h3⟩
    · exact ⟨Or.inr h, hr⟩

theorem candIn_entries_iff (v : I2) :
    candIn boundsUL boundsDR paths.V.entries v ↔ Candidate paths boundsUL boundsDR v := by
  unfold candIn Candidate
  rw [← AList.mem_lookup_iff]
  simp [Option.mem_def]

theorem seedStep_skip (s : PathState D) (e : Sigma (fun _ : I2 => Bool))
    (h : ¬ (e.2 = true ∧ e.1.InRect boundsUL boundsDR = true)) :
    seedStep sqrt obstacles start end_ boundsUL boundsDR s e = s := by
  unfold seedStep
  by_cases h1 : e.2 = true
  · have h2 : e.1.InRect boundsUL boundsDR = false := by
      cases hh : e.1.InRect boundsUL boundsDR
      · rfl
      · exact absurd ⟨h1, hh⟩ h
    simp [h1, h2]
  · simp [h1]

theorem seedStep_q (s : PathState D) (e : Sigma (fun _ : I2 => Bool))
    (h : e.2 = true ∧ e.1.InRect boundsUL boundsDR = true) :
    (seedStep sqrt obstacles start end_ boundsUL boundsDR s e).q = s.q.insert e.1 := by
  unfold seedStep
  simp only [h.1, h.2, Bool.not_true, Bool.or_self, Bool.false_eq_true, if_false]
  split_ifs <;> rfl

theorem seedStep_endN (s : PathState D) (e : Sigma (fun _ : I2 => Bool))
    (h : e.2 = true ∧ e.1.InRect boundsUL boundsDR = true) :
    (seedStep sqrt obstacles start end_ boundsUL boundsDR s e).endN =
      if obstacles.Blocks e.1 end_ = false then s.endN.insert e.1 else s.endN := by
  unfold seedStep
  simp only [h.1, h.2, Bool.not_true, Bool.or_self, Bool.false_eq_true, if_false]
  by_cases h1 : obstacles.Blocks start e.1 = true <;>
    by_cases h2 : obstacles.Blocks e.1 end_ = true <;> simp [h1, h2]

theorem seedStep_prev (s : PathState D) (e : Sigma (fun _ : I2 => Bool))
    (h : e.2 = true ∧ e.1.InRect boundsUL boundsDR = true) :
    (seedStep sqrt obstacles start end_ boundsUL boundsDR s e).prev =
      if obstacles.Blocks start e.1 = false then s.prev.insert e.1 start else s.prev := by
  unfold seedStep
  simp only [h.1, h.2, Bool.not_true, Bool.or_self, Bool.false_eq_true, if_false]
  by_cases h1 : obstacles.Blocks start e.1 = true <;>
    by_cases h2 : obstacles.Blocks e.1 end_ = true <;> simp [h1, h2]

theorem seedStep_dists (s : PathState D) (e : Sigma (fun _ : I2 => Bool))
    (h : e.2 = true ∧ e.1.InRect boundsUL boundsDR = true) :
    (seedStep sqrt obstacles start end_ boundsUL boundsDR s e).dists =
      Function.update s.dists e.1
        (if obstacles.Blocks start e.1 = true then ⊤
         else ((Length sqrt start e.1 : D) : WithTop D)) := by
  unfold seedStep
  simp only [h.1, h.2, Bool.not_true, Bool.or_self, Bool.false_eq_true, if_false]
  by_cases h1 : obstacles.Blocks start e.1 = true <;>
    by_cases h2 : obstacles.Blocks e.1 end_ = true <;> simp [h1, h2]

theorem seed_fold_q (l : List (Sigma (fun _ : I2 => Bool))) (s : PathState D) (v : I2) :
    v ∈ (l.foldl (seedStep sqrt obstacles start end_ boundsUL boundsDR) s).q ↔
      v ∈ s.q ∨ candIn boundsUL boundsDR l v := by
  induction l generalizing s with
  | nil => simp [candIn]
  | cons e rest ih =>
    rw [List.foldl_cons, ih, candIn_cons]
    by_cases h : e.2 = true ∧ e.1.InRect boundsUL boundsDR = true
    · rw [seedStep_q sqrt obstacles start end_ boundsUL boundsDR s e h, List.mem_insert_iff]
      constructor
      · rintro ((rfl | h1) | h1)
        · exact Or.inr (Or.inl ⟨rfl, h.1, h.2⟩)
        · exact Or.inl h1
        · exact Or.inr (Or.inr h1)
      · rintro (h1 | ⟨rfl, -, -⟩ | h1)
        · exact Or.inl (Or.inr h1)
        · exact Or.inl (Or.inl rfl)
        · exact Or.inr h1
    · rw [seedStep_skip sqrt obstacles start end_ boundsUL boundsDR s e h]
      constructor
      · rintro (h1 | h1)
        · exact Or.inl h1
        · exact Or.inr (Or.inr h1)
      · rintro (h1 | ⟨rfl, h2, h3⟩ | h1)
        · exact Or.inl h1
        · exact absurd ⟨h2, h3⟩ h
        · exact Or.inr h1

theorem seed_fold_endN (l : List (Sigma (fun _ : I2 => Bool))) (s : PathState D) (v : I2) :
    v ∈ (l.foldl (seedStep sqrt obstacles start end_ boundsUL boundsDR) s).endN ↔
      v ∈ s.endN ∨ (candIn boundsUL boundsDR l v ∧ obstacles.Blocks v end_ = false) := by
  induction l generalizing s with
  | nil => simp [candIn]
  | cons e rest ih =>
    rw [List.foldl_cons, ih, candIn_cons]
    by_cases h : e.2 = true ∧ e.1.InRect boundsUL boundsDR = true
    · rw [seedStep_endN sqrt obstacles start end_ boundsUL boundsDR s e h]
      by_cases hb : obstacles.Blocks e.1 end_ = false
      · rw [if_pos hb, List.mem_insert_iff]
        constructor
        · rintro ((rfl | h1) | h1)
          · exact Or.inr ⟨Or.inl ⟨rfl, h.1, h.2⟩, hb⟩
          · exact Or.inl h1
          · exact Or.inr ⟨Or.inr h1.1, h1.2⟩
        · rintro (h1 | ⟨⟨rfl, -, -⟩ | h1, h2⟩)
          · exact Or.inl (Or.inr h1)
          · exact Or.inl (Or.inl rfl)
          · exact Or.inr ⟨h1, h2⟩
      · rw [if_neg hb]
        constructor
        · rintro (h1 | h1)
          · exact Or.inl h1
          · exact Or.inr ⟨Or.inr h1.1, h1.2⟩
        · rintro (h1 | ⟨⟨rfl, -, -⟩ | h1, h2⟩)
          · exact Or.inl h1
          · exact absurd h2 hb
          · exact Or.inr ⟨h1, h2⟩
    · rw [seedStep_skip sqrt obstacles start end_ boundsUL boundsDR s e h]
      constructor
      · rintro (h1 | h1)
        · exact Or.inl h1
        · exact Or.inr ⟨Or.inr h1.1, h1.2⟩
      · rintro (h1 | ⟨⟨rfl, h2, h3⟩ | h1, h4⟩)
        · exact Or.inl h1
        · exact absurd ⟨h2, h3⟩ h
        · exact Or.inr ⟨h1, h4⟩

open Classical in
theorem seed_fold_prev (l : List (Sigma (fun _ : I2 => Bool))) (s : PathState D) (v : I2) :
    (l.foldl (seedStep sqrt obstacles start end_ boundsUL boundsDR) s).prev.lookup v =
      if candIn boundsUL boundsDR l v ∧ obstacles.Blocks start v = false then some start
      else s.prev.lookup v := by
  induction l generalizing s with
  | nil => simp [candIn]
  | cons e rest ih =>
    rw [List.foldl_cons, ih]
    by_cases hc : candIn boundsUL boundsDR rest v ∧ obstacles.Blocks start v = false
    · rw [if_pos hc, if_pos ⟨(candIn_cons boundsUL boundsDR e rest v).mpr (Or.inr hc.1), hc.2⟩]
    · rw [if_neg hc]
      by_cases h : e.2 = true ∧ e.1.InRect boundsUL boundsDR = true
      · rw [seedStep_prev sqrt obstacles start end_ boundsUL boundsDR s e h]
        by_cases hb : obstacles.Blocks start e.1 = false
        · rw [if_pos hb]
          by_cases hv : e.1 = v
          · subst hv
            rw [AList.lookup_insert, if_pos ⟨(candIn_cons boundsUL boundsDR e rest _).mpr
              (Or.inl ⟨rfl, h.1, h.2⟩), hb⟩]
          · rw [AList.lookup_insert_ne (Ne.symm hv), if_neg]
            rintro ⟨h1, h2⟩
            rcases (candIn_cons boundsUL boundsDR e rest v).mp h1 with ⟨h3, -, -⟩ | h3
            · exact hv h3
            · exact hc ⟨h3, h2⟩
        · rw [if_neg hb, if_neg]
          rintro ⟨h1, h2⟩
          rcases (candIn_cons boundsUL boundsDR e rest v).mp h1 with ⟨h3, -, -⟩ | h3
          · subst h3
            exact hb h2
          · exact hc ⟨h3, h2⟩
      · rw [seedStep_skip sqrt obstacles start end_ boundsUL boundsDR s e h, if_neg]
        rintro ⟨h1, h2⟩
        rcases (candIn_cons boundsUL boundsDR e rest v).mp h1 with ⟨h3, h4, h5⟩ | h3
        · subst h3
          exact h ⟨h4, h5⟩
        · exact hc ⟨h3, h2⟩

open Classical in
theorem seed_fold_dists (l : List (Sigma (fun _ : I2 => Bool))) (s : PathState D) (v : I2) :
    (l.foldl (seedStep sqrt obstacles start end_ boundsUL boundsDR) s).dists v =
      if candIn boundsUL boundsDR l v then
        (if obstacles.Blocks start v = true then ⊤
         else ((Length sqrt start v : D) : WithTop D))
      else s.dists v := by
  induction l generalizing s with
  | nil => simp [candIn]
  | cons e rest ih =>
    rw [List.foldl_cons, ih]
    by_cases hc : candIn boundsUL boundsDR rest v
    · rw [if_pos hc, if_pos ((candIn_cons boundsUL boundsDR e rest v).mpr (Or.inr hc))]
    · rw [if_neg hc]
      by_cases h : e.2 = true ∧ e.1.InRect boundsUL boundsDR = true
      · rw [seedStep_dists sqrt obstacles start end_ boundsUL boundsDR s e h]
        by_cases hv : e.1 = v
        · subst hv
          rw [Function.update_same, if_pos ((candIn_cons boundsUL boundsDR e rest _).mpr
            (Or.inl ⟨rfl, h.1, h.2⟩))]
        · rw [Function.update_noteq (Ne.symm hv), if_neg]
          intro h1
          rcases (candIn_cons boundsUL boundsDR e rest v).mp h1 with ⟨h3, -, -⟩ | h3
          · exact hv h3
          · exact hc h3
      · rw [seedStep_skip sqrt obstacles start end_ boundsUL boundsDR s e h, if_neg]
        intro h1
        rcases (candIn_cons boundsUL boundsDR e rest v).mp h1 with ⟨h3, h4, h5⟩ | h3
        · subst h3
          exact h ⟨h4, h5⟩
        · exact hc h3

/-- The vertex set `q` after seeding: `end` and the candidates. -/
theorem seed_q (v : I2) :
    v ∈ (seed sqrt obstacles paths start end_ boundsUL boundsDR).q ↔
      v = end_ ∨ Candidate paths boundsUL boundsDR v := by
  unfold seed
  rw [seed_fold_q, candIn_entries_iff]
  simp

/-- The set `endN` after seeding: the candidates not blocked towards `end`. -/
theorem seed_endN (v : I2) :
    v ∈ (seed sqrt obstacles paths start end_ boundsUL boundsDR).endN ↔
      Candidate paths boundsUL boundsDR v ∧ obstacles.Blocks v end_ = false := by
  unfold seed
  rw [seed_fold_endN, candIn_entries_iff]
  simp

open Classical in
/-- The map `prev` after seeding: `start` at the candidates not blocked from `start`. -/
theorem seed_prev (v : I2) :
    (seed sqrt obstacles paths start end_ boundsUL boundsDR).prev.lookup v =
      if Candidate paths boundsUL boundsDR v ∧ obstacles.Blocks start v = false then some start
      else none := by
  unfold seed
  rw [seed_fold_prev]
  simp only [candIn_entries_iff, AList.lookup_empty]

open Classical in
/-- The map `dists` after seeding. -/
theorem seed_dists (v : I2) :
    (seed sqrt obstacles paths start end_ boundsUL boundsDR).dists v =
      if Candidate paths boundsUL boundsDR v then
        (if obstacles.Blocks start v = true then ⊤
         else ((Length sqrt start v : D) : WithTop D))
      else 0 := by
  unfold seed
  rw [seed_fold_dists]
  simp only [candIn_entries_iff]

theorem alist_entries_length_eq_zero_iff (m : AList (fun _ : I2 => I2)) :
    m.entries.length = 0 ↔ ∀ v, m.lookup v = none := by
  constructor
  · intro h v
    rw [AList.lookup_eq_none, AList.mem_keys, AList.keys]
    rw [List.length_eq_zero] at h
    simp [h]
  · intro h
    rw [List.length_eq_zero]
    cases hm : m.entries with
    | nil => rfl
    | cons e rest =>
      have hmem : e ∈ m.entries := by rw [hm]; exact List.mem_cons_self _ _
      have : e.2 ∈ m.lookup e.1 := AList.mem_lookup_iff.mpr hmem
      rw [h e.1] at this
      exact absurd this (by simp)

/-- `len(prev) == 0` after seeding: no candidate is unblocked from `start`. -/
theorem seed_prev_empty_iff :
    (seed sqrt obstacles paths start end_ boundsUL boundsDR).prev.entries.length = 0 ↔
      ∀ v, Candidate paths boundsUL boundsDR v → obstacles.Blocks start v = true := by
  rw [alist_entries_length_eq_zero_iff]
  constructor
  · intro h v hc
    have := h v
    rw [seed_prev] at this
    by_contra hb
    rw [Bool.not_eq_true] at hb
    rw [if_pos ⟨hc, hb⟩] at this
    exact absurd this (by simp)
  · intro h v
    rw [seed_prev, if_neg]
    rintro ⟨hc, hb⟩
    rw [h v hc] at hb
    exact absurd hb (by simp)

/-- `len(endN) == 0` after seeding: no candidate is unblocked towards `end`. -/
theorem seed_endN_empty_iff :
    (seed sqrt obstacles paths start end_ boundsUL boundsDR).endN.length = 0 ↔
      ∀ v, Candidate paths boundsUL boundsDR v → obstacles.Blocks v end_ = true := by
  rw [List.length_eq_zero]
  constructor
  · intro h v hc
    by_contra hb
    rw [Bool.not_eq_true] at hb
    have : v ∈ (seed sqrt obstacles paths start end_ boundsUL boundsDR).endN :=
      (seed_endN sqrt obstacles paths start end_ boundsUL boundsDR v).mpr ⟨hc, hb⟩
    rw [h] at this
    exact absurd this (List.not_mem_nil _)
  · intro h
    apply List.eq_nil_iff_forall_not_mem.mpr
    intro v hv
    obtain ⟨hc, hb⟩ := (seed_endN sqrt obstacles paths start end_ boundsUL boundsDR v).mp hv
    rw [h v hc] at hb
    exact absurd hb (by simp)

end Seed

/-! ## FindPath: the direct check and the infeasibility check -/

theorem FindPath_unblocked {D : Type} [CanonicallyLinearOrderedAddCommMonoid D]
    (sqrt : Int → D) (ro : RangeOrder) (obstacles paths : Graph)
    (start end_ boundsUL boundsDR : I2) (h : obstacles.Blocks start end_ = false) :
    FindPath sqrt ro obstacles paths start end_ boundsUL boundsDR =
      some (PathResult.path [end_]) := by
  unfold FindPath
  simp [h]

/-- C1: if obstacles.Blocks(start, end) is false then FindPath returns exactly the
one-element path [end] and no error, whatever the waypoint graph, the bounds, the
length function and the iteration orders. -/
theorem FindPath_direct {D : Type} [CanonicallyLinearOrderedAddCommMonoid D] (sqrt : Int → D)
    (ro : RangeOrder) (obstacles paths : Graph) (start end_ boundsUL boundsDR : I2)
    (h : obstacles.Blocks start end_ = false) :
    FindPath sqrt ro obstacles paths start end_ boundsUL boundsDR =
      some (PathResult.path [end_]) :=
  FindPath_unblocked sqrt ro obstacles paths start end_ boundsUL boundsDR h

/-- C5: when obstacles.Blocks(start, end) is true and either no waypoint vertex inside
the bounds is unblocked from start, or no waypoint vertex inside the bounds is
unblocked towards end (in particular when no waypoint vertex lies inside the bounds),
FindPath returns the error "no paths possible"; the search loop is not entered. -/
theorem FindPath_no_paths_possible {D : Type} [CanonicallyLinearOrderedAddCommMonoid D]
    (sqrt : Int → D) (ro : RangeOrder) (obstacles paths : Graph)
    (start end_ boundsUL boundsDR : I2)
    (hb : obstacles.Blocks start end_ = true)
    (h : (∀ v, Candidate paths boundsUL boundsDR v → obstacles.Blocks start v = true) ∨
         (∀ v, Candidate paths boundsUL boundsDR v → obstacles.Blocks v end_ = true)) :
    FindPath sqrt ro obstacles paths start end_ boundsUL boundsDR =
      some PathResult.noPathsPossible := by
  have h' : (seed sqrt obstacles paths start end_ boundsUL boundsDR).prev.entries.length = 0 ∨
      (seed sqrt obstacles paths start end_ boundsUL boundsDR).endN.length = 0 := by
    rcases h with h | h
    · exact Or.inl ((seed_prev_empty_iff sqrt obstacles paths start end_ boundsUL boundsDR).mpr h)
    · exact Or.inr ((seed_endN_empty_iff sqrt obstacles paths start end_ boundsUL boundsDR).mpr h)
  unfold FindPath
  simp only [hb, Bool.not_true, Bool.false_eq_true, if_false]
  rw [if_pos h']

/-! ## FindPath: one relaxation -/

section Relax

variable {D : Type} [LinearOrder D] [Add D] [Zero D] [DistLaws D] (sqrt : Int → D)
  (obstacles paths : Graph) (start end_ boundsUL boundsDR : I2)

theorem relax_q (a b : I2) (s : PathState D) : (relax sqrt a b s).q = s.q := by
  unfold relax
  split_ifs <;> rfl

theorem relax_endN (a b : I2) (s : PathState D) : (relax sqrt a b s).endN = s.endN := by
  unfold relax
  split_ifs <;> rfl

/-- A relaxation either changes nothing, or it strictly improves a vertex b of `q`
other than a and records a as its predecessor. -/
theorem relax_cases (a b : I2) (s : PathState D) :
    relax sqrt a b s = s ∨
    (b ∈ s.q ∧ a ≠ b ∧ ((Length sqrt a b : D) : WithTop D) + s.dists a < s.dists b ∧
      (relax sqrt a b s).dists =
        Function.update s.dists b (((Length sqrt a b : D) : WithTop D) + s.dists a) ∧
      (relax sqrt a b s).prev = s.prev.insert b a) := by
  unfold relax
  by_cases h1 : b ∈ s.q
  · by_cases h2 : ((Length sqrt a b : D) : WithTop D) + s.dists a < s.dists b
    · right
      have hne : a ≠ b := by
        rintro rfl
        exact absurd h2 (not_lt.mpr wt_le_add)
      simp [h1, h2, hne]
    · left
      simp [h1, h2]
  · left
    simp [h1]

theorem relax_dists_le (a b : I2) (s : PathState D) (x : I2) :
    (relax sqrt a b s).dists x ≤ s.dists x := by
  rcases relax_cases sqrt a b s with h | ⟨-, -, hlt, hd, -⟩
  · rw [h]
  · rw [hd]
    by_cases hx : x = b
    · subst hx
      rw [Function.update_same]
      exact le_of_lt hlt
    · rw [Function.update_noteq hx]

theorem relax_dists_not_mem (a b : I2) (s : PathState D) (x : I2) (hx : x ∉ s.q) :
    (relax sqrt a b s).dists x = s.dists x := by
  rcases relax_cases sqrt a b s with h | ⟨hb, -, -, hd, -⟩
  · rw [h]
  · rw [hd, Function.update_noteq]
    rintro rfl
    exact hx hb

theorem relax_dists_ne (a b : I2) (s : PathState D) (x : I2) (hx : x ≠ b) :
    (relax sqrt a b s).dists x = s.dists x := by
  rcases relax_cases sqrt a b s with h | ⟨-, -, -, hd, -⟩
  · rw [h]
  · rw [hd, Function.update_noteq hx]

theorem relax_dists_target (a b : I2) (s : PathState D) (hb : b ∈ s.q) :
    (relax sqrt a b s).dists b ≤ ((Length sqrt a b : D) : WithTop D) + s.dists a := by
  unfold relax
  by_cases h2 : ((Length sqrt a b : D) : WithTop D) + s.dists a < s.dists b
  · simp [hb, h2]
  · simp only [hb, not_true_eq_false, if_false, h2]
    exact not_lt.mp h2

theorem relax_prev_not_mem (a b : I2) (s : PathState D) (x : I2) (hx : x ∉ s.q) :
    (relax sqrt a b s).prev.lookup x = s.prev.lookup x := by
  rcases relax_cases sqrt a b s with h | ⟨hb, -, -, -, hp⟩
  · rw [h]
  · rw [hp, AList.lookup_insert_ne]
    rintro rfl
    exact hx hb

theorem relax_prev_isSome (a b : I2) (s : PathState D) (x : I2)
    (hx : (s.prev.lookup x).isSome = true) : ((relax sqrt a b s).prev.lookup x).isSome = true := by
  rcases relax_cases sqrt a b s with h | ⟨-, -, -, -, hp⟩
  · rw [h]; exact hx
  · rw [hp]
    by_cases hxb : x = b
    · subst hxb
      rw [AList.lookup_insert]
      rfl
    · rw [AList.lookup_insert_ne hxb]
      exact hx

/-- A path through vertices that have left `q` survives when `q` shrinks and `prev`
changes only at vertices of `q`. -/
theorem SPath_mono (prev prev' : AList (fun _ : I2 => I2)) (q q' : List I2)
    (hq : ∀ x, x ∉ q → x ∉ q')
    (hp : ∀ x, x ∉ q → prev'.lookup x = prev.lookup x) (w : I2) (r : List I2)
    (h : SPath obstacles paths start end_ boundsUL boundsDR prev q w r) :
    SPath obstacles paths start end_ boundsUL boundsDR prev' q' w r := by
  induction h with
  | base => exact SPath.base
  | step h1 h2 h3 h4 h5 _ ih =>
    exact SPath.step h1 (hq _ h2) h3 (by rw [hp _ h2]; exact h4) h5 ih

theorem SPath_relax (a b : I2) (s : PathState D) (w : I2) (r : List I2)
    (h : SPath obstacles paths start end_ boundsUL boundsDR s.prev s.q w r) :
    SPath obstacles paths start end_ boundsUL boundsDR (relax sqrt a b s).prev
      (relax sqrt a b s).q w r := by
  apply SPath_mono obstacles paths start end_ boundsUL boundsDR s.prev _ s.q _ _ _ w r h
  · intro x hx
    rw [relax_q]
    exact hx
  · intro x hx
    exact relax_prev_not_mem sqrt a b s x hx

theorem Anch_relax (k : Nat) (a b a' b' : I2) (s : PathState D)
    (h : Anch obstacles paths start end_ boundsUL boundsDR k s a b) :
    Anch obstacles paths start end_ boundsUL boundsDR k (relax sqrt a' b' s) a b := by
  rcases h with h | ⟨r, hr, hk⟩ | ⟨h1, h2, h3⟩
  · exact Or.inl h
  · exact Or.inr (Or.inl ⟨r, SPath_relax sqrt obstacles paths start end_ boundsUL boundsDR
      a' b' s a r hr, hk⟩)
  · exact Or.inr (Or.inr ⟨h1, h2, by rw [relax_q]; exact h3⟩)

/-- A relaxation along a hop from an anchored vertex keeps the invariant. -/
theorem relax_inv (K k : Nat) (a b : I2) (s : PathState D)
    (hinv : Inv sqrt obstacles paths start end_ boundsUL boundsDR K k s)
    (hhop : Hop obstacles paths start end_ boundsUL boundsDR a b)
    (hanch : Anch obstacles paths start end_ boundsUL boundsDR k s a b) :
    Inv sqrt obstacles paths start end_ boundsUL boundsDR K k (relax sqrt a b s) := by
  rcases relax_cases sqrt a b s with h | ⟨hb, hne, hlt, hd, hp⟩
  · rw [h]; exact hinv
  have hq : (relax sqrt a b s).q = s.q := relax_q sqrt a b s
  have hda : s.dists a < ⊤ := by
    have : ((Length sqrt a b : D) : WithTop D) + s.dists a < ⊤ := lt_of_lt_of_le hlt le_top
    exact (WithTop.add_lt_top.mp this).2
  refine ⟨?_, ?_, ?_, ?_, ?_, ?_, ?_, ?_, ?_, ?_, hinv.blocked⟩
  · rw [hq]; exact hinv.end_mem
  · rw [hq]; exact hinv.q_sub
  · rw [relax_endN]; exact hinv.endN_iff
  · rw [hq]; exact hinv.count
  · -- prev_ok
    intro v u hvu hvs
    by_cases hvb : v = b
    · subst hvb
      rw [hp, AList.lookup_insert] at hvu
      cases hvu
      refine ⟨hinv.q_sub _ hb, hhop, ?_, ?_⟩
      · rw [hd, Function.update_same, Function.update_noteq hne]
      · rcases hanch with h | ⟨r, hr, hk⟩ | ⟨h1, h2, h3⟩
        · exact absurd h hne
        · exact Or.inl ⟨r, SPath_relax sqrt obstacles paths start end_ boundsUL boundsDR
            _ _ s _ r hr, hk⟩
        · right
          refine ⟨h1, h2, fun h => hne (h.trans h1.symm), by rw [hq]; exact h3, ?_⟩
          apply relax_prev_isSome
          rcases hinv.fin_prev _ (hinv.q_sub _ h3) hda with h | h
          · exact absurd h h2
          · exact h
    · rw [hp, AList.lookup_insert_ne hvb] at hvu
      obtain ⟨h1, h2, h3, h4⟩ := hinv.prev_ok v u hvu hvs
      refine ⟨h1, h2, ?_, ?_⟩
      · rw [relax_dists_ne sqrt a b s v hvb]
        exact le_trans (wt_add_mono (relax_dists_le sqrt a b s u) _) h3
      · rcases h4 with ⟨r, hr, hk⟩ | ⟨h5, h6, h7, h8, h9⟩
        · exact Or.inl ⟨r, SPath_relax sqrt obstacles paths start end_ boundsUL boundsDR
            _ _ s _ r hr, hk⟩
        · exact Or.inr ⟨h5, h6, h7, by rw [hq]; exact h8, relax_prev_isSome sqrt a b s u h9⟩
  · -- fin_prev
    intro v hv hfin
    by_cases hvb : v = b
    · subst hvb
      right
      rw [hp, AList.lookup_insert]
      rfl
    · rw [relax_dists_ne sqrt a b s v hvb] at hfin
      rcases hinv.fin_prev v hv hfin with h | h
      · exact Or.inl h
      · exact Or.inr (relax_prev_isSome sqrt a b s v h)
  · -- settled
    intro w hw hwq
    rw [hq] at hwq
    obtain ⟨r, hr, hk⟩ := hinv.settled w hw hwq
    exact ⟨r, SPath_relax sqrt obstacles paths start end_ boundsUL boundsDR _ _ s _ r hr, hk⟩
  · -- opt
    intro w hw hwq L hL
    rw [hq] at hwq
    rw [relax_dists_not_mem sqrt a b s w hwq]
    exact hinv.opt w hw hwq L hL
  · -- seeded
    intro v hv hvb
    exact le_trans (relax_dists_le sqrt a b s v) (hinv.seeded v hv hvb)
  · -- prev_fin
    intro v u hvu
    by_cases hvb : v = b
    · subst hvb
      rw [hd, Function.update_same]
      exact lt_of_lt_of_le hlt le_top
    · rw [hp, AList.lookup_insert_ne hvb] at hvu
      rw [relax_dists_ne sqrt a b s v hvb]
      exact hinv.prev_fin v u hvu

/-- Relaxations keep the relaxations out of a vertex that has left `q` done. -/
theorem Relaxed_relax (a b u : I2) (s : PathState D) (hu : u ∉ s.q)
    (h : Relaxed sqrt obstacles paths end_ s u) :
    Relaxed sqrt obstacles paths end_ (relax sqrt a b s) u := by
  obtain ⟨h1, h2⟩ := h
  constructor
  · intro v hv hadj
    rw [relax_q] at hv
    rw [relax_dists_not_mem sqrt a b s u hu]
    exact le_trans (relax_dists_le sqrt a b s v) (h1 v hv hadj)
  · intro hb
    rw [relax_dists_not_mem sqrt a b s u hu]
    exact le_trans (relax_dists_le sqrt a b s end_) (h2 hb)

end Relax

/-! ## FindPath: the relaxation loops and the selection loop -/

section Folds

variable {D : Type} [LinearOrder D] [Add D] [Zero D] [DistLaws D] (sqrt : Int → D)
  (obstacles paths : Graph) (start end_ boundsUL boundsDR : I2)

theorem pfold_q (ps : List (I2 × I2)) (s : PathState D) :
    (ps.foldl (fun s p => relax sqrt p.1 p.2 s) s).q = s.q := by
  induction ps generalizing s with
  | nil => rfl
  | cons p rest ih => rw [List.foldl_cons, ih, relax_q]

theorem pfold_endN (ps : List (I2 × I2)) (s : PathState D) :
    (ps.foldl (fun s p => relax sqrt p.1 p.2 s) s).endN = s.endN := by
  induction ps generalizing s with
  | nil => rfl
  | cons p rest ih => rw [List.foldl_cons, ih, relax_endN]

theorem pfold_dists_le (ps : List (I2 × I2)) (s : PathState D) (x : I2) :
    (ps.foldl (fun s p => relax sqrt p.1 p.2 s) s).dists x ≤ s.dists x := by
  induction ps generalizing s with
  | nil => exact le_refl _
  | cons p rest ih =>
    rw [List.foldl_cons]
    exact le_trans (ih _) (relax_dists_le sqrt p.1 p.2 s x)

theorem pfold_dists_not_mem (ps : List (I2 × I2)) (s : PathState D) (x : I2) (hx : x ∉ s.q) :
    (ps.foldl (fun s p => relax sqrt p.1 p.2 s) s).dists x = s.dists x := by
  induction ps generalizing s with
  | nil => rfl
  | cons p rest ih =>
    rw [List.foldl_cons, ih _ (by rw [relax_q]; exact hx), relax_dists_not_mem sqrt p.1 p.2 s x hx]

theorem pfold_dists_ne (ps : List (I2 × I2)) (s : PathState D) (x : I2)
    (hx : ∀ p ∈ ps, p.2 ≠ x) :
    (ps.foldl (fun s p => relax sqrt p.1 p.2 s) s).dists x = s.dists x := by
  induction ps generalizing s with
  | nil => rfl
  | cons p rest ih =>
    rw [List.foldl_cons, ih _ (fun p' hp' => hx p' (List.mem_cons_of_mem _ hp')),
      relax_dists_ne sqrt p.1 p.2 s x (Ne.symm (hx p (List.mem_cons_self _ _)))]

theorem pfold_inv (K k : Nat) (ps : List (I2 × I2)) (s : PathState D)
    (hinv : Inv sqrt obstacles paths start end_ boundsUL boundsDR K k s)
    (hps : ∀ p ∈ ps, Hop obstacles paths start end_ boundsUL boundsDR p.1 p.2 ∧
      Anch obstacles paths start end_ boundsUL boundsDR k s p.1 p.2) :
    Inv sqrt obstacles paths start end_ boundsUL boundsDR K k
      (ps.foldl (fun s p => relax sqrt p.1 p.2 s) s) := by
  induction ps generalizing s with
  | nil => exact hinv
  | cons p rest ih =>
    rw [List.foldl_cons]
    have hp := hps p (List.mem_cons_self _ _)
    apply ih
    · exact relax_inv sqrt obstacles paths start end_ boundsUL boundsDR K k p.1 p.2 s hinv hp.1 hp.2
    · intro p' hp'
      have := hps p' (List.mem_cons_of_mem _ hp')
      exact ⟨this.1, Anch_relax sqrt obstacles paths start end_ boundsUL boundsDR k _ _ _ _ s this.2⟩

theorem pfold_relaxed (ps : List (I2 × I2)) (s : PathState D) (u : I2) (hu : u ∉ s.q)
    (h : Relaxed sqrt obstacles paths end_ s u) :
    Relaxed sqrt obstacles paths end_ (ps.foldl (fun s p => relax sqrt p.1 p.2 s) s) u := by
  induction ps generalizing s with
  | nil => exact h
  | cons p rest ih =>
    rw [List.foldl_cons]
    exact ih _ (by rw [relax_q]; exact hu) (Relaxed_relax sqrt obstacles paths end_ p.1 p.2 u s hu h)

/-- After the loop every relaxed pair whose source is not a target of the loop is
at most one hop apart. -/
theorem pfold_post (ps : List (I2 × I2)) (s : PathState D) (p : I2 × I2) (hp : p ∈ ps)
    (hq : p.2 ∈ s.q) (hsrc : ∀ p' ∈ ps, p'.2 ≠ p.1) :
    (ps.foldl (fun s p => relax sqrt p.1 p.2 s) s).dists p.2 ≤
      ((Length sqrt p.1 p.2 : D) : WithTop D) +
        (ps.foldl (fun s p => relax sqrt p.1 p.2 s) s).dists p.1 := by
  rw [pfold_dists_ne sqrt ps s p.1 hsrc]
  induction ps generalizing s with
  | nil => exact absurd hp (List.not_mem_nil _)
  | cons p0 rest ih =>
    rw [List.foldl_cons]
    rcases List.mem_cons.mp hp with rfl | hmem
    · exact le_trans (pfold_dists_le sqrt rest _ p.2) (relax_dists_target sqrt p.1 p.2 s hq)
    · have h1 := ih (relax sqrt p0.1 p0.2 s) hmem (by rw [relax_q]; exact hq)
        (fun p' hp' => hsrc p' (List.mem_cons_of_mem _ hp'))
      rw [relax_dists_ne sqrt p0.1 p0.2 s p.1
        (Ne.symm (hsrc p0 (List.mem_cons_self _ _)))] at h1
      exact h1

theorem foldEdges_eq (u : I2) (vs : List I2) (s : PathState D) :
    vs.foldl (fun s v => relax sqrt u v s) s =
      (vs.map (fun v => (u, v))).foldl (fun s p => relax sqrt p.1 p.2 s) s := by
  rw [List.foldl_map]

theorem foldEnd_eq (ws : List I2) (s : PathState D) :
    ws.foldl (fun s v => relax sqrt v end_ s) s =
      (ws.map (fun v => (v, end_))).foldl (fun s p => relax sqrt p.1 p.2 s) s := by
  rw [List.foldl_map]

theorem selectMin_fold_spec (dists : I2 → WithTop D) (l : List I2) (acc : WithTop D × I2) :
    let r := l.foldl (fun (acc : WithTop D × I2) v =>
      if dists v < acc.1 then (dists v, v) else acc) acc
    r.1 ≤ acc.1 ∧ (∀ v ∈ l, r.1 ≤ dists v) ∧ (r = acc ∨ (r.2 ∈ l ∧ r.1 = dists r.2)) := by
  induction l generalizing acc with
  | nil => simp
  | cons v rest ih =>
    simp only [List.foldl_cons]
    obtain ⟨h1, h2, h3⟩ := ih (if dists v < acc.1 then (dists v, v) else acc)
    have hstep : (if dists v < acc.1 then (dists v, v) else acc).1 ≤ acc.1 := by
      split_ifs with c
      · exact le_of_lt c
      · exact le_refl _
    refine ⟨le_trans h1 hstep, ?_, ?_⟩
    · intro x hx
      rcases List.mem_cons.mp hx with rfl | hmem
      · refine le_trans h1 ?_
        split_ifs with c
        · exact le_refl _
        · exact not_lt.mp c
      · exact h2 x hmem
    · rcases h3 with h3 | ⟨h3, h4⟩
      · rw [h3]
        split_ifs with c
        · exact Or.inr ⟨List.mem_cons_self _ _, rfl⟩
        · exact Or.inl rfl
      · exact Or.inr ⟨List.mem_cons_of_mem _ h3, h4⟩

/-- The selection loop returns a lower bound of `dists` on the vertices it ranges over,
and unless that bound is infinite it is attained at the selected vertex. -/
theorem selectMin_spec (dists : I2 → WithTop D) (l : List I2) :
    (∀ v ∈ l, (selectMin dists l).1 ≤ dists v) ∧
    ((selectMin dists l).1 = ⊤ ∨
      ((selectMin dists l).2 ∈ l ∧ (selectMin dists l).1 = dists (selectMin dists l).2)) := by
  obtain ⟨-, h2, h3⟩ := selectMin_fold_spec dists l (⊤, ⟨0, 0⟩)
  refine ⟨h2, ?_⟩
  rcases h3 with h3 | h3
  · left
    unfold selectMin
    rw [h3]
  · exact Or.inr h3

end Folds

/-! ## FindPath: one iteration of the search loop, and the whole loop -/

section Search

variable {D : Type} [LinearOrder D] [Add D] [Zero D] [DistLaws D] (sqrt : Int → D)
  (obstacles paths : Graph) (start end_ boundsUL boundsDR : I2)

theorem pfold_post_settled (ps : List (I2 × I2)) (s : PathState D) (p : I2 × I2) (hp : p ∈ ps)
    (hq : p.2 ∈ s.q) (hsrc : p.1 ∉ s.q) :
    (ps.foldl (fun s p => relax sqrt p.1 p.2 s) s).dists p.2 ≤
      ((Length sqrt p.1 p.2 : D) : WithTop D) +
        (ps.foldl (fun s p => relax sqrt p.1 p.2 s) s).dists p.1 := by
  rw [pfold_dists_not_mem sqrt ps s p.1 hsrc]
  induction ps generalizing s with
  | nil => exact absurd hp (List.not_mem_nil _)
  | cons p0 rest ih =>
    rw [List.foldl_cons]
    rcases List.mem_cons.mp hp with rfl | hmem
    · exact le_trans (pfold_dists_le sqrt rest _ p.2) (relax_dists_target sqrt p.1 p.2 s hq)
    · have h1 := ih (relax sqrt p0.1 p0.2 s) hmem (by rw [relax_q]; exact hq)
        (by rw [relax_q]; exact hsrc)
      rw [relax_dists_not_mem sqrt p0.1 p0.2 s p.1 hsrc] at h1
      exact h1

theorem Route_cand (w : I2) (L : D)
    (h : Route sqrt obstacles paths start boundsUL boundsDR w L) :
    Candidate paths boundsUL boundsDR w := by
  cases h with
  | seed h1 _ => exact h1
  | edge _ h1 _ => exact h1

/-- No route into a vertex of `q` is shorter than a lower bound of `dists` on `q`. -/
theorem route_lower_bound (K k : Nat) (s : PathState D)
    (hinv : Inv sqrt obstacles paths start end_ boundsUL boundsDR K k s)
    (hrel : ∀ u, Candidate paths boundsUL boundsDR u → u ∉ s.q →
      Relaxed sqrt obstacles paths end_ s u)
    (m : WithTop D) (hm : ∀ v, v ∈ s.q → m ≤ s.dists v) (w : I2) (L : D)
    (hr : Route sqrt obstacles paths start boundsUL boundsDR w L) (hw : w ∈ s.q) :
    m ≤ ((L : D) : WithTop D) := by
  induction hr with
  | seed h1 h2 => exact le_trans (hm _ hw) (hinv.seeded _ h1 h2)
  | @edge u v L hr' h1 h2 ih =>
    rw [WithTop.coe_add]
    by_cases hu : u ∈ s.q
    · exact le_trans (ih hu) wt_le_add
    · have hcu := Route_cand sqrt obstacles paths start boundsUL boundsDR u L hr'
      have h3 := (hrel u hcu hu).1 v hw h2
      have h4 := hinv.opt u hcu hu L hr'
      exact le_trans (hm _ hw) (le_trans h3 (wt_add_mono h4 _))

/-- One iteration of the search loop that removes u from `q` keeps the invariant. -/
theorem step_inv (K k : Nat) (s : PathState D) (u : I2) (ws : List I2)
    (hinv : Inv sqrt obstacles paths start end_ boundsUL boundsDR K k s)
    (hrel : ∀ u, Candidate paths boundsUL boundsDR u → u ∉ s.q →
      Relaxed sqrt obstacles paths end_ s u)
    (hu : u ∈ s.q) (hue : u ≠ end_) (hfin : s.dists u < ⊤)
    (hmin : ∀ v, v ∈ s.q → s.dists u ≤ s.dists v) (hws : ∀ w, w ∈ ws ↔ w ∈ s.endN) :
    Inv sqrt obstacles paths start end_ boundsUL boundsDR K (k + 1)
      (ws.foldl (fun s v => relax sqrt v end_ s)
        (((paths.E.lookup u).getD ∅).keys.foldl (fun s v => relax sqrt u v s)
          { s with q := s.q.filter (fun v => v ≠ u) })) ∧
    (∀ u', Candidate paths boundsUL boundsDR u' →
      u' ∉ (ws.foldl (fun s v => relax sqrt v end_ s)
        (((paths.E.lookup u).getD ∅).keys.foldl (fun s v => relax sqrt u v s)
          { s with q := s.q.filter (fun v => v ≠ u) })).q →
      Relaxed sqrt obstacles paths end_
        (ws.foldl (fun s v => relax sqrt v end_ s)
          (((paths.E.lookup u).getD ∅).keys.foldl (fun s v => relax sqrt u v s)
            { s with q := s.q.filter (fun v => v ≠ u) })) u') ∧
    (ws.foldl (fun s v => relax sqrt v end_ s)
        (((paths.E.lookup u).getD ∅).keys.foldl (fun s v => relax sqrt u v s)
          { s with q := s.q.filter (fun v => v ≠ u) })).q.length < s.q.length := by
  have hcu : Candidate paths boundsUL boundsDR u := (hinv.q_sub u hu).resolve_left hue
  -- the state after `delete(q, u)`
  generalize hs1 : ({ s with q := s.q.filter (fun v => v ≠ u) } : PathState D) = s1
  have hq1 : s1.q = s.q.filter (fun v => v ≠ u) := by rw [← hs1]
  have hd1 : s1.dists = s.dists := by rw [← hs1]
  have hp1 : s1.prev = s.prev := by rw [← hs1]
  have he1 : s1.endN = s.endN := by rw [← hs1]
  have hmem1 : ∀ x, x ∈ s1.q ↔ x ∈ s.q ∧ x ≠ u := by
    intro x
    rw [hq1, List.mem_filter]
    simp
  have hnot1 : ∀ x, x ∉ s.q → x ∉ s1.q := fun x hx h => hx ((hmem1 x).mp h).1
  have hlen1 : s1.q.length < s.q.length := by
    rw [hq1]
    exact List.length_filter_lt_length_iff_exists.mpr ⟨u, hu, by simp⟩
  have hmono : ∀ w r, SPath obstacles paths start end_ boundsUL boundsDR s.prev s.q w r →
      SPath obstacles paths start end_ boundsUL boundsDR s1.prev s1.q w r := by
    intro w r h
    exact SPath_mono obstacles paths start end_ boundsUL boundsDR s.prev s1.prev s.q s1.q hnot1
      (fun x _ => by rw [hp1]) w r h
  -- u itself is now linked to `start`
  have hsu : ∃ r, SPath obstacles paths start end_ boundsUL boundsDR s1.prev s1.q u r ∧
      r.length ≤ k + 1 := by
    by_cases hus : u = start
    · exact ⟨[], hus ▸ SPath.base, Nat.zero_le _⟩
    · rcases hinv.fin_prev u (Or.inr hcu) hfin with h | h
      · exact absurd h hus
      · obtain ⟨u0, hu0⟩ := Option.isSome_iff_exists.mp h
        obtain ⟨-, hhop, -, hanch⟩ := hinv.prev_ok u u0 hu0 hus
        rcases hanch with ⟨r, hr, hk⟩ | ⟨h5, -⟩
        · refine ⟨u :: r, SPath.step hus (fun h => ((hmem1 u).mp h).2 rfl) hcu
            (by rw [hp1]; exact hu0) hhop (hmono u0 r hr), ?_⟩
          simp only [List.length_cons]
          omega
        · exact absurd h5 hue
  have hinv1 : Inv sqrt obstacles paths start end_ boundsUL boundsDR K (k + 1) s1 := by
    refine ⟨?_, ?_, ?_, ?_, ?_, ?_, ?_, ?_, ?_, ?_, hinv.blocked⟩
    · exact (hmem1 end_).mpr ⟨hinv.end_mem, Ne.symm hue⟩
    · intro v hv
      exact hinv.q_sub v ((hmem1 v).mp hv).1
    · rw [he1]; exact hinv.endN_iff
    · have := hinv.count
      omega
    · intro v u0 hvu hvs
      rw [hp1] at hvu
      obtain ⟨h1, h2, h3, h4⟩ := hinv.prev_ok v u0 hvu hvs
      refine ⟨h1, h2, by rw [hd1]; exact h3, ?_⟩
      rcases h4 with ⟨r, hr, hk⟩ | ⟨h5, h6, h7, h8, h9⟩
      · exact Or.inl ⟨r, hmono u0 r hr, by omega⟩
      · by_cases hu0 : u0 = u
        · subst hu0
          exact Or.inl hsu
        · exact Or.inr ⟨h5, h6, h7, (hmem1 u0).mpr ⟨h8, hu0⟩, by rw [hp1]; exact h9⟩
    · intro v hv hfinv
      rw [hd1] at hfinv
      rw [hp1]
      exact hinv.fin_prev v hv hfinv
    · intro w hw hwq
      by_cases hwu : w = u
      · subst hwu
        exact hsu
      · have : w ∉ s.q := fun h => hwq ((hmem1 w).mpr ⟨h, hwu⟩)
        obtain ⟨r, hr, hk⟩ := hinv.settled w hw this
        exact ⟨r, hmono w r hr, by omega⟩
    · intro w hw hwq L hL
      rw [hd1]
      by_cases hwu : w = u
      · subst hwu
        exact route_lower_bound sqrt obstacles paths start end_ boundsUL boundsDR K k s hinv hrel
          (s.dists w) hmin w L hL hu
      · have : w ∉ s.q := fun h => hwq ((hmem1 w).mpr ⟨h, hwu⟩)
        exact hinv.opt w hw this L hL
    · rw [hd1]; exact hinv.seeded
    · intro v u0 hvu
      rw [hp1] at hvu
      rw [hd1]
      exact hinv.prev_fin v u0 hvu
  have hu1 : u ∉ s1.q := fun h => ((hmem1 u).mp h).2 rfl
  -- the loop over `paths.E[u]`
  rw [foldEdges_eq, foldEnd_eq]
  generalize hs2 : ((((paths.E.lookup u).getD ∅).keys.map (fun v => (u, v))).foldl
    (fun s p => relax sqrt p.1 p.2 s) s1) = s2
  have hq2 : s2.q = s1.q := by rw [← hs2, pfold_q]
  have he2 : s2.endN = s1.endN := by rw [← hs2, pfold_endN]
  have hinv2 : Inv sqrt obstacles paths start end_ boundsUL boundsDR K (k + 1) s2 := by
    rw [← hs2]
    apply pfold_inv sqrt obstacles paths start end_ boundsUL boundsDR K (k + 1) _ s1 hinv1
    intro p hp
    obtain ⟨v, hv, rfl⟩ := List.mem_map.mp hp
    exact ⟨Or.inr (Or.inl ⟨hcu, hv⟩), Or.inr (Or.inl hsu)⟩
  -- the loop over `endN`
  generalize hs3 : ((ws.map (fun v => (v, end_))).foldl
    (fun s p => relax sqrt p.1 p.2 s) s2) = s3
  have hq3 : s3.q = s2.q := by rw [← hs3, pfold_q]
  have hinv3 : Inv sqrt obstacles paths start end_ boundsUL boundsDR K (k + 1) s3 := by
    rw [← hs3]
    apply pfold_inv sqrt obstacles paths start end_ boundsUL boundsDR K (k + 1) _ s2 hinv2
    intro p hp
    obtain ⟨w, hw, rfl⟩ := List.mem_map.mp hp
    have hwN : Candidate paths boundsUL boundsDR w ∧ obstacles.Blocks w end_ = false :=
      (hinv.endN_iff w).mp ((hws w).mp hw)
    refine ⟨Or.inr (Or.inr ⟨rfl, hwN.1, hwN.2⟩), ?_⟩
    by_cases hwe : w = end_
    · exact Or.inl hwe
    · by_cases hwq : w ∈ s2.q
      · refine Or.inr (Or.inr ⟨rfl, ?_, hwq⟩)
        rintro rfl
        have := hinv.blocked
        rw [hwN.2] at this
        exact absurd this (by simp)
      · exact Or.inr (Or.inl (hinv2.settled w hwN.1 hwq))
  refine ⟨hinv3, ?_, by rw [hq3, hq2]; exact hlen1⟩
  intro u' hcu' hu'q
  rw [hq3, hq2] at hu'q
  by_cases hu'u : u' = u
  · subst hu'u
    constructor
    · intro v hv hadj
      rw [hq3, hq2] at hv
      have h1 : s2.dists v ≤ ((Length sqrt u' v : D) : WithTop D) + s2.dists u' := by
        rw [← hs2]
        exact pfold_post_settled sqrt _ s1 (u', v) (List.mem_map.mpr ⟨v, hadj, rfl⟩) hv hu1
      rw [← hs3, pfold_dists_not_mem sqrt _ s2 u' (by rw [hq2]; exact hu1)]
      exact le_trans (pfold_dists_le sqrt _ s2 v) h1
    · intro hb
      have hmemw : u' ∈ ws := (hws u').mpr ((hinv.endN_iff u').mpr ⟨hcu, hb⟩)
      rw [← hs3]
      exact pfold_post sqrt _ s2 (u', end_) (List.mem_map.mpr ⟨u', hmemw, rfl⟩)
        hinv2.end_mem (by
          intro p' hp'
          obtain ⟨w, -, rfl⟩ := List.mem_map.mp hp'
          exact Ne.symm hue)
  · have hu's : u' ∉ s.q := fun h => hu'q ((hmem1 u').mpr ⟨h, hu'u⟩)
    have hr0 := hrel u' hcu' hu's
    have hr1 : Relaxed sqrt obstacles paths end_ s1 u' := by
      constructor
      · intro v hv hadj
        rw [hd1]
        exact hr0.1 v ((hmem1 v).mp hv).1 hadj
      · intro hb
        rw [hd1]
        exact hr0.2 hb
    have hr2 : Relaxed sqrt obstacles paths end_ s2 u' := by
      rw [← hs2]
      exact pfold_relaxed sqrt obstacles paths end_ _ s1 u' hu'q hr1
    rw [← hs3]
    exact pfold_relaxed sqrt obstacles paths end_ _ s2 u' (by rw [hq2]; exact hu'q) hr2

end Search

/-! ## FindPath: the search loop ends, the reconstruction loop ends -/

section Loop

variable {D : Type} [LinearOrder D] [Add D] [Zero D] [DistLaws D] (sqrt : Int → D) (ro : RangeOrder)
  (obstacles paths : Graph) (start end_ boundsUL boundsDR : I2)

/-- The search loop ends within `len(q) + 1` iterations, keeps the invariant, and ends
because `end` was selected or because the selected distance is infinite. -/
theorem search_spec (K : Nat) : ∀ (n k : Nat) (s : PathState D),
    Inv sqrt obstacles paths start end_ boundsUL boundsDR K k s →
    (∀ u, Candidate paths boundsUL boundsDR u → u ∉ s.q →
      Relaxed sqrt obstacles paths end_ s u) →
    s.q.length < n →
    ∃ s' k', search sqrt ro paths end_ n s = some s' ∧
      Inv sqrt obstacles paths start end_ boundsUL boundsDR K k' s' ∧
      (∀ u, Candidate paths boundsUL boundsDR u → u ∉ s'.q →
        Relaxed sqrt obstacles paths end_ s' u) ∧
      ∃ j, (selectMin s'.dists (ro.perm j s'.q)).2 = end_ ∨
        (selectMin s'.dists (ro.perm j s'.q)).1 = ⊤ := by
  intro n
  induction n with
  | zero => intro k s _ _ h; exact absurd h (Nat.not_lt_zero _)
  | succ n ih =>
    intro k s hinv hrel hlen
    have hpos : s.q.length > 0 := List.length_pos_of_mem hinv.end_mem
    by_cases hexit : (selectMin s.dists (ro.perm (2 * n) s.q)).2 = end_ ∨
        (selectMin s.dists (ro.perm (2 * n) s.q)).1 = ⊤
    · refine ⟨s, k, ?_, hinv, hrel, 2 * n, hexit⟩
      simp only [search, hpos, if_true, hexit]
    · obtain ⟨hmin, hsel⟩ := selectMin_spec s.dists (ro.perm (2 * n) s.q)
      have hne : (selectMin s.dists (ro.perm (2 * n) s.q)).2 ≠ end_ := fun h => hexit (Or.inl h)
      have hnt : (selectMin s.dists (ro.perm (2 * n) s.q)).1 ≠ ⊤ := fun h => hexit (Or.inr h)
      obtain ⟨hmem, heq⟩ := hsel.resolve_left hnt
      have hu : (selectMin s.dists (ro.perm (2 * n) s.q)).2 ∈ s.q :=
        (ro.isPerm (2 * n) s.q).mem_iff.mp hmem
      have hfin : s.dists (selectMin s.dists (ro.perm (2 * n) s.q)).2 < ⊤ := by
        rw [← heq]
        exact lt_top_iff_ne_top.mpr hnt
      have hmin' : ∀ v, v ∈ s.q →
          s.dists (selectMin s.dists (ro.perm (2 * n) s.q)).2 ≤ s.dists v := by
        intro v hv
        rw [← heq]
        exact hmin v ((ro.isPerm (2 * n) s.q).mem_iff.mpr hv)
      obtain ⟨h1, h2, h3⟩ := step_inv sqrt obstacles paths start end_ boundsUL boundsDR K k s
        (selectMin s.dists (ro.perm (2 * n) s.q)).2 (ro.perm (2 * n + 1) s.endN)
        hinv hrel hu hne hfin hmin' (fun w => (ro.isPerm (2 * n + 1) s.endN).mem_iff)
      obtain ⟨s', k', h4, h5⟩ := ih (k + 1) _ h1 h2 (by omega)
      refine ⟨s', k', ?_, h5⟩
      rw [← h4]
      simp only [search, hpos, if_true, hexit, if_false]

theorem walk_step (prev : AList (fun _ : I2 => I2)) (n : Nat) (w u : I2) (acc : List I2)
    (hw : w ≠ start) (hp : prev.lookup w = some u) :
    walk prev start (n + 1) w acc = walk prev start n u (acc ++ [w]) := by
  simp [walk, hw, hp]

/-- With more fuel than vertices on the way, the reconstruction loop reaches `start`
and returns the vertices it met. -/
theorem walk_PChain (prev : AList (fun _ : I2 => I2)) (w : I2) (r : List I2)
    (h : PChain prev start w r) :
    ∀ (n : Nat) (acc : List I2), r.length < n → walk prev start n w acc = some (acc ++ r) := by
  induction h with
  | base =>
    intro n acc hn
    cases n with
    | zero => exact absurd hn (Nat.not_lt_zero _)
    | succ n => simp [walk]
  | @step w u r hw hp _ ih =>
    intro n acc hn
    cases n with
    | zero => exact absurd hn (Nat.not_lt_zero _)
    | succ n =>
      rw [walk_step start prev n w u acc hw hp, ih n (acc ++ [w])
        (by simp only [List.length_cons] at hn; omega)]
      simp

theorem SPath_PChain (prev : AList (fun _ : I2 => I2)) (q : List I2) (w : I2) (r : List I2)
    (h : SPath obstacles paths start end_ boundsUL boundsDR prev q w r) :
    PChain prev start w r ∧ ∀ x ∈ r, Candidate paths boundsUL boundsDR x ∧ x ∉ q := by
  induction h with
  | base => exact ⟨PChain.base, fun x hx => absurd hx (List.not_mem_nil _)⟩
  | step h1 h2 h3 h4 _ _ ih =>
    refine ⟨PChain.step h1 h4 ih.1, ?_⟩
    intro x hx
    rcases List.mem_cons.mp hx with rfl | hmem
    · exact ⟨h3, h2⟩
    · exact ih.2 x hmem

theorem PChain_ne_start (prev : AList (fun _ : I2 => I2)) (w : I2) (r : List I2)
    (h : PChain prev start w r) : ∀ x ∈ r, x ≠ start := by
  induction h with
  | base => exact fun x hx => absurd hx (List.not_mem_nil _)
  | step h1 _ _ ih =>
    intro x hx
    rcases List.mem_cons.mp hx with rfl | hmem
    · exact h1
    · exact ih x hmem

theorem SegmentIntersectI_degenerate (p q a : I2) : (SegmentIntersectI p q a a).2 = false := by
  unfold SegmentIntersectI
  simp

/-- A point is never blocked from itself. -/
theorem Blocks_self (g : Graph) (x : I2) : g.Blocks x x = false := by
  by_contra h
  rw [Bool.not_eq_false] at h
  obtain ⟨u, v, -, -, hi⟩ := (Blocks_true_iff g x x).mp h
  rw [SegmentIntersectI_degenerate] at hi
  exact absurd hi (by simp)

end Loop

/-! ## FindPath: the invariant holds when the search loop starts -/

section Init

variable {D : Type} [LinearOrder D] [Add D] [Zero D] [DistLaws D] (sqrt : Int → D) (ro : RangeOrder)
  (obstacles paths : Graph) (start end_ boundsUL boundsDR : I2)

theorem init_inv (hb : obstacles.Blocks start end_ = true) :
    Inv sqrt obstacles paths start end_ boundsUL boundsDR
      (seed sqrt obstacles paths start end_ boundsUL boundsDR).q.length 0
      { seed sqrt obstacles paths start end_ boundsUL boundsDR with
        dists := Function.update
          (Function.update (seed sqrt obstacles paths start end_ boundsUL boundsDR).dists start 0)
          end_ ⊤ } := by
  have hne : start ≠ end_ := by
    rintro rfl
    rw [Blocks_self] at hb
    exact absurd hb (by simp)
  have hseedv : ∀ v u, (seed sqrt obstacles paths start end_ boundsUL boundsDR).prev.lookup v
      = some u → u = start ∧ Candidate paths boundsUL boundsDR v ∧
        obstacles.Blocks start v = false := by
    intro v u h
    rw [seed_prev] at h
    split_ifs at h with c
    · exact ⟨(Option.some.inj h).symm, c.1, c.2⟩
  refine ⟨?_, ?_, ?_, ?_, ?_, ?_, ?_, ?_, ?_, ?_, hb⟩
  · exact (seed_q sqrt obstacles paths start end_ boundsUL boundsDR end_).mpr (Or.inl rfl)
  · intro v hv
    exact (seed_q sqrt obstacles paths start end_ boundsUL boundsDR v).mp hv
  · intro v
    exact seed_endN sqrt obstacles paths start end_ boundsUL boundsDR v
  · simp
  · intro v u hvu hvs
    obtain ⟨rfl, hc, hbv⟩ := hseedv v u hvu
    have hve : v ≠ end_ := by
      rintro rfl
      rw [hb] at hbv
      exact absurd hbv (by simp)
    refine ⟨Or.inr hc, Or.inl ⟨rfl, hc, hbv⟩, ?_, Or.inl ⟨[], SPath.base, Nat.le_refl _⟩⟩
    simp only
    rw [Function.update_noteq hve, Function.update_noteq hvs, Function.update_noteq hne,
      Function.update_same, seed_dists, if_pos hc, if_neg (by rw [hbv]; simp), wt_add_zero]
  · intro v hv hfin
    simp only at hfin ⊢
    by_cases hve : v = end_
    · subst hve
      rw [Function.update_same] at hfin
      exact absurd hfin (lt_irrefl _)
    · by_cases hvs : v = start
      · exact Or.inl hvs
      · right
        rw [Function.update_noteq hve, Function.update_noteq hvs, seed_dists] at hfin
        have hc : Candidate paths boundsUL boundsDR v := hv.resolve_left hve
        rw [if_pos hc] at hfin
        have hbv : obstacles.Blocks start v = false := by
          by_contra h
          rw [Bool.not_eq_false] at h
          rw [if_pos h] at hfin
          exact absurd hfin (lt_irrefl _)
        rw [seed_prev, if_pos ⟨hc, hbv⟩]
        rfl
  · intro w hw hwq
    exact absurd ((seed_q sqrt obstacles paths start end_ boundsUL boundsDR w).mpr (Or.inr hw)) hwq
  · intro w hw hwq
    exact absurd ((seed_q sqrt obstacles paths start end_ boundsUL boundsDR w).mpr (Or.inr hw)) hwq
  · intro v hc hbv
    have hve : v ≠ end_ := by
      rintro rfl
      rw [hb] at hbv
      exact absurd hbv (by simp)
    simp only
    rw [Function.update_noteq hve]
    by_cases hvs : v = start
    · subst hvs
      rw [Function.update_same]
      exact wt_zero_le _
    · rw [Function.update_noteq hvs, seed_dists, if_pos hc, if_neg (by rw [hbv]; simp)]
  · intro v u hvu
    obtain ⟨rfl, hc, hbv⟩ := hseedv v u hvu
    have hve : v ≠ end_ := by
      rintro rfl
      rw [hb] at hbv
      exact absurd hbv (by simp)
    simp only
    rw [Function.update_noteq hve]
    by_cases hvs : v = u
    · subst hvs
      rw [Function.update_same]
      exact WithTop.top_pos
    · rw [Function.update_noteq hvs, seed_dists, if_pos hc, if_neg (by rw [hbv]; simp)]
      exact WithTop.coe_lt_top _

end Init

/-! ## FindPath: what a call with start-end blocked returns -/

section Result

variable {D : Type} [LinearOrder D] [Add D] [Zero D] [DistLaws D] (sqrt : Int → D) (ro : RangeOrder)
  (obstacles paths : Graph) (start end_ boundsUL boundsDR : I2)

/-- A call of FindPath with start-end blocked returns "no paths possible" from the
infeasibility check, or runs the search loop to its end and then returns "no path"
when `end` has no predecessor, and otherwise the reversed list of the vertices met
by following `prev` from `end`. -/
theorem FindPath_blocked_spec (hb : obstacles.Blocks start end_ = true) :
    (((seed sqrt obstacles paths start end_ boundsUL boundsDR).prev.entries.length = 0 ∨
      (seed sqrt obstacles paths start end_ boundsUL boundsDR).endN.length = 0) ∧
      FindPath sqrt ro obstacles paths start end_ boundsUL boundsDR =
        some PathResult.noPathsPossible) ∨
    (¬ ((seed sqrt obstacles paths start end_ boundsUL boundsDR).prev.entries.length = 0 ∨
      (seed sqrt obstacles paths start end_ boundsUL boundsDR).endN.length = 0) ∧
      ∃ (s' : PathState D) (k' : Nat),
        Inv sqrt obstacles paths start end_ boundsUL boundsDR
          (seed sqrt obstacles paths start end_ boundsUL boundsDR).q.length k' s' ∧
        (∀ u, Candidate paths boundsUL boundsDR u → u ∉ s'.q →
          Relaxed sqrt obstacles paths end_ s' u) ∧
        (∃ j, (selectMin s'.dists (ro.perm j s'.q)).2 = end_ ∨
          (selectMin s'.dists (ro.perm j s'.q)).1 = ⊤) ∧
        ((s'.prev.lookup end_ = none ∧
            FindPath sqrt ro obstacles paths start end_ boundsUL boundsDR =
              some PathResult.noPath) ∨
          (∃ r', PChain s'.prev start end_ (end_ :: r') ∧
            (∀ x ∈ r', Candidate paths boundsUL boundsDR x ∧ x ≠ end_) ∧
            r'.length ≤ (seed sqrt obstacles paths start end_ boundsUL boundsDR).q.length ∧
            FindPath sqrt ro obstacles paths start end_ boundsUL boundsDR =
              some (PathResult.path (end_ :: r').reverse)))) := by
  have hne : end_ ≠ start := by
    rintro rfl
    rw [Blocks_self] at hb
    exact absurd hb (by simp)
  by_cases hempty : (seed sqrt obstacles paths start end_ boundsUL boundsDR).prev.entries.length = 0 ∨
      (seed sqrt obstacles paths start end_ boundsUL boundsDR).endN.length = 0
  · left
    refine ⟨hempty, ?_⟩
    unfold FindPath
    simp only [hb, Bool.not_true, Bool.false_eq_true, if_false]
    rw [if_pos hempty]
  · right
    refine ⟨hempty, ?_⟩
    have hinv0 := init_inv sqrt obstacles paths start end_ boundsUL boundsDR hb
    obtain ⟨s', k', hsearch, hinv, hrel, hexit⟩ :=
      search_spec sqrt ro obstacles paths start end_ boundsUL boundsDR
        (seed sqrt obstacles paths start end_ boundsUL boundsDR).q.length
        ((seed sqrt obstacles paths start end_ boundsUL boundsDR).q.length + 1) 0 _ hinv0
        (fun u hu hq => absurd
          ((seed_q sqrt obstacles paths start end_ boundsUL boundsDR u).mpr (Or.inr hu)) hq)
        (Nat.lt_succ_self _)
    refine ⟨s', k', hinv, hrel, hexit, ?_⟩
    have hK : k' + 1 ≤ (seed sqrt obstacles paths start end_ boundsUL boundsDR).q.length := by
      have h1 := hinv.count
      have h2 : s'.q.length > 0 := List.length_pos_of_mem hinv.end_mem
      omega
    cases hlook : s'.prev.lookup end_ with
    | none =>
      left
      refine ⟨rfl, ?_⟩
      unfold FindPath
      simp only [hb, Bool.not_true, Bool.false_eq_true, if_false]
      rw [if_neg hempty]
      simp only [hsearch, hlook, Option.isNone_none, if_true]
    | some u =>
      right
      obtain ⟨-, -, -, hanch⟩ := hinv.prev_ok end_ u hlook hne
      -- the vertices met after `end`
      have hchain : ∃ r', PChain s'.prev start end_ (end_ :: r') ∧
          (∀ x ∈ r', Candidate paths boundsUL boundsDR x ∧ x ≠ end_) ∧ r'.length ≤ k' + 1 := by
        rcases hanch with ⟨r, hr, hk⟩ | ⟨-, h6, h7, h8, h9⟩
        · obtain ⟨hp, hc⟩ := SPath_PChain obstacles paths start end_ boundsUL boundsDR _ _ _ _ hr
          refine ⟨r, PChain.step hne hlook hp, ?_, by omega⟩
          intro x hx
          exact ⟨(hc x hx).1, fun h => (hc x hx).2 (h ▸ hinv.end_mem)⟩
        · obtain ⟨u0, hu0⟩ := Option.isSome_iff_exists.mp h9
          obtain ⟨hcu, -, -, hanch'⟩ := hinv.prev_ok u u0 hu0 h6
          have hcu' : Candidate paths boundsUL boundsDR u := hcu.resolve_left h7
          rcases hanch' with ⟨r, hr, hk⟩ | ⟨h5, -⟩
          · obtain ⟨hp, hc⟩ := SPath_PChain obstacles paths start end_ boundsUL boundsDR _ _ _ _ hr
            refine ⟨u :: r, PChain.step hne hlook (PChain.step h6 hu0 hp), ?_, by
              simp only [List.length_cons]; omega⟩
            intro x hx
            rcases List.mem_cons.mp hx with rfl | hmem
            · exact ⟨hcu', h7⟩
            · exact ⟨(hc x hmem).1, fun h => (hc x hmem).2 (h ▸ hinv.end_mem)⟩
          · exact absurd h5 h7
      obtain ⟨r', hp, hc, hlen⟩ := hchain
      refine ⟨r', hp, hc, by omega, ?_⟩
      have hwalk := walk_PChain start s'.prev end_ (end_ :: r') hp
        ((seed sqrt obstacles paths start end_ boundsUL boundsDR).q.length + 2) []
        (by simp only [List.length_cons]; omega)
      unfold FindPath
      simp only [hb, Bool.not_true, Bool.false_eq_true, if_false]
      rw [if_neg hempty]
      simp only [hsearch, hlook, Option.isNone_some, Bool.false_eq_true, if_false]
      rw [hwalk]
      simp

end Result

/-! ## FindPath: the returned path -/

section Path

variable {D : Type} [LinearOrder D] [Add D] [Zero D] [DistLaws D] (sqrt : Int → D) (ro : RangeOrder)
  (obstacles paths : Graph) (start end_ boundsUL boundsDR : I2)

theorem chain_snoc {R : I2 → I2 → Prop} (a w : I2) (l : List I2) :
    List.Chain R a (l ++ [w]) ↔ List.Chain R a l ∧ R (l.getLastD a) w := by
  induction l generalizing a with
  | nil => simp
  | cons b l ih =>
    simp only [List.cons_append, List.chain_cons, ih, List.getLastD_cons]
    exact and_assoc.symm

theorem accLen_snoc (a w : I2) (l : List I2) (acc : D) :
    accLen sqrt a (l ++ [w]) acc = Length sqrt (l.getLastD a) w + accLen sqrt a l acc := by
  induction l generalizing a acc with
  | nil => rfl
  | cons b l ih =>
    rw [List.cons_append, List.getLastD_cons]
    exact ih b _

theorem PChain_last (prev : AList (fun _ : I2 => I2)) (u : I2) (r : List I2)
    (h : PChain prev start u r) : r.reverse.getLastD start = u := by
  cases h with
  | base => rfl
  | step _ _ _ => simp

theorem HasEdge_Adj (g : Graph) (u v : I2) (h : g.HasEdge u v) : g.Adj u v := by
  obtain ⟨l, hl, hv⟩ := h
  unfold Graph.Adj
  rw [hl, Option.getD_some, ← AList.mem_keys, ← AList.lookup_isSome, hv]
  rfl

/-- Every hop met by following `prev` is one of the hops FindPath may record. -/
theorem PChain_hops (K k : Nat) (s : PathState D)
    (hinv : Inv sqrt obstacles paths start end_ boundsUL boundsDR K k s) (w : I2) (r : List I2)
    (h : PChain s.prev start w r) :
    List.Chain (Hop obstacles paths start end_ boundsUL boundsDR) start r.reverse := by
  induction h with
  | base => exact List.Chain.nil
  | @step w u r hw hp hr ih =>
    rw [List.reverse_cons, chain_snoc, PChain_last start s.prev u r hr]
    exact ⟨ih, (hinv.prev_ok w u hp hw).2.1⟩

/-- The path met by following `prev` from w, its length added up as FindPath does, is
no longer than `dists[w]`. -/
theorem PChain_acc (K k : Nat) (s : PathState D)
    (hinv : Inv sqrt obstacles paths start end_ boundsUL boundsDR K k s) (w : I2) (r : List I2)
    (h : PChain s.prev start w r) :
    ((accLen sqrt start r.reverse 0 : D) : WithTop D) ≤ s.dists w := by
  induction h with
  | base => exact wt_zero_le _
  | @step w u r hw hp hr ih =>
    rw [List.reverse_cons, accLen_snoc, PChain_last start s.prev u r hr, WithTop.coe_add]
    exact le_trans (wt_add_mono ih _) (hinv.prev_ok w u hp hw).2.2.1

/-- A chain of waypoint entries through candidates extends a route. -/
theorem route_of_chain (rest : List I2) : ∀ (u : I2) (L : D),
    Route sqrt obstacles paths start boundsUL boundsDR u L →
    List.Chain (fun a b => paths.Adj a b) u rest →
    (∀ x ∈ rest, Candidate paths boundsUL boundsDR x) →
    Route sqrt obstacles paths start boundsUL boundsDR (rest.getLastD u)
      (accLen sqrt u rest L) := by
  induction rest with
  | nil =>
    intro u L hr _ _
    exact hr
  | cons b rest ih =>
    intro u L hr hc hcand
    rw [List.chain_cons] at hc
    have hb := Route.edge hr (hcand b (List.mem_cons_self _ _)) hc.1
    have := ih b _ hb hc.2 (fun x hx => hcand x (List.mem_cons_of_mem _ hx))
    rw [List.getLastD_cons]
    exact this

/-- When the search loop has ended, `dists[end]` is at most the length of every route
that ends with a hop to `end` from a candidate not blocked towards `end`. -/
theorem end_le_route (K k : Nat) (s : PathState D)
    (hinv : Inv sqrt obstacles paths start end_ boundsUL boundsDR K k s)
    (hrel : ∀ u, Candidate paths boundsUL boundsDR u → u ∉ s.q →
      Relaxed sqrt obstacles paths end_ s u)
    (hexit : ∃ j, (selectMin s.dists (ro.perm j s.q)).2 = end_ ∨
      (selectMin s.dists (ro.perm j s.q)).1 = ⊤)
    (w : I2) (L : D) (hr : Route sqrt obstacles paths start boundsUL boundsDR w L)
    (hw : obstacles.Blocks w end_ = false) :
    s.dists end_ ≤ ((Length sqrt w end_ : D) : WithTop D) + ((L : D) : WithTop D) := by
  have hcw := Route_cand sqrt obstacles paths start boundsUL boundsDR w L hr
  by_cases hq : w ∈ s.q
  · obtain ⟨j, hj⟩ := hexit
    obtain ⟨hmin, hsel⟩ := selectMin_spec s.dists (ro.perm j s.q)
    have hlow : (selectMin s.dists (ro.perm j s.q)).1 ≤ ((L : D) : WithTop D) :=
      route_lower_bound sqrt obstacles paths start end_ boundsUL boundsDR K k s hinv hrel _
        (fun v hv => hmin v ((ro.isPerm j s.q).mem_iff.mpr hv)) w L hr hq
    have hnt : (selectMin s.dists (ro.perm j s.q)).1 ≠ ⊤ :=
      ne_of_lt (lt_of_le_of_lt hlow (WithTop.coe_lt_top L))
    have he : (selectMin s.dists (ro.perm j s.q)).2 = end_ := hj.resolve_right hnt
    have hd := (hsel.resolve_left hnt).2
    rw [he] at hd
    rw [← hd]
    exact le_trans hlow wt_le_add
  · exact le_trans ((hrel w hcw hq).2 hw) (wt_add_mono (hinv.opt w hcw hq L hr) _)

theorem getLastD_mem (rest : List I2) (u : I2) : rest.getLastD u = u ∨ rest.getLastD u ∈ rest := by
  induction rest generalizing u with
  | nil => exact Or.inl rfl
  | cons b rest ih =>
    rw [List.getLastD_cons]
    rcases ih b with h | h
    · rw [h]
      exact Or.inr (List.mem_cons_self _ _)
    · exact Or.inr (List.mem_cons_of_mem _ h)

end Path

/-! ## FindPath: the claims about the search -/

/-- C3 (amended): when FindPath returns a path p after a search (start-end blocked),
p = [v1, ..., vk, end] with k ≥ 0; every vi is a vertex of the waypoint graph inside
the rectangle boundsUL-boundsDR, other than start and end; and every hop x → y of
start → v1 → ... → vk → end is the first hop to a vertex not blocked from start, or
follows an entry of the waypoint map `paths.E[x]`, or is the last hop from a vertex
not blocked towards end. -/
theorem FindPath_path_hops {D : Type} [CanonicallyLinearOrderedAddCommMonoid D]
    (sqrt : Int → D) (ro : RangeOrder) (obstacles paths : Graph)
    (start end_ boundsUL boundsDR : I2) (p : List I2)
    (hb : obstacles.Blocks start end_ = true)
    (hp : FindPath sqrt ro obstacles paths start end_ boundsUL boundsDR =
      some (PathResult.path p)) :
    ∃ vs, p = vs ++ [end_] ∧
      (∀ v ∈ vs, Candidate paths boundsUL boundsDR v ∧ v ≠ start ∧ v ≠ end_) ∧
      List.Chain (fun x y => (x = start ∧ obstacles.Blocks start y = false) ∨ paths.Adj x y ∨
        (y = end_ ∧ obstacles.Blocks x end_ = false)) start p := by
  rcases FindPath_blocked_spec sqrt ro obstacles paths start end_ boundsUL boundsDR hb with
    ⟨-, h⟩ | ⟨-, s', k', hinv, -, -, ⟨-, h⟩ | ⟨r', hpc, hc, -, h⟩⟩
  · rw [h] at hp
    exact absurd hp (by simp)
  · rw [h] at hp
    exact absurd hp (by simp)
  · rw [h] at hp
    have hpe : p = r'.reverse ++ [end_] := by
      have := PathResult.path.inj (Option.some.inj hp)
      rw [← this, List.reverse_cons]
    refine ⟨r'.reverse, hpe, ?_, ?_⟩
    · intro v hv
      have hv' : v ∈ r' := List.mem_reverse.mp hv
      exact ⟨(hc v hv').1, PChain_ne_start start s'.prev end_ (end_ :: r') hpc v
        (List.mem_cons_of_mem _ hv'), (hc v hv').2⟩
    · have hch := PChain_hops sqrt obstacles paths start end_ boundsUL boundsDR _ k' s' hinv
        end_ (end_ :: r') hpc
      rw [List.reverse_cons, ← hpe] at hch
      refine List.Chain.imp ?_ hch
      intro x y hxy
      rcases hxy with ⟨h1, -, h3⟩ | ⟨-, h2⟩ | ⟨h1, -, h3⟩
      · exact Or.inl ⟨h1, h3⟩
      · exact Or.inr (Or.inl h2)
      · exact Or.inr (Or.inr ⟨h1, h3⟩)

/-- C6 (amended): FindPath always returns (neither of its loops runs for ever: the
reconstruction reaches start in finitely many steps); on every input on which it
succeeds the returned sequence is non-empty and its last element is end; and when
start and end differ, start does not occur in it. -/
theorem FindPath_path_shape {D : Type} [CanonicallyLinearOrderedAddCommMonoid D]
    (sqrt : Int → D) (ro : RangeOrder) (obstacles paths : Graph)
    (start end_ boundsUL boundsDR : I2) :
    FindPath sqrt ro obstacles paths start end_ boundsUL boundsDR ≠ none ∧
    ∀ p, FindPath sqrt ro obstacles paths start end_ boundsUL boundsDR =
        some (PathResult.path p) →
      p ≠ [] ∧ p.getLast? = some end_ ∧ (start ≠ end_ → start ∉ p) := by
  cases hb : obstacles.Blocks start end_ with
  | false =>
    rw [FindPath_unblocked sqrt ro obstacles paths start end_ boundsUL boundsDR hb]
    refine ⟨by simp, ?_⟩
    intro p hp
    have := PathResult.path.inj (Option.some.inj hp)
    subst this
    refine ⟨by simp, by simp, ?_⟩
    intro hne hmem
    exact hne (List.mem_singleton.mp hmem)
  | true =>
    rcases FindPath_blocked_spec sqrt ro obstacles paths start end_ boundsUL boundsDR hb with
      ⟨-, h⟩ | ⟨-, s', k', hinv, -, -, ⟨-, h⟩ | ⟨r', hpc, hc, -, h⟩⟩
    · rw [h]
      exact ⟨by simp, fun p hp => absurd hp (by simp)⟩
    · rw [h]
      exact ⟨by simp, fun p hp => absurd hp (by simp)⟩
    · rw [h]
      refine ⟨by simp, ?_⟩
      intro p hp
      have := PathResult.path.inj (Option.some.inj hp)
      subst this
      refine ⟨by simp, by simp, ?_⟩
      intro _ hmem
      exact PChain_ne_start start s'.prev end_ (end_ :: r') hpc start
        (List.mem_reverse.mp hmem) rfl

/-- Over unbounded integers and distances that obey the laws: when start-end is blocked
and there is a sequence of waypoint vertices w1, ..., wm inside the bounds with w1 not
blocked from start, every (wi, wi+1) an edge of the waypoint graph and wm not blocked
towards end, the search returns a path. -/
theorem route_found {D : Type} [LinearOrder D] [Add D] [Zero D] [DistLaws D]
    (sqrt : Int → D) (ro : RangeOrder) (obstacles paths : Graph)
    (start end_ boundsUL boundsDR : I2) (w1 : I2) (rest : List I2)
    (hb : obstacles.Blocks start end_ = true)
    (hw1 : Candidate paths boundsUL boundsDR w1)
    (hs : obstacles.Blocks start w1 = false)
    (hchain : List.Chain (fun a b => paths.HasEdge a b) w1 rest)
    (hrest : ∀ x ∈ rest, Candidate paths boundsUL boundsDR x)
    (hlast : obstacles.Blocks (rest.getLastD w1) end_ = false) :
    ∃ p, FindPath sqrt ro obstacles paths start end_ boundsUL boundsDR =
      some (PathResult.path p) := by
  have hroute := route_of_chain sqrt obstacles paths start boundsUL boundsDR rest w1 _
    (Route.seed hw1 hs) (List.Chain.imp (fun a b h => HasEdge_Adj paths a b h) hchain) hrest
  have hclast : Candidate paths boundsUL boundsDR (rest.getLastD w1) := by
    rcases getLastD_mem rest w1 with h | h
    · rw [h]; exact hw1
    · exact hrest _ h
  rcases FindPath_blocked_spec sqrt ro obstacles paths start end_ boundsUL boundsDR hb with
    ⟨hempty, -⟩ | ⟨-, s', k', hinv, hrel, hexit, ⟨hnone, -⟩ | ⟨r', -, -, -, h⟩⟩
  · exfalso
    rcases hempty with h | h
    · have := (seed_prev_empty_iff sqrt obstacles paths start end_ boundsUL boundsDR).mp h w1 hw1
      rw [hs] at this
      exact absurd this (by simp)
    · have := (seed_endN_empty_iff sqrt obstacles paths start end_ boundsUL boundsDR).mp h _ hclast
      rw [hlast] at this
      exact absurd this (by simp)
  · exfalso
    have hle := end_le_route sqrt ro obstacles paths start end_ boundsUL boundsDR _ k' s' hinv
      hrel hexit _ _ hroute hlast
    have hfin : s'.dists end_ < ⊤ :=
      lt_of_le_of_lt hle (WithTop.add_lt_top.mpr ⟨WithTop.coe_lt_top _, WithTop.coe_lt_top _⟩)
    have hne : end_ ≠ start := by
      rintro rfl
      rw [Blocks_self] at hb
      exact absurd hb (by simp)
    rcases hinv.fin_prev end_ (Or.inl rfl) hfin with h | h
    · exact hne h
    · rw [hnone] at h
      exact absurd h (by simp)
  · exact ⟨_, h⟩

/-- Over unbounded integers and distances that obey the laws: when the search returns
a path p, the length of start → p, added up as FindPath does, is at most the length,
added up the same way, of every route start → w1 → ... → wm → end in which w1 is a
waypoint vertex inside the bounds not blocked from start, every (wi, wi+1) is an edge
of the waypoint graph between waypoint vertices inside the bounds, and wm is not
blocked towards end; for every iteration order of the vertex maps. -/
theorem route_shortest {D : Type} [LinearOrder D] [Add D] [Zero D] [DistLaws D]
    (sqrt : Int → D) (ro : RangeOrder) (obstacles paths : Graph)
    (start end_ boundsUL boundsDR : I2) (p : List I2) (w1 : I2) (rest : List I2)
    (hb : obstacles.Blocks start end_ = true)
    (hp : FindPath sqrt ro obstacles paths start end_ boundsUL boundsDR =
      some (PathResult.path p))
    (hw1 : Candidate paths boundsUL boundsDR w1)
    (hs : obstacles.Blocks start w1 = false)
    (hchain : List.Chain (fun a b => paths.HasEdge a b) w1 rest)
    (hrest : ∀ x ∈ rest, Candidate paths boundsUL boundsDR x)
    (hlast : obstacles.Blocks (rest.getLastD w1) end_ = false) :
    accLen sqrt start p 0 ≤ accLen sqrt start (w1 :: (rest ++ [end_])) 0 := by
  have hroute := route_of_chain sqrt obstacles paths start boundsUL boundsDR rest w1 _
    (Route.seed hw1 hs) (List.Chain.imp (fun a b h => HasEdge_Adj paths a b h) hchain) hrest
  rcases FindPath_blocked_spec sqrt ro obstacles paths start end_ boundsUL boundsDR hb with
    ⟨-, h⟩ | ⟨-, s', k', hinv, hrel, hexit, ⟨-, h⟩ | ⟨r', hpc, -, -, h⟩⟩
  · rw [h] at hp
    exact absurd hp (by simp)
  · rw [h] at hp
    exact absurd hp (by simp)
  · rw [h] at hp
    have hpe : p = (end_ :: r').reverse := (PathResult.path.inj (Option.some.inj hp)).symm
    have h1 := PChain_acc sqrt obstacles paths start end_ boundsUL boundsDR _ k' s' hinv
      end_ (end_ :: r') hpc
    have h2 := end_le_route sqrt ro obstacles paths start end_ boundsUL boundsDR _ k' s' hinv
      hrel hexit _ _ hroute hlast
    have h3 := le_trans h1 h2
    rw [← hpe, ← WithTop.coe_add, WithTop.coe_le_coe] at h3
    have heq : accLen sqrt start (w1 :: (rest ++ [end_])) 0 =
        Length sqrt (rest.getLastD w1) end_ + accLen sqrt w1 rest (Length sqrt start w1) := by
      show accLen sqrt w1 (rest ++ [end_]) (Length sqrt start w1 + 0) = _
      rw [DistLaws.add_zero, accLen_snoc]
    rw [heq]
    exact h3

/-! ## Examples: the theorems at concrete inputs -/

/-- C1 at a concrete input: (-4,0) sees (0,4) past the wall, and FindPath returns
[(0,4)]. -/
theorem FindPath_direct_witness :
    exampleWall.Blocks ⟨-4, 0⟩ ⟨0, 4⟩ = false ∧
    FindPath floorSqrt RangeOrder.id exampleWall exampleAround ⟨-4, 0⟩ ⟨0, 4⟩ ⟨-10, -10⟩ ⟨10, 10⟩ =
      some (PathResult.path [⟨0, 4⟩]) :=
  ⟨by decide, FindPath_direct floorSqrt RangeOrder.id exampleWall exampleAround ⟨-4, 0⟩ ⟨0, 4⟩
    ⟨-10, -10⟩ ⟨10, 10⟩ (by decide)⟩

/-- C3, as stated, fails: with the waypoint edge (-3,0) → (1,0) across the wall,
FindPath returns [(1,0), (3,0)] although (1,0) is blocked from start = (-3,0); and
with the waypoint edge (-3,0) → (3,0) it returns [(3,0)], a path with no waypoint
vertex before end (k = 0). -/
theorem FindPath_first_hop_counterexample :
    exampleWall.Blocks ⟨-3, 0⟩ ⟨3, 0⟩ = true ∧
    FindPath floorSqrt RangeOrder.id exampleWall exampleAcross ⟨-3, 0⟩ ⟨3, 0⟩ ⟨-10, -10⟩ ⟨10, 10⟩ =
      some (PathResult.path [⟨1, 0⟩, ⟨3, 0⟩]) ∧
    exampleWall.Blocks ⟨-3, 0⟩ ⟨1, 0⟩ = true ∧
    FindPath floorSqrt RangeOrder.id exampleWall exampleJoin ⟨-3, 0⟩ ⟨3, 0⟩ ⟨-10, -10⟩ ⟨10, 10⟩ =
      some (PathResult.path [⟨3, 0⟩]) := by
  decide

/-- C3 (amended) at the input of the counterexample. -/
theorem FindPath_path_hops_witness :
    ∃ vs, [(⟨1, 0⟩ : I2), ⟨3, 0⟩] = vs ++ [⟨3, 0⟩] ∧
      (∀ v ∈ vs, Candidate exampleAcross ⟨-10, -10⟩ ⟨10, 10⟩ v ∧ v ≠ ⟨-3, 0⟩ ∧ v ≠ ⟨3, 0⟩) ∧
      List.Chain (fun x y => (x = ⟨-3, 0⟩ ∧ exampleWall.Blocks ⟨-3, 0⟩ y = false) ∨
        exampleAcross.Adj x y ∨ (y = ⟨3, 0⟩ ∧ exampleWall.Blocks x ⟨3, 0⟩ = false))
        ⟨-3, 0⟩ [(⟨1, 0⟩ : I2), ⟨3, 0⟩] :=
  FindPath_path_hops floorSqrt RangeOrder.id exampleWall exampleAcross ⟨-3, 0⟩ ⟨3, 0⟩
    ⟨-10, -10⟩ ⟨10, 10⟩ [⟨1, 0⟩, ⟨3, 0⟩] (by decide) (by decide)

/-- C6, as stated, fails when start = end: FindPath returns [start]. -/
theorem FindPath_start_in_path_counterexample :
    FindPath floorSqrt RangeOrder.id exampleWall exampleAround ⟨-3, 0⟩ ⟨-3, 0⟩ ⟨-10, -10⟩ ⟨10, 10⟩ =
      some (PathResult.path [⟨-3, 0⟩]) ∧
    (⟨-3, 0⟩ : I2) ∈ [(⟨-3, 0⟩ : I2)] := by
  decide

/-- C5 at a concrete input: the bounds hold no waypoint vertex, and FindPath returns
"no paths possible". -/
theorem FindPath_no_paths_possible_witness :
    exampleWall.Blocks ⟨-3, 0⟩ ⟨3, 0⟩ = true ∧
    FindPath floorSqrt RangeOrder.id exampleWall exampleAround ⟨-3, 0⟩ ⟨3, 0⟩ ⟨-10, 10⟩ ⟨10, 10⟩ =
      some PathResult.noPathsPossible :=
  ⟨by decide,
   FindPath_no_paths_possible floorSqrt RangeOrder.id exampleWall exampleAround ⟨-3, 0⟩ ⟨3, 0⟩
    ⟨-10, 10⟩ ⟨10, 10⟩ (by decide)
    (Or.inl (fun v hc => by
      exfalso
      obtain ⟨h1, h2⟩ := hc
      have hmem : v ∈ exampleAround.V.keys := by
        rw [← AList.mem_keys, ← AList.lookup_isSome, h1]
        rfl
      have hk : exampleAround.V.keys = [⟨0, -4⟩, ⟨0, 4⟩] := by decide
      rw [hk] at hmem
      simp only [List.mem_cons, List.mem_singleton, List.not_mem_nil, or_false] at hmem
      rcases hmem with rfl | rfl
      · exact absurd h2 (by decide)
      · exact absurd h2 (by decide)))⟩

/-! ## AddEdge -/

theorem HasEdge_AddEdge_iff (g : Graph) (u v a b : I2) :
    (g.AddEdge u v).HasEdge a b ↔ g.HasEdge a b ∨ (a = u ∧ b = v) := by
  unfold Graph.HasEdge Graph.AddEdge
  simp only
  by_cases ha : a = u
  · subst ha
    rw [AList.lookup_insert]
    by_cases hb : b = v
    · subst hb
      constructor
      · intro _
        exact Or.inr ⟨rfl, rfl⟩
      · intro _
        exact ⟨_, rfl, AList.lookup_insert _⟩
    · constructor
      · rintro ⟨l, hl, hlb⟩
        cases hl
        rw [AList.lookup_insert_ne hb] at hlb
        left
        cases hg : g.E.lookup a with
        | none =>
          rw [hg] at hlb
          simp at hlb
        | some l0 =>
          rw [hg] at hlb
          exact ⟨l0, rfl, by simpa using hlb⟩
      · rintro (⟨l, hl, hlb⟩ | ⟨-, h⟩)
        · refine ⟨_, rfl, ?_⟩
          rw [AList.lookup_insert_ne hb, hl]
          simpa using hlb
        · exact absurd h hb
  · rw [AList.lookup_insert_ne ha]
    constructor
    · intro h
      exact Or.inl h
    · rintro (h | ⟨h, -⟩)
      · exact h
      · exact absurd h ha

/-- C11: after AddEdge(u, v) both u and v are in the vertex set and v is a successor
of u; every vertex and every edge present before is still present; the only edge
that can be new is (u, v), so for u != v the reverse edge (v, u) is present
afterwards only if it was present before. -/
theorem AddEdge_spec (g : Graph) (u v : I2) :
    (g.AddEdge u v).V.lookup u = some true ∧
    (g.AddEdge u v).V.lookup v = some true ∧
    (g.AddEdge u v).HasEdge u v ∧
    (∀ x, g.V.lookup x = some true → (g.AddEdge u v).V.lookup x = some true) ∧
    (∀ a b, g.HasEdge a b → (g.AddEdge u v).HasEdge a b) ∧
    (∀ a b, (g.AddEdge u v).HasEdge a b → g.HasEdge a b ∨ (a = u ∧ b = v)) ∧
    (u ≠ v → (g.AddEdge u v).HasEdge v u → g.HasEdge v u) := by
  have hV : ∀ x, x = u ∨ x = v ∨ g.V.lookup x = some true →
      (g.AddEdge u v).V.lookup x = some true := by
    intro x hx
    unfold Graph.AddEdge
    simp only
    by_cases hxv : x = v
    · subst hxv
      exact AList.lookup_insert _
    · rw [AList.lookup_insert_ne hxv]
      by_cases hxu : x = u
      · subst hxu
        exact AList.lookup_insert _
      · rw [AList.lookup_insert_ne hxu]
        rcases hx with h | h | h
        · exact absurd h hxu
        · exact absurd h hxv
        · exact h
  refine ⟨hV u (Or.inl rfl), hV v (Or.inr (Or.inl rfl)), ?_, fun x hx => hV x (Or.inr (Or.inr hx)),
    ?_, ?_, ?_⟩
  · exact (HasEdge_AddEdge_iff g u v u v).mpr (Or.inr ⟨rfl, rfl⟩)
  · intro a b h
    exact (HasEdge_AddEdge_iff g u v a b).mpr (Or.inl h)
  · intro a b h
    exact (HasEdge_AddEdge_iff g u v a b).mp h
  · intro hne h
    rcases (HasEdge_AddEdge_iff g u v v u).mp h with h | ⟨h1, -⟩
    · exact h
    · exact absurd h1.symm hne

/-! ## divDown and cell -/

theorem divDown_bounds (n d : Int) (hd : 0 < d) :
    divDown n d * d ≤ n ∧ n < (divDown n d + 1) * d := by
  unfold divDown
  by_cases hn : n ≥ 0
  · rw [if_pos hn, Int.tdiv_eq_ediv hn (le_of_lt hd)]
    have h1 := Int.ediv_add_emod n d
    have h2 := Int.emod_nonneg n (ne_of_gt hd)
    have h3 := Int.emod_lt_of_pos n hd
    constructor
    · nlinarith
    · nlinarith
  · rw [if_neg hn]
    have hneg : n - d + 1 = -(d - 1 - n) := by ring
    have hnn : 0 ≤ d - 1 - n := by omega
    rw [hneg, Int.neg_tdiv, Int.tdiv_eq_ediv hnn (le_of_lt hd)]
    have h1 := Int.ediv_add_emod (d - 1 - n) d
    have h2 := Int.emod_nonneg (d - 1 - n) (ne_of_gt hd)
    have h3 := Int.emod_lt_of_pos (d - 1 - n) hd
    constructor
    · nlinarith
    · nlinarith

theorem floor_unique (n d q q' : Int) (hd : 0 < d) (h1 : q * d ≤ n) (h2 : n < (q + 1) * d)
    (h1' : q' * d ≤ n) (h2' : n < (q' + 1) * d) : q = q' := by
  rcases lt_trichotomy q q' with h | h | h
  · exfalso
    have : (q + 1) * d ≤ q' * d := mul_le_mul_of_nonneg_right (by omega) (le_of_lt hd)
    omega
  · exact h
  · exfalso
    have : (q' + 1) * d ≤ q * d := mul_le_mul_of_nonneg_right (by omega) (le_of_lt hd)
    omega

theorem divDown_eq_ediv (n d : Int) (hd : 0 < d) : divDown n d = n / d := by
  obtain ⟨h1, h2⟩ := divDown_bounds n d hd
  have h3 := Int.ediv_add_emod n d
  have h4 := Int.emod_nonneg n (ne_of_gt hd)
  have h5 := Int.emod_lt_of_pos n hd
  exact floor_unique n d _ _ hd h1 h2 (by nlinarith) (by nlinarith)

/-! ## SegmentIntersectI -/

theorem Sgn_mul_self (x : Int) : Sgn x * x = Abs x := by
  unfold Sgn Abs
  split_ifs <;> omega

theorem Abs_pos (x : Int) (h : x ≠ 0) : 0 < Abs x := by
  unfold Abs
  split_ifs <;> omega

theorem Sgn_neg (x : Int) : Sgn (-x) = -Sgn x := by
  unfold Sgn
  split_ifs <;> omega

theorem Abs_neg (x : Int) : Abs (-x) = Abs x := by
  unfold Abs
  split_ifs <;> omega

/-- SegmentIntersectI in terms of its determinant and its two numerators. -/
theorem SegmentIntersectI_eq (p q a b : I2) :
    SegmentIntersectI p q a b =
      if segDet p q a b = 0 then (⟨0, 0⟩, false)
      else if segNum1 p q a b * Sgn (segDet p q a b) < 0 ∨
          segNum1 p q a b * Sgn (segDet p q a b) > Abs (segDet p q a b) then (⟨0, 0⟩, false)
      else if segNum2 p q a b * Sgn (segDet p q a b) < 0 ∨
          segNum2 p q a b * Sgn (segDet p q a b) > Abs (segDet p q a b) then (⟨0, 0⟩, false)
      else (((b.Sub a).MulDiv (segNum2 p q a b * Sgn (segDet p q a b))
        (Abs (segDet p q a b))).Add a, true) := by
  rfl

theorem SegmentIntersectI_true_iff (p q a b : I2) :
    (SegmentIntersectI p q a b).2 = true ↔
      segDet p q a b ≠ 0 ∧
      0 ≤ segNum1 p q a b * Sgn (segDet p q a b) ∧
      segNum1 p q a b * Sgn (segDet p q a b) ≤ Abs (segDet p q a b) ∧
      0 ≤ segNum2 p q a b * Sgn (segDet p q a b) ∧
      segNum2 p q a b * Sgn (segDet p q a b) ≤ Abs (segDet p q a b) := by
  rw [SegmentIntersectI_eq]
  by_cases h0 : segDet p q a b = 0
  · simp [h0]
  · by_cases h1 : segNum1 p q a b * Sgn (segDet p q a b) < 0 ∨
        segNum1 p q a b * Sgn (segDet p q a b) > Abs (segDet p q a b)
    · rw [if_neg h0, if_pos h1]
      simp only [Bool.false_eq_true, false_iff]
      rintro ⟨-, h2, h3, -, -⟩
      rcases h1 with h1 | h1 <;> omega
    · by_cases h2 : segNum2 p q a b * Sgn (segDet p q a b) < 0 ∨
          segNum2 p q a b * Sgn (segDet p q a b) > Abs (segDet p q a b)
      · rw [if_neg h0, if_neg h1, if_pos h2]
        simp only [Bool.false_eq_true, false_iff]
        rintro ⟨-, -, -, h3, h4⟩
        rcases h2 with h2 | h2 <;> omega
      · rw [if_neg h0, if_neg h1, if_neg h2]
        simp only [true_iff]
        push_neg at h1 h2
        exact ⟨h0, h1.1, h1.2, h2.1, h2.2⟩

theorem segDet_swap (p q a b : I2) : segDet a b p q = -segDet p q a b := by
  unfold segDet
  ring

theorem segNum1_swap (p q a b : I2) : segNum1 a b p q = -segNum2 p q a b := by
  unfold segNum1 segNum2
  ring

theorem segNum2_swap (p q a b : I2) : segNum2 a b p q = -segNum1 p q a b := by
  unfold segNum1 segNum2
  ring

/-- C18: for all integer points p, q, a, b the boolean result of
SegmentIntersectI(p, q, a, b) equals that of SegmentIntersectI(a, b, p, q). -/
theorem SegmentIntersectI_symm (p q a b : I2) :
    (SegmentIntersectI p q a b).2 = (SegmentIntersectI a b p q).2 := by
  rw [Bool.eq_iff_iff, SegmentIntersectI_true_iff p q a b, SegmentIntersectI_true_iff a b p q,
    segDet_swap p q a b, segNum1_swap p q a b, segNum2_swap p q a b, Sgn_neg, Abs_neg]
  simp only [neg_mul_neg, ne_eq, neg_eq_zero]
  constructor
  · rintro ⟨h0, h1, h2, h3, h4⟩
    exact ⟨h0, h3, h4, h1, h2⟩
  · rintro ⟨h0, h1, h2, h3, h4⟩
    exact ⟨h0, h3, h4, h1, h2⟩

theorem tdiv_error (m D : Int) (hD : 0 < D) :
    |((m.tdiv D : Int) : ℝ) - (m : ℝ) / (D : ℝ)| < 1 := by
  have hDr : (0 : ℝ) < (D : ℝ) := by exact_mod_cast hD
  have key : ∀ k : Int, 0 ≤ k →
      0 ≤ (k : ℝ) / (D : ℝ) - ((k / D : Int) : ℝ) ∧ (k : ℝ) / (D : ℝ) - ((k / D : Int) : ℝ) < 1 := by
    intro k _
    have h1 := Int.ediv_add_emod k D
    have h2 := Int.emod_nonneg k (ne_of_gt hD)
    have h3 := Int.emod_lt_of_pos k hD
    have h1r : (D : ℝ) * ((k / D : Int) : ℝ) + ((k % D : Int) : ℝ) = (k : ℝ) := by
      exact_mod_cast h1
    have h2r : (0 : ℝ) ≤ ((k % D : Int) : ℝ) := by exact_mod_cast h2
    have h3r : ((k % D : Int) : ℝ) < (D : ℝ) := by exact_mod_cast h3
    have heq : (k : ℝ) / (D : ℝ) - ((k / D : Int) : ℝ) = ((k % D : Int) : ℝ) / (D : ℝ) := by
      field_simp
      linarith
    rw [heq]
    exact ⟨div_nonneg h2r (le_of_lt hDr), (div_lt_one hDr).mpr h3r⟩
  by_cases hm : 0 ≤ m
  · rw [Int.tdiv_eq_ediv hm (le_of_lt hD), abs_lt]
    obtain ⟨h1, h2⟩ := key m hm
    constructor <;> linarith
  · obtain ⟨k, rfl⟩ : ∃ k : Int, m = -k := ⟨-m, by ring⟩
    have hnn : 0 ≤ k := by omega
    rw [Int.neg_tdiv, Int.tdiv_eq_ediv hnn (le_of_lt hD), abs_lt]
    obtain ⟨h1, h2⟩ := key k hnn
    push_cast
    rw [neg_div]
    constructor <;> linarith

/-- C20: for integer points with non-parallel segments (the cross product of q-p and
b-a, the determinant, is not zero), SegmentIntersectI(p, q, a, b) returns true exactly
when the closed segments p-q and a-b have a common point; then the returned point is
a + trunc((b-a)*t/|det|) componentwise, and it differs from every common point of the
two segments by less than 1 in each coordinate. -/
theorem SegmentIntersectI_iff_common_point (p q a b : I2)
    (hdet : (q.X - p.X) * (b.Y - a.Y) - (q.Y - p.Y) * (b.X - a.X) ≠ 0) :
    ((SegmentIntersectI p q a b).2 = true ↔
      ∃ u w : ℝ, 0 ≤ u ∧ u ≤ 1 ∧ 0 ≤ w ∧ w ≤ 1 ∧
        (p.X : ℝ) + u * ((q.X : ℝ) - p.X) = (a.X : ℝ) + w * ((b.X : ℝ) - a.X) ∧
        (p.Y : ℝ) + u * ((q.Y : ℝ) - p.Y) = (a.Y : ℝ) + w * ((b.Y : ℝ) - a.Y)) ∧
    ((SegmentIntersectI p q a b).2 = true →
      (SegmentIntersectI p q a b).1 =
        ⟨a.X + ((b.X - a.X) * (segNum2 p q a b * Sgn (segDet p q a b))).tdiv (Abs (segDet p q a b)),
         a.Y + ((b.Y - a.Y) * (segNum2 p q a b * Sgn (segDet p q a b))).tdiv (Abs (segDet p q a b))⟩ ∧
      ∀ u w : ℝ, 0 ≤ u → u ≤ 1 → 0 ≤ w → w ≤ 1 →
        (p.X : ℝ) + u * ((q.X : ℝ) - p.X) = (a.X : ℝ) + w * ((b.X : ℝ) - a.X) →
        (p.Y : ℝ) + u * ((q.Y : ℝ) - p.Y) = (a.Y : ℝ) + w * ((b.Y : ℝ) - a.Y) →
        |(((SegmentIntersectI p q a b).1.X : Int) : ℝ) - ((a.X : ℝ) + w * ((b.X : ℝ) - a.X))| < 1 ∧
        |(((SegmentIntersectI p q a b).1.Y : Int) : ℝ) - ((a.Y : ℝ) + w * ((b.Y : ℝ) - a.Y))| < 1) := by
  have hd : segDet p q a b ≠ 0 := by
    intro h
    apply hdet
    unfold segDet at h
    linarith
  have hdr : ((segDet p q a b : Int) : ℝ) ≠ 0 := by exact_mod_cast hd
  have hpos := Abs_pos _ hd
  have hposr : (0 : ℝ) < ((Abs (segDet p q a b) : Int) : ℝ) := by exact_mod_cast hpos
  have hs := Sgn_mul_self (segDet p q a b)
  -- every common point has the parameters numerator / determinant
  have hparam : ∀ u w : ℝ,
      (p.X : ℝ) + u * ((q.X : ℝ) - p.X) = (a.X : ℝ) + w * ((b.X : ℝ) - a.X) →
      (p.Y : ℝ) + u * ((q.Y : ℝ) - p.Y) = (a.Y : ℝ) + w * ((b.Y : ℝ) - a.Y) →
      ((segNum1 p q a b : Int) : ℝ) = u * ((segDet p q a b : Int) : ℝ) ∧
      ((segNum2 p q a b : Int) : ℝ) = w * ((segDet p q a b : Int) : ℝ) := by
    intro u w hX hY
    unfold segNum1 segNum2 segDet
    push_cast
    constructor
    · linear_combination ((b.X : ℝ) - a.X) * hY - ((b.Y : ℝ) - a.Y) * hX
    · linear_combination ((q.X : ℝ) - p.X) * hY - ((q.Y : ℝ) - p.Y) * hX
  -- numerator * sign = parameter * |det|
  have hscale : ∀ (n : Int) (x : ℝ), (n : ℝ) = x * ((segDet p q a b : Int) : ℝ) →
      ((n * Sgn (segDet p q a b) : Int) : ℝ) = x * ((Abs (segDet p q a b) : Int) : ℝ) := by
    intro n x hn
    have : ((Abs (segDet p q a b) : Int) : ℝ) =
        ((Sgn (segDet p q a b) : Int) : ℝ) * ((segDet p q a b : Int) : ℝ) := by
      rw [← hs]
      push_cast
      ring
    rw [this]
    push_cast
    rw [hn]
    ring
  have hiff : (SegmentIntersectI p q a b).2 = true ↔
      ∃ u w : ℝ, 0 ≤ u ∧ u ≤ 1 ∧ 0 ≤ w ∧ w ≤ 1 ∧
        (p.X : ℝ) + u * ((q.X : ℝ) - p.X) = (a.X : ℝ) + w * ((b.X : ℝ) - a.X) ∧
        (p.Y : ℝ) + u * ((q.Y : ℝ) - p.Y) = (a.Y : ℝ) + w * ((b.Y : ℝ) - a.Y) := by
    rw [SegmentIntersectI_true_iff]
    constructor
    · rintro ⟨-, h1, h2, h3, h4⟩
      have e1 := hscale (segNum1 p q a b)
        (((segNum1 p q a b : Int) : ℝ) / ((segDet p q a b : Int) : ℝ)) (by field_simp)
      have e2 := hscale (segNum2 p q a b)
        (((segNum2 p q a b : Int) : ℝ) / ((segDet p q a b : Int) : ℝ)) (by field_simp)
      have h1r : (0 : ℝ) ≤ ((segNum1 p q a b * Sgn (segDet p q a b) : Int) : ℝ) := by
        exact_mod_cast h1
      have h2r : ((segNum1 p q a b * Sgn (segDet p q a b) : Int) : ℝ) ≤
          ((Abs (segDet p q a b) : Int) : ℝ) := by exact_mod_cast h2
      have h3r : (0 : ℝ) ≤ ((segNum2 p q a b * Sgn (segDet p q a b) : Int) : ℝ) := by
        exact_mod_cast h3
      have h4r : ((segNum2 p q a b * Sgn (segDet p q a b) : Int) : ℝ) ≤
          ((Abs (segDet p q a b) : Int) : ℝ) := by exact_mod_cast h4
      rw [e1] at h1r h2r
      rw [e2] at h3r h4r
      refine ⟨((segNum1 p q a b : Int) : ℝ) / ((segDet p q a b : Int) : ℝ),
        ((segNum2 p q a b : Int) : ℝ) / ((segDet p q a b : Int) : ℝ), ?_, ?_, ?_, ?_, ?_, ?_⟩
      · exact nonneg_of_mul_nonneg_left h1r hposr
      · exact le_of_mul_le_mul_right (by linarith) hposr
      · exact nonneg_of_mul_nonneg_left h3r hposr
      · exact le_of_mul_le_mul_right (by linarith) hposr
      · field_simp
        unfold segNum1 segNum2 segDet
        push_cast
        ring
      · field_simp
        unfold segNum1 segNum2 segDet
        push_cast
        ring
    · rintro ⟨u, w, hu0, hu1, hw0, hw1, hX, hY⟩
      obtain ⟨e1, e2⟩ := hparam u w hX hY
      have f1 := hscale _ u e1
      have f2 := hscale _ w e2
      refine ⟨hd, ?_, ?_, ?_, ?_⟩
      · have : (0 : ℝ) ≤ ((segNum1 p q a b * Sgn (segDet p q a b) : Int) : ℝ) := by
          rw [f1]; exact mul_nonneg hu0 (le_of_lt hposr)
        exact_mod_cast this
      · have : ((segNum1 p q a b * Sgn (segDet p q a b) : Int) : ℝ) ≤
            ((Abs (segDet p q a b) : Int) : ℝ) := by
          rw [f1]; nlinarith
        exact_mod_cast this
      · have : (0 : ℝ) ≤ ((segNum2 p q a b * Sgn (segDet p q a b) : Int) : ℝ) := by
          rw [f2]; exact mul_nonneg hw0 (le_of_lt hposr)
        exact_mod_cast this
      · have : ((segNum2 p q a b * Sgn (segDet p q a b) : Int) : ℝ) ≤
            ((Abs (segDet p q a b) : Int) : ℝ) := by
          rw [f2]; nlinarith
        exact_mod_cast this
  refine ⟨hiff, fun htrue => ?_⟩
  obtain ⟨-, h1, h2, h3, h4⟩ := (SegmentIntersectI_true_iff p q a b).mp htrue
  have hpt : (SegmentIntersectI p q a b).1 =
      ⟨a.X + ((b.X - a.X) * (segNum2 p q a b * Sgn (segDet p q a b))).tdiv (Abs (segDet p q a b)),
       a.Y + ((b.Y - a.Y) * (segNum2 p q a b * Sgn (segDet p q a b))).tdiv
        (Abs (segDet p q a b))⟩ := by
    rw [SegmentIntersectI_eq, if_neg hd, if_neg (by omega), if_neg (by omega)]
    simp only [I2.MulDiv, I2.Sub, I2.Add, I2.mk.injEq]
    constructor <;> ring
  refine ⟨hpt, ?_⟩
  intro u w _ _ _ _ hX hY
  obtain ⟨-, e2⟩ := hparam u w hX hY
  have f2 := hscale _ w e2
  have hw : w = ((segNum2 p q a b * Sgn (segDet p q a b) : Int) : ℝ) /
      ((Abs (segDet p q a b) : Int) : ℝ) := by
    rw [f2]
    field_simp
  rw [hpt]
  simp only
  have tX := tdiv_error ((b.X - a.X) * (segNum2 p q a b * Sgn (segDet p q a b))) _ hpos
  have tY := tdiv_error ((b.Y - a.Y) * (segNum2 p q a b * Sgn (segDet p q a b))) _ hpos
  constructor
  · have : ((a.X + ((b.X - a.X) * (segNum2 p q a b * Sgn (segDet p q a b))).tdiv
        (Abs (segDet p q a b)) : Int) : ℝ) - ((a.X : ℝ) + w * ((b.X : ℝ) - a.X)) =
        (((((b.X - a.X) * (segNum2 p q a b * Sgn (segDet p q a b))).tdiv
          (Abs (segDet p q a b)) : Int) : ℝ)) -
        (((b.X - a.X) * (segNum2 p q a b * Sgn (segDet p q a b)) : Int) : ℝ) /
          ((Abs (segDet p q a b) : Int) : ℝ) := by
      rw [hw]
      push_cast
      field_simp
      ring
    rw [this]
    exact tX
  · have : ((a.Y + ((b.Y - a.Y) * (segNum2 p q a b * Sgn (segDet p q a b))).tdiv
        (Abs (segDet p q a b)) : Int) : ℝ) - ((a.Y : ℝ) + w * ((b.Y : ℝ) - a.Y)) =
        (((((b.Y - a.Y) * (segNum2 p q a b * Sgn (segDet p q a b))).tdiv
          (Abs (segDet p q a b)) : Int) : ℝ)) -
        (((b.Y - a.Y) * (segNum2 p q a b * Sgn (segDet p q a b)) : Int) : ℝ) /
          ((Abs (segDet p q a b) : Int) : ℝ) := by
      rw [hw]
      push_cast
      field_simp
      ring
    rw [this]
    exact tY

/-- C20 at the crossing diagonals (0,0)-(2,2) and (0,2)-(2,0): the result is true, the
point is (1,1), and the segments have a common point. -/
theorem SegmentIntersectI_iff_common_point_witness :
    SegmentIntersectI ⟨0, 0⟩ ⟨2, 2⟩ ⟨0, 2⟩ ⟨2, 0⟩ = (⟨1, 1⟩, true) ∧
    ∃ u w : ℝ, 0 ≤ u ∧ u ≤ 1 ∧ 0 ≤ w ∧ w ≤ 1 ∧
      (((0 : Int) : ℝ) + u * (((2 : Int) : ℝ) - ((0 : Int) : ℝ)) =
        ((0 : Int) : ℝ) + w * (((2 : Int) : ℝ) - ((0 : Int) : ℝ))) ∧
      (((0 : Int) : ℝ) + u * (((2 : Int) : ℝ) - ((0 : Int) : ℝ)) =
        ((2 : Int) : ℝ) + w * (((0 : Int) : ℝ) - ((2 : Int) : ℝ))) :=
  ⟨by decide,
    (SegmentIntersectI_iff_common_point ⟨0, 0⟩ ⟨2, 2⟩ ⟨0, 2⟩ ⟨2, 0⟩ (by decide)).1.mp
      (by decide)⟩

/-! ## CellsTouchingSegment: the loops as a list of cells -/

theorem axisLoop_eq_runTouch {σ : Type} (touch : I2 → σ → Bool × σ) (q s : I2) :
    ∀ (n : Nat) (p : I2) (cs : List I2) (st : σ), axisCells q s n p = some cs →
      axisLoop touch q s n p st = some (runTouch touch cs st) := by
  intro n
  induction n with
  | zero => intro p cs st h; simp [axisCells] at h
  | succ n ih =>
    intro p cs st h
    simp only [axisCells] at h
    simp only [axisLoop]
    by_cases hpq : p = q
    · rw [if_pos hpq] at h
      cases h
      by_cases hr : (touch p st).1 = true
      · simp [runTouch, hr, if_pos hpq]
      · simp [runTouch, hr]
    · rw [if_neg hpq] at h
      obtain ⟨cs', hcs', rfl⟩ := Option.map_eq_some'.mp h
      by_cases hr : (touch p st).1 = true
      · simp [runTouch, hr, hpq, ih _ _ _ hcs']
      · simp [runTouch, hr]

theorem generalLoop_eq_runTouch {σ : Type} (touch : I2 → σ → Bool × σ) (q s : I2) (d : F2) :
    ∀ (n : Nat) (p : I2) (t : F2) (cs : List I2) (st : σ), generalCells q s d n p t = some cs →
      generalLoop touch q s d n p t st = some (runTouch touch cs st) := by
  intro n
  induction n with
  | zero => intro p t cs st h; simp [generalCells] at h
  | succ n ih =>
    intro p t cs st h
    simp only [generalCells] at h
    simp only [generalLoop]
    by_cases hr : (touch p st).1 = true
    · by_cases hpq : p = q
      · rw [if_pos hpq] at h
        cases h
        simp [runTouch, hr, if_pos hpq]
      · rw [if_neg hpq] at h
        by_cases hex : t.X > 1 ∧ t.Y > 1
        · rw [if_pos hex] at h
          cases h
          simp [runTouch, hr, hpq, hex]
        · rw [if_neg hex] at h
          by_cases hlt : t.X < t.Y
          · rw [if_pos hlt] at h
            obtain ⟨cs', hcs', rfl⟩ := Option.map_eq_some'.mp h
            simp only [runTouch, hr, Bool.not_true, Bool.false_eq_true, if_false, hpq, hex,
              if_pos hlt]
            exact ih _ _ _ _ hcs'
          · rw [if_neg hlt] at h
            obtain ⟨cs', hcs', rfl⟩ := Option.map_eq_some'.mp h
            simp only [runTouch, hr, Bool.not_true, Bool.false_eq_true, if_false, hpq, hex,
              if_neg hlt]
            exact ih _ _ _ _ hcs'
    · have hne : ∃ cs', cs = p :: cs' := by
        by_cases hpq : p = q
        · rw [if_pos hpq] at h
          exact ⟨[], (Option.some.inj h).symm⟩
        · rw [if_neg hpq] at h
          by_cases hex : t.X > 1 ∧ t.Y > 1
          · rw [if_pos hex] at h
            exact ⟨[], (Option.some.inj h).symm⟩
          · rw [if_neg hex] at h
            by_cases hlt : t.X < t.Y
            · rw [if_pos hlt] at h
              obtain ⟨cs', -, rfl⟩ := Option.map_eq_some'.mp h
              exact ⟨cs', rfl⟩
            · rw [if_neg hlt] at h
              obtain ⟨cs', -, rfl⟩ := Option.map_eq_some'.mp h
              exact ⟨cs', rfl⟩
      obtain ⟨cs', rfl⟩ := hne
      simp [runTouch, hr]

/-- With enough fuel for the walk, CellsTouchingSegment runs touch over the cells of
the walk and stops at the first cell on which touch returns false. -/
theorem CellsTouchingSegment_eq_runTouch {σ : Type} (fuel : Nat) (cellSize start end_ : I2)
    (touch : I2 → σ → Bool × σ) (st : σ) (cs : List I2)
    (h : segmentCells fuel cellSize start end_ = some cs) :
    CellsTouchingSegment fuel cellSize start end_ touch st = some (runTouch touch cs st) := by
  unfold segmentCells at h
  unfold CellsTouchingSegment
  simp only at h ⊢
  by_cases hax : ((cell end_ cellSize).Sub (cell start cellSize)).Sgn.X = 0 ∨
      ((cell end_ cellSize).Sub (cell start cellSize)).Sgn.Y = 0
  · rw [if_pos hax] at h ⊢
    exact axisLoop_eq_runTouch touch _ _ fuel _ cs st h
  · rw [if_neg hax] at h ⊢
    exact generalLoop_eq_runTouch touch _ _ _ fuel _ _ cs st h

theorem runTouch_record (cs acc : List I2) :
    runTouch recordTouch cs acc = (true, acc ++ cs) := by
  induction cs generalizing acc with
  | nil => simp [runTouch]
  | cons c cs ih => simp [runTouch, recordTouch, ih]

/-- Running a logged callback: the answer is that of the last call, every earlier
call returned true, and the log lists the calls in order. -/
theorem runTouch_log {σ : Type} (touch : I2 → σ → Bool × σ) (cs : List I2) (hne : cs ≠ [])
    (st : σ) (log : List (I2 × Bool)) :
    ∃ (pre : List (I2 × Bool)) (c : I2),
      (runTouch (logTouch touch) cs (st, log)).2.2 =
        log ++ pre ++ [(c, (runTouch (logTouch touch) cs (st, log)).1)] ∧
      (∀ e ∈ pre, e.2 = true) ∧
      (pre ++ [(c, (runTouch (logTouch touch) cs (st, log)).1)]).map Prod.fst <+: cs ∧
      ((runTouch (logTouch touch) cs (st, log)).1 = true →
        (pre ++ [(c, true)]).map Prod.fst = cs) ∧
      (runTouch (logTouch touch) cs (st, log)).1 = (runTouch touch cs st).1 ∧
      (runTouch (logTouch touch) cs (st, log)).2.1 = (runTouch touch cs st).2 := by
  induction cs generalizing st log with
  | nil => exact absurd rfl hne
  | cons c cs ih =>
    by_cases hr : (touch c st).1 = true
    · by_cases hcs : cs = []
      · subst hcs
        refine ⟨[], c, ?_, ?_, ?_, ?_, ?_, ?_⟩ <;> simp [runTouch, logTouch, hr]
      · obtain ⟨pre, c', h1, h2, h3, h4, h5, h6⟩ :=
          ih hcs (touch c st).2 (log ++ [(c, true)])
        have hrun : runTouch (logTouch touch) (c :: cs) (st, log) =
            runTouch (logTouch touch) cs ((touch c st).2, log ++ [(c, true)]) := by
          simp [runTouch, logTouch, hr]
        have hrun' : runTouch touch (c :: cs) st = runTouch touch cs (touch c st).2 := by
          simp [runTouch, hr]
        rw [hrun, hrun']
        refine ⟨(c, true) :: pre, c', ?_, ?_, ?_, ?_, h5, h6⟩
        · rw [h1]
          simp
        · intro e he
          rcases List.mem_cons.mp he with rfl | hmem
          · rfl
          · exact h2 e hmem
        · simp only [List.cons_append, List.map_cons]
          exact (List.prefix_cons_inj c).mpr h3
        · intro hb
          simp only [List.cons_append, List.map_cons]
          rw [h4 hb]
    · refine ⟨[], c, ?_, ?_, ?_, ?_, ?_, ?_⟩
      · simp [runTouch, logTouch, hr]
      · simp
      · simp [runTouch, logTouch, hr]
      · simp [runTouch, logTouch, hr]
      · simp [runTouch, logTouch, hr]
      · simp [runTouch, logTouch, hr]

/-! ## CellsTouchingSegment: the axis-aligned case -/

theorem Sgn_eq_zero_iff (x : Int) : Sgn x = 0 ↔ x = 0 := by
  unfold Sgn
  split_ifs with h1 h2
  · simp; omega
  · simp; omega
  · simp; omega

theorem natAbs_mul_Sgn (x : Int) : (x.natAbs : Int) * Sgn x = x := by
  unfold Sgn
  split_ifs <;> omega

theorem axis_endpoint (a b : Int) (h : a = 0 ∨ b = 0) :
    ((a.natAbs + b.natAbs : Nat) : Int) * Sgn a = a ∧
    ((a.natAbs + b.natAbs : Nat) : Int) * Sgn b = b := by
  have h0 : Sgn 0 = 0 := rfl
  rcases h with rfl | rfl
  · refine ⟨by rw [h0]; simp, ?_⟩
    simpa using natAbs_mul_Sgn b
  · refine ⟨?_, by rw [h0]; simp⟩
    simpa using natAbs_mul_Sgn a

theorem axisCells_spec (q s : I2) : ∀ (k n : Nat) (p : I2), k < n →
    q = ⟨p.X + (k : Int) * s.X, p.Y + (k : Int) * s.Y⟩ →
    (0 < k → s.X ≠ 0 ∨ s.Y ≠ 0) →
    axisCells q s n p =
      some ((List.range (k + 1)).map
        (fun i : Nat => (⟨p.X + (i : Int) * s.X, p.Y + (i : Int) * s.Y⟩ : I2))) := by
  intro k
  induction k with
  | zero =>
    intro n p hn hq _
    cases n with
    | zero => exact absurd hn (Nat.not_lt_zero _)
    | succ n =>
      have hpq : p = q := by
        rw [hq]
        cases p
        simp
      have h1 : axisCells q s (n + 1) p = some [p] := by simp [axisCells, hpq]
      rw [h1]
      cases p
      simp [List.range_succ]
  | succ k ih =>
    intro n p hn hq hs
    cases n with
    | zero => exact absurd hn (Nat.not_lt_zero _)
    | succ n =>
      have hpq : p ≠ q := by
        intro h
        rw [hq] at h
        have hX := congrArg I2.X h
        have hY := congrArg I2.Y h
        simp only at hX hY
        have hk : ((k + 1 : Nat) : Int) ≠ 0 := by omega
        rcases hs (Nat.succ_pos k) with h1 | h1
        · have : ((k + 1 : Nat) : Int) * s.X = 0 := by linarith
          rcases mul_eq_zero.mp this with h2 | h2
          · exact hk h2
          · exact h1 h2
        · have : ((k + 1 : Nat) : Int) * s.Y = 0 := by linarith
          rcases mul_eq_zero.mp this with h2 | h2
          · exact hk h2
          · exact h1 h2
      have hq' : q = ⟨(p.Add s).X + (k : Int) * s.X, (p.Add s).Y + (k : Int) * s.Y⟩ := by
        rw [hq]
        simp only [I2.Add, I2.mk.injEq]
        push_cast
        constructor <;> ring
      have := ih n (p.Add s) (by omega) hq' (fun _ => hs (Nat.succ_pos k))
      simp only [axisCells, if_neg hpq, this, Option.map_some']
      rw [List.range_succ_eq_map (k + 1), List.map_cons, List.map_map]
      congr 1
      refine congrArg₂ List.cons ?_ ?_
      · cases p
        simp
      · apply List.map_congr_left
        intro i _
        simp only [Function.comp, I2.Add, I2.mk.injEq]
        push_cast
        constructor <;> ring

/-- The cells of the walk in the axis-aligned case: the cell of start, then one unit
step at a time to the cell of end. -/
theorem segmentCells_axis (cellSize start end_ : I2) (fuel : Nat)
    (hax : (cell start cellSize).X = (cell end_ cellSize).X ∨
      (cell start cellSize).Y = (cell end_ cellSize).Y)
    (hfuel : cellDist cellSize start end_ < fuel) :
    segmentCells fuel cellSize start end_ =
      some ((List.range (cellDist cellSize start end_ + 1)).map
        (fun i : Nat =>
          (⟨(cell start cellSize).X +
              (i : Int) * ((cell end_ cellSize).Sub (cell start cellSize)).Sgn.X,
            (cell start cellSize).Y +
              (i : Int) * ((cell end_ cellSize).Sub (cell start cellSize)).Sgn.Y⟩ : I2))) ∧
    (0 < cellDist cellSize start end_ →
      ((cell end_ cellSize).Sub (cell start cellSize)).Sgn.X ≠ 0 ∨
      ((cell end_ cellSize).Sub (cell start cellSize)).Sgn.Y ≠ 0) := by
  have hs0 : ((cell end_ cellSize).Sub (cell start cellSize)).Sgn.X = 0 ∨
      ((cell end_ cellSize).Sub (cell start cellSize)).Sgn.Y = 0 := by
    simp only [I2.Sgn, I2.Sub, Sgn_eq_zero_iff]
    rcases hax with h | h
    · left; omega
    · right; omega
  have hne : 0 < cellDist cellSize start end_ →
      ((cell end_ cellSize).Sub (cell start cellSize)).Sgn.X ≠ 0 ∨
      ((cell end_ cellSize).Sub (cell start cellSize)).Sgn.Y ≠ 0 := by
    intro hk
    simp only [I2.Sgn, I2.Sub, ne_eq, Sgn_eq_zero_iff]
    unfold cellDist at hk
    omega
  refine ⟨?_, hne⟩
  unfold segmentCells
  simp only
  rw [if_pos hs0]
  apply axisCells_spec _ _ _ _ _ hfuel _ hne
  have hd : (cell end_ cellSize).X - (cell start cellSize).X = 0 ∨
      (cell end_ cellSize).Y - (cell start cellSize).Y = 0 := by
    rcases hax with h | h
    · left; omega
    · right; omega
  obtain ⟨e1, e2⟩ := axis_endpoint _ _ hd
  unfold cellDist
  simp only [I2.Sgn, I2.Sub]
  rw [e1, e2]
  cases hq : cell end_ cellSize
  simp

theorem generalCells_mono (q s : I2) (d : F2) : ∀ (n : Nat) (p : I2) (t : F2) (cs : List I2),
    generalCells q s d n p t = some cs → ∀ m, n ≤ m → generalCells q s d m p t = some cs := by
  intro n
  induction n with
  | zero =>
    intro p t cs h
    simp [generalCells] at h
  | succ n ih =>
    intro p t cs h m hm
    obtain ⟨m, rfl⟩ : ∃ k, m = k + 1 := ⟨m - 1, by omega⟩
    simp only [generalCells] at h ⊢
    by_cases hpq : p = q
    · rw [if_pos hpq] at h ⊢
      exact h
    · rw [if_neg hpq] at h ⊢
      by_cases hex : t.X > 1 ∧ t.Y > 1
      · rw [if_pos hex] at h ⊢
        exact h
      · rw [if_neg hex] at h ⊢
        by_cases hlt : t.X < t.Y
        · rw [if_pos hlt] at h ⊢
          cases hr : generalCells q s d n ⟨p.X + s.X, p.Y⟩ ⟨t.X + d.X, t.Y⟩ with
          | none =>
            rw [hr] at h
            simp at h
          | some cs' =>
            rw [hr] at h
            rw [ih _ _ _ hr m (by omega)]
            exact h
        · rw [if_neg hlt] at h ⊢
          cases hr : generalCells q s d n ⟨p.X, p.Y + s.Y⟩ ⟨t.X, t.Y + d.Y⟩ with
          | none =>
            rw [hr] at h
            simp at h
          | some cs' =>
            rw [hr] at h
            rw [ih _ _ _ hr m (by omega)]
            exact h

theorem generalCells_head (q s : I2) (d : F2) : ∀ (n : Nat) (p : I2) (t : F2) (cs : List I2),
    generalCells q s d n p t = some cs → cs.head? = some p ∧ cs.length ≤ n := by
  intro n
  induction n with
  | zero =>
    intro p t cs h
    simp [generalCells] at h
  | succ n ih =>
    intro p t cs h
    simp only [generalCells] at h
    by_cases hpq : p = q
    · rw [if_pos hpq] at h
      cases h
      simp
    · rw [if_neg hpq] at h
      by_cases hex : t.X > 1 ∧ t.Y > 1
      · rw [if_pos hex] at h
        cases h
        simp
      · rw [if_neg hex] at h
        by_cases hlt : t.X < t.Y
        · rw [if_pos hlt] at h
          cases hr : generalCells q s d n ⟨p.X + s.X, p.Y⟩ ⟨t.X + d.X, t.Y⟩ with
          | none =>
            rw [hr] at h
            simp at h
          | some cs' =>
            rw [hr] at h
            cases h
            have := (ih _ _ _ hr).2
            simp
            omega
        · rw [if_neg hlt] at h
          cases hr : generalCells q s d n ⟨p.X, p.Y + s.Y⟩ ⟨t.X, t.Y + d.Y⟩ with
          | none =>
            rw [hr] at h
            simp at h
          | some cs' =>
            rw [hr] at h
            cases h
            have := (ih _ _ _ hr).2
            simp
            omega

/-- The loop of the general case ends within mX + mY + 1 iterations when mX steps
along X and mY steps along Y take the two parameters beyond 1. -/
theorem generalCells_total (q s : I2) (d : F2) :
    ∀ (n mX mY : Nat) (p : I2) (t : F2), 1 < t.X + (mX : ℚ) * d.X → 1 < t.Y + (mY : ℚ) * d.Y →
      mX + mY < n → ∃ cs, generalCells q s d n p t = some cs := by
  intro n
  induction n with
  | zero =>
    intro mX mY p t _ _ h
    omega
  | succ n ih =>
    intro mX mY p t h1 h2 hn
    simp only [generalCells]
    by_cases hpq : p = q
    · rw [if_pos hpq]
      exact ⟨_, rfl⟩
    · rw [if_neg hpq]
      by_cases hex : t.X > 1 ∧ t.Y > 1
      · rw [if_pos hex]
        exact ⟨_, rfl⟩
      · rw [if_neg hex]
        by_cases hlt : t.X < t.Y
        · rw [if_pos hlt]
          have htX : t.X ≤ 1 := by
            by_contra hc
            push_neg at hc
            exact hex ⟨hc, lt_trans hc hlt⟩
          cases mX with
          | zero =>
            simp at h1
            linarith
          | succ k =>
            push_cast at h1
            obtain ⟨cs, hcs⟩ := ih k mY ⟨p.X + s.X, p.Y⟩ ⟨t.X + d.X, t.Y⟩
              (by simp only; linarith) h2 (by omega)
            exact ⟨p :: cs, by rw [hcs]; rfl⟩
        · rw [if_neg hlt]
          have htY : t.Y ≤ 1 := by
            by_contra hc
            push_neg at hc
            push_neg at hlt
            exact hex ⟨lt_of_lt_of_le hc hlt, hc⟩
          cases mY with
          | zero =>
            simp at h2
            linarith
          | succ k =>
            push_cast at h2
            obtain ⟨cs, hcs⟩ := ih mX k ⟨p.X, p.Y + s.Y⟩ ⟨t.X, t.Y + d.Y⟩
              h1 (by simp only; linarith) (by omega)
            exact ⟨p :: cs, by rw [hcs]; rfl⟩

/-- When the cell of b lies strictly on one side of the cell of a, the travel b - a
times the direction is positive, equals |b - a|, and the distance from a to the first
cell boundary in that direction is not negative. -/
theorem general_dir_pos (w a b : Int) (hw : 0 < w) (hs : Sgn (divDown b w - divDown a w) ≠ 0) :
    0 < (b - a) * Sgn (divDown b w - divDown a w) ∧
    (b - a) * Sgn (divDown b w - divDown a w) = ((b - a).natAbs : Int) ∧
    0 ≤ (if Sgn (divDown b w - divDown a w) > 0 then (divDown a w + 1) * w - a
      else a - divDown a w * w) := by
  obtain ⟨ha1, ha2⟩ := divDown_bounds a w hw
  obtain ⟨hb1, hb2⟩ := divDown_bounds b w hw
  unfold Sgn at hs ⊢
  by_cases hlt : divDown b w - divDown a w < 0
  · rw [if_pos hlt]
    have h1 : (divDown b w + 1) * w ≤ divDown a w * w :=
      mul_le_mul_of_nonneg_right (by omega) (le_of_lt hw)
    have hba : b < a := by linarith
    refine ⟨by linarith, by omega, ?_⟩
    rw [if_neg (by decide)]
    linarith
  · rw [if_neg hlt] at hs ⊢
    by_cases hgt : divDown b w - divDown a w > 0
    · rw [if_pos hgt]
      have h1 : (divDown a w + 1) * w ≤ divDown b w * w :=
        mul_le_mul_of_nonneg_right (by omega) (le_of_lt hw)
      have hba : a < b := by linarith
      refine ⟨by linarith, by omega, ?_⟩
      rw [if_pos (by decide)]
      linarith
    · rw [if_neg hgt] at hs
      exact absurd rfl hs

theorem param_beyond_one (A w v : Int) (hA : 0 ≤ A) (hw : 0 < w) (hv : 0 < v)
    (m : Nat) (hm : v < (m : Int)) :
    (1 : ℚ) < (A : ℚ) / (v : ℚ) + (m : ℚ) * ((w : ℚ) / (v : ℚ)) := by
  have hvq : (0 : ℚ) < (v : ℚ) := by exact_mod_cast hv
  have e : (A : ℚ) / (v : ℚ) + (m : ℚ) * ((w : ℚ) / (v : ℚ)) =
      ((A : ℚ) + (m : ℚ) * (w : ℚ)) / (v : ℚ) := by
    field_simp
  rw [e, one_lt_div hvq]
  have h1 : (m : Int) ≤ (m : Int) * w := by nlinarith
  have h2 : v < A + (m : Int) * w := by linarith
  exact_mod_cast h2

/-- For a positive cell size the walk visits a fixed non-empty list of cells, starting
at the cell of start, of length at most walkBound, whatever the fuel from walkBound
on. -/
theorem segmentCells_total (cellSize start end_ : I2)
    (hx : 0 < cellSize.X) (hy : 0 < cellSize.Y) :
    ∃ cs : List I2, cs.head? = some (cell start cellSize) ∧
      cs.length ≤ walkBound cellSize start end_ ∧
      ∀ fuel, walkBound cellSize start end_ ≤ fuel →
        segmentCells fuel cellSize start end_ = some cs := by
  by_cases hax : (cell start cellSize).X = (cell end_ cellSize).X ∨
      (cell start cellSize).Y = (cell end_ cellSize).Y
  · refine ⟨_, ?_, ?_, fun fuel hf =>
      (segmentCells_axis cellSize start end_ fuel hax (by unfold walkBound at hf; omega)).1⟩
    · rw [List.range_succ_eq_map]
      simp
    · simp [walkBound]
      omega
  · push_neg at hax
    have hsX : Sgn ((cell end_ cellSize).X - (cell start cellSize).X) ≠ 0 := by
      rw [ne_eq, Sgn_eq_zero_iff]
      intro h
      exact hax.1 (by omega)
    have hsY : Sgn ((cell end_ cellSize).Y - (cell start cellSize).Y) ≠ 0 := by
      rw [ne_eq, Sgn_eq_zero_iff]
      intro h
      exact hax.2 (by omega)
    have hs : ¬ (((cell end_ cellSize).Sub (cell start cellSize)).Sgn.X = 0 ∨
        ((cell end_ cellSize).Sub (cell start cellSize)).Sgn.Y = 0) := by
      simp only [I2.Sgn, I2.Sub]
      push_neg
      exact ⟨hsX, hsY⟩
    obtain ⟨hvX, hnX, hAX⟩ := general_dir_pos cellSize.X start.X end_.X hx hsX
    obtain ⟨hvY, hnY, hAY⟩ := general_dir_pos cellSize.Y start.Y end_.Y hy hsY
    have key : ∃ cs, segmentCells (walkBound cellSize start end_) cellSize start end_ =
        some cs := by
      unfold segmentCells
      simp only []
      rw [if_neg hs]
      apply generalCells_total _ _ _ _ ((end_.X - start.X).natAbs + 1)
        ((end_.Y - start.Y).natAbs + 1)
      · simp only [I2.F2, I2.EMul, I2.Sub, I2.Sgn, cell] at hAX ⊢
        have := param_beyond_one _ cellSize.X _ hAX hx hvX ((end_.X - start.X).natAbs + 1)
          (by rw [hnX]; push_cast; omega)
        simp only [cell] at this
        split_ifs at this ⊢ with hc
        · exact this
        · exact this
      · simp only [I2.F2, I2.EMul, I2.Sub, I2.Sgn, cell] at hAY ⊢
        have := param_beyond_one _ cellSize.Y _ hAY hy hvY ((end_.Y - start.Y).natAbs + 1)
          (by rw [hnY]; push_cast; omega)
        simp only [cell] at this
        split_ifs at this ⊢ with hc
        · exact this
        · exact this
      · unfold walkBound
        omega
    obtain ⟨cs, hcs⟩ := key
    have hhead : cs.head? = some (cell start cellSize) ∧
        cs.length ≤ walkBound cellSize start end_ := by
      have h := hcs
      unfold segmentCells at h
      simp only [] at h
      rw [if_neg hs] at h
      exact generalCells_head _ _ _ _ _ _ _ h
    refine ⟨cs, hhead.1, hhead.2, ?_⟩
    intro fuel hf
    have h := hcs
    unfold segmentCells at h ⊢
    simp only [] at h ⊢
    rw [if_neg hs] at h ⊢
    exact generalCells_mono _ _ _ _ _ _ _ h fuel hf

theorem axisCells_mono (q s : I2) : ∀ (n : Nat) (p : I2) (cs : List I2),
    axisCells q s n p = some cs → ∀ m, n ≤ m → axisCells q s m p = some cs := by
  intro n
  induction n with
  | zero =>
    intro p cs h
    simp [axisCells] at h
  | succ n ih =>
    intro p cs h m hm
    obtain ⟨m, rfl⟩ : ∃ k, m = k + 1 := ⟨m - 1, by omega⟩
    simp only [axisCells] at h ⊢
    by_cases hpq : p = q
    · rw [if_pos hpq] at h ⊢
      exact h
    · rw [if_neg hpq] at h ⊢
      cases hr : axisCells q s n (p.Add s) with
      | none =>
        rw [hr] at h
        simp at h
      | some cs' =>
        rw [hr] at h
        rw [ih _ _ hr m (by omega)]
        exact h

/-- More iterations allowed do not change the cells visited. -/
theorem segmentCells_mono (cellSize start end_ : I2) (n m : Nat) (cs : List I2)
    (h : segmentCells n cellSize start end_ = some cs) (hm : n ≤ m) :
    segmentCells m cellSize start end_ = some cs := by
  unfold segmentCells at h ⊢
  simp only [] at h ⊢
  by_cases hs : ((cell end_ cellSize).Sub (cell start cellSize)).Sgn.X = 0 ∨
      ((cell end_ cellSize).Sub (cell start cellSize)).Sgn.Y = 0
  · rw [if_pos hs] at h ⊢
    exact axisCells_mono _ _ _ _ _ h m hm
  · rw [if_neg hs] at h ⊢
    exact generalCells_mono _ _ _ _ _ _ _ h m hm

/-- Over unbounded integers and exact rationals, for a cell size with both components
positive, every start and end and every touch callback, the walk ends: allowed
walkBound iterations or more it returns a result, the same for every allowance, after
at most walkBound calls to touch; and in the general case (the direction s has no zero
component) both divisors v.X, v.Y and both steps d.X, d.Y are positive. -/
theorem walk_ends_exact (cellSize start end_ : I2)
    (hx : 0 < cellSize.X) (hy : 0 < cellSize.Y) :
    (∀ (σ : Type) (touch : I2 → σ → Bool × σ) (st : σ),
      ∃ (r : Bool × σ) (calls : List (I2 × Bool)),
        calls.length ≤ walkBound cellSize start end_ ∧
        ∀ fuel, walkBound cellSize start end_ ≤ fuel →
          CellsTouchingSegment fuel cellSize start end_ touch st = some r ∧
          CellsTouchingSegment fuel cellSize start end_ (logTouch touch) (st, []) =
            some (r.1, (r.2, calls))) ∧
    (((cell end_ cellSize).Sub (cell start cellSize)).Sgn.X ≠ 0 →
      ((cell end_ cellSize).Sub (cell start cellSize)).Sgn.Y ≠ 0 →
      0 < ((end_.Sub start).EMul ((cell end_ cellSize).Sub (cell start cellSize)).Sgn).F2.X ∧
      0 < ((end_.Sub start).EMul ((cell end_ cellSize).Sub (cell start cellSize)).Sgn).F2.Y ∧
      0 < cellSize.F2.X /
        ((end_.Sub start).EMul ((cell end_ cellSize).Sub (cell start cellSize)).Sgn).F2.X ∧
      0 < cellSize.F2.Y /
        ((end_.Sub start).EMul ((cell end_ cellSize).Sub (cell start cellSize)).Sgn).F2.Y) := by
  constructor
  · intro σ touch st
    obtain ⟨cs, hhead, hlen, htot⟩ := segmentCells_total cellSize start end_ hx hy
    have hne : cs ≠ [] := by
      intro h
      rw [h] at hhead
      simp at hhead
    obtain ⟨pre, c, hlog, _, hpre, _, hr1, hr2⟩ := runTouch_log touch cs hne st []
    refine ⟨runTouch touch cs st, (runTouch (logTouch touch) cs (st, [])).2.2, ?_, ?_⟩
    · have h1 := hpre.length_le
      rw [hlog]
      simp only [List.nil_append, List.length_map] at h1 ⊢
      omega
    · intro fuel hf
      refine ⟨CellsTouchingSegment_eq_runTouch fuel cellSize start end_ touch st cs
        (htot fuel hf), ?_⟩
      rw [CellsTouchingSegment_eq_runTouch fuel cellSize start end_ (logTouch touch) (st, []) cs
        (htot fuel hf), ← hr1, ← hr2]
  · intro hsX hsY
    simp only [I2.Sgn, I2.Sub, cell] at hsX hsY
    obtain ⟨hvX, _, _⟩ := general_dir_pos cellSize.X start.X end_.X hx hsX
    obtain ⟨hvY, _, _⟩ := general_dir_pos cellSize.Y start.Y end_.Y hy hsY
    simp only [I2.F2, I2.EMul, I2.Sub, I2.Sgn, cell]
    have hvXq : (0 : ℚ) < (((end_.X - start.X) *
        Sgn (divDown end_.X cellSize.X - divDown start.X cellSize.X) : Int) : ℚ) := by
      exact_mod_cast hvX
    have hvYq : (0 : ℚ) < (((end_.Y - start.Y) *
        Sgn (divDown end_.Y cellSize.Y - divDown start.Y cellSize.Y) : Int) : ℚ) := by
      exact_mod_cast hvY
    have hwq : (0 : ℚ) < (cellSize.X : ℚ) := by exact_mod_cast hx
    have hhq : (0 : ℚ) < (cellSize.Y : ℚ) := by exact_mod_cast hy
    exact ⟨hvXq, hvYq, div_pos hwq hvXq, div_pos hhq hvYq⟩

theorem mem_of_head_eq_some {α : Type} (l : List α) (a : α) (h : l.head? = some a) : a ∈ l := by
  cases l with
  | nil => simp at h
  | cons b t =>
    simp only [List.head?_cons, Option.some.injEq] at h
    rw [h]
    exact List.mem_cons_self _ _

/-- The invariant walkInv holds at every cell of the general case, E c being the
parameters held at the cell c. -/
theorem generalCells_inv (q s : I2) (d : F2) (E : I2 → F2) (hdX : 0 ≤ d.X) (hdY : 0 ≤ d.Y)
    (hEX : ∀ c : I2, E ⟨c.X + s.X, c.Y⟩ = ⟨(E c).X + d.X, (E c).Y⟩)
    (hEY : ∀ c : I2, E ⟨c.X, c.Y + s.Y⟩ = ⟨(E c).X, (E c).Y + d.Y⟩) :
    ∀ (n : Nat) (p : I2) (cs : List I2), walkInv (E p) d →
      generalCells q s d n p (E p) = some cs → ∀ c ∈ cs, walkInv (E c) d := by
  intro n
  induction n with
  | zero =>
    intro p cs _ h
    simp [generalCells] at h
  | succ n ih =>
    intro p cs hinv h
    obtain ⟨j0X, j0Y, j1, j2, j3, j4⟩ := hinv
    simp only [generalCells] at h
    by_cases hpq : p = q
    · rw [if_pos hpq] at h
      cases h
      intro c hc
      rw [List.mem_singleton] at hc
      rw [hc]
      exact ⟨j0X, j0Y, j1, j2, j3, j4⟩
    · rw [if_neg hpq] at h
      by_cases hex : (E p).X > 1 ∧ (E p).Y > 1
      · rw [if_pos hex] at h
        cases h
        intro c hc
        rw [List.mem_singleton] at hc
        rw [hc]
        exact ⟨j0X, j0Y, j1, j2, j3, j4⟩
      · rw [if_neg hex] at h
        by_cases hlt : (E p).X < (E p).Y
        · rw [if_pos hlt, ← hEX p] at h
          have htX : (E p).X ≤ 1 := by
            by_contra hc
            push_neg at hc
            exact hex ⟨hc, lt_trans hc hlt⟩
          cases hr : generalCells q s d n ⟨p.X + s.X, p.Y⟩ (E ⟨p.X + s.X, p.Y⟩) with
          | none =>
            rw [hr] at h
            simp at h
          | some cs' =>
            rw [hr] at h
            cases h
            have hinv' : walkInv (E ⟨p.X + s.X, p.Y⟩) d := by
              rw [hEX p]
              refine ⟨?_, ?_, ?_, ?_, ?_, ?_⟩ <;> simp only <;> linarith
            intro c hc
            rcases List.mem_cons.mp hc with hc | hc
            · rw [hc]
              exact ⟨j0X, j0Y, j1, j2, j3, j4⟩
            · exact ih _ _ hinv' hr c hc
        · rw [if_neg hlt, ← hEY p] at h
          push_neg at hlt
          have htY : (E p).Y ≤ 1 := by
            by_contra hc
            push_neg at hc
            exact hex ⟨lt_of_lt_of_le hc hlt, hc⟩
          cases hr : generalCells q s d n ⟨p.X, p.Y + s.Y⟩ (E ⟨p.X, p.Y + s.Y⟩) with
          | none =>
            rw [hr] at h
            simp at h
          | some cs' =>
            rw [hr] at h
            cases h
            have hinv' : walkInv (E ⟨p.X, p.Y + s.Y⟩) d := by
              rw [hEY p]
              refine ⟨?_, ?_, ?_, ?_, ?_, ?_⟩ <;> simp only <;> linarith
            intro c hc
            rcases List.mem_cons.mp hc with hc | hc
            · rw [hc]
              exact ⟨j0X, j0Y, j1, j2, j3, j4⟩
            · exact ih _ _ hinv' hr c hc

/-- The general case reaches the cell a steps along X and b steps along Y from p when
no parameter of an earlier column or row exceeds 1, the segment enters row b no later
than it leaves column a and enters column a before it leaves row b, and no other cell of
the box between p and that cell is q. -/
theorem generalCells_reaches (q s : I2) (d : F2) :
    ∀ (n a b : Nat) (p : I2) (t : F2) (cs : List I2),
      (∀ i : Nat, i < a → t.X + (i : ℚ) * d.X ≤ 1) →
      (∀ j : Nat, j < b → t.Y + (j : ℚ) * d.Y ≤ 1) →
      (∀ j : Nat, j < b → t.Y + (j : ℚ) * d.Y ≤ t.X + (a : ℚ) * d.X) →
      (∀ i : Nat, i < a → t.X + (i : ℚ) * d.X < t.Y + (b : ℚ) * d.Y) →
      (∀ i j : Nat, i ≤ a → j ≤ b → (i ≠ a ∨ j ≠ b) →
        (⟨p.X + (i : Int) * s.X, p.Y + (j : Int) * s.Y⟩ : I2) ≠ q) →
      generalCells q s d n p t = some cs →
      (⟨p.X + (a : Int) * s.X, p.Y + (b : Int) * s.Y⟩ : I2) ∈ cs := by
  intro n
  induction n with
  | zero =>
    intro a b p t cs _ _ _ _ _ h
    simp [generalCells] at h
  | succ n ih =>
    intro a b p t cs h1X h1Y h2 h3 h4 h
    by_cases hab : a = 0 ∧ b = 0
    · obtain ⟨ha, hb⟩ := hab
      subst ha
      subst hb
      have hp : (⟨p.X + ((0 : Nat) : Int) * s.X, p.Y + ((0 : Nat) : Int) * s.Y⟩ : I2) = p := by
        cases p
        simp
      rw [hp]
      exact mem_of_head_eq_some _ _ (generalCells_head _ _ _ _ _ _ _ h).1
    · have hab' : 0 ≠ a ∨ 0 ≠ b := by omega
      have hpq : p ≠ q := by
        have := h4 0 0 (Nat.zero_le _) (Nat.zero_le _) hab'
        intro hc
        apply this
        rw [← hc]
        cases p
        simp
      have hex : ¬ (t.X > 1 ∧ t.Y > 1) := by
        rintro ⟨hX, hY⟩
        rcases Nat.eq_zero_or_pos a with ha | ha
        · have hb : 0 < b := by omega
          have := h1Y 0 hb
          simp at this
          linarith
        · have := h1X 0 ha
          simp at this
          linarith
      simp only [generalCells] at h
      rw [if_neg hpq, if_neg hex] at h
      by_cases hlt : t.X < t.Y
      · rw [if_pos hlt] at h
        cases a with
        | zero =>
          exfalso
          have hb : 0 < b := by omega
          have := h2 0 hb
          simp at this
          linarith
        | succ a =>
          cases hr : generalCells q s d n ⟨p.X + s.X, p.Y⟩ ⟨t.X + d.X, t.Y⟩ with
          | none =>
            rw [hr] at h
            simp at h
          | some cs' =>
            rw [hr] at h
            cases h
            have key := ih a b ⟨p.X + s.X, p.Y⟩ ⟨t.X + d.X, t.Y⟩ cs'
              (fun i hi => by
                have := h1X (i + 1) (by omega)
                push_cast at this
                simp only
                linarith)
              h1Y
              (fun j hj => by
                have := h2 j hj
                push_cast at this
                simp only
                linarith)
              (fun i hi => by
                have := h3 (i + 1) (by omega)
                push_cast at this
                simp only
                linarith)
              (fun i j hi hj hij => by
                have := h4 (i + 1) j (by omega) hj (by omega)
                intro hc
                apply this
                rw [← hc]
                simp only [I2.mk.injEq]
                push_cast
                constructor
                · ring
                · trivial)
              hr
            apply List.mem_cons_of_mem
            have e : (⟨p.X + ((a + 1 : Nat) : Int) * s.X, p.Y + (b : Int) * s.Y⟩ : I2) =
                ⟨p.X + s.X + (a : Int) * s.X, p.Y + (b : Int) * s.Y⟩ := by
              simp only [I2.mk.injEq]
              push_cast
              constructor
              · ring
              · trivial
            rw [e]
            exact key
      · rw [if_neg hlt] at h
        push_neg at hlt
        cases b with
        | zero =>
          exfalso
          have ha : 0 < a := by omega
          have := h3 0 ha
          simp at this
          linarith
        | succ b =>
          cases hr : generalCells q s d n ⟨p.X, p.Y + s.Y⟩ ⟨t.X, t.Y + d.Y⟩ with
          | none =>
            rw [hr] at h
            simp at h
          | some cs' =>
            rw [hr] at h
            cases h
            have key := ih a b ⟨p.X, p.Y + s.Y⟩ ⟨t.X, t.Y + d.Y⟩ cs'
              h1X
              (fun j hj => by
                have := h1Y (j + 1) (by omega)
                push_cast at this
                simp only
                linarith)
              (fun j hj => by
                have := h2 (j + 1) (by omega)
                push_cast at this
                simp only
                linarith)
              (fun i hi => by
                have := h3 i hi
                push_cast at this
                simp only
                linarith)
              (fun i j hi hj hij => by
                have := h4 i (j + 1) hi (by omega) (by omega)
                intro hc
                apply this
                rw [← hc]
                simp only [I2.mk.injEq]
                push_cast
                constructor
                · trivial
                · ring)
              hr
            apply List.mem_cons_of_mem
            have e : (⟨p.X + (a : Int) * s.X, p.Y + ((b + 1 : Nat) : Int) * s.Y⟩ : I2) =
                ⟨p.X + (a : Int) * s.X, p.Y + s.Y + (b : Int) * s.Y⟩ := by
              simp only [I2.mk.injEq]
              push_cast
              constructor
              · trivial
              · ring
            rw [e]
            exact key

/-! ## CellsTouchingSegment: one axis of the general case -/

theorem Sgn_cases (x : Int) (h : Sgn x ≠ 0) : (Sgn x = 1 ∧ 0 < x) ∨ (Sgn x = -1 ∧ x < 0) := by
  unfold Sgn at h ⊢
  by_cases h1 : x < 0
  · right
    rw [if_pos h1]
    exact ⟨rfl, h1⟩
  · rw [if_neg h1] at h ⊢
    by_cases h2 : x > 0
    · left
      rw [if_pos h2]
      exact ⟨rfl, h2⟩
    · rw [if_neg h2] at h
      exact absurd rfl h

theorem int_lt_of_mul_lt (w x y : Int) (hw : 0 < w) (h : ((x : ℝ)) * (w : ℝ) < (y : ℝ) * (w : ℝ)) :
    x < y := by
  by_contra hc
  push_neg at hc
  have h1 : y * w ≤ x * w := mul_le_mul_of_nonneg_right hc (le_of_lt hw)
  have h2 : ((y : ℝ)) * (w : ℝ) ≤ (x : ℝ) * (w : ℝ) := by exact_mod_cast h1
  linarith

/-- One axis of the general case, completeness: a point of the segment at parameter τ
whose coordinate lies in the half-open column c is k columns from the column of a in
the direction σ, the segment enters the column no later than τ and leaves it no earlier,
both strictly when the coordinate is not the lower end c*w of the column. -/
theorem axis_complete (w a b c σ : Int) (τ : ℝ) (hw : 0 < w)
    (hσ : (σ = 1 ∧ 0 < divDown b w - divDown a w) ∨ (σ = -1 ∧ divDown b w - divDown a w < 0))
    (hτ0 : 0 ≤ τ) (hτ1 : τ ≤ 1)
    (h1 : (c : ℝ) * (w : ℝ) ≤ (a : ℝ) + τ * ((b : ℝ) - (a : ℝ)))
    (h2 : (a : ℝ) + τ * ((b : ℝ) - (a : ℝ)) < ((c : ℝ) + 1) * (w : ℝ)) :
    ∃ k : Nat, c = divDown a w + (k : Int) * σ ∧
      k ≤ (divDown b w - divDown a w).natAbs ∧
      (∀ i : Nat, i < k →
        ((exitAxis w a b (divDown a w) σ + (i : ℚ) * stepAxis w a b σ : ℚ) : ℝ) ≤ τ) ∧
      τ ≤ ((exitAxis w a b (divDown a w) σ + (k : ℚ) * stepAxis w a b σ : ℚ) : ℝ) ∧
      ((c : ℝ) * (w : ℝ) ≠ (a : ℝ) + τ * ((b : ℝ) - (a : ℝ)) →
        (∀ i : Nat, i < k →
          ((exitAxis w a b (divDown a w) σ + (i : ℚ) * stepAxis w a b σ : ℚ) : ℝ) < τ) ∧
        τ < ((exitAxis w a b (divDown a w) σ + (k : ℚ) * stepAxis w a b σ : ℚ) : ℝ)) := by
  unfold exitAxis stepAxis
  obtain ⟨ha1, ha2⟩ := divDown_bounds a w hw
  obtain ⟨hb1, hb2⟩ := divDown_bounds b w hw
  have hwr : (0 : ℝ) < (w : ℝ) := by exact_mod_cast hw
  have ha1r : ((divDown a w : Int) : ℝ) * (w : ℝ) ≤ (a : ℝ) := by exact_mod_cast ha1
  have ha2r : (a : ℝ) < (((divDown a w : Int) : ℝ) + 1) * (w : ℝ) := by exact_mod_cast ha2
  have hb1r : ((divDown b w : Int) : ℝ) * (w : ℝ) ≤ (b : ℝ) := by exact_mod_cast hb1
  have hb2r : (b : ℝ) < (((divDown b w : Int) : ℝ) + 1) * (w : ℝ) := by exact_mod_cast hb2
  rcases hσ with ⟨rfl, hdir⟩ | ⟨rfl, hdir⟩
  · -- travel towards larger coordinates
    have hq : (divDown a w + 1) * w ≤ divDown b w * w :=
      mul_le_mul_of_nonneg_right (by omega) (le_of_lt hw)
    have hqr : (((divDown a w : Int) : ℝ) + 1) * (w : ℝ) ≤ ((divDown b w : Int) : ℝ) * (w : ℝ) := by
      exact_mod_cast hq
    have hab : (a : ℝ) < (b : ℝ) := by linarith
    have hxa : (a : ℝ) ≤ (a : ℝ) + τ * ((b : ℝ) - (a : ℝ)) := by nlinarith
    have hxb : (a : ℝ) + τ * ((b : ℝ) - (a : ℝ)) ≤ (b : ℝ) := by nlinarith
    have hc0 : divDown a w < c + 1 := by
      apply int_lt_of_mul_lt w _ _ hw
      push_cast
      linarith
    have hc1 : c < divDown b w + 1 := by
      apply int_lt_of_mul_lt w _ _ hw
      push_cast
      linarith
    have hV : (0 : ℝ) < (b : ℝ) - (a : ℝ) := by linarith
    refine ⟨(c - divDown a w).toNat, ?_, ?_, ?_, ?_, ?_⟩
    · rw [Int.toNat_of_nonneg (by omega)]
      ring
    · omega
    · intro i hi
      have hic : divDown a w + 1 + (i : Int) ≤ c := by omega
      have hicw : (divDown a w + 1 + (i : Int)) * w ≤ c * w :=
        mul_le_mul_of_nonneg_right hic (le_of_lt hw)
      have hicr : (((divDown a w : Int) : ℝ) + 1 + (i : ℝ)) * (w : ℝ) ≤ (c : ℝ) * (w : ℝ) := by
        exact_mod_cast hicw
      rw [if_pos (by decide)]
      push_cast
      rw [mul_one]
      have e : ((((divDown a w : Int) : ℝ) + 1) * (w : ℝ) - (a : ℝ)) / ((b : ℝ) - (a : ℝ)) +
          (i : ℝ) * ((w : ℝ) / ((b : ℝ) - (a : ℝ))) =
          ((((divDown a w : Int) : ℝ) + 1 + (i : ℝ)) * (w : ℝ) - (a : ℝ)) /
            ((b : ℝ) - (a : ℝ)) := by
        ring
      rw [e, div_le_iff₀ hV]
      linarith
    · have hk : (((c - divDown a w).toNat : Nat) : Int) = c - divDown a w :=
        Int.toNat_of_nonneg (by omega)
      have hkr : (((c - divDown a w).toNat : Nat) : ℝ) = (c : ℝ) - ((divDown a w : Int) : ℝ) := by
        exact_mod_cast hk
      rw [if_pos (by decide)]
      push_cast
      rw [mul_one, hkr]
      have e : ((((divDown a w : Int) : ℝ) + 1) * (w : ℝ) - (a : ℝ)) / ((b : ℝ) - (a : ℝ)) +
          ((c : ℝ) - ((divDown a w : Int) : ℝ)) * ((w : ℝ) / ((b : ℝ) - (a : ℝ))) =
          (((c : ℝ) + 1) * (w : ℝ) - (a : ℝ)) / ((b : ℝ) - (a : ℝ)) := by
        ring
      rw [e, le_div_iff₀ hV]
      linarith
    · intro hne
      have hlt : (c : ℝ) * (w : ℝ) < (a : ℝ) + τ * ((b : ℝ) - (a : ℝ)) := lt_of_le_of_ne h1 hne
      constructor
      · intro i hi
        have hic : divDown a w + 1 + (i : Int) ≤ c := by omega
        have hicw : (divDown a w + 1 + (i : Int)) * w ≤ c * w :=
          mul_le_mul_of_nonneg_right hic (le_of_lt hw)
        have hicr : (((divDown a w : Int) : ℝ) + 1 + (i : ℝ)) * (w : ℝ) ≤ (c : ℝ) * (w : ℝ) := by
          exact_mod_cast hicw
        rw [if_pos (by decide)]
        push_cast
        rw [mul_one]
        have e : ((((divDown a w : Int) : ℝ) + 1) * (w : ℝ) - (a : ℝ)) / ((b : ℝ) - (a : ℝ)) +
            (i : ℝ) * ((w : ℝ) / ((b : ℝ) - (a : ℝ))) =
            ((((divDown a w : Int) : ℝ) + 1 + (i : ℝ)) * (w : ℝ) - (a : ℝ)) /
              ((b : ℝ) - (a : ℝ)) := by
          ring
        rw [e, div_lt_iff₀ hV]
        linarith
      · have hk : (((c - divDown a w).toNat : Nat) : Int) = c - divDown a w :=
          Int.toNat_of_nonneg (by omega)
        have hkr : (((c - divDown a w).toNat : Nat) : ℝ) =
            (c : ℝ) - ((divDown a w : Int) : ℝ) := by
          exact_mod_cast hk
        rw [if_pos (by decide)]
        push_cast
        rw [mul_one, hkr]
        have e : ((((divDown a w : Int) : ℝ) + 1) * (w : ℝ) - (a : ℝ)) / ((b : ℝ) - (a : ℝ)) +
            ((c : ℝ) - ((divDown a w : Int) : ℝ)) * ((w : ℝ) / ((b : ℝ) - (a : ℝ))) =
            (((c : ℝ) + 1) * (w : ℝ) - (a : ℝ)) / ((b : ℝ) - (a : ℝ)) := by
          ring
        rw [e, lt_div_iff₀ hV]
        linarith
  · -- travel towards smaller coordinates
    have hq : (divDown b w + 1) * w ≤ divDown a w * w :=
      mul_le_mul_of_nonneg_right (by omega) (le_of_lt hw)
    have hqr : (((divDown b w : Int) : ℝ) + 1) * (w : ℝ) ≤ ((divDown a w : Int) : ℝ) * (w : ℝ) := by
      exact_mod_cast hq
    have hab : (b : ℝ) < (a : ℝ) := by linarith
    have hxa : (a : ℝ) + τ * ((b : ℝ) - (a : ℝ)) ≤ (a : ℝ) := by nlinarith
    have hxb : (b : ℝ) ≤ (a : ℝ) + τ * ((b : ℝ) - (a : ℝ)) := by nlinarith
    have hc0 : c < divDown a w + 1 := by
      apply int_lt_of_mul_lt w _ _ hw
      push_cast
      linarith
    have hc1 : divDown b w < c + 1 := by
      apply int_lt_of_mul_lt w _ _ hw
      push_cast
      linarith
    have hV : (0 : ℝ) < (a : ℝ) - (b : ℝ) := by linarith
    refine ⟨(divDown a w - c).toNat, ?_, ?_, ?_, ?_, ?_⟩
    · rw [Int.toNat_of_nonneg (by omega)]
      ring
    · omega
    · intro i hi
      have hic : c + 1 ≤ divDown a w - (i : Int) := by omega
      have hicw : (c + 1) * w ≤ (divDown a w - (i : Int)) * w :=
        mul_le_mul_of_nonneg_right hic (le_of_lt hw)
      have hicr : ((c : ℝ) + 1) * (w : ℝ) ≤ (((divDown a w : Int) : ℝ) - (i : ℝ)) * (w : ℝ) := by
        exact_mod_cast hicw
      rw [if_neg (by decide)]
      push_cast
      have e : ((a : ℝ) - ((divDown a w : Int) : ℝ) * (w : ℝ)) / (((b : ℝ) - (a : ℝ)) * -1) +
          (i : ℝ) * ((w : ℝ) / (((b : ℝ) - (a : ℝ)) * -1)) =
          ((a : ℝ) - (((divDown a w : Int) : ℝ) - (i : ℝ)) * (w : ℝ)) /
            ((a : ℝ) - (b : ℝ)) := by
        have : ((b : ℝ) - (a : ℝ)) * -1 = (a : ℝ) - (b : ℝ) := by ring
        rw [this]
        ring
      rw [e, div_le_iff₀ hV]
      linarith
    · have hk : (((divDown a w - c).toNat : Nat) : Int) = divDown a w - c :=
        Int.toNat_of_nonneg (by omega)
      have hkr : (((divDown a w - c).toNat : Nat) : ℝ) = ((divDown a w : Int) : ℝ) - (c : ℝ) := by
        exact_mod_cast hk
      rw [if_neg (by decide)]
      push_cast
      rw [hkr]
      have e : ((a : ℝ) - ((divDown a w : Int) : ℝ) * (w : ℝ)) / (((b : ℝ) - (a : ℝ)) * -1) +
          (((divDown a w : Int) : ℝ) - (c : ℝ)) * ((w : ℝ) / (((b : ℝ) - (a : ℝ)) * -1)) =
          ((a : ℝ) - (c : ℝ) * (w : ℝ)) / ((a : ℝ) - (b : ℝ)) := by
        have : ((b : ℝ) - (a : ℝ)) * -1 = (a : ℝ) - (b : ℝ) := by ring
        rw [this]
        ring
      rw [e, le_div_iff₀ hV]
      linarith
    · intro hne
      have hlt : (c : ℝ) * (w : ℝ) < (a : ℝ) + τ * ((b : ℝ) - (a : ℝ)) := lt_of_le_of_ne h1 hne
      constructor
      · intro i hi
        have hic : c + 1 ≤ divDown a w - (i : Int) := by omega
        have hicw : (c + 1) * w ≤ (divDown a w - (i : Int)) * w :=
          mul_le_mul_of_nonneg_right hic (le_of_lt hw)
        have hicr : ((c : ℝ) + 1) * (w : ℝ) ≤
            (((divDown a w : Int) : ℝ) - (i : ℝ)) * (w : ℝ) := by
          exact_mod_cast hicw
        rw [if_neg (by decide)]
        push_cast
        have e : ((a : ℝ) - ((divDown a w : Int) : ℝ) * (w : ℝ)) / (((b : ℝ) - (a : ℝ)) * -1) +
            (i : ℝ) * ((w : ℝ) / (((b : ℝ) - (a : ℝ)) * -1)) =
            ((a : ℝ) - (((divDown a w : Int) : ℝ) - (i : ℝ)) * (w : ℝ)) /
              ((a : ℝ) - (b : ℝ)) := by
          have : ((b : ℝ) - (a : ℝ)) * -1 = (a : ℝ) - (b : ℝ) := by ring
          rw [this]
          ring
        rw [e, div_lt_iff₀ hV]
        linarith
      · have hk : (((divDown a w - c).toNat : Nat) : Int) = divDown a w - c :=
          Int.toNat_of_nonneg (by omega)
        have hkr : (((divDown a w - c).toNat : Nat) : ℝ) =
            ((divDown a w : Int) : ℝ) - (c : ℝ) := by
          exact_mod_cast hk
        rw [if_neg (by decide)]
        push_cast
        rw [hkr]
        have e : ((a : ℝ) - ((divDown a w : Int) : ℝ) * (w : ℝ)) / (((b : ℝ) - (a : ℝ)) * -1) +
            (((divDown a w : Int) : ℝ) - (c : ℝ)) * ((w : ℝ) / (((b : ℝ) - (a : ℝ)) * -1)) =
            ((a : ℝ) - (c : ℝ) * (w : ℝ)) / ((a : ℝ) - (b : ℝ)) := by
          have : ((b : ℝ) - (a : ℝ)) * -1 = (a : ℝ) - (b : ℝ) := by ring
          rw [this]
          ring
        rw [e, lt_div_iff₀ hV]
        linarith

/-- One axis of the general case, strictness: for a point of the segment at parameter
τ whose coordinate lies in the half-open column c, k columns from the column of a, the
segment leaves the column strictly after τ when it travels towards larger coordinates,
and has left every earlier column strictly before τ when it travels towards smaller
coordinates. -/
theorem axis_strict (w a b c σ : Int) (τ : ℝ) (k : Nat) (hw : 0 < w)
    (hσ : (σ = 1 ∧ 0 < divDown b w - divDown a w) ∨ (σ = -1 ∧ divDown b w - divDown a w < 0))
    (hτ0 : 0 ≤ τ) (hτ1 : τ ≤ 1)
    (h1 : (c : ℝ) * (w : ℝ) ≤ (a : ℝ) + τ * ((b : ℝ) - (a : ℝ)))
    (h2 : (a : ℝ) + τ * ((b : ℝ) - (a : ℝ)) < ((c : ℝ) + 1) * (w : ℝ))
    (hk : c = divDown a w + (k : Int) * σ) :
    (σ = 1 → τ < ((exitAxis w a b (divDown a w) σ + (k : ℚ) * stepAxis w a b σ : ℚ) : ℝ)) ∧
    (σ = -1 → ∀ i : Nat, i < k →
      ((exitAxis w a b (divDown a w) σ + (i : ℚ) * stepAxis w a b σ : ℚ) : ℝ) < τ) := by
  unfold exitAxis stepAxis
  obtain ⟨ha1, ha2⟩ := divDown_bounds a w hw
  obtain ⟨hb1, hb2⟩ := divDown_bounds b w hw
  have hwr : (0 : ℝ) < (w : ℝ) := by exact_mod_cast hw
  have ha1r : ((divDown a w : Int) : ℝ) * (w : ℝ) ≤ (a : ℝ) := by exact_mod_cast ha1
  have ha2r : (a : ℝ) < (((divDown a w : Int) : ℝ) + 1) * (w : ℝ) := by exact_mod_cast ha2
  have hb1r : ((divDown b w : Int) : ℝ) * (w : ℝ) ≤ (b : ℝ) := by exact_mod_cast hb1
  have hb2r : (b : ℝ) < (((divDown b w : Int) : ℝ) + 1) * (w : ℝ) := by exact_mod_cast hb2
  rcases hσ with ⟨rfl, hdir⟩ | ⟨rfl, hdir⟩
  · refine ⟨fun _ => ?_, fun h => absurd h (by decide)⟩
    have hq : (divDown a w + 1) * w ≤ divDown b w * w :=
      mul_le_mul_of_nonneg_right (by omega) (le_of_lt hw)
    have hqr : (((divDown a w : Int) : ℝ) + 1) * (w : ℝ) ≤ ((divDown b w : Int) : ℝ) * (w : ℝ) := by
      exact_mod_cast hq
    have hV : (0 : ℝ) < (b : ℝ) - (a : ℝ) := by linarith
    have hk' : (k : Int) = c - divDown a w := by omega
    have hkr : (k : ℝ) = (c : ℝ) - ((divDown a w : Int) : ℝ) := by exact_mod_cast hk'
    rw [if_pos (by decide)]
    push_cast
    rw [mul_one, hkr]
    have e : ((((divDown a w : Int) : ℝ) + 1) * (w : ℝ) - (a : ℝ)) / ((b : ℝ) - (a : ℝ)) +
        ((c : ℝ) - ((divDown a w : Int) : ℝ)) * ((w : ℝ) / ((b : ℝ) - (a : ℝ))) =
        (((c : ℝ) + 1) * (w : ℝ) - (a : ℝ)) / ((b : ℝ) - (a : ℝ)) := by
      ring
    rw [e, lt_div_iff₀ hV]
    linarith
  · refine ⟨fun h => absurd h (by decide), fun _ i hi => ?_⟩
    have hq : (divDown b w + 1) * w ≤ divDown a w * w :=
      mul_le_mul_of_nonneg_right (by omega) (le_of_lt hw)
    have hqr : (((divDown b w : Int) : ℝ) + 1) * (w : ℝ) ≤ ((divDown a w : Int) : ℝ) * (w : ℝ) := by
      exact_mod_cast hq
    have hV : (0 : ℝ) < (a : ℝ) - (b : ℝ) := by linarith
    have hic : c + 1 ≤ divDown a w - (i : Int) := by omega
    have hicw : (c + 1) * w ≤ (divDown a w - (i : Int)) * w :=
      mul_le_mul_of_nonneg_right hic (le_of_lt hw)
    have hicr : ((c : ℝ) + 1) * (w : ℝ) ≤
        (((divDown a w : Int) : ℝ) - (i : ℝ)) * (w : ℝ) := by
      exact_mod_cast hicw
    rw [if_neg (by decide)]
    push_cast
    have e : ((a : ℝ) - ((divDown a w : Int) : ℝ) * (w : ℝ)) / (((b : ℝ) - (a : ℝ)) * -1) +
        (i : ℝ) * ((w : ℝ) / (((b : ℝ) - (a : ℝ)) * -1)) =
        ((a : ℝ) - (((divDown a w : Int) : ℝ) - (i : ℝ)) * (w : ℝ)) /
          ((a : ℝ) - (b : ℝ)) := by
      have : ((b : ℝ) - (a : ℝ)) * -1 = (a : ℝ) - (b : ℝ) := by ring
      rw [this]
      ring
    rw [e, div_lt_iff₀ hV]
    linarith

theorem convex_lt (a b u τ : ℝ) (h0 : 0 ≤ τ) (h1 : τ ≤ 1) (ha : a < u) (hb : b < u) :
    a + τ * (b - a) < u := by
  rcases le_total a b with h | h
  · have : τ * (b - a) ≤ 1 * (b - a) := mul_le_mul_of_nonneg_right h1 (by linarith)
    linarith
  · have := mul_nonneg h0 (sub_nonneg.2 h)
    linarith

theorem exitAxis_step (w a b c σ : Int) (hσ : σ = 1 ∨ σ = -1) :
    exitAxis w a b (c + σ) σ = exitAxis w a b c σ + stepAxis w a b σ := by
  unfold exitAxis stepAxis
  rcases hσ with rfl | rfl
  · rw [if_pos (by decide), if_pos (by decide)]
    push_cast
    ring
  · rw [if_neg (by decide), if_neg (by decide)]
    push_cast
    ring

theorem exitAxis_steps (w a b c σ : Int) (hσ : σ = 1 ∨ σ = -1) (k : Nat) :
    exitAxis w a b (c + (k : Int) * σ) σ = exitAxis w a b c σ + (k : ℚ) * stepAxis w a b σ := by
  induction k with
  | zero => simp
  | succ k ih =>
    have e : c + ((k + 1 : Nat) : Int) * σ = c + (k : Int) * σ + σ := by
      push_cast
      ring
    rw [e, exitAxis_step _ _ _ _ _ hσ, ih]
    push_cast
    ring

theorem stepAxis_pos (w a b σ : Int) (hw : 0 < w) (hv : 0 < (b - a) * σ) :
    0 < stepAxis w a b σ := by
  unfold stepAxis
  have hwq : (0 : ℚ) < (w : ℚ) := by exact_mod_cast hw
  have hvq : (0 : ℚ) < (((b - a) * σ : Int) : ℚ) := by exact_mod_cast hv
  exact div_pos hwq hvq

/-- At the column of a the segment has not left the column before the parameter 0 and
has entered it by then. -/
theorem exitAxis_init (w a b σ : Int) (hw : 0 < w) (hv : 0 < (b - a) * σ) :
    0 ≤ exitAxis w a b (divDown a w) σ ∧
    exitAxis w a b (divDown a w) σ - stepAxis w a b σ ≤ 0 := by
  obtain ⟨ha1, ha2⟩ := divDown_bounds a w hw
  have hvq : (0 : ℚ) < (((b - a) * σ : Int) : ℚ) := by exact_mod_cast hv
  unfold exitAxis stepAxis
  by_cases h : σ > 0
  · rw [if_pos h]
    constructor
    · apply div_nonneg _ (le_of_lt hvq)
      have : 0 ≤ (divDown a w + 1) * w - a := by linarith
      exact_mod_cast this
    · rw [← sub_div]
      apply div_nonpos_of_nonpos_of_nonneg _ (le_of_lt hvq)
      have : (divDown a w + 1) * w - a - w ≤ 0 := by linarith
      exact_mod_cast this
  · rw [if_neg h]
    constructor
    · apply div_nonneg _ (le_of_lt hvq)
      have : 0 ≤ a - divDown a w * w := by linarith
      exact_mod_cast this
    · rw [← sub_div]
      apply div_nonpos_of_nonpos_of_nonneg _ (le_of_lt hvq)
      have : a - divDown a w * w - w ≤ 0 := by linarith
      exact_mod_cast this

/-- One axis of the general case, soundness: at a parameter between the entry into the
column c and the exit from it the coordinate lies in the closed column. -/
theorem axis_sound (w a b c σ : Int) (τ : ℚ) (hσ : σ = 1 ∨ σ = -1) (hv : 0 < (b - a) * σ)
    (h1 : exitAxis w a b c σ - stepAxis w a b σ ≤ τ) (h2 : τ ≤ exitAxis w a b c σ) :
    (c : ℝ) * (w : ℝ) ≤ (a : ℝ) + (τ : ℝ) * ((b : ℝ) - (a : ℝ)) ∧
    (a : ℝ) + (τ : ℝ) * ((b : ℝ) - (a : ℝ)) ≤ ((c : ℝ) + 1) * (w : ℝ) := by
  have hq : (c : ℚ) * (w : ℚ) ≤ (a : ℚ) + τ * ((b : ℚ) - (a : ℚ)) ∧
      (a : ℚ) + τ * ((b : ℚ) - (a : ℚ)) ≤ ((c : ℚ) + 1) * (w : ℚ) := by
    unfold exitAxis at h1 h2
    unfold stepAxis at h1
    rcases hσ with rfl | rfl
    · rw [if_pos (by decide)] at h1 h2
      have hV : (0 : ℚ) < (b : ℚ) - (a : ℚ) := by
        have : 0 < b - a := by linarith
        exact_mod_cast this
      push_cast at h1 h2
      rw [mul_one] at h1 h2
      rw [← sub_div, div_le_iff₀ hV] at h1
      rw [le_div_iff₀ hV] at h2
      constructor <;> linarith
    · rw [if_neg (by decide)] at h1 h2
      have hV : (0 : ℚ) < (a : ℚ) - (b : ℚ) := by
        have : 0 < a - b := by linarith
        exact_mod_cast this
      have e : ((((b - a) * -1 : Int)) : ℚ) = (a : ℚ) - (b : ℚ) := by
        push_cast
        ring
      rw [e] at h1 h2
      push_cast at h1 h2
      rw [← sub_div, div_le_iff₀ hV] at h1
      rw [le_div_iff₀ hV] at h2
      constructor <;> linarith
  obtain ⟨hq1, hq2⟩ := hq
  constructor
  · exact_mod_cast hq1
  · exact_mod_cast hq2

/-- Every column between the column of a and the column of b holds a point of the
segment from a to b. -/
theorem axis_exists (w a b σ : Int) (k : Nat) (hw : 0 < w)
    (hσ : (σ = 1 ∧ 0 < divDown b w - divDown a w) ∨ (σ = -1 ∧ divDown b w - divDown a w < 0))
    (hk : k ≤ (divDown b w - divDown a w).natAbs) :
    ∃ τ : ℚ, 0 ≤ τ ∧ τ ≤ 1 ∧
      exitAxis w a b (divDown a w + (k : Int) * σ) σ - stepAxis w a b σ ≤ τ ∧
      τ ≤ exitAxis w a b (divDown a w + (k : Int) * σ) σ := by
  obtain ⟨ha1, ha2⟩ := divDown_bounds a w hw
  obtain ⟨hb1, hb2⟩ := divDown_bounds b w hw
  have hσ' : σ = 1 ∨ σ = -1 := by
    rcases hσ with h | h
    · exact Or.inl h.1
    · exact Or.inr h.1
  have hv : 0 < (b - a) * σ := by
    rcases hσ with ⟨rfl, hdir⟩ | ⟨rfl, hdir⟩
    · have : (divDown a w + 1) * w ≤ divDown b w * w :=
        mul_le_mul_of_nonneg_right (by omega) (le_of_lt hw)
      linarith
    · have : (divDown b w + 1) * w ≤ divDown a w * w :=
        mul_le_mul_of_nonneg_right (by omega) (le_of_lt hw)
      linarith
  have hd := stepAxis_pos w a b σ hw hv
  have hinit := exitAxis_init w a b σ hw hv
  have hsteps := exitAxis_steps w a b (divDown a w) σ hσ' k
  have hkq : (0 : ℚ) ≤ (k : ℚ) := Nat.cast_nonneg k
  have hent : exitAxis w a b (divDown a w + (k : Int) * σ) σ - stepAxis w a b σ ≤ 1 := by
    have hvq : (0 : ℚ) < (((b - a) * σ : Int) : ℚ) := by exact_mod_cast hv
    unfold exitAxis stepAxis
    rw [← sub_div, div_le_iff₀ hvq, one_mul]
    rcases hσ with ⟨rfl, hdir⟩ | ⟨rfl, hdir⟩
    · rw [if_pos (by decide)]
      have hkc : divDown a w + (k : Int) * 1 ≤ divDown b w := by omega
      have : (divDown a w + (k : Int) * 1) * w ≤ divDown b w * w :=
        mul_le_mul_of_nonneg_right hkc (le_of_lt hw)
      have h3 : (divDown a w + (k : Int) * 1 + 1) * w - a - w ≤ (b - a) * 1 := by linarith
      exact_mod_cast h3
    · rw [if_neg (by decide)]
      have hkc : divDown b w ≤ divDown a w + (k : Int) * -1 := by omega
      have : divDown b w * w ≤ (divDown a w + (k : Int) * -1) * w :=
        mul_le_mul_of_nonneg_right hkc (le_of_lt hw)
      have h3 : a - (divDown a w + (k : Int) * -1) * w - w ≤ (b - a) * -1 := by linarith
      exact_mod_cast h3
  have hexit : 0 ≤ exitAxis w a b (divDown a w + (k : Int) * σ) σ := by
    rw [hsteps]
    have := mul_nonneg hkq (le_of_lt hd)
    linarith [hinit.1]
  refine ⟨max 0 (exitAxis w a b (divDown a w + (k : Int) * σ) σ - stepAxis w a b σ),
    le_max_left _ _, max_le (by norm_num) hent, le_max_right _ _, max_le hexit (by linarith)⟩

/-- The column of a point of the segment from a to b lies between the column of a and
the column of b. -/
theorem axis_between (w a b c : Int) (τ : ℝ) (hw : 0 < w) (hτ0 : 0 ≤ τ) (hτ1 : τ ≤ 1)
    (h1 : (c : ℝ) * (w : ℝ) ≤ (a : ℝ) + τ * ((b : ℝ) - (a : ℝ)))
    (h2 : (a : ℝ) + τ * ((b : ℝ) - (a : ℝ)) < ((c : ℝ) + 1) * (w : ℝ)) :
    ∃ k : Nat, c = divDown a w + (k : Int) * Sgn (divDown b w - divDown a w) ∧
      k ≤ (divDown b w - divDown a w).natAbs := by
  by_cases hs : Sgn (divDown b w - divDown a w) = 0
  · refine ⟨0, ?_, Nat.zero_le _⟩
    rw [hs]
    have hqc : divDown b w = divDown a w := by
      have := (Sgn_eq_zero_iff _).mp hs
      omega
    obtain ⟨ha1, ha2⟩ := divDown_bounds a w hw
    obtain ⟨hb1, hb2⟩ := divDown_bounds b w hw
    rw [hqc] at hb1 hb2
    have ha1r : ((divDown a w : Int) : ℝ) * (w : ℝ) ≤ (a : ℝ) := by exact_mod_cast ha1
    have ha2r : (a : ℝ) < (((divDown a w : Int) : ℝ) + 1) * (w : ℝ) := by exact_mod_cast ha2
    have hb1r : ((divDown a w : Int) : ℝ) * (w : ℝ) ≤ (b : ℝ) := by exact_mod_cast hb1
    have hb2r : (b : ℝ) < (((divDown a w : Int) : ℝ) + 1) * (w : ℝ) := by exact_mod_cast hb2
    have hx1 : ((divDown a w : Int) : ℝ) * (w : ℝ) ≤ (a : ℝ) + τ * ((b : ℝ) - (a : ℝ)) := by
      nlinarith
    have hx2 : (a : ℝ) + τ * ((b : ℝ) - (a : ℝ)) < (((divDown a w : Int) : ℝ) + 1) * (w : ℝ) :=
      convex_lt _ _ _ _ hτ0 hτ1 ha2r hb2r
    have hc0 : divDown a w < c + 1 := by
      apply int_lt_of_mul_lt w _ _ hw
      push_cast
      linarith
    have hc1 : c < divDown a w + 1 := by
      apply int_lt_of_mul_lt w _ _ hw
      push_cast
      linarith
    omega
  · have hcases : (Sgn (divDown b w - divDown a w) = 1 ∧ 0 < divDown b w - divDown a w) ∨
        (Sgn (divDown b w - divDown a w) = -1 ∧ divDown b w - divDown a w < 0) :=
      Sgn_cases _ hs
    obtain ⟨k, hk1, hk2, _⟩ := axis_complete w a b c _ τ hw hcases hτ0 hτ1 h1 h2
    exact ⟨k, hk1, hk2⟩

/-- When a and b lie in one column, so does every point of the segment from a to b. -/
theorem axis_same_column (w a b : Int) (τ : ℝ) (hw : 0 < w) (hτ0 : 0 ≤ τ) (hτ1 : τ ≤ 1)
    (hq : divDown b w = divDown a w) :
    ((divDown a w : Int) : ℝ) * (w : ℝ) ≤ (a : ℝ) + τ * ((b : ℝ) - (a : ℝ)) ∧
    (a : ℝ) + τ * ((b : ℝ) - (a : ℝ)) ≤ (((divDown a w : Int) : ℝ) + 1) * (w : ℝ) := by
  obtain ⟨ha1, ha2⟩ := divDown_bounds a w hw
  obtain ⟨hb1, hb2⟩ := divDown_bounds b w hw
  rw [hq] at hb1 hb2
  have ha1r : ((divDown a w : Int) : ℝ) * (w : ℝ) ≤ (a : ℝ) := by exact_mod_cast ha1
  have ha2r : (a : ℝ) < (((divDown a w : Int) : ℝ) + 1) * (w : ℝ) := by exact_mod_cast ha2
  have hb1r : ((divDown a w : Int) : ℝ) * (w : ℝ) ≤ (b : ℝ) := by exact_mod_cast hb1
  have hb2r : (b : ℝ) < (((divDown a w : Int) : ℝ) + 1) * (w : ℝ) := by exact_mod_cast hb2
  constructor <;> nlinarith

/-! ## CellsTouchingSegment: the cells visited and the segment -/

theorem segmentCells_general_eq (fuel : Nat) (cellSize start end_ : I2)
    (hs : ¬ (((cell end_ cellSize).Sub (cell start cellSize)).Sgn.X = 0 ∨
      ((cell end_ cellSize).Sub (cell start cellSize)).Sgn.Y = 0)) :
    segmentCells fuel cellSize start end_ =
      generalCells (cell end_ cellSize) ((cell end_ cellSize).Sub (cell start cellSize)).Sgn
        (stepParam cellSize start end_) fuel (cell start cellSize)
        (exitParam cellSize start end_ (cell start cellSize)) := by
  unfold segmentCells
  simp only []
  rw [if_neg hs]
  rfl

/-- Soundness of the general case: every cell visited, taken as a closed rectangle,
holds a point of the segment. -/
theorem segmentCells_general_sound (cellSize start end_ : I2)
    (hx : 0 < cellSize.X) (hy : 0 < cellSize.Y)
    (hsX : Sgn (divDown end_.X cellSize.X - divDown start.X cellSize.X) ≠ 0)
    (hsY : Sgn (divDown end_.Y cellSize.Y - divDown start.Y cellSize.Y) ≠ 0)
    (fuel : Nat) (cs : List I2) (h : segmentCells fuel cellSize start end_ = some cs) :
    ∀ c ∈ cs, ∃ τ : ℝ, 0 ≤ τ ∧ τ ≤ 1 ∧
      (c.X : ℝ) * (cellSize.X : ℝ) ≤ (start.X : ℝ) + τ * ((end_.X : ℝ) - (start.X : ℝ)) ∧
      (start.X : ℝ) + τ * ((end_.X : ℝ) - (start.X : ℝ)) ≤ ((c.X : ℝ) + 1) * (cellSize.X : ℝ) ∧
      (c.Y : ℝ) * (cellSize.Y : ℝ) ≤ (start.Y : ℝ) + τ * ((end_.Y : ℝ) - (start.Y : ℝ)) ∧
      (start.Y : ℝ) + τ * ((end_.Y : ℝ) - (start.Y : ℝ)) ≤ ((c.Y : ℝ) + 1) * (cellSize.Y : ℝ) := by
  have hcX := Sgn_cases _ hsX
  have hcY := Sgn_cases _ hsY
  have hσX : Sgn (divDown end_.X cellSize.X - divDown start.X cellSize.X) = 1 ∨
      Sgn (divDown end_.X cellSize.X - divDown start.X cellSize.X) = -1 :=
    hcX.imp And.left And.left
  have hσY : Sgn (divDown end_.Y cellSize.Y - divDown start.Y cellSize.Y) = 1 ∨
      Sgn (divDown end_.Y cellSize.Y - divDown start.Y cellSize.Y) = -1 :=
    hcY.imp And.left And.left
  obtain ⟨hvX, _, _⟩ := general_dir_pos cellSize.X start.X end_.X hx hsX
  obtain ⟨hvY, _, _⟩ := general_dir_pos cellSize.Y start.Y end_.Y hy hsY
  have hs : ¬ (((cell end_ cellSize).Sub (cell start cellSize)).Sgn.X = 0 ∨
      ((cell end_ cellSize).Sub (cell start cellSize)).Sgn.Y = 0) := by
    rintro (h0 | h0)
    · exact hsX h0
    · exact hsY h0
  rw [segmentCells_general_eq fuel cellSize start end_ hs] at h
  have hdX := stepAxis_pos cellSize.X start.X end_.X _ hx hvX
  have hdY := stepAxis_pos cellSize.Y start.Y end_.Y _ hy hvY
  obtain ⟨hiX0, hiX1⟩ := exitAxis_init cellSize.X start.X end_.X _ hx hvX
  obtain ⟨hiY0, hiY1⟩ := exitAxis_init cellSize.Y start.Y end_.Y _ hy hvY
  have hinv := generalCells_inv (cell end_ cellSize)
    ((cell end_ cellSize).Sub (cell start cellSize)).Sgn (stepParam cellSize start end_)
    (exitParam cellSize start end_) (le_of_lt hdX) (le_of_lt hdY)
    (fun c => by
      unfold exitParam stepParam
      simp only [F2.mk.injEq, and_true]
      exact exitAxis_step _ _ _ _ _ hσX)
    (fun c => by
      unfold exitParam stepParam
      simp only [F2.mk.injEq, true_and]
      exact exitAxis_step _ _ _ _ _ hσY)
    fuel (cell start cellSize) cs
    ⟨hiX0, hiY0, le_trans hiX1 zero_le_one, le_trans hiY1 zero_le_one, le_trans hiX1 hiY0,
      le_trans hiY1 hiX0⟩ h
  intro c hc
  obtain ⟨j0X, j0Y, j1, j2, j3, j4⟩ := hinv c hc
  have j0X' : 0 ≤ exitAxis cellSize.X start.X end_.X c.X
    (Sgn (divDown end_.X cellSize.X - divDown start.X cellSize.X)) := j0X
  have j0Y' : 0 ≤ exitAxis cellSize.Y start.Y end_.Y c.Y
    (Sgn (divDown end_.Y cellSize.Y - divDown start.Y cellSize.Y)) := j0Y
  have j1' : exitAxis cellSize.X start.X end_.X c.X
      (Sgn (divDown end_.X cellSize.X - divDown start.X cellSize.X)) -
      stepAxis cellSize.X start.X end_.X
        (Sgn (divDown end_.X cellSize.X - divDown start.X cellSize.X)) ≤ 1 := j1
  have j2' : exitAxis cellSize.Y start.Y end_.Y c.Y
      (Sgn (divDown end_.Y cellSize.Y - divDown start.Y cellSize.Y)) -
      stepAxis cellSize.Y start.Y end_.Y
        (Sgn (divDown end_.Y cellSize.Y - divDown start.Y cellSize.Y)) ≤ 1 := j2
  have j3' : exitAxis cellSize.X start.X end_.X c.X
      (Sgn (divDown end_.X cellSize.X - divDown start.X cellSize.X)) -
      stepAxis cellSize.X start.X end_.X
        (Sgn (divDown end_.X cellSize.X - divDown start.X cellSize.X)) ≤
      exitAxis cellSize.Y start.Y end_.Y c.Y
        (Sgn (divDown end_.Y cellSize.Y - divDown start.Y cellSize.Y)) := j3
  have j4' : exitAxis cellSize.Y start.Y end_.Y c.Y
      (Sgn (divDown end_.Y cellSize.Y - divDown start.Y cellSize.Y)) -
      stepAxis cellSize.Y start.Y end_.Y
        (Sgn (divDown end_.Y cellSize.Y - divDown start.Y cellSize.Y)) ≤
      exitAxis cellSize.X start.X end_.X c.X
        (Sgn (divDown end_.X cellSize.X - divDown start.X cellSize.X)) := j4
  obtain ⟨τ, hτ⟩ : ∃ τ : ℚ, τ = max 0 (max
      (exitAxis cellSize.X start.X end_.X c.X
        (Sgn (divDown end_.X cellSize.X - divDown start.X cellSize.X)) -
        stepAxis cellSize.X start.X end_.X
          (Sgn (divDown end_.X cellSize.X - divDown start.X cellSize.X)))
      (exitAxis cellSize.Y start.Y end_.Y c.Y
        (Sgn (divDown end_.Y cellSize.Y - divDown start.Y cellSize.Y)) -
        stepAxis cellSize.Y start.Y end_.Y
          (Sgn (divDown end_.Y cellSize.Y - divDown start.Y cellSize.Y)))) := ⟨_, rfl⟩
  have hτ0 : 0 ≤ τ := by
    rw [hτ]
    exact le_max_left _ _
  have hτ1 : τ ≤ 1 := by
    rw [hτ]
    exact max_le (by norm_num) (max_le j1' j2')
  have heX : exitAxis cellSize.X start.X end_.X c.X
      (Sgn (divDown end_.X cellSize.X - divDown start.X cellSize.X)) -
      stepAxis cellSize.X start.X end_.X
        (Sgn (divDown end_.X cellSize.X - divDown start.X cellSize.X)) ≤ τ := by
    rw [hτ]
    exact le_trans (le_max_left _ _) (le_max_right _ _)
  have heY : exitAxis cellSize.Y start.Y end_.Y c.Y
      (Sgn (divDown end_.Y cellSize.Y - divDown start.Y cellSize.Y)) -
      stepAxis cellSize.Y start.Y end_.Y
        (Sgn (divDown end_.Y cellSize.Y - divDown start.Y cellSize.Y)) ≤ τ := by
    rw [hτ]
    exact le_trans (le_max_right _ _) (le_max_right _ _)
  have hxX : τ ≤ exitAxis cellSize.X start.X end_.X c.X
      (Sgn (divDown end_.X cellSize.X - divDown start.X cellSize.X)) := by
    rw [hτ]
    exact max_le j0X' (max_le (by linarith) j4')
  have hxY : τ ≤ exitAxis cellSize.Y start.Y end_.Y c.Y
      (Sgn (divDown end_.Y cellSize.Y - divDown start.Y cellSize.Y)) := by
    rw [hτ]
    exact max_le j0Y' (max_le j3' (by linarith))
  obtain ⟨hX1, hX2⟩ := axis_sound cellSize.X start.X end_.X c.X _ τ hσX hvX heX hxX
  obtain ⟨hY1, hY2⟩ := axis_sound cellSize.Y start.Y end_.Y c.Y _ τ hσY hvY heY hxY
  exact ⟨(τ : ℝ), by exact_mod_cast hτ0, by exact_mod_cast hτ1, hX1, hX2, hY1, hY2⟩

theorem cast_le_one_of (x : ℚ) (τ : ℝ) (h1 : (x : ℝ) ≤ τ) (h2 : τ ≤ 1) : x ≤ 1 := by
  have := le_trans h1 h2
  exact_mod_cast this

theorem cast_le_of (x y : ℚ) (τ : ℝ) (h1 : (x : ℝ) ≤ τ) (h2 : τ ≤ (y : ℝ)) : x ≤ y := by
  have := le_trans h1 h2
  exact_mod_cast this

theorem cast_lt_of_lt_le (x y : ℚ) (τ : ℝ) (h1 : (x : ℝ) < τ) (h2 : τ ≤ (y : ℝ)) : x < y := by
  have := lt_of_lt_of_le h1 h2
  exact_mod_cast this

theorem cast_lt_of_le_lt (x y : ℚ) (τ : ℝ) (h1 : (x : ℝ) ≤ τ) (h2 : τ < (y : ℝ)) : x < y := by
  have := lt_of_le_of_lt h1 h2
  exact_mod_cast this

theorem steps_eq_of_mul (i n σ : Int) (hσ : σ ≠ 0) (h : i * σ = n * σ) : i = n := by
  have : (i - n) * σ = 0 := by linarith
  rcases mul_eq_zero.mp this with h1 | h1
  · omega
  · exact absurd h1 hσ

/-- Completeness of the general case: a cell that, as a half-open rectangle, holds a
point of the segment is visited, unless the walk travels in the direction (+X, -Y) and
the point is the lower-left corner of the cell. -/
theorem segmentCells_general_complete (cellSize start end_ : I2)
    (hx : 0 < cellSize.X) (hy : 0 < cellSize.Y)
    (hsX : Sgn (divDown end_.X cellSize.X - divDown start.X cellSize.X) ≠ 0)
    (hsY : Sgn (divDown end_.Y cellSize.Y - divDown start.Y cellSize.Y) ≠ 0)
    (fuel : Nat) (cs : List I2) (h : segmentCells fuel cellSize start end_ = some cs)
    (c : I2) (τ : ℝ) (hτ0 : 0 ≤ τ) (hτ1 : τ ≤ 1)
    (hX1 : (c.X : ℝ) * (cellSize.X : ℝ) ≤ (start.X : ℝ) + τ * ((end_.X : ℝ) - (start.X : ℝ)))
    (hX2 : (start.X : ℝ) + τ * ((end_.X : ℝ) - (start.X : ℝ)) < ((c.X : ℝ) + 1) * (cellSize.X : ℝ))
    (hY1 : (c.Y : ℝ) * (cellSize.Y : ℝ) ≤ (start.Y : ℝ) + τ * ((end_.Y : ℝ) - (start.Y : ℝ)))
    (hY2 : (start.Y : ℝ) + τ * ((end_.Y : ℝ) - (start.Y : ℝ)) < ((c.Y : ℝ) + 1) * (cellSize.Y : ℝ))
    (hcorner : ¬ (Sgn (divDown end_.X cellSize.X - divDown start.X cellSize.X) = 1 ∧
      Sgn (divDown end_.Y cellSize.Y - divDown start.Y cellSize.Y) = -1 ∧
      (c.X : ℝ) * (cellSize.X : ℝ) =
        (start.X : ℝ) + τ * ((end_.X : ℝ) - (start.X : ℝ)) ∧
      (c.Y : ℝ) * (cellSize.Y : ℝ) = (start.Y : ℝ) + τ * ((end_.Y : ℝ) - (start.Y : ℝ)))) :
    c ∈ cs := by
  have hcX := Sgn_cases _ hsX
  have hcY := Sgn_cases _ hsY
  have hs : ¬ (((cell end_ cellSize).Sub (cell start cellSize)).Sgn.X = 0 ∨
      ((cell end_ cellSize).Sub (cell start cellSize)).Sgn.Y = 0) := by
    rintro (h0 | h0)
    · exact hsX h0
    · exact hsY h0
  rw [segmentCells_general_eq fuel cellSize start end_ hs] at h
  obtain ⟨kX, hkX, hkXn, hXle, hXexit, hXstrict⟩ :=
    axis_complete cellSize.X start.X end_.X c.X _ τ hx hcX hτ0 hτ1 hX1 hX2
  obtain ⟨kY, hkY, hkYn, hYle, hYexit, hYstrict⟩ :=
    axis_complete cellSize.Y start.Y end_.Y c.Y _ τ hy hcY hτ0 hτ1 hY1 hY2
  obtain ⟨hXs1, hXs2⟩ :=
    axis_strict cellSize.X start.X end_.X c.X _ τ kX hx hcX hτ0 hτ1 hX1 hX2 hkX
  obtain ⟨hYs1, hYs2⟩ :=
    axis_strict cellSize.Y start.Y end_.Y c.Y _ τ kY hy hcY hτ0 hτ1 hY1 hY2 hkY
  have hnX := natAbs_mul_Sgn (divDown end_.X cellSize.X - divDown start.X cellSize.X)
  have hnY := natAbs_mul_Sgn (divDown end_.Y cellSize.Y - divDown start.Y cellSize.Y)
  have key := generalCells_reaches (cell end_ cellSize)
    ((cell end_ cellSize).Sub (cell start cellSize)).Sgn (stepParam cellSize start end_)
    fuel kX kY (cell start cellSize) (exitParam cellSize start end_ (cell start cellSize)) cs
    (fun i hi => cast_le_one_of _ τ (hXle i hi) hτ1)
    (fun j hj => cast_le_one_of _ τ (hYle j hj) hτ1)
    (fun j hj => cast_le_of _ _ τ (hYle j hj) hXexit)
    (fun i hi => by
      rcases hcX with ⟨hX1', -⟩ | ⟨hXm, -⟩
      · rcases hcY with ⟨hY1', -⟩ | ⟨hYm, -⟩
        · exact cast_lt_of_le_lt _ _ τ (hXle i hi) (hYs1 hY1')
        · by_cases hcx : (c.X : ℝ) * (cellSize.X : ℝ) =
              (start.X : ℝ) + τ * ((end_.X : ℝ) - (start.X : ℝ))
          · have hcy : (c.Y : ℝ) * (cellSize.Y : ℝ) ≠
                (start.Y : ℝ) + τ * ((end_.Y : ℝ) - (start.Y : ℝ)) :=
              fun hc => hcorner ⟨hX1', hYm, hcx, hc⟩
            exact cast_lt_of_le_lt _ _ τ (hXle i hi) (hYstrict hcy).2
          · exact cast_lt_of_lt_le _ _ τ ((hXstrict hcx).1 i hi) hYexit
      · exact cast_lt_of_lt_le _ _ τ (hXs2 hXm i hi) hYexit)
    (fun i j hi hj hij heq => by
      have hX : divDown start.X cellSize.X + (i : Int) *
          Sgn (divDown end_.X cellSize.X - divDown start.X cellSize.X) =
          divDown end_.X cellSize.X := congrArg I2.X heq
      have hY : divDown start.Y cellSize.Y + (j : Int) *
          Sgn (divDown end_.Y cellSize.Y - divDown start.Y cellSize.Y) =
          divDown end_.Y cellSize.Y := congrArg I2.Y heq
      have e1 := steps_eq_of_mul (i : Int) _ _ hsX (by rw [hnX]; linarith)
      have e2 := steps_eq_of_mul (j : Int) _ _ hsY (by rw [hnY]; linarith)
      omega)
    h
  have hc : c = ⟨(cell start cellSize).X + (kX : Int) *
      ((cell end_ cellSize).Sub (cell start cellSize)).Sgn.X,
      (cell start cellSize).Y + (kY : Int) *
      ((cell end_ cellSize).Sub (cell start cellSize)).Sgn.Y⟩ := by
    cases c
    simp only [I2.mk.injEq]
    exact ⟨hkX, hkY⟩
  rw [hc]
  exact key

/-- Every column from the column of a to the column of b, taken closed, holds a point
of the segment from a to b. -/
theorem axis_point (w a b : Int) (k : Nat) (hw : 0 < w)
    (hk : k ≤ (divDown b w - divDown a w).natAbs) :
    ∃ τ : ℝ, 0 ≤ τ ∧ τ ≤ 1 ∧
      ((divDown a w + (k : Int) * Sgn (divDown b w - divDown a w) : Int) : ℝ) * (w : ℝ) ≤
        (a : ℝ) + τ * ((b : ℝ) - (a : ℝ)) ∧
      (a : ℝ) + τ * ((b : ℝ) - (a : ℝ)) ≤
        (((divDown a w + (k : Int) * Sgn (divDown b w - divDown a w) : Int) : ℝ) + 1) * (w : ℝ) := by
  by_cases hs : Sgn (divDown b w - divDown a w) = 0
  · have hq : divDown b w = divDown a w := by
      have := (Sgn_eq_zero_iff _).mp hs
      omega
    obtain ⟨h1, h2⟩ := axis_same_column w a b 0 hw (le_refl _) zero_le_one hq
    refine ⟨0, le_refl _, zero_le_one, ?_, ?_⟩
    · rw [hs, mul_zero, add_zero]
      exact h1
    · rw [hs, mul_zero, add_zero]
      exact h2
  · have hcases := Sgn_cases _ hs
    obtain ⟨hv, _, _⟩ := general_dir_pos w a b hw hs
    obtain ⟨τ, h0, h1, h2, h3⟩ := axis_exists w a b _ k hw hcases hk
    obtain ⟨h4, h5⟩ := axis_sound w a b _ _ τ (hcases.imp And.left And.left) hv h2 h3
    exact ⟨(τ : ℝ), by exact_mod_cast h0, by exact_mod_cast h1, h4, h5⟩

/-- Soundness of the axis-aligned case: the cell i steps from the cell of start, taken
as a closed rectangle, holds a point of the segment. -/
theorem axis_cells_sound (cellSize start end_ : I2)
    (hx : 0 < cellSize.X) (hy : 0 < cellSize.Y)
    (hax : (cell start cellSize).X = (cell end_ cellSize).X ∨
      (cell start cellSize).Y = (cell end_ cellSize).Y)
    (i : Nat) (hi : i ≤ cellDist cellSize start end_) :
    ∃ τ : ℝ, 0 ≤ τ ∧ τ ≤ 1 ∧
      (((cell start cellSize).X +
          (i : Int) * ((cell end_ cellSize).Sub (cell start cellSize)).Sgn.X : Int) : ℝ) *
        (cellSize.X : ℝ) ≤ (start.X : ℝ) + τ * ((end_.X : ℝ) - (start.X : ℝ)) ∧
      (start.X : ℝ) + τ * ((end_.X : ℝ) - (start.X : ℝ)) ≤
        ((((cell start cellSize).X +
          (i : Int) * ((cell end_ cellSize).Sub (cell start cellSize)).Sgn.X : Int) : ℝ) + 1) *
        (cellSize.X : ℝ) ∧
      (((cell start cellSize).Y +
          (i : Int) * ((cell end_ cellSize).Sub (cell start cellSize)).Sgn.Y : Int) : ℝ) *
        (cellSize.Y : ℝ) ≤ (start.Y : ℝ) + τ * ((end_.Y : ℝ) - (start.Y : ℝ)) ∧
      (start.Y : ℝ) + τ * ((end_.Y : ℝ) - (start.Y : ℝ)) ≤
        ((((cell start cellSize).Y +
          (i : Int) * ((cell end_ cellSize).Sub (cell start cellSize)).Sgn.Y : Int) : ℝ) + 1) *
        (cellSize.Y : ℝ) := by
  unfold cellDist at hi
  rcases hax with h | h
  · have hq : divDown end_.X cellSize.X = divDown start.X cellSize.X := h.symm
    have hs : ((cell end_ cellSize).Sub (cell start cellSize)).Sgn.X = 0 := by
      simp only [I2.Sgn, I2.Sub, Sgn_eq_zero_iff]
      omega
    have hn : ((cell end_ cellSize).X - (cell start cellSize).X).natAbs = 0 := by omega
    obtain ⟨τ, h0, h1, h2, h3⟩ := axis_point cellSize.Y start.Y end_.Y i hy
      (by
        have : i ≤ ((cell end_ cellSize).Y - (cell start cellSize).Y).natAbs := by omega
        exact this)
    obtain ⟨h4, h5⟩ := axis_same_column cellSize.X start.X end_.X τ hx h0 h1 hq
    refine ⟨τ, h0, h1, ?_, ?_, h2, h3⟩
    · rw [hs, mul_zero, add_zero]
      exact h4
    · rw [hs, mul_zero, add_zero]
      exact h5
  · have hq : divDown end_.Y cellSize.Y = divDown start.Y cellSize.Y := h.symm
    have hs : ((cell end_ cellSize).Sub (cell start cellSize)).Sgn.Y = 0 := by
      simp only [I2.Sgn, I2.Sub, Sgn_eq_zero_iff]
      omega
    have hn : ((cell end_ cellSize).Y - (cell start cellSize).Y).natAbs = 0 := by omega
    obtain ⟨τ, h0, h1, h2, h3⟩ := axis_point cellSize.X start.X end_.X i hx
      (by
        have : i ≤ ((cell end_ cellSize).X - (cell start cellSize).X).natAbs := by omega
        exact this)
    obtain ⟨h4, h5⟩ := axis_same_column cellSize.Y start.Y end_.Y τ hy h0 h1 hq
    refine ⟨τ, h0, h1, h2, h3, ?_, ?_⟩
    · rw [hs, mul_zero, add_zero]
      exact h4
    · rw [hs, mul_zero, add_zero]
      exact h5

/-- Completeness of the axis-aligned case: a cell that, as a half-open rectangle, holds
a point of the segment is one of the cells from the cell of start to the cell of end. -/
theorem axis_cells_complete (cellSize start end_ : I2)
    (hx : 0 < cellSize.X) (hy : 0 < cellSize.Y)
    (hax : (cell start cellSize).X = (cell end_ cellSize).X ∨
      (cell start cellSize).Y = (cell end_ cellSize).Y)
    (c : I2) (τ : ℝ) (hτ0 : 0 ≤ τ) (hτ1 : τ ≤ 1)
    (hX1 : (c.X : ℝ) * (cellSize.X : ℝ) ≤ (start.X : ℝ) + τ * ((end_.X : ℝ) - (start.X : ℝ)))
    (hX2 : (start.X : ℝ) + τ * ((end_.X : ℝ) - (start.X : ℝ)) < ((c.X : ℝ) + 1) * (cellSize.X : ℝ))
    (hY1 : (c.Y : ℝ) * (cellSize.Y : ℝ) ≤ (start.Y : ℝ) + τ * ((end_.Y : ℝ) - (start.Y : ℝ)))
    (hY2 : (start.Y : ℝ) + τ * ((end_.Y : ℝ) - (start.Y : ℝ)) < ((c.Y : ℝ) + 1) * (cellSize.Y : ℝ)) :
    ∃ i : Nat, i < cellDist cellSize start end_ + 1 ∧
      (⟨(cell start cellSize).X +
          (i : Int) * ((cell end_ cellSize).Sub (cell start cellSize)).Sgn.X,
        (cell start cellSize).Y +
          (i : Int) * ((cell end_ cellSize).Sub (cell start cellSize)).Sgn.Y⟩ : I2) = c := by
  obtain ⟨kX, hkX, hkXn⟩ := axis_between cellSize.X start.X end_.X c.X τ hx hτ0 hτ1 hX1 hX2
  obtain ⟨kY, hkY, hkYn⟩ := axis_between cellSize.Y start.Y end_.Y c.Y τ hy hτ0 hτ1 hY1 hY2
  unfold cellDist
  rcases hax with h | h
  · have hq : divDown end_.X cellSize.X - divDown start.X cellSize.X = 0 := by
      have : divDown start.X cellSize.X = divDown end_.X cellSize.X := h
      omega
    have hs : Sgn (divDown end_.X cellSize.X - divDown start.X cellSize.X) = 0 :=
      (Sgn_eq_zero_iff _).mpr hq
    refine ⟨kY, ?_, ?_⟩
    · have : kY ≤ ((cell end_ cellSize).Y - (cell start cellSize).Y).natAbs := hkYn
      omega
    · cases c
      simp only [I2.mk.injEq]
      constructor
      · show divDown start.X cellSize.X + (kY : Int) *
          Sgn (divDown end_.X cellSize.X - divDown start.X cellSize.X) = _
        rw [hs, mul_zero, add_zero]
        rw [hs, mul_zero, add_zero] at hkX
        exact hkX.symm
      · exact hkY.symm
  · have hq : divDown end_.Y cellSize.Y - divDown start.Y cellSize.Y = 0 := by
      have : divDown start.Y cellSize.Y = divDown end_.Y cellSize.Y := h
      omega
    have hs : Sgn (divDown end_.Y cellSize.Y - divDown start.Y cellSize.Y) = 0 :=
      (Sgn_eq_zero_iff _).mpr hq
    refine ⟨kX, ?_, ?_⟩
    · have : kX ≤ ((cell end_ cellSize).X - (cell start cellSize).X).natAbs := hkXn
      omega
    · cases c
      simp only [I2.mk.injEq]
      constructor
      · exact hkX.symm
      · show divDown start.Y cellSize.Y + (kX : Int) *
          Sgn (divDown end_.Y cellSize.Y - divDown start.Y cellSize.Y) = _
        rw [hs, mul_zero, add_zero]
        rw [hs, mul_zero, add_zero] at hkY
        exact hkY.symm

/-- C13: with cells of size 2 the walk from (1, 2) to (2, 0) touches the cells (0, 1),
(0, 0), (0, -1), (1, -1) and returns true: the first cell is the cell of start, but the
cell (1, 0) of end is never touched and the walk ends on the cell (1, -1). -/
theorem CellsTouchingSegment_end_cell_missed :
    cell ⟨1, 2⟩ ⟨2, 2⟩ = ⟨0, 1⟩ ∧ cell ⟨2, 0⟩ ⟨2, 2⟩ = ⟨1, 0⟩ ∧
    (∀ k : Nat, CellsTouchingSegment (4 + k) ⟨2, 2⟩ ⟨1, 2⟩ ⟨2, 0⟩ recordTouch [] =
      some (true, [⟨0, 1⟩, ⟨0, 0⟩, ⟨0, -1⟩, ⟨1, -1⟩])) ∧
    (⟨1, 0⟩ : I2) ∉ ([⟨0, 1⟩, ⟨0, 0⟩, ⟨0, -1⟩, ⟨1, -1⟩] : List I2) := by
  refine ⟨by decide, by decide, ?_, by decide⟩
  intro k
  have h : segmentCells 4 ⟨2, 2⟩ ⟨1, 2⟩ ⟨2, 0⟩ = some [⟨0, 1⟩, ⟨0, 0⟩, ⟨0, -1⟩, ⟨1, -1⟩] := by
    decide!
  rw [CellsTouchingSegment_eq_runTouch (4 + k) ⟨2, 2⟩ ⟨1, 2⟩ ⟨2, 0⟩ recordTouch [] _
    (segmentCells_mono _ _ _ 4 (4 + k) _ h (by omega)), runTouch_record, List.nil_append]

/-- The cells of the walk in exact arithmetic, for a positive cell size: every cell
visited, taken as the closed rectangle [x*w, (x+1)*w] x [y*h, (y+1)*h], holds a point of
the closed segment, and every cell whose half-open rectangle holds a point of the
segment is visited, unless the walk travels in the direction (+X, -Y) and the point is
the lower-left corner (x*w, y*h) of the cell. -/
theorem segmentCells_geometry (cellSize start end_ : I2)
    (hx : 0 < cellSize.X) (hy : 0 < cellSize.Y) :
    ∃ cells : List I2,
      (∀ fuel, walkBound cellSize start end_ ≤ fuel →
        segmentCells fuel cellSize start end_ = some cells) ∧
      (∀ c ∈ cells, ∃ τ : ℝ, 0 ≤ τ ∧ τ ≤ 1 ∧
        (c.X : ℝ) * (cellSize.X : ℝ) ≤ (start.X : ℝ) + τ * ((end_.X : ℝ) - (start.X : ℝ)) ∧
        (start.X : ℝ) + τ * ((end_.X : ℝ) - (start.X : ℝ)) ≤ ((c.X : ℝ) + 1) * (cellSize.X : ℝ) ∧
        (c.Y : ℝ) * (cellSize.Y : ℝ) ≤ (start.Y : ℝ) + τ * ((end_.Y : ℝ) - (start.Y : ℝ)) ∧
        (start.Y : ℝ) + τ * ((end_.Y : ℝ) - (start.Y : ℝ)) ≤
          ((c.Y : ℝ) + 1) * (cellSize.Y : ℝ)) ∧
      (∀ (c : I2) (τ : ℝ), 0 ≤ τ → τ ≤ 1 →
        (c.X : ℝ) * (cellSize.X : ℝ) ≤ (start.X : ℝ) + τ * ((end_.X : ℝ) - (start.X : ℝ)) →
        (start.X : ℝ) + τ * ((end_.X : ℝ) - (start.X : ℝ)) < ((c.X : ℝ) + 1) * (cellSize.X : ℝ) →
        (c.Y : ℝ) * (cellSize.Y : ℝ) ≤ (start.Y : ℝ) + τ * ((end_.Y : ℝ) - (start.Y : ℝ)) →
        (start.Y : ℝ) + τ * ((end_.Y : ℝ) - (start.Y : ℝ)) < ((c.Y : ℝ) + 1) * (cellSize.Y : ℝ) →
        ¬ (((cell end_ cellSize).Sub (cell start cellSize)).Sgn.X = 1 ∧
          ((cell end_ cellSize).Sub (cell start cellSize)).Sgn.Y = -1 ∧
          (c.X : ℝ) * (cellSize.X : ℝ) =
            (start.X : ℝ) + τ * ((end_.X : ℝ) - (start.X : ℝ)) ∧
          (c.Y : ℝ) * (cellSize.Y : ℝ) =
            (start.Y : ℝ) + τ * ((end_.Y : ℝ) - (start.Y : ℝ))) →
        c ∈ cells) := by
  obtain ⟨cs, _, _, htot⟩ := segmentCells_total cellSize start end_ hx hy
  have hwb := htot _ (le_refl _)
  refine ⟨cs, ?_, ?_, ?_⟩
  · exact htot
  · by_cases hax : (cell start cellSize).X = (cell end_ cellSize).X ∨
        (cell start cellSize).Y = (cell end_ cellSize).Y
    · have h1 := (segmentCells_axis cellSize start end_ (walkBound cellSize start end_) hax
        (by unfold walkBound; omega)).1
      rw [hwb] at h1
      injection h1 with h1
      intro c hc
      rw [h1] at hc
      obtain ⟨i, hi, rfl⟩ := List.mem_map.mp hc
      have hi' := List.mem_range.mp hi
      obtain ⟨τ, h0, h1', h2, h3, h4, h5⟩ :=
        axis_cells_sound cellSize start end_ hx hy hax i (by omega)
      refine ⟨τ, h0, h1', ?_, ?_, ?_, ?_⟩
      · exact_mod_cast h2
      · exact_mod_cast h3
      · exact_mod_cast h4
      · exact_mod_cast h5
    · push_neg at hax
      have hsX : Sgn (divDown end_.X cellSize.X - divDown start.X cellSize.X) ≠ 0 := by
        rw [ne_eq, Sgn_eq_zero_iff]
        intro h
        apply hax.1
        show divDown start.X cellSize.X = divDown end_.X cellSize.X
        omega
      have hsY : Sgn (divDown end_.Y cellSize.Y - divDown start.Y cellSize.Y) ≠ 0 := by
        rw [ne_eq, Sgn_eq_zero_iff]
        intro h
        apply hax.2
        show divDown start.Y cellSize.Y = divDown end_.Y cellSize.Y
        omega
      exact segmentCells_general_sound cellSize start end_ hx hy hsX hsY _ cs hwb
  · intro c τ hτ0 hτ1 hX1 hX2 hY1 hY2 hcorner
    by_cases hax : (cell start cellSize).X = (cell end_ cellSize).X ∨
        (cell start cellSize).Y = (cell end_ cellSize).Y
    · have h1 := (segmentCells_axis cellSize start end_ (walkBound cellSize start end_) hax
        (by unfold walkBound; omega)).1
      rw [hwb] at h1
      injection h1 with h1
      obtain ⟨i, hi, hc⟩ :=
        axis_cells_complete cellSize start end_ hx hy hax c τ hτ0 hτ1 hX1 hX2 hY1 hY2
      rw [h1]
      exact List.mem_map.mpr ⟨i, List.mem_range.mpr hi, hc⟩
    · push_neg at hax
      have hsX : Sgn (divDown end_.X cellSize.X - divDown start.X cellSize.X) ≠ 0 := by
        rw [ne_eq, Sgn_eq_zero_iff]
        intro h
        apply hax.1
        show divDown start.X cellSize.X = divDown end_.X cellSize.X
        omega
      have hsY : Sgn (divDown end_.Y cellSize.Y - divDown start.Y cellSize.Y) ≠ 0 := by
        rw [ne_eq, Sgn_eq_zero_iff]
        intro h
        apply hax.2
        show divDown start.Y cellSize.Y = divDown end_.Y cellSize.Y
        omega
      exact segmentCells_general_complete cellSize start end_ hx hy hsX hsY _ cs hwb c τ
        hτ0 hτ1 hX1 hX2 hY1 hY2 hcorner

theorem Sgn_values (x : Int) : Sgn x = 0 ∨ Sgn x = 1 ∨ Sgn x = -1 := by
  unfold Sgn
  split_ifs
  · exact Or.inr (Or.inr rfl)
  · exact Or.inr (Or.inl rfl)
  · exact Or.inl rfl

/-! ## Rect: Contains and Overlaps -/

/-- C26: Overlaps is symmetric, and for non-empty rectangles r and s, r.Overlaps(s) is
true exactly when some integer point is contained in both; rectangles that share only
an edge or a corner do not overlap. -/
theorem Overlaps_spec (r s : Rect)
    (hr : r.UL.X < r.DR.X ∧ r.UL.Y < r.DR.Y) (hs : s.UL.X < s.DR.X ∧ s.UL.Y < s.DR.Y) :
    (∀ r' s' : Rect, r'.Overlaps s' = s'.Overlaps r') ∧
    (r.Overlaps s = true ↔ ∃ p : I2, r.Contains p = true ∧ s.Contains p = true) ∧
    (r.DR.X = s.UL.X ∨ r.DR.Y = s.UL.Y ∨ s.DR.X = r.UL.X ∨ s.DR.Y = r.UL.Y →
      r.Overlaps s = false) := by
  refine ⟨?_, ?_, ?_⟩
  · intro r' s'
    rw [Bool.eq_iff_iff]
    simp only [Rect.Overlaps, Bool.and_eq_true, decide_eq_true_eq]
    constructor
    · rintro ⟨⟨⟨h1, h2⟩, h3⟩, h4⟩
      exact ⟨⟨⟨h2, h1⟩, h4⟩, h3⟩
    · rintro ⟨⟨⟨h1, h2⟩, h3⟩, h4⟩
      exact ⟨⟨⟨h2, h1⟩, h4⟩, h3⟩
  · simp only [Rect.Overlaps, Rect.Contains, Bool.and_eq_true, decide_eq_true_eq]
    constructor
    · rintro ⟨⟨⟨h1, h2⟩, h3⟩, h4⟩
      refine ⟨⟨max r.UL.X s.UL.X, max r.UL.Y s.UL.Y⟩, ?_, ?_⟩
      · simp only
        refine ⟨⟨⟨le_max_left _ _, ?_⟩, le_max_left _ _⟩, ?_⟩
        · exact max_lt hr.1 h2
        · exact max_lt hr.2 h4
      · simp only
        refine ⟨⟨⟨le_max_right _ _, ?_⟩, le_max_right _ _⟩, ?_⟩
        · exact max_lt h1 hs.1
        · exact max_lt h3 hs.2
    · rintro ⟨p, ⟨⟨⟨h1, h2⟩, h3⟩, h4⟩, ⟨⟨⟨h5, h6⟩, h7⟩, h8⟩⟩
      refine ⟨⟨⟨?_, ?_⟩, ?_⟩, ?_⟩ <;> omega
  · intro h
    rw [← Bool.not_eq_true]
    simp only [Rect.Overlaps, Bool.and_eq_true, decide_eq_true_eq]
    rintro ⟨⟨⟨h1, h2⟩, h3⟩, h4⟩
    omega

/-- C26 on the rectangles (3,5)-(8,10) and (5,7)-(10,12) of TestOverlap, which overlap,
and hold the common point (5,7). -/
theorem Overlaps_spec_witness :
    Rect.Overlaps ⟨⟨3, 5⟩, ⟨8, 10⟩⟩ ⟨⟨5, 7⟩, ⟨10, 12⟩⟩ = true ∧
    Rect.Overlaps ⟨⟨3, 5⟩, ⟨8, 10⟩⟩ ⟨⟨8, 10⟩, ⟨13, 15⟩⟩ = false ∧
    ∃ p : I2, Rect.Contains ⟨⟨3, 5⟩, ⟨8, 10⟩⟩ p = true ∧
      Rect.Contains ⟨⟨5, 7⟩, ⟨10, 12⟩⟩ p = true :=
  ⟨by decide, by decide,
    (Overlaps_spec ⟨⟨3, 5⟩, ⟨8, 10⟩⟩ ⟨⟨5, 7⟩, ⟨10, 12⟩⟩ (by decide) (by decide)).2.1.mp
      (by decide)⟩

/-! ## Division by zero is never reached -/

theorem MulDivChecked_eq (v : I2) (n d : Int) (hd : d ≠ 0) :
    v.MulDivChecked n d = some (v.MulDiv n d) := by
  simp [I2.MulDivChecked, I2.MulDiv, goDiv, hd]

/-- SegmentIntersectI never divides by zero: the division of MulDiv is only reached with
a determinant other than zero. -/
theorem SegmentIntersectIChecked_eq (p q a b : I2) :
    SegmentIntersectIChecked p q a b = some (SegmentIntersectI p q a b) := by
  unfold SegmentIntersectIChecked SegmentIntersectI
  simp only []
  by_cases h0 : (a.Y - b.Y) * (p.X - q.X) - (a.X - b.X) * (p.Y - q.Y) = 0
  · rw [if_pos h0, if_pos h0]
  · rw [if_neg h0, if_neg h0]
    split_ifs
    · rfl
    · rfl
    · rw [MulDivChecked_eq _ _ _ (ne_of_gt (Abs_pos _ h0))]

theorem SegmentIntersectI_parallel (p q a b : I2)
    (h : (q.X - p.X) * (b.Y - a.Y) - (q.Y - p.Y) * (b.X - a.X) = 0) :
    SegmentIntersectI p q a b = (⟨0, 0⟩, false) := by
  have h0 : (a.Y - b.Y) * (p.X - q.X) - (a.X - b.X) * (p.Y - q.Y) = 0 := by linarith
  unfold SegmentIntersectI
  simp only []
  rw [if_pos h0]

theorem normal_dot_pos (u v : I2) (h : u ≠ v) :
    0 < ((v.Sub u).Normal).Dot ((v.Sub u).Normal) := by
  simp only [I2.Sub, I2.Normal, I2.Dot]
  have hne : v.X - u.X ≠ 0 ∨ v.Y - u.Y ≠ 0 := by
    by_contra hc
    push_neg at hc
    apply h
    cases u
    cases v
    simp only [I2.mk.injEq]
    simp only at hc
    omega
  rcases hne with h1 | h1
  · have := mul_self_pos.mpr h1
    nlinarith [mul_self_nonneg (v.Y - u.Y)]
  · have := mul_self_pos.mpr h1
    nlinarith [mul_self_nonneg (v.X - u.X)]

/-- C21: when the segments are parallel or collinear, or one of them has zero length,
SegmentIntersectI returns the zero point and false; for no input does it divide by zero;
and Blocks(s, s) is false for every graph. -/
theorem SegmentIntersectI_degenerate_false (p q a b s : I2) (g : Graph)
    (h : (q.X - p.X) * (b.Y - a.Y) - (q.Y - p.Y) * (b.X - a.X) = 0) :
    SegmentIntersectI p q a b = (⟨0, 0⟩, false) ∧
    SegmentIntersectI p p a b = (⟨0, 0⟩, false) ∧
    SegmentIntersectI p q a a = (⟨0, 0⟩, false) ∧
    (∀ p' q' a' b' : I2,
      SegmentIntersectIChecked p' q' a' b' = some (SegmentIntersectI p' q' a' b')) ∧
    g.Blocks s s = false :=
  ⟨SegmentIntersectI_parallel p q a b h,
    SegmentIntersectI_parallel p p a b (by ring),
    SegmentIntersectI_parallel p q a a (by ring),
    SegmentIntersectIChecked_eq, Blocks_self g s⟩

/-- C21 on the parallel segments (-1,0)-(1,0) and (-1,-1)-(1,-1) of TestSegmentIntersectI
and on overlapping collinear segments. -/
theorem SegmentIntersectI_degenerate_false_witness :
    SegmentIntersectI ⟨-1, 0⟩ ⟨1, 0⟩ ⟨-1, -1⟩ ⟨1, -1⟩ = (⟨0, 0⟩, false) ∧
    SegmentIntersectI ⟨0, 0⟩ ⟨2, 2⟩ ⟨1, 1⟩ ⟨3, 3⟩ = (⟨0, 0⟩, false) ∧
    SegmentIntersectIChecked ⟨0, 0⟩ ⟨2, 2⟩ ⟨1, 1⟩ ⟨3, 3⟩ = some (⟨0, 0⟩, false) :=
  ⟨(SegmentIntersectI_degenerate_false ⟨-1, 0⟩ ⟨1, 0⟩ ⟨-1, -1⟩ ⟨1, -1⟩ ⟨0, 0⟩ ⟨∅, ∅⟩
      (by decide)).1,
    by decide, by decide⟩

/-! ## CellsTouchingSegment: unit steps, no cell twice -/

theorem wrap64_eq (x : Int) (h : |x| ≤ 9 * 10 ^ 18) : wrap64 x = x := by
  unfold wrap64
  obtain ⟨h1, h2⟩ := abs_le.mp h
  norm_num at h1 h2 ⊢
  rw [Int.emod_eq_of_lt (by omega) (by omega)]
  ring

theorem inInt64_of_abs (x : Int) (h : |x| ≤ 9 * 10 ^ 18) : InInt64 x := by
  unfold InInt64
  obtain ⟨h1, h2⟩ := abs_le.mp h
  norm_num at h1 h2 ⊢
  constructor <;> omega

theorem abs_mul_le_of (x y A B : Int) (hx : |x| ≤ A) (hy : |y| ≤ B) : |x * y| ≤ A * B := by
  rw [abs_mul]
  exact mul_le_mul hx hy (abs_nonneg _) (le_trans (abs_nonneg _) hx)

theorem abs_sub_le_of (x y A B : Int) (hx : |x| ≤ A) (hy : |y| ≤ B) : |x - y| ≤ A + B :=
  le_trans (abs_sub x y) (add_le_add hx hy)

theorem abs_add_le_of (x y A B : Int) (hx : |x| ≤ A) (hy : |y| ≤ B) : |x + y| ≤ A + B :=
  le_trans (abs_add x y) (add_le_add hx hy)

theorem abs_tdiv_le (x d : Int) : |x.tdiv d| ≤ |x| := by
  rw [Int.abs_eq_natAbs, Int.abs_eq_natAbs, Int.natAbs_tdiv]
  exact_mod_cast Nat.div_le_self _ _

theorem abs_Sgn_le (x : Int) : |Sgn x| ≤ 1 := by
  rcases Sgn_values x with h | h | h <;> rw [h] <;> decide

theorem Abs64_eq (x : Int) (h : |x| ≤ 9 * 10 ^ 18) : Abs64 x = Abs x := by
  unfold Abs64 Abs
  rw [wrap64_eq _ (by rw [abs_neg]; exact h)]

theorem Abs_eq_abs (x : Int) : Abs x = |x| := by
  unfold Abs
  split_ifs with h
  · exact (abs_of_neg h).symm
  · exact (abs_of_nonneg (not_lt.mp h)).symm

/-- Twice the area of a triangle with coordinates of magnitude at most m is at most
4*m*m: the second numerator of SegmentIntersectI. -/
theorem segNum2_bound (p q a b : I2) (m : Int) (hp : p.Within m) (hq : q.Within m)
    (ha : a.Within m) : |segNum2 p q a b| ≤ 4 * m * m := by
  obtain ⟨p1, p2, p3, p4⟩ := hp
  obtain ⟨q1, q2, q3, q4⟩ := hq
  obtain ⟨a1, a2, a3, a4⟩ := ha
  have hm : 0 ≤ m := by linarith
  have e : segNum2 p q a b =
      p.X * (a.Y - q.Y) + q.X * (p.Y - a.Y) + a.X * (q.Y - p.Y) := by
    unfold segNum2
    ring
  have hpX : |p.X| ≤ m := abs_le.mpr ⟨p1, p2⟩
  have hqX : |q.X| ≤ m := abs_le.mpr ⟨q1, q2⟩
  have haX : |a.X| ≤ m := abs_le.mpr ⟨a1, a2⟩
  have h1 : |p.X * (a.Y - q.Y)| ≤ m * |a.Y - q.Y| := by
    rw [abs_mul]
    exact mul_le_mul_of_nonneg_right hpX (abs_nonneg _)
  have h2 : |q.X * (p.Y - a.Y)| ≤ m * |p.Y - a.Y| := by
    rw [abs_mul]
    exact mul_le_mul_of_nonneg_right hqX (abs_nonneg _)
  have h3 : |a.X * (q.Y - p.Y)| ≤ m * |q.Y - p.Y| := by
    rw [abs_mul]
    exact mul_le_mul_of_nonneg_right haX (abs_nonneg _)
  have hsum : |a.Y - q.Y| + |p.Y - a.Y| + |q.Y - p.Y| ≤ 4 * m := by
    rcases le_total 0 (a.Y - q.Y) with c1 | c1 <;>
    rcases le_total 0 (p.Y - a.Y) with c2 | c2 <;>
    rcases le_total 0 (q.Y - p.Y) with c3 | c3 <;>
    simp only [abs_of_nonneg, abs_of_nonpos, c1, c2, c3] <;> linarith
  rw [e]
  calc |p.X * (a.Y - q.Y) + q.X * (p.Y - a.Y) + a.X * (q.Y - p.Y)|
      ≤ |p.X * (a.Y - q.Y) + q.X * (p.Y - a.Y)| + |a.X * (q.Y - p.Y)| := abs_add _ _
    _ ≤ |p.X * (a.Y - q.Y)| + |q.X * (p.Y - a.Y)| + |a.X * (q.Y - p.Y)| :=
        add_le_add_right (abs_add _ _) _
    _ ≤ m * |a.Y - q.Y| + m * |p.Y - a.Y| + m * |q.Y - p.Y| :=
        add_le_add (add_le_add h1 h2) h3
    _ = m * (|a.Y - q.Y| + |p.Y - a.Y| + |q.Y - p.Y|) := by ring
    _ ≤ m * (4 * m) := mul_le_mul_of_nonneg_left hsum hm
    _ = 4 * m * m := by ring

/-- With all coordinates of magnitude at most 1,000,000 nothing wraps in
SegmentIntersectI on 64-bit integers. -/
theorem segmentIntersectI64_agree (p q a b : I2) (hp : p.Within (10 ^ 6)) (hq : q.Within (10 ^ 6))
    (ha : a.Within (10 ^ 6)) (hb : b.Within (10 ^ 6)) :
    SegmentIntersectI64 p q a b = SegmentIntersectI p q a b ∧
    InInt64 (segDet p q a b) ∧
    InInt64 (segNum1 p q a b * Sgn (segDet p q a b)) ∧
    InInt64 (segNum2 p q a b * Sgn (segDet p q a b)) ∧
    InInt64 ((b.X - a.X) * (segNum2 p q a b * Sgn (segDet p q a b))) ∧
    InInt64 ((b.Y - a.Y) * (segNum2 p q a b * Sgn (segDet p q a b))) := by
  have hpX : |p.X| ≤ 10 ^ 6 := abs_le.mpr ⟨hp.1, hp.2.1⟩
  have hpY : |p.Y| ≤ 10 ^ 6 := abs_le.mpr ⟨hp.2.2.1, hp.2.2.2⟩
  have hqX : |q.X| ≤ 10 ^ 6 := abs_le.mpr ⟨hq.1, hq.2.1⟩
  have hqY : |q.Y| ≤ 10 ^ 6 := abs_le.mpr ⟨hq.2.2.1, hq.2.2.2⟩
  have haX : |a.X| ≤ 10 ^ 6 := abs_le.mpr ⟨ha.1, ha.2.1⟩
  have haY : |a.Y| ≤ 10 ^ 6 := abs_le.mpr ⟨ha.2.2.1, ha.2.2.2⟩
  have hbX : |b.X| ≤ 10 ^ 6 := abs_le.mpr ⟨hb.1, hb.2.1⟩
  have hbY : |b.Y| ≤ 10 ^ 6 := abs_le.mpr ⟨hb.2.2.1, hb.2.2.2⟩
  -- the differences
  have b_dx1 : |p.X - q.X| ≤ 2 * 10 ^ 6 :=
    le_trans (abs_sub_le_of _ _ _ _ hpX hqX) (by norm_num)
  have b_dy1 : |p.Y - q.Y| ≤ 2 * 10 ^ 6 :=
    le_trans (abs_sub_le_of _ _ _ _ hpY hqY) (by norm_num)
  have b_dx2 : |a.X - b.X| ≤ 2 * 10 ^ 6 :=
    le_trans (abs_sub_le_of _ _ _ _ haX hbX) (by norm_num)
  have b_dy2 : |a.Y - b.Y| ≤ 2 * 10 ^ 6 :=
    le_trans (abs_sub_le_of _ _ _ _ haY hbY) (by norm_num)
  have b_apy : |a.Y - p.Y| ≤ 2 * 10 ^ 6 :=
    le_trans (abs_sub_le_of _ _ _ _ haY hpY) (by norm_num)
  have b_bpy : |b.Y - p.Y| ≤ 2 * 10 ^ 6 :=
    le_trans (abs_sub_le_of _ _ _ _ hbY hpY) (by norm_num)
  have b_aqy : |a.Y - q.Y| ≤ 2 * 10 ^ 6 :=
    le_trans (abs_sub_le_of _ _ _ _ haY hqY) (by norm_num)
  have b_bax : |b.X - a.X| ≤ 2 * 10 ^ 6 :=
    le_trans (abs_sub_le_of _ _ _ _ hbX haX) (by norm_num)
  have b_bay : |b.Y - a.Y| ≤ 2 * 10 ^ 6 :=
    le_trans (abs_sub_le_of _ _ _ _ hbY haY) (by norm_num)
  -- the determinant
  have b_m1 : |(a.Y - b.Y) * (p.X - q.X)| ≤ 4 * 10 ^ 12 :=
    le_trans (abs_mul_le_of _ _ _ _ b_dy2 b_dx1) (by norm_num)
  have b_m2 : |(a.X - b.X) * (p.Y - q.Y)| ≤ 4 * 10 ^ 12 :=
    le_trans (abs_mul_le_of _ _ _ _ b_dx2 b_dy1) (by norm_num)
  have b_det : |(a.Y - b.Y) * (p.X - q.X) - (a.X - b.X) * (p.Y - q.Y)| ≤ 8 * 10 ^ 12 :=
    le_trans (abs_sub_le_of _ _ _ _ b_m1 b_m2) (by norm_num)
  -- the first t
  have b_t1a : |a.X * (b.Y - p.Y)| ≤ 2 * 10 ^ 12 :=
    le_trans (abs_mul_le_of _ _ _ _ haX b_bpy) (by norm_num)
  have b_t1b : |b.X * (a.Y - p.Y)| ≤ 2 * 10 ^ 12 :=
    le_trans (abs_mul_le_of _ _ _ _ hbX b_apy) (by norm_num)
  have b_t1c : |p.X * (a.Y - b.Y)| ≤ 2 * 10 ^ 12 :=
    le_trans (abs_mul_le_of _ _ _ _ hpX b_dy2) (by norm_num)
  have b_t1d : |a.X * (b.Y - p.Y) - b.X * (a.Y - p.Y)| ≤ 4 * 10 ^ 12 :=
    le_trans (abs_sub_le_of _ _ _ _ b_t1a b_t1b) (by norm_num)
  have b_t1e : |a.X * (b.Y - p.Y) - b.X * (a.Y - p.Y) + p.X * (a.Y - b.Y)| ≤ 6 * 10 ^ 12 :=
    le_trans (abs_add_le_of _ _ _ _ b_t1d b_t1c) (by norm_num)
  have b_t1 : |(a.X * (b.Y - p.Y) - b.X * (a.Y - p.Y) + p.X * (a.Y - b.Y)) *
      Sgn ((a.Y - b.Y) * (p.X - q.X) - (a.X - b.X) * (p.Y - q.Y))| ≤ 6 * 10 ^ 12 :=
    le_trans (abs_mul_le_of _ _ _ _ b_t1e (abs_Sgn_le _)) (by norm_num)
  -- the second t
  have b_t2a : |p.X * (a.Y - q.Y)| ≤ 2 * 10 ^ 12 :=
    le_trans (abs_mul_le_of _ _ _ _ hpX b_aqy) (by norm_num)
  have b_t2b : |q.X * (a.Y - p.Y)| ≤ 2 * 10 ^ 12 :=
    le_trans (abs_mul_le_of _ _ _ _ hqX b_apy) (by norm_num)
  have b_t2c : |a.X * (p.Y - q.Y)| ≤ 2 * 10 ^ 12 :=
    le_trans (abs_mul_le_of _ _ _ _ haX b_dy1) (by norm_num)
  have b_t2d : |p.X * (a.Y - q.Y) - q.X * (a.Y - p.Y)| ≤ 4 * 10 ^ 12 :=
    le_trans (abs_sub_le_of _ _ _ _ b_t2a b_t2b) (by norm_num)
  have b_t2e : |p.X * (a.Y - q.Y) - q.X * (a.Y - p.Y) - a.X * (p.Y - q.Y)| ≤ 4 * 10 ^ 12 :=
    le_trans (segNum2_bound p q a b _ hp hq ha) (by norm_num)
  have b_t2 : |(p.X * (a.Y - q.Y) - q.X * (a.Y - p.Y) - a.X * (p.Y - q.Y)) *
      Sgn ((a.Y - b.Y) * (p.X - q.X) - (a.X - b.X) * (p.Y - q.Y))| ≤ 4 * 10 ^ 12 :=
    le_trans (abs_mul_le_of _ _ _ _ b_t2e (abs_Sgn_le _)) (by norm_num)
  -- the products and quotients of MulDiv
  have b_px : |(b.X - a.X) * ((p.X * (a.Y - q.Y) - q.X * (a.Y - p.Y) - a.X * (p.Y - q.Y)) *
      Sgn ((a.Y - b.Y) * (p.X - q.X) - (a.X - b.X) * (p.Y - q.Y)))| ≤ 8 * 10 ^ 18 :=
    le_trans (abs_mul_le_of _ _ _ _ b_bax b_t2) (by norm_num)
  have b_py : |(b.Y - a.Y) * ((p.X * (a.Y - q.Y) - q.X * (a.Y - p.Y) - a.X * (p.Y - q.Y)) *
      Sgn ((a.Y - b.Y) * (p.X - q.X) - (a.X - b.X) * (p.Y - q.Y)))| ≤ 8 * 10 ^ 18 :=
    le_trans (abs_mul_le_of _ _ _ _ b_bay b_t2) (by norm_num)
  have b_qx := le_trans (abs_tdiv_le ((b.X - a.X) *
      ((p.X * (a.Y - q.Y) - q.X * (a.Y - p.Y) - a.X * (p.Y - q.Y)) *
        Sgn ((a.Y - b.Y) * (p.X - q.X) - (a.X - b.X) * (p.Y - q.Y))))
      (Abs ((a.Y - b.Y) * (p.X - q.X) - (a.X - b.X) * (p.Y - q.Y)))) b_px
  have b_qy := le_trans (abs_tdiv_le ((b.Y - a.Y) *
      ((p.X * (a.Y - q.Y) - q.X * (a.Y - p.Y) - a.X * (p.Y - q.Y)) *
        Sgn ((a.Y - b.Y) * (p.X - q.X) - (a.X - b.X) * (p.Y - q.Y))))
      (Abs ((a.Y - b.Y) * (p.X - q.X) - (a.X - b.X) * (p.Y - q.Y)))) b_py
  have b_rx := le_trans (abs_add_le_of _ _ _ _ b_qx haX) (show (8 * 10 ^ 18 + 10 ^ 6 : Int) ≤
    9 * 10 ^ 18 by norm_num)
  have b_ry := le_trans (abs_add_le_of _ _ _ _ b_qy haY) (show (8 * 10 ^ 18 + 10 ^ 6 : Int) ≤
    9 * 10 ^ 18 by norm_num)
  have big : ∀ (x c : Int), |x| ≤ c → c ≤ 9 * 10 ^ 18 → |x| ≤ 9 * 10 ^ 18 :=
    fun x c h1 h2 => le_trans h1 h2
  refine ⟨?_, inInt64_of_abs _ (big _ _ b_det (by norm_num)),
    inInt64_of_abs _ (big _ _ b_t1 (by norm_num)), inInt64_of_abs _ (big _ _ b_t2 (by norm_num)),
    inInt64_of_abs _ (big _ _ b_px (by norm_num)), inInt64_of_abs _ (big _ _ b_py (by norm_num))⟩
  have e_dx1 : sub64 p.X q.X = p.X - q.X := wrap64_eq _ (big _ _ b_dx1 (by norm_num))
  have e_dy1 : sub64 p.Y q.Y = p.Y - q.Y := wrap64_eq _ (big _ _ b_dy1 (by norm_num))
  have e_dx2 : sub64 a.X b.X = a.X - b.X := wrap64_eq _ (big _ _ b_dx2 (by norm_num))
  have e_dy2 : sub64 a.Y b.Y = a.Y - b.Y := wrap64_eq _ (big _ _ b_dy2 (by norm_num))
  have e_apy : sub64 a.Y p.Y = a.Y - p.Y := wrap64_eq _ (big _ _ b_apy (by norm_num))
  have e_bpy : sub64 b.Y p.Y = b.Y - p.Y := wrap64_eq _ (big _ _ b_bpy (by norm_num))
  have e_aqy : sub64 a.Y q.Y = a.Y - q.Y := wrap64_eq _ (big _ _ b_aqy (by norm_num))
  have e_bax : sub64 b.X a.X = b.X - a.X := wrap64_eq _ (big _ _ b_bax (by norm_num))
  have e_bay : sub64 b.Y a.Y = b.Y - a.Y := wrap64_eq _ (big _ _ b_bay (by norm_num))
  have e_m1 : mul64 (a.Y - b.Y) (p.X - q.X) = (a.Y - b.Y) * (p.X - q.X) :=
    wrap64_eq _ (big _ _ b_m1 (by norm_num))
  have e_m2 : mul64 (a.X - b.X) (p.Y - q.Y) = (a.X - b.X) * (p.Y - q.Y) :=
    wrap64_eq _ (big _ _ b_m2 (by norm_num))
  have e_det : sub64 ((a.Y - b.Y) * (p.X - q.X)) ((a.X - b.X) * (p.Y - q.Y)) =
      (a.Y - b.Y) * (p.X - q.X) - (a.X - b.X) * (p.Y - q.Y) :=
    wrap64_eq _ (big _ _ b_det (by norm_num))
  have e_abs : Abs64 ((a.Y - b.Y) * (p.X - q.X) - (a.X - b.X) * (p.Y - q.Y)) =
      Abs ((a.Y - b.Y) * (p.X - q.X) - (a.X - b.X) * (p.Y - q.Y)) :=
    Abs64_eq _ (big _ _ b_det (by norm_num))
  have e_t1a : mul64 a.X (b.Y - p.Y) = a.X * (b.Y - p.Y) :=
    wrap64_eq _ (big _ _ b_t1a (by norm_num))
  have e_t1b : mul64 b.X (a.Y - p.Y) = b.X * (a.Y - p.Y) :=
    wrap64_eq _ (big _ _ b_t1b (by norm_num))
  have e_t1c : mul64 p.X (a.Y - b.Y) = p.X * (a.Y - b.Y) :=
    wrap64_eq _ (big _ _ b_t1c (by norm_num))
  have e_t1d : sub64 (a.X * (b.Y - p.Y)) (b.X * (a.Y - p.Y)) =
      a.X * (b.Y - p.Y) - b.X * (a.Y - p.Y) := wrap64_eq _ (big _ _ b_t1d (by norm_num))
  have e_t1e : add64 (a.X * (b.Y - p.Y) - b.X * (a.Y - p.Y)) (p.X * (a.Y - b.Y)) =
      a.X * (b.Y - p.Y) - b.X * (a.Y - p.Y) + p.X * (a.Y - b.Y) :=
    wrap64_eq _ (big _ _ b_t1e (by norm_num))
  have e_t1 : mul64 (a.X * (b.Y - p.Y) - b.X * (a.Y - p.Y) + p.X * (a.Y - b.Y))
      (Sgn ((a.Y - b.Y) * (p.X - q.X) - (a.X - b.X) * (p.Y - q.Y))) =
      (a.X * (b.Y - p.Y) - b.X * (a.Y - p.Y) + p.X * (a.Y - b.Y)) *
        Sgn ((a.Y - b.Y) * (p.X - q.X) - (a.X - b.X) * (p.Y - q.Y)) :=
    wrap64_eq _ (big _ _ b_t1 (by norm_num))
  have e_t2a : mul64 p.X (a.Y - q.Y) = p.X * (a.Y - q.Y) :=
    wrap64_eq _ (big _ _ b_t2a (by norm_num))
  have e_t2b : mul64 q.X (a.Y - p.Y) = q.X * (a.Y - p.Y) :=
    wrap64_eq _ (big _ _ b_t2b (by norm_num))
  have e_t2c : mul64 a.X (p.Y - q.Y) = a.X * (p.Y - q.Y) :=
    wrap64_eq _ (big _ _ b_t2c (by norm_num))
  have e_t2d : sub64 (p.X * (a.Y - q.Y)) (q.X * (a.Y - p.Y)) =
      p.X * (a.Y - q.Y) - q.X * (a.Y - p.Y) := wrap64_eq _ (big _ _ b_t2d (by norm_num))
  have e_t2e : sub64 (p.X * (a.Y - q.Y) - q.X * (a.Y - p.Y)) (a.X * (p.Y - q.Y)) =
      p.X * (a.Y - q.Y) - q.X * (a.Y - p.Y) - a.X * (p.Y - q.Y) :=
    wrap64_eq _ (big _ _ b_t2e (by norm_num))
  have e_t2 : mul64 (p.X * (a.Y - q.Y) - q.X * (a.Y - p.Y) - a.X * (p.Y - q.Y))
      (Sgn ((a.Y - b.Y) * (p.X - q.X) - (a.X - b.X) * (p.Y - q.Y))) =
      (p.X * (a.Y - q.Y) - q.X * (a.Y - p.Y) - a.X * (p.Y - q.Y)) *
        Sgn ((a.Y - b.Y) * (p.X - q.X) - (a.X - b.X) * (p.Y - q.Y)) :=
    wrap64_eq _ (big _ _ b_t2 (by norm_num))
  have e_px : mul64 (b.X - a.X)
      ((p.X * (a.Y - q.Y) - q.X * (a.Y - p.Y) - a.X * (p.Y - q.Y)) *
        Sgn ((a.Y - b.Y) * (p.X - q.X) - (a.X - b.X) * (p.Y - q.Y))) =
      (b.X - a.X) * ((p.X * (a.Y - q.Y) - q.X * (a.Y - p.Y) - a.X * (p.Y - q.Y)) *
        Sgn ((a.Y - b.Y) * (p.X - q.X) - (a.X - b.X) * (p.Y - q.Y))) :=
    wrap64_eq _ (big _ _ b_px (by norm_num))
  have e_py : mul64 (b.Y - a.Y)
      ((p.X * (a.Y - q.Y) - q.X * (a.Y - p.Y) - a.X * (p.Y - q.Y)) *
        Sgn ((a.Y - b.Y) * (p.X - q.X) - (a.X - b.X) * (p.Y - q.Y))) =
      (b.Y - a.Y) * ((p.X * (a.Y - q.Y) - q.X * (a.Y - p.Y) - a.X * (p.Y - q.Y)) *
        Sgn ((a.Y - b.Y) * (p.X - q.X) - (a.X - b.X) * (p.Y - q.Y))) :=
    wrap64_eq _ (big _ _ b_py (by norm_num))
  have e_qx : div64 ((b.X - a.X) *
      ((p.X * (a.Y - q.Y) - q.X * (a.Y - p.Y) - a.X * (p.Y - q.Y)) *
        Sgn ((a.Y - b.Y) * (p.X - q.X) - (a.X - b.X) * (p.Y - q.Y))))
      (Abs ((a.Y - b.Y) * (p.X - q.X) - (a.X - b.X) * (p.Y - q.Y))) =
      ((b.X - a.X) * ((p.X * (a.Y - q.Y) - q.X * (a.Y - p.Y) - a.X * (p.Y - q.Y)) *
        Sgn ((a.Y - b.Y) * (p.X - q.X) - (a.X - b.X) * (p.Y - q.Y)))).tdiv
      (Abs ((a.Y - b.Y) * (p.X - q.X) - (a.X - b.X) * (p.Y - q.Y))) :=
    wrap64_eq _ (big _ _ b_qx (by norm_num))
  have e_qy : div64 ((b.Y - a.Y) *
      ((p.X * (a.Y - q.Y) - q.X * (a.Y - p.Y) - a.X * (p.Y - q.Y)) *
        Sgn ((a.Y - b.Y) * (p.X - q.X) - (a.X - b.X) * (p.Y - q.Y))))
      (Abs ((a.Y - b.Y) * (p.X - q.X) - (a.X - b.X) * (p.Y - q.Y))) =
      ((b.Y - a.Y) * ((p.X * (a.Y - q.Y) - q.X * (a.Y - p.Y) - a.X * (p.Y - q.Y)) *
        Sgn ((a.Y - b.Y) * (p.X - q.X) - (a.X - b.X) * (p.Y - q.Y)))).tdiv
      (Abs ((a.Y - b.Y) * (p.X - q.X) - (a.X - b.X) * (p.Y - q.Y))) :=
    wrap64_eq _ (big _ _ b_qy (by norm_num))
  have e_rx : add64 (((b.X - a.X) *
      ((p.X * (a.Y - q.Y) - q.X * (a.Y - p.Y) - a.X * (p.Y - q.Y)) *
        Sgn ((a.Y - b.Y) * (p.X - q.X) - (a.X - b.X) * (p.Y - q.Y)))).tdiv
      (Abs ((a.Y - b.Y) * (p.X - q.X) - (a.X - b.X) * (p.Y - q.Y)))) a.X =
      ((b.X - a.X) * ((p.X * (a.Y - q.Y) - q.X * (a.Y - p.Y) - a.X * (p.Y - q.Y)) *
        Sgn ((a.Y - b.Y) * (p.X - q.X) - (a.X - b.X) * (p.Y - q.Y)))).tdiv
      (Abs ((a.Y - b.Y) * (p.X - q.X) - (a.X - b.X) * (p.Y - q.Y))) + a.X :=
    wrap64_eq _ b_rx
  have e_ry : add64 (((b.Y - a.Y) *
      ((p.X * (a.Y - q.Y) - q.X * (a.Y - p.Y) - a.X * (p.Y - q.Y)) *
        Sgn ((a.Y - b.Y) * (p.X - q.X) - (a.X - b.X) * (p.Y - q.Y)))).tdiv
      (Abs ((a.Y - b.Y) * (p.X - q.X) - (a.X - b.X) * (p.Y - q.Y)))) a.Y =
      ((b.Y - a.Y) * ((p.X * (a.Y - q.Y) - q.X * (a.Y - p.Y) - a.X * (p.Y - q.Y)) *
        Sgn ((a.Y - b.Y) * (p.X - q.X) - (a.X - b.X) * (p.Y - q.Y)))).tdiv
      (Abs ((a.Y - b.Y) * (p.X - q.X) - (a.X - b.X) * (p.Y - q.Y))) + a.Y :=
    wrap64_eq _ b_ry
  simp only [SegmentIntersectI64, e_dx1, e_dy1, e_dx2, e_dy2, e_apy, e_bpy, e_aqy, e_bax, e_bay,
    e_m1, e_m2, e_det, e_abs, e_t1a, e_t1b, e_t1c, e_t1d, e_t1e, e_t1, e_t2a, e_t2b, e_t2c,
    e_t2d, e_t2e, e_t2, e_px, e_py, e_qx, e_qy, e_rx, e_ry]
  rfl

/-- C22: with 64-bit two's-complement integers and all coordinates of magnitude at most
1,000,000, SegmentIntersectI returns the boolean and the point it returns over unbounded
integers, and the determinant, both values of t and the two products inside MulDiv fit
64 bits. -/
theorem SegmentIntersectI64_eq (p q a b : I2) (hp : p.Within (10 ^ 6)) (hq : q.Within (10 ^ 6))
    (ha : a.Within (10 ^ 6)) (hb : b.Within (10 ^ 6)) :
    SegmentIntersectI64 p q a b = SegmentIntersectI p q a b ∧
    InInt64 (segDet p q a b) ∧
    InInt64 (segNum1 p q a b * Sgn (segDet p q a b)) ∧
    InInt64 (segNum2 p q a b * Sgn (segDet p q a b)) ∧
    InInt64 ((b.X - a.X) * (segNum2 p q a b * Sgn (segDet p q a b))) ∧
    InInt64 ((b.Y - a.Y) * (segNum2 p q a b * Sgn (segDet p q a b))) :=
  segmentIntersectI64_agree p q a b hp hq ha hb

/-- C22 on the nearly parallel large segments of TestSegmentIntersectI, which
intersect at (0,0). -/
theorem SegmentIntersectI64_eq_witness :
    SegmentIntersectI64 ⟨-1000000, 0⟩ ⟨1000000, 0⟩ ⟨-1000000, -1⟩ ⟨1000000, 1⟩ =
      (⟨0, 0⟩, true) ∧
    SegmentIntersectI64 ⟨-1000000, 0⟩ ⟨1000000, 0⟩ ⟨-1000000, -1⟩ ⟨1000000, 1⟩ =
      SegmentIntersectI ⟨-1000000, 0⟩ ⟨1000000, 0⟩ ⟨-1000000, -1⟩ ⟨1000000, 1⟩ :=
  ⟨by decide,
    (SegmentIntersectI64_eq ⟨-1000000, 0⟩ ⟨1000000, 0⟩ ⟨-1000000, -1⟩ ⟨1000000, 1⟩
      (by unfold I2.Within; decide) (by unfold I2.Within; decide)
      (by unfold I2.Within; decide) (by unfold I2.Within; decide)).1⟩

/-! ## SegmentNearestPoint: which of the three results is returned -/

theorem Abs_mul_Sgn (x : Int) : Abs x * Sgn x = x := by
  unfold Abs Sgn
  split_ifs <;> omega

theorem Abs_nonneg (x : Int) : 0 ≤ Abs x := by
  unfold Abs
  split_ifs <;> omega

/-- The remainder of Go's truncating division has the sign of the dividend and is
smaller than the divisor. -/
theorem tdiv_rem (m D : Int) (hD : 0 < D) :
    -D < m - D * m.tdiv D ∧ m - D * m.tdiv D < D ∧
    (m ≤ 0 → m - D * m.tdiv D ≤ 0) ∧ (0 ≤ m → 0 ≤ m - D * m.tdiv D) := by
  have key : ∀ k : Int, 0 ≤ k → 0 ≤ k - D * k.tdiv D ∧ k - D * k.tdiv D < D := by
    intro k hk
    rw [Int.tdiv_eq_ediv hk (le_of_lt hD)]
    have h1 := Int.ediv_add_emod k D
    have h2 := Int.emod_nonneg k (ne_of_gt hD)
    have h3 := Int.emod_lt_of_pos k hD
    constructor <;> linarith
  rcases le_total 0 m with hm | hm
  · obtain ⟨h1, h2⟩ := key m hm
    refine ⟨by linarith, h2, fun h => ?_, fun _ => h1⟩
    have h0 : m = 0 := le_antisymm h hm
    rw [h0]
    simp
  · obtain ⟨h1, h2⟩ := key (-m) (by linarith)
    rw [Int.neg_tdiv] at h1 h2
    refine ⟨by linarith, by linarith, fun _ => by linarith, fun h => ?_⟩
    have h0 : m = 0 := le_antisymm hm h
    rw [h0]
    simp

/-- The remainder, turned by a sign σ, has the sign of the dividend turned by σ. -/
theorem tdiv_rem_Sgn (m D σ : Int) (hD : 0 < D) (hσ : σ = 0 ∨ σ = 1 ∨ σ = -1) :
    -D < (m - D * m.tdiv D) * σ ∧ (m - D * m.tdiv D) * σ < D ∧
    (m * σ ≤ 0 → (m - D * m.tdiv D) * σ ≤ 0) ∧ (0 ≤ m * σ → 0 ≤ (m - D * m.tdiv D) * σ) := by
  obtain ⟨h1, h2, h3, h4⟩ := tdiv_rem m D hD
  rcases hσ with rfl | rfl | rfl
  · simp only [mul_zero]
    exact ⟨by linarith, hD, fun _ => le_refl _, fun _ => le_refl _⟩
  · simp only [mul_one]
    exact ⟨h1, h2, h3, h4⟩
  · refine ⟨by linarith, by linarith, fun h => ?_, fun h => ?_⟩
    · have := h4 (by linarith)
      linarith
    · have := h3 (by linarith)
      linarith

theorem pos_mul_bounds (D k : Int) (hD : 0 < D) :
    (-D < D * k → 0 ≤ k) ∧ (D * k < D → k ≤ 0) ∧ (D * k < 0 → k < 0) ∧ (0 < D * k → 0 < k) := by
  refine ⟨fun h => ?_, fun h => ?_, fun h => ?_, fun h => ?_⟩
  · by_contra hc
    push_neg at hc
    have : D * k ≤ D * (-1) := mul_le_mul_of_nonneg_left (by omega) (le_of_lt hD)
    linarith
  · by_contra hc
    push_neg at hc
    have : D * 1 ≤ D * k := mul_le_mul_of_nonneg_left (by omega) (le_of_lt hD)
    linarith
  · by_contra hc
    push_neg at hc
    have : 0 ≤ D * k := mul_nonneg (le_of_lt hD) hc
    linarith
  · by_contra hc
    push_neg at hc
    have : D * k ≤ 0 := mul_nonpos_of_nonneg_of_nonpos (le_of_lt hD) hc
    linarith

/-- The two range tests of SegmentNearestPoint, on the rounded point, decide as the
exact projection does: with a = v.X - u.X, b = v.Y - u.Y, x = p.X - u.X, y = p.Y - u.Y
the first test holds exactly when the projection parameter is negative (x*a + y*b < 0)
and the second exactly when it is above 1 (x*a + y*b > a*a + b*b). -/
theorem nearest_core (a b x y : Int) (hab : a ≠ 0 ∨ b ≠ 0) :
    (((x - ((-b) * (a * y - b * x)).tdiv ((-b) * (-b) + a * a)) * Sgn a < 0 ∨
      (y - (a * (a * y - b * x)).tdiv ((-b) * (-b) + a * a)) * Sgn b < 0) ↔
      x * a + y * b < 0) ∧
    (0 ≤ x * a + y * b →
      (((x - ((-b) * (a * y - b * x)).tdiv ((-b) * (-b) + a * a)) * Sgn a > Abs a ∨
        (y - (a * (a * y - b * x)).tdiv ((-b) * (-b) + a * a)) * Sgn b > Abs b) ↔
        (-b) * (-b) + a * a < x * a + y * b)) := by
  obtain ⟨n2, hn2⟩ : ∃ n2 : Int, n2 = (-b) * (-b) + a * a := ⟨_, rfl⟩
  obtain ⟨sa, hsa⟩ : ∃ sa : Int, sa = a * y - b * x := ⟨_, rfl⟩
  obtain ⟨L, hL⟩ : ∃ L : Int, L = x * a + y * b := ⟨_, rfl⟩
  rw [← hn2, ← hsa, ← hL]
  have hpos : 0 < n2 := by
    rw [hn2]
    rcases hab with h | h
    · have := mul_self_pos.mpr h
      nlinarith [mul_self_nonneg b]
    · have := mul_self_pos.mpr h
      nlinarith [mul_self_nonneg a]
  obtain ⟨T1, hT1⟩ : ∃ T1 : Int, T1 = ((-b) * sa).tdiv n2 := ⟨_, rfl⟩
  obtain ⟨T2, hT2⟩ : ∃ T2 : Int, T2 = (a * sa).tdiv n2 := ⟨_, rfl⟩
  rw [← hT1, ← hT2]
  obtain ⟨r1a, r1b, r1c, r1d⟩ := tdiv_rem_Sgn ((-b) * sa) n2 (Sgn a) hpos (Sgn_values a)
  obtain ⟨r2a, r2b, r2c, r2d⟩ := tdiv_rem_Sgn (a * sa) n2 (Sgn b) hpos (Sgn_values b)
  rw [← hT1] at r1a r1b r1c r1d
  rw [← hT2] at r2a r2b r2c r2d
  -- n2 * qu.X = |a| * L + ρ1 and n2 * qu.Y = |b| * L + ρ2
  have hA := Abs_mul_Sgn a
  have hB := Abs_mul_Sgn b
  have hAn := Abs_nonneg a
  have hBn := Abs_nonneg b
  have idX : n2 * ((x - T1) * Sgn a) = Abs a * L + ((-b) * sa - n2 * T1) * Sgn a := by
    have e : n2 * x + b * sa = a * L := by
      rw [hn2, hsa, hL]
      ring
    have : n2 * ((x - T1) * Sgn a) - ((-b) * sa - n2 * T1) * Sgn a =
        (n2 * x + b * sa) * Sgn a := by ring
    have e2 : (a * L) * Sgn a = Abs a * L := by
      rw [← Sgn_mul_self a]
      ring
    rw [e] at this
    linarith
  have idY : n2 * ((y - T2) * Sgn b) = Abs b * L + (a * sa - n2 * T2) * Sgn b := by
    have e : n2 * y - a * sa = b * L := by
      rw [hn2, hsa, hL]
      ring
    have : n2 * ((y - T2) * Sgn b) - (a * sa - n2 * T2) * Sgn b =
        (n2 * y - a * sa) * Sgn b := by ring
    have e2 : (b * L) * Sgn b = Abs b * L := by
      rw [← Sgn_mul_self b]
      ring
    rw [e] at this
    linarith
  -- the signs of the two remainders are opposite
  have hD1 : (-b) * sa * Sgn a = -(Abs b * (sa * Sgn a * Sgn b)) := by
    conv_lhs => rw [← hB]
    ring
  have hD2 : a * sa * Sgn b = Abs a * (sa * Sgn a * Sgn b) := by
    conv_lhs => rw [← hA]
    ring
  have hApos : a ≠ 0 → 0 < Abs a := fun h => Abs_pos a h
  have hBpos : b ≠ 0 → 0 < Abs b := fun h => Abs_pos b h
  have hA0 : a = 0 → Abs a = 0 := fun h => by rw [h]; rfl
  have hB0 : b = 0 → Abs b = 0 := fun h => by rw [h]; rfl
  have hlow : (a ≠ 0 ∧ ((-b) * sa - n2 * T1) * Sgn a ≤ 0) ∨
      (b ≠ 0 ∧ (a * sa - n2 * T2) * Sgn b ≤ 0) := by
    rcases le_total 0 (sa * Sgn a * Sgn b) with hE | hE
    · by_cases ha : a = 0
      · right
        refine ⟨hab.resolve_left (not_not.mpr ha), r2c ?_⟩
        rw [hD2, hA0 ha]
        simp
      · left
        refine ⟨ha, r1c ?_⟩
        rw [hD1]
        have := mul_nonneg hBn hE
        linarith
    · by_cases hb : b = 0
      · left
        refine ⟨hab.resolve_right (not_not.mpr hb), r1c ?_⟩
        rw [hD1, hB0 hb]
        simp
      · right
        refine ⟨hb, r2c ?_⟩
        rw [hD2]
        exact mul_nonpos_of_nonneg_of_nonpos hAn hE
  have hhigh : (a ≠ 0 ∧ 0 ≤ ((-b) * sa - n2 * T1) * Sgn a) ∨
      (b ≠ 0 ∧ 0 ≤ (a * sa - n2 * T2) * Sgn b) := by
    rcases le_total 0 (sa * Sgn a * Sgn b) with hE | hE
    · by_cases hb : b = 0
      · left
        refine ⟨hab.resolve_right (not_not.mpr hb), r1d ?_⟩
        rw [hD1, hB0 hb]
        simp
      · right
        refine ⟨hb, r2d ?_⟩
        rw [hD2]
        exact mul_nonneg hAn hE
    · by_cases ha : a = 0
      · right
        refine ⟨hab.resolve_left (not_not.mpr ha), r2d ?_⟩
        rw [hD2, hA0 ha]
        simp
      · left
        refine ⟨ha, r1d ?_⟩
        rw [hD1]
        have := mul_nonpos_of_nonneg_of_nonpos hBn hE
        linarith
  obtain ⟨pb1, pb2, pb3, pb4⟩ := pos_mul_bounds n2 ((x - T1) * Sgn a) hpos
  obtain ⟨pc1, pc2, pc3, pc4⟩ := pos_mul_bounds n2 ((y - T2) * Sgn b) hpos
  obtain ⟨pd1, pd2, pd3, pd4⟩ := pos_mul_bounds n2 ((x - T1) * Sgn a - Abs a) hpos
  obtain ⟨pe1, pe2, pe3, pe4⟩ := pos_mul_bounds n2 ((y - T2) * Sgn b - Abs b) hpos
  constructor
  · constructor
    · rintro (h | h)
      · by_contra hc
        push_neg at hc
        have := mul_nonneg hAn hc
        have := pb1 (by linarith)
        linarith
      · by_contra hc
        push_neg at hc
        have := mul_nonneg hBn hc
        have := pc1 (by linarith)
        linarith
    · intro hneg
      rcases hlow with ⟨ha, hr⟩ | ⟨hb, hr⟩
      · left
        apply pb3
        have := mul_neg_of_pos_of_neg (hApos ha) hneg
        linarith
      · right
        apply pc3
        have := mul_neg_of_pos_of_neg (hBpos hb) hneg
        linarith
  · intro hL0
    constructor
    · rintro (h | h)
      · by_contra hc
        push_neg at hc
        have h1 : Abs a * (L - n2) ≤ 0 := mul_nonpos_of_nonneg_of_nonpos hAn (by linarith)
        have := pd2 (by linarith)
        linarith
      · by_contra hc
        push_neg at hc
        have h1 : Abs b * (L - n2) ≤ 0 := mul_nonpos_of_nonneg_of_nonpos hBn (by linarith)
        have := pe2 (by linarith)
        linarith
    · intro hbig
      rcases hhigh with ⟨ha, hr⟩ | ⟨hb, hr⟩
      · left
        have h1 : 0 < Abs a * (L - n2) := mul_pos (hApos ha) (by linarith)
        have := pd4 (by linarith)
        linarith
      · right
        have h1 : 0 < Abs b * (L - n2) := mul_pos (hBpos hb) (by linarith)
        have := pe4 (by linarith)
        linarith

/-- Which result SegmentNearestPoint returns, by the projection of p on the line: u
before the segment, v beyond it, and the result of LineNearestPoint in between. -/
theorem SegmentNearestPoint_cases (u v p : I2) (huv : u ≠ v) :
    SegmentNearestPoint u v p =
      if (p.Sub u).Dot (v.Sub u) < 0 then (u, (p.Sub u).Dot (p.Sub u))
      else if (v.Sub u).Dot (v.Sub u) < (p.Sub u).Dot (v.Sub u) then (v, (v.Sub p).Dot (v.Sub p))
      else LineNearestPoint u v p := by
  have hab : v.X - u.X ≠ 0 ∨ v.Y - u.Y ≠ 0 := by
    by_contra hc
    push_neg at hc
    apply huv
    cases u
    cases v
    simp only [I2.mk.injEq]
    simp only at hc
    omega
  have hsa : SignedArea2 u v p =
      (v.X - u.X) * (p.Y - u.Y) - (v.Y - u.Y) * (p.X - u.X) := by
    unfold SignedArea2
    ring
  obtain ⟨k1, k2⟩ := nearest_core (v.X - u.X) (v.Y - u.Y) (p.X - u.X) (p.Y - u.Y) hab
  rw [← hsa] at k1 k2
  have hn : -(v.Y - u.Y) * -(v.Y - u.Y) + (v.X - u.X) * (v.X - u.X) =
      (v.X - u.X) * (v.X - u.X) + (v.Y - u.Y) * (v.Y - u.Y) := by ring
  have eX : p.X - (-(v.Y - u.Y) * SignedArea2 u v p).tdiv
      (-(v.Y - u.Y) * -(v.Y - u.Y) + (v.X - u.X) * (v.X - u.X)) - u.X =
      p.X - u.X - (-(v.Y - u.Y) * SignedArea2 u v p).tdiv
      (-(v.Y - u.Y) * -(v.Y - u.Y) + (v.X - u.X) * (v.X - u.X)) := by ring
  have eY : p.Y - ((v.X - u.X) * SignedArea2 u v p).tdiv
      (-(v.Y - u.Y) * -(v.Y - u.Y) + (v.X - u.X) * (v.X - u.X)) - u.Y =
      p.Y - u.Y - ((v.X - u.X) * SignedArea2 u v p).tdiv
      (-(v.Y - u.Y) * -(v.Y - u.Y) + (v.X - u.X) * (v.X - u.X)) := by ring
  unfold SegmentNearestPoint LineNearestPoint
  simp only [if_neg huv, I2.Sub, I2.MulDiv, I2.Normal, I2.Dot]
  rw [eX, eY]
  by_cases h1 : (p.X - u.X) * (v.X - u.X) + (p.Y - u.Y) * (v.Y - u.Y) < 0
  · rw [if_pos (k1.mpr h1), if_pos h1]
  · rw [if_neg (fun h => h1 (k1.mp h)), if_neg h1]
    push_neg at h1
    by_cases h2 : (v.X - u.X) * (v.X - u.X) + (v.Y - u.Y) * (v.Y - u.Y) <
        (p.X - u.X) * (v.X - u.X) + (p.Y - u.Y) * (v.Y - u.Y)
    · rw [if_pos ((k2 h1).mpr (by rw [hn]; exact h2)), if_pos h2]
    · rw [if_neg (fun h => h2 (by rw [← hn]; exact (k2 h1).mp h)), if_neg h2]

theorem LineNearestPoint_on_line (u v p : I2) (huv : u ≠ v) (h : SignedArea2 u v p = 0) :
    LineNearestPoint u v p = (p, 0) := by
  unfold LineNearestPoint
  rw [if_neg huv]
  simp only [h, I2.MulDiv, I2.Sub, mul_zero, Int.zero_tdiv, sub_zero]

/-- C23: for u != v and p = u + t*(v - u) on the line through u and v:
SegmentNearestPoint(u, v, p) returns (p, 0) when p lies on the closed segment
(0 <= t <= 1), v and the squared distance from p to v when p lies beyond v (t > 1), and
u and the squared distance from p to u when p lies before u (t < 0). -/
theorem SegmentNearestPoint_collinear (u v p : I2) (t : ℝ) (huv : u ≠ v)
    (hX : (p.X : ℝ) = (u.X : ℝ) + t * ((v.X : ℝ) - (u.X : ℝ)))
    (hY : (p.Y : ℝ) = (u.Y : ℝ) + t * ((v.Y : ℝ) - (u.Y : ℝ))) :
    (0 ≤ t → t ≤ 1 → SegmentNearestPoint u v p = (p, 0)) ∧
    (1 < t → SegmentNearestPoint u v p = (v, (v.Sub p).Dot (v.Sub p))) ∧
    (t < 0 → SegmentNearestPoint u v p = (u, (p.Sub u).Dot (p.Sub u))) := by
  have hn2 : 0 < (v.Sub u).Dot (v.Sub u) := by
    have := normal_dot_pos u v huv
    simp only [I2.Sub, I2.Normal, I2.Dot] at this ⊢
    linarith
  have hn2r : (0 : ℝ) < (((v.Sub u).Dot (v.Sub u) : Int) : ℝ) := by exact_mod_cast hn2
  have hL : (((p.Sub u).Dot (v.Sub u) : Int) : ℝ) = t * (((v.Sub u).Dot (v.Sub u) : Int) : ℝ) := by
    simp only [I2.Sub, I2.Dot]
    push_cast
    rw [hX, hY]
    ring
  have hsa : SignedArea2 u v p = 0 := by
    have : ((SignedArea2 u v p : Int) : ℝ) = 0 := by
      unfold SignedArea2
      push_cast
      rw [hX, hY]
      ring
    exact_mod_cast this
  rw [SegmentNearestPoint_cases u v p huv]
  refine ⟨fun h0 h1 => ?_, fun h1 => ?_, fun h0 => ?_⟩
  · have c1 : ¬ (p.Sub u).Dot (v.Sub u) < 0 := by
      intro hc
      have hcr : (((p.Sub u).Dot (v.Sub u) : Int) : ℝ) < 0 := by exact_mod_cast hc
      rw [hL] at hcr
      have := mul_nonneg h0 (le_of_lt hn2r)
      linarith
    have c2 : ¬ (v.Sub u).Dot (v.Sub u) < (p.Sub u).Dot (v.Sub u) := by
      intro hc
      have hcr : (((v.Sub u).Dot (v.Sub u) : Int) : ℝ) < (((p.Sub u).Dot (v.Sub u) : Int) : ℝ) := by
        exact_mod_cast hc
      rw [hL] at hcr
      have : t * (((v.Sub u).Dot (v.Sub u) : Int) : ℝ) ≤
          1 * (((v.Sub u).Dot (v.Sub u) : Int) : ℝ) :=
        mul_le_mul_of_nonneg_right h1 (le_of_lt hn2r)
      linarith
    rw [if_neg c1, if_neg c2]
    exact LineNearestPoint_on_line u v p huv hsa
  · have c1 : ¬ (p.Sub u).Dot (v.Sub u) < 0 := by
      intro hc
      have hcr : (((p.Sub u).Dot (v.Sub u) : Int) : ℝ) < 0 := by exact_mod_cast hc
      rw [hL] at hcr
      have := mul_pos (lt_trans zero_lt_one h1) hn2r
      linarith
    have c2 : (v.Sub u).Dot (v.Sub u) < (p.Sub u).Dot (v.Sub u) := by
      have : (((v.Sub u).Dot (v.Sub u) : Int) : ℝ) < (((p.Sub u).Dot (v.Sub u) : Int) : ℝ) := by
        rw [hL]
        have := mul_lt_mul_of_pos_right h1 hn2r
        linarith
      exact_mod_cast this
    rw [if_neg c1, if_pos c2]
  · have c1 : (p.Sub u).Dot (v.Sub u) < 0 := by
      have : (((p.Sub u).Dot (v.Sub u) : Int) : ℝ) < 0 := by
        rw [hL]
        exact mul_neg_of_neg_of_pos h0 hn2r
      exact_mod_cast this
    rw [if_pos c1]

/-- C23 on the tests of TestSegmentNearestPoint: p = (5,0) beyond v = (4,0), and
p = (7,-7) on the big segment. -/
theorem SegmentNearestPoint_collinear_witness :
    SegmentNearestPoint ⟨0, 0⟩ ⟨4, 0⟩ ⟨5, 0⟩ = (⟨4, 0⟩, 1) ∧
    SegmentNearestPoint ⟨-1000000, 1000000⟩ ⟨1000000, -1000000⟩ ⟨7, -7⟩ = (⟨7, -7⟩, 0) :=
  ⟨(SegmentNearestPoint_collinear ⟨0, 0⟩ ⟨4, 0⟩ ⟨5, 0⟩ (5 / 4) (by decide)
      (by norm_num) (by norm_num)).2.1 (by norm_num),
    by decide⟩

/-! ## SegmentNearestPoint: the nearest point and the squared distance -/

theorem floor_tdiv_real (m D : Int) (hm : 0 ≤ m) (hD : 0 < D) :
    ⌊(m : ℝ) / (D : ℝ)⌋ = m.tdiv D := by
  rw [Int.tdiv_eq_ediv hm (le_of_lt hD), Int.floor_eq_iff]
  have hDr : (0 : ℝ) < (D : ℝ) := by exact_mod_cast hD
  have h1 := Int.ediv_add_emod m D
  have h2 := Int.emod_nonneg m (ne_of_gt hD)
  have h3 := Int.emod_lt_of_pos m hD
  have h4 : (m / D) * D ≤ m := by linarith
  have h5 : m < (m / D + 1) * D := by linarith
  have h4r : ((m / D : Int) : ℝ) * (D : ℝ) ≤ (m : ℝ) := by exact_mod_cast h4
  have h5r : (m : ℝ) < (((m / D : Int) : ℝ) + 1) * (D : ℝ) := by exact_mod_cast h5
  constructor
  · rw [le_div_iff₀ hDr]
    exact h4r
  · rw [div_lt_iff₀ hDr]
    exact h5r

/-- The point of the segment u-v nearest to p, at a parameter μ in [0, 1], the point
SegmentNearestPoint returns, within 1 of it in each coordinate, and the squared distance
it returns, the floor of the least squared distance. -/
theorem SegmentNearestPoint_projection (u v p : I2) (huv : u ≠ v) :
    ∃ μ : ℝ, 0 ≤ μ ∧ μ ≤ 1 ∧
      (∀ ν : ℝ, 0 ≤ ν → ν ≤ 1 →
        ((p.X : ℝ) - ((u.X : ℝ) + μ * ((v.X : ℝ) - (u.X : ℝ)))) ^ 2 +
          ((p.Y : ℝ) - ((u.Y : ℝ) + μ * ((v.Y : ℝ) - (u.Y : ℝ)))) ^ 2 ≤
        ((p.X : ℝ) - ((u.X : ℝ) + ν * ((v.X : ℝ) - (u.X : ℝ)))) ^ 2 +
          ((p.Y : ℝ) - ((u.Y : ℝ) + ν * ((v.Y : ℝ) - (u.Y : ℝ)))) ^ 2) ∧
      (SegmentNearestPoint u v p).2 =
        ⌊((p.X : ℝ) - ((u.X : ℝ) + μ * ((v.X : ℝ) - (u.X : ℝ)))) ^ 2 +
          ((p.Y : ℝ) - ((u.Y : ℝ) + μ * ((v.Y : ℝ) - (u.Y : ℝ)))) ^ 2⌋ ∧
      |(((SegmentNearestPoint u v p).1.X : Int) : ℝ) -
        ((u.X : ℝ) + μ * ((v.X : ℝ) - (u.X : ℝ)))| < 1 ∧
      |(((SegmentNearestPoint u v p).1.Y : Int) : ℝ) -
        ((u.Y : ℝ) + μ * ((v.Y : ℝ) - (u.Y : ℝ)))| < 1 := by
  have hn2 : 0 < (v.X - u.X) * (v.X - u.X) + (v.Y - u.Y) * (v.Y - u.Y) := by
    have := normal_dot_pos u v huv
    simp only [I2.Sub, I2.Normal, I2.Dot] at this
    linarith
  have hn2r : (0 : ℝ) < ((v.X : ℝ) - (u.X : ℝ)) * ((v.X : ℝ) - (u.X : ℝ)) +
      ((v.Y : ℝ) - (u.Y : ℝ)) * ((v.Y : ℝ) - (u.Y : ℝ)) := by exact_mod_cast hn2
  rw [SegmentNearestPoint_cases u v p huv]
  simp only [I2.Sub, I2.Dot]
  by_cases h1 : (p.X - u.X) * (v.X - u.X) + (p.Y - u.Y) * (v.Y - u.Y) < 0
  · -- the projection falls before u
    have h1r : ((p.X : ℝ) - (u.X : ℝ)) * ((v.X : ℝ) - (u.X : ℝ)) +
        ((p.Y : ℝ) - (u.Y : ℝ)) * ((v.Y : ℝ) - (u.Y : ℝ)) < 0 := by exact_mod_cast h1
    rw [if_pos h1]
    refine ⟨0, le_refl _, zero_le_one, ?_, ?_, ?_, ?_⟩
    · intro ν hν0 _
      have e : ((p.X : ℝ) - ((u.X : ℝ) + ν * ((v.X : ℝ) - (u.X : ℝ)))) ^ 2 +
          ((p.Y : ℝ) - ((u.Y : ℝ) + ν * ((v.Y : ℝ) - (u.Y : ℝ)))) ^ 2 -
          (((p.X : ℝ) - ((u.X : ℝ) + 0 * ((v.X : ℝ) - (u.X : ℝ)))) ^ 2 +
          ((p.Y : ℝ) - ((u.Y : ℝ) + 0 * ((v.Y : ℝ) - (u.Y : ℝ)))) ^ 2) =
          ν * (ν * (((v.X : ℝ) - (u.X : ℝ)) * ((v.X : ℝ) - (u.X : ℝ)) +
            ((v.Y : ℝ) - (u.Y : ℝ)) * ((v.Y : ℝ) - (u.Y : ℝ)))) +
          2 * (ν * -(((p.X : ℝ) - (u.X : ℝ)) * ((v.X : ℝ) - (u.X : ℝ)) +
            ((p.Y : ℝ) - (u.Y : ℝ)) * ((v.Y : ℝ) - (u.Y : ℝ)))) := by ring
      have t1 := mul_nonneg hν0 (mul_nonneg hν0 (le_of_lt hn2r))
      have t2 := mul_nonneg hν0 (le_of_lt (neg_pos.mpr h1r))
      linarith
    · simp only
      have e : ((p.X : ℝ) - ((u.X : ℝ) + 0 * ((v.X : ℝ) - (u.X : ℝ)))) ^ 2 +
          ((p.Y : ℝ) - ((u.Y : ℝ) + 0 * ((v.Y : ℝ) - (u.Y : ℝ)))) ^ 2 =
          (((p.X - u.X) * (p.X - u.X) + (p.Y - u.Y) * (p.Y - u.Y) : Int) : ℝ) := by
        push_cast
        ring
      rw [e, Int.floor_intCast]
    · simp
    · simp
  · rw [if_neg h1]
    push_neg at h1
    have h1r : 0 ≤ ((p.X : ℝ) - (u.X : ℝ)) * ((v.X : ℝ) - (u.X : ℝ)) +
        ((p.Y : ℝ) - (u.Y : ℝ)) * ((v.Y : ℝ) - (u.Y : ℝ)) := by exact_mod_cast h1
    by_cases h2 : (v.X - u.X) * (v.X - u.X) + (v.Y - u.Y) * (v.Y - u.Y) <
        (p.X - u.X) * (v.X - u.X) + (p.Y - u.Y) * (v.Y - u.Y)
    · -- the projection falls beyond v
      have h2r : ((v.X : ℝ) - (u.X : ℝ)) * ((v.X : ℝ) - (u.X : ℝ)) +
          ((v.Y : ℝ) - (u.Y : ℝ)) * ((v.Y : ℝ) - (u.Y : ℝ)) <
          ((p.X : ℝ) - (u.X : ℝ)) * ((v.X : ℝ) - (u.X : ℝ)) +
          ((p.Y : ℝ) - (u.Y : ℝ)) * ((v.Y : ℝ) - (u.Y : ℝ)) := by exact_mod_cast h2
      rw [if_pos h2]
      refine ⟨1, zero_le_one, le_refl _, ?_, ?_, ?_, ?_⟩
      · intro ν _ hν1
        have e : ((p.X : ℝ) - ((u.X : ℝ) + ν * ((v.X : ℝ) - (u.X : ℝ)))) ^ 2 +
            ((p.Y : ℝ) - ((u.Y : ℝ) + ν * ((v.Y : ℝ) - (u.Y : ℝ)))) ^ 2 -
            (((p.X : ℝ) - ((u.X : ℝ) + 1 * ((v.X : ℝ) - (u.X : ℝ)))) ^ 2 +
            ((p.Y : ℝ) - ((u.Y : ℝ) + 1 * ((v.Y : ℝ) - (u.Y : ℝ)))) ^ 2) =
            (1 - ν) * (2 * ((((p.X : ℝ) - (u.X : ℝ)) * ((v.X : ℝ) - (u.X : ℝ)) +
              ((p.Y : ℝ) - (u.Y : ℝ)) * ((v.Y : ℝ) - (u.Y : ℝ))) -
              (((v.X : ℝ) - (u.X : ℝ)) * ((v.X : ℝ) - (u.X : ℝ)) +
              ((v.Y : ℝ) - (u.Y : ℝ)) * ((v.Y : ℝ) - (u.Y : ℝ)))) +
              (1 - ν) * (((v.X : ℝ) - (u.X : ℝ)) * ((v.X : ℝ) - (u.X : ℝ)) +
              ((v.Y : ℝ) - (u.Y : ℝ)) * ((v.Y : ℝ) - (u.Y : ℝ)))) := by ring
        have hν : 0 ≤ 1 - ν := by linarith
        have t1 := mul_nonneg hν (add_nonneg
          (mul_nonneg (by norm_num : (0 : ℝ) ≤ 2) (le_of_lt (sub_pos.mpr h2r)))
          (mul_nonneg hν (le_of_lt hn2r)))
        linarith
      · simp only
        have e : ((p.X : ℝ) - ((u.X : ℝ) + 1 * ((v.X : ℝ) - (u.X : ℝ)))) ^ 2 +
            ((p.Y : ℝ) - ((u.Y : ℝ) + 1 * ((v.Y : ℝ) - (u.Y : ℝ)))) ^ 2 =
            (((v.X - p.X) * (v.X - p.X) + (v.Y - p.Y) * (v.Y - p.Y) : Int) : ℝ) := by
          push_cast
          ring
        rw [e, Int.floor_intCast]
      · simp
      · simp
    · -- the projection falls on the segment
      rw [if_neg h2]
      push_neg at h2
      have h2r : ((p.X : ℝ) - (u.X : ℝ)) * ((v.X : ℝ) - (u.X : ℝ)) +
          ((p.Y : ℝ) - (u.Y : ℝ)) * ((v.Y : ℝ) - (u.Y : ℝ)) ≤
          ((v.X : ℝ) - (u.X : ℝ)) * ((v.X : ℝ) - (u.X : ℝ)) +
          ((v.Y : ℝ) - (u.Y : ℝ)) * ((v.Y : ℝ) - (u.Y : ℝ)) := by exact_mod_cast h2
      obtain ⟨μ, hμdef⟩ : ∃ μ : ℝ, μ = (((p.X : ℝ) - (u.X : ℝ)) * ((v.X : ℝ) - (u.X : ℝ)) +
          ((p.Y : ℝ) - (u.Y : ℝ)) * ((v.Y : ℝ) - (u.Y : ℝ))) /
          (((v.X : ℝ) - (u.X : ℝ)) * ((v.X : ℝ) - (u.X : ℝ)) +
          ((v.Y : ℝ) - (u.Y : ℝ)) * ((v.Y : ℝ) - (u.Y : ℝ))) := ⟨_, rfl⟩
      have hμ : μ * (((v.X : ℝ) - (u.X : ℝ)) * ((v.X : ℝ) - (u.X : ℝ)) +
          ((v.Y : ℝ) - (u.Y : ℝ)) * ((v.Y : ℝ) - (u.Y : ℝ))) =
          ((p.X : ℝ) - (u.X : ℝ)) * ((v.X : ℝ) - (u.X : ℝ)) +
          ((p.Y : ℝ) - (u.Y : ℝ)) * ((v.Y : ℝ) - (u.Y : ℝ)) := by
        rw [hμdef]
        field_simp
      have hμ0 : 0 ≤ μ := by
        rw [hμdef]
        exact div_nonneg h1r (le_of_lt hn2r)
      have hμ1 : μ ≤ 1 := by
        rw [hμdef, div_le_one hn2r]
        exact h2r
      have hsa : SignedArea2 u v p =
          (v.X - u.X) * (p.Y - u.Y) - (v.Y - u.Y) * (p.X - u.X) := by
        unfold SignedArea2
        ring
      have hn : -(v.Y - u.Y) * -(v.Y - u.Y) + (v.X - u.X) * (v.X - u.X) =
          (v.X - u.X) * (v.X - u.X) + (v.Y - u.Y) * (v.Y - u.Y) := by ring
      unfold LineNearestPoint
      rw [if_neg huv]
      simp only [I2.Sub, I2.MulDiv, I2.Normal, I2.Dot]
      rw [hn, hsa]
      refine ⟨μ, hμ0, hμ1, ?_, ?_, ?_, ?_⟩
      · intro ν _ _
        have e : ((p.X : ℝ) - ((u.X : ℝ) + ν * ((v.X : ℝ) - (u.X : ℝ)))) ^ 2 +
            ((p.Y : ℝ) - ((u.Y : ℝ) + ν * ((v.Y : ℝ) - (u.Y : ℝ)))) ^ 2 -
            (((p.X : ℝ) - ((u.X : ℝ) + μ * ((v.X : ℝ) - (u.X : ℝ)))) ^ 2 +
            ((p.Y : ℝ) - ((u.Y : ℝ) + μ * ((v.Y : ℝ) - (u.Y : ℝ)))) ^ 2) =
            (((v.X : ℝ) - (u.X : ℝ)) * ((v.X : ℝ) - (u.X : ℝ)) +
            ((v.Y : ℝ) - (u.Y : ℝ)) * ((v.Y : ℝ) - (u.Y : ℝ))) * (ν - μ) ^ 2 := by
          linear_combination (2 * (ν - μ)) * hμ
        have t1 := mul_nonneg (le_of_lt hn2r) (sq_nonneg (ν - μ))
        linarith
      · -- the squared distance to the projection is sa^2 / n2
        have e : ((p.X : ℝ) - ((u.X : ℝ) + μ * ((v.X : ℝ) - (u.X : ℝ)))) ^ 2 +
            ((p.Y : ℝ) - ((u.Y : ℝ) + μ * ((v.Y : ℝ) - (u.Y : ℝ)))) ^ 2 =
            ((((v.X - u.X) * (p.Y - u.Y) - (v.Y - u.Y) * (p.X - u.X)) *
              ((v.X - u.X) * (p.Y - u.Y) - (v.Y - u.Y) * (p.X - u.X)) : Int) : ℝ) /
            (((v.X - u.X) * (v.X - u.X) + (v.Y - u.Y) * (v.Y - u.Y) : Int) : ℝ) := by
          push_cast
          rw [eq_div_iff (ne_of_gt hn2r)]
          linear_combination
            (-(2 * (((p.X : ℝ) - (u.X : ℝ)) * ((v.X : ℝ) - (u.X : ℝ)) +
              ((p.Y : ℝ) - (u.Y : ℝ)) * ((v.Y : ℝ) - (u.Y : ℝ)))) +
              μ * (((v.X : ℝ) - (u.X : ℝ)) * ((v.X : ℝ) - (u.X : ℝ)) +
              ((v.Y : ℝ) - (u.Y : ℝ)) * ((v.Y : ℝ) - (u.Y : ℝ))) +
              (((p.X : ℝ) - (u.X : ℝ)) * ((v.X : ℝ) - (u.X : ℝ)) +
              ((p.Y : ℝ) - (u.Y : ℝ)) * ((v.Y : ℝ) - (u.Y : ℝ)))) * hμ
        rw [e, floor_tdiv_real _ _ (mul_self_nonneg _) hn2]
      · have herr := tdiv_error (-(v.Y - u.Y) *
          ((v.X - u.X) * (p.Y - u.Y) - (v.Y - u.Y) * (p.X - u.X)))
          ((v.X - u.X) * (v.X - u.X) + (v.Y - u.Y) * (v.Y - u.Y)) hn2
        have e : (((p.X - (-(v.Y - u.Y) *
            ((v.X - u.X) * (p.Y - u.Y) - (v.Y - u.Y) * (p.X - u.X))).tdiv
            ((v.X - u.X) * (v.X - u.X) + (v.Y - u.Y) * (v.Y - u.Y)) : Int) : ℝ)) -
            ((u.X : ℝ) + μ * ((v.X : ℝ) - (u.X : ℝ))) =
            -((((-(v.Y - u.Y) *
            ((v.X - u.X) * (p.Y - u.Y) - (v.Y - u.Y) * (p.X - u.X))).tdiv
            ((v.X - u.X) * (v.X - u.X) + (v.Y - u.Y) * (v.Y - u.Y)) : Int) : ℝ) -
            ((-(v.Y - u.Y) *
            ((v.X - u.X) * (p.Y - u.Y) - (v.Y - u.Y) * (p.X - u.X)) : Int) : ℝ) /
            (((v.X - u.X) * (v.X - u.X) + (v.Y - u.Y) * (v.Y - u.Y) : Int) : ℝ)) := by
          push_cast
          field_simp
          linear_combination (-((v.X : ℝ) - (u.X : ℝ))) * hμ
        rw [e, abs_neg]
        exact herr
      · have herr := tdiv_error ((v.X - u.X) *
          ((v.X - u.X) * (p.Y - u.Y) - (v.Y - u.Y) * (p.X - u.X)))
          ((v.X - u.X) * (v.X - u.X) + (v.Y - u.Y) * (v.Y - u.Y)) hn2
        have e : (((p.Y - ((v.X - u.X) *
            ((v.X - u.X) * (p.Y - u.Y) - (v.Y - u.Y) * (p.X - u.X))).tdiv
            ((v.X - u.X) * (v.X - u.X) + (v.Y - u.Y) * (v.Y - u.Y)) : Int) : ℝ)) -
            ((u.Y : ℝ) + μ * ((v.Y : ℝ) - (u.Y : ℝ))) =
            -(((((v.X - u.X) *
            ((v.X - u.X) * (p.Y - u.Y) - (v.Y - u.Y) * (p.X - u.X))).tdiv
            ((v.X - u.X) * (v.X - u.X) + (v.Y - u.Y) * (v.Y - u.Y)) : Int) : ℝ) -
            (((v.X - u.X) *
            ((v.X - u.X) * (p.Y - u.Y) - (v.Y - u.Y) * (p.X - u.X)) : Int) : ℝ) /
            (((v.X - u.X) * (v.X - u.X) + (v.Y - u.Y) * (v.Y - u.Y) : Int) : ℝ)) := by
          push_cast
          field_simp
          linear_combination (-((v.Y : ℝ) - (u.Y : ℝ))) * hμ
        rw [e, abs_neg]
        exact herr

theorem between_of_near (x a b : Int) (μ : ℝ) (h0 : 0 ≤ μ) (h1 : μ ≤ 1)
    (h : |(x : ℝ) - ((a : ℝ) + μ * ((b : ℝ) - (a : ℝ)))| < 1) :
    min a b ≤ x ∧ x ≤ max a b := by
  obtain ⟨h2, h3⟩ := abs_lt.mp h
  rcases le_total a b with hab | hab
  · have habr : (a : ℝ) ≤ (b : ℝ) := by exact_mod_cast hab
    have e1 : 0 ≤ μ * ((b : ℝ) - (a : ℝ)) := mul_nonneg h0 (by linarith)
    have e2 : μ * ((b : ℝ) - (a : ℝ)) ≤ 1 * ((b : ℝ) - (a : ℝ)) :=
      mul_le_mul_of_nonneg_right h1 (by linarith)
    have l1 : (a : ℝ) - 1 < (x : ℝ) := by linarith
    have l2 : (x : ℝ) < (b : ℝ) + 1 := by linarith
    have l1' : a - 1 < x := by exact_mod_cast l1
    have l2' : x < b + 1 := by exact_mod_cast l2
    rw [min_eq_left hab, max_eq_right hab]
    constructor <;> omega
  · have habr : (b : ℝ) ≤ (a : ℝ) := by exact_mod_cast hab
    have e1 : 0 ≤ μ * ((a : ℝ) - (b : ℝ)) := mul_nonneg h0 (by linarith)
    have e2 : μ * ((a : ℝ) - (b : ℝ)) ≤ 1 * ((a : ℝ) - (b : ℝ)) :=
      mul_le_mul_of_nonneg_right h1 (by linarith)
    have l1 : (b : ℝ) - 1 < (x : ℝ) := by linarith
    have l2 : (x : ℝ) < (a : ℝ) + 1 := by linarith
    have l1' : b - 1 < x := by exact_mod_cast l1
    have l2' : x < a + 1 := by exact_mod_cast l2
    rw [min_eq_right hab, max_eq_left hab]
    constructor <;> omega

/-- C25 (amended): for u != v the segment u-v has a nearest point to p, at a parameter
μ in [0, 1]; SegmentNearestPoint(u, v, p) returns an integer point that lies in the
rectangle spanned by u and v and differs from that nearest point by less than 1 in each
coordinate and, as second result, the floor of the squared distance from p to that
nearest point, which is the minimum of the squared distance from p over all real points
of the segment. -/
theorem SegmentNearestPoint_nearest (u v p : I2) (huv : u ≠ v) :
    ∃ μ : ℝ, 0 ≤ μ ∧ μ ≤ 1 ∧
      (∀ ν : ℝ, 0 ≤ ν → ν ≤ 1 →
        ((p.X : ℝ) - ((u.X : ℝ) + μ * ((v.X : ℝ) - (u.X : ℝ)))) ^ 2 +
          ((p.Y : ℝ) - ((u.Y : ℝ) + μ * ((v.Y : ℝ) - (u.Y : ℝ)))) ^ 2 ≤
        ((p.X : ℝ) - ((u.X : ℝ) + ν * ((v.X : ℝ) - (u.X : ℝ)))) ^ 2 +
          ((p.Y : ℝ) - ((u.Y : ℝ) + ν * ((v.Y : ℝ) - (u.Y : ℝ)))) ^ 2) ∧
      (SegmentNearestPoint u v p).2 =
        ⌊((p.X : ℝ) - ((u.X : ℝ) + μ * ((v.X : ℝ) - (u.X : ℝ)))) ^ 2 +
          ((p.Y : ℝ) - ((u.Y : ℝ) + μ * ((v.Y : ℝ) - (u.Y : ℝ)))) ^ 2⌋ ∧
      |(((SegmentNearestPoint u v p).1.X : Int) : ℝ) -
        ((u.X : ℝ) + μ * ((v.X : ℝ) - (u.X : ℝ)))| < 1 ∧
      |(((SegmentNearestPoint u v p).1.Y : Int) : ℝ) -
        ((u.Y : ℝ) + μ * ((v.Y : ℝ) - (u.Y : ℝ)))| < 1 ∧
      min u.X v.X ≤ (SegmentNearestPoint u v p).1.X ∧
      (SegmentNearestPoint u v p).1.X ≤ max u.X v.X ∧
      min u.Y v.Y ≤ (SegmentNearestPoint u v p).1.Y ∧
      (SegmentNearestPoint u v p).1.Y ≤ max u.Y v.Y := by
  obtain ⟨μ, h0, h1, h2, h3, h4, h5⟩ := SegmentNearestPoint_projection u v p huv
  obtain ⟨b1, b2⟩ := between_of_near _ u.X v.X μ h0 h1 h4
  obtain ⟨b3, b4⟩ := between_of_near _ u.Y v.Y μ h0 h1 h5
  exact ⟨μ, h0, h1, h2, h3, h4, h5, b1, b2, b3, b4⟩

/-- C25, as stated, fails: for u = (0,0), v = (3,1), p = (1,1) the point returned is
(1,1), which is not collinear with u and v (the exact nearest point is (1.2, 0.4)). -/
theorem SegmentNearestPoint_off_segment_counterexample :
    SegmentNearestPoint ⟨0, 0⟩ ⟨3, 1⟩ ⟨1, 1⟩ = (⟨1, 1⟩, 0) ∧
    SignedArea2 ⟨0, 0⟩ ⟨3, 1⟩ (SegmentNearestPoint ⟨0, 0⟩ ⟨3, 1⟩ ⟨1, 1⟩).1 ≠ 0 := by
  decide

/-- C25 (amended) at u = (0,0), v = (3,1), p = (1,1). -/
theorem SegmentNearestPoint_nearest_witness :
    ∃ μ : ℝ, 0 ≤ μ ∧ μ ≤ 1 ∧
      (SegmentNearestPoint ⟨0, 0⟩ ⟨3, 1⟩ ⟨1, 1⟩).2 =
        ⌊(((1 : Int) : ℝ) - (((0 : Int) : ℝ) + μ * (((3 : Int) : ℝ) - ((0 : Int) : ℝ)))) ^ 2 +
          (((1 : Int) : ℝ) - (((0 : Int) : ℝ) + μ * (((1 : Int) : ℝ) - ((0 : Int) : ℝ)))) ^ 2⌋ ∧
      |(((SegmentNearestPoint ⟨0, 0⟩ ⟨3, 1⟩ ⟨1, 1⟩).1.X : Int) : ℝ) -
        (((0 : Int) : ℝ) + μ * (((3 : Int) : ℝ) - ((0 : Int) : ℝ)))| < 1 := by
  obtain ⟨μ, h0, h1, _, h3, h4, _⟩ :=
    SegmentNearestPoint_nearest ⟨0, 0⟩ ⟨3, 1⟩ ⟨1, 1⟩ (by decide)
  exact ⟨μ, h0, h1, h3, h4⟩

/-! ## 64-bit integers: the range in which nothing wraps -/

theorem wrap64_of_inInt64 (x : Int) (h : InInt64 x) : wrap64 x = x := by
  unfold wrap64
  obtain ⟨h1, h2⟩ := h
  norm_num at h1 h2 ⊢
  rw [Int.emod_eq_of_lt (by omega) (by omega)]
  ring

theorem wrap64_add_left (a b : Int) : wrap64 (wrap64 a + b) = wrap64 (a + b) := by
  unfold wrap64
  norm_num
  omega

theorem wrap64_inInt64 (x : Int) : InInt64 (wrap64 x) := by
  unfold wrap64 InInt64
  norm_num
  omega

theorem within_abs (v : I2) (m : Int) (h : v.Within m) : |v.X| ≤ m ∧ |v.Y| ≤ m :=
  ⟨abs_le.mpr ⟨h.1, h.2.1⟩, abs_le.mpr ⟨h.2.2.1, h.2.2.2⟩⟩

theorem within_of_abs (v : I2) (m : Int) (hx : |v.X| ≤ m) (hy : |v.Y| ≤ m) : v.Within m :=
  ⟨(abs_le.mp hx).1, (abs_le.mp hx).2, (abs_le.mp hy).1, (abs_le.mp hy).2⟩

theorem within_mono (v : I2) (m m' : Int) (h : v.Within m) (hm : m ≤ m') : v.Within m' := by
  obtain ⟨h1, h2, h3, h4⟩ := h
  exact ⟨by omega, by omega, by omega, by omega⟩

theorem within_sub (v w : I2) (a b : Int) (hv : v.Within a) (hw : w.Within b) :
    (v.Sub w).Within (a + b) := by
  obtain ⟨h1, h2, h3, h4⟩ := hv
  obtain ⟨g1, g2, g3, g4⟩ := hw
  simp only [I2.Sub, I2.Within]
  exact ⟨by omega, by omega, by omega, by omega⟩

theorem add64_eq (x y A B : Int) (hx : |x| ≤ A) (hy : |y| ≤ B) (h : A + B ≤ 9 * 10 ^ 18) :
    add64 x y = x + y :=
  wrap64_eq _ (le_trans (abs_add_le_of _ _ _ _ hx hy) h)

theorem sub64_eq (x y A B : Int) (hx : |x| ≤ A) (hy : |y| ≤ B) (h : A + B ≤ 9 * 10 ^ 18) :
    sub64 x y = x - y :=
  wrap64_eq _ (le_trans (abs_sub_le_of _ _ _ _ hx hy) h)

theorem mul64_eq (x y A B : Int) (hx : |x| ≤ A) (hy : |y| ≤ B) (h : A * B ≤ 9 * 10 ^ 18) :
    mul64 x y = x * y :=
  wrap64_eq _ (le_trans (abs_mul_le_of _ _ _ _ hx hy) h)

theorem mul64_of_abs (x y : Int) (h : |x * y| ≤ 9 * 10 ^ 18) : mul64 x y = x * y :=
  wrap64_eq _ h

theorem div64_eq (x y A : Int) (hx : |x| ≤ A) (h : A ≤ 9 * 10 ^ 18) :
    div64 x y = x.tdiv y :=
  wrap64_eq _ (le_trans (le_trans (abs_tdiv_le x y) hx) h)

theorem neg64_eq (x A : Int) (hx : |x| ≤ A) (h : A ≤ 9 * 10 ^ 18) : neg64 x = -x :=
  wrap64_eq _ (by rw [abs_neg]; exact le_trans hx h)

theorem Sub64_eq (v w : I2) (a b : Int) (hv : v.Within a) (hw : w.Within b)
    (h : a + b ≤ 9 * 10 ^ 18) : v.Sub64 w = v.Sub w := by
  obtain ⟨v1, v2⟩ := within_abs v a hv
  obtain ⟨w1, w2⟩ := within_abs w b hw
  unfold I2.Sub64 I2.Sub
  rw [sub64_eq _ _ _ _ v1 w1 h, sub64_eq _ _ _ _ v2 w2 h]

theorem Dot64_eq (v w : I2) (a b : Int) (hv : v.Within a) (hw : w.Within b)
    (h : a * b + a * b ≤ 9 * 10 ^ 18) : v.Dot64 w = v.Dot w := by
  obtain ⟨v1, v2⟩ := within_abs v a hv
  obtain ⟨w1, w2⟩ := within_abs w b hw
  have ha : 0 ≤ a := le_trans (abs_nonneg _) v1
  have hb : 0 ≤ b := le_trans (abs_nonneg _) w1
  have hab : 0 ≤ a * b := mul_nonneg ha hb
  unfold I2.Dot64 I2.Dot
  rw [mul64_eq _ _ _ _ v1 w1 (by omega), mul64_eq _ _ _ _ v2 w2 (by omega)]
  exact add64_eq _ _ _ _ (abs_mul_le_of _ _ _ _ v1 w1) (abs_mul_le_of _ _ _ _ v2 w2) h

theorem dot_abs_le (v w : I2) (a b : Int) (hv : v.Within a) (hw : w.Within b) :
    |v.Dot w| ≤ a * b + a * b := by
  obtain ⟨v1, v2⟩ := within_abs v a hv
  obtain ⟨w1, w2⟩ := within_abs w b hw
  unfold I2.Dot
  exact abs_add_le_of _ _ _ _ (abs_mul_le_of _ _ _ _ v1 w1) (abs_mul_le_of _ _ _ _ v2 w2)

theorem signedArea2_abs_le (a b c : I2) (m : Int) (ha : a.Within m) (hb : b.Within m)
    (hc : c.Within m) : |SignedArea2 a b c| ≤ 6 * m * m := by
  obtain ⟨a1, a2⟩ := within_abs a m ha
  obtain ⟨b1, b2⟩ := within_abs b m hb
  obtain ⟨c1, c2⟩ := within_abs c m hc
  unfold SignedArea2
  have h1 := abs_mul_le_of _ _ _ _ a2 (abs_sub_le_of _ _ _ _ c1 b1)
  have h2 := abs_mul_le_of _ _ _ _ b2 (abs_sub_le_of _ _ _ _ a1 c1)
  have h3 := abs_mul_le_of _ _ _ _ c2 (abs_sub_le_of _ _ _ _ b1 a1)
  have := abs_add_le_of _ _ _ _ (abs_add_le_of _ _ _ _ h1 h2) h3
  linarith

theorem SignedArea2_64_eq (a b c : I2) (m : Int) (ha : a.Within m) (hb : b.Within m)
    (hc : c.Within m) (h : 6 * m * m ≤ 9 * 10 ^ 18) : SignedArea2_64 a b c = SignedArea2 a b c := by
  obtain ⟨a1, a2⟩ := within_abs a m ha
  obtain ⟨b1, b2⟩ := within_abs b m hb
  obtain ⟨c1, c2⟩ := within_abs c m hc
  have hm : 0 ≤ m := le_trans (abs_nonneg _) a1
  have hmm : 0 ≤ m * m := mul_nonneg hm hm
  have hm2 : m + m ≤ 9 * 10 ^ 18 := by nlinarith
  unfold SignedArea2_64 SignedArea2
  have h1 := abs_mul_le_of _ _ _ _ a2 (abs_sub_le_of _ _ _ _ c1 b1)
  have h2 := abs_mul_le_of _ _ _ _ b2 (abs_sub_le_of _ _ _ _ a1 c1)
  have h3 := abs_mul_le_of _ _ _ _ c2 (abs_sub_le_of _ _ _ _ b1 a1)
  rw [sub64_eq _ _ _ _ c1 b1 hm2, sub64_eq _ _ _ _ a1 c1 hm2, sub64_eq _ _ _ _ b1 a1 hm2,
    mul64_eq _ _ _ _ a2 (abs_sub_le_of _ _ _ _ c1 b1) (by nlinarith),
    mul64_eq _ _ _ _ b2 (abs_sub_le_of _ _ _ _ a1 c1) (by nlinarith),
    mul64_eq _ _ _ _ c2 (abs_sub_le_of _ _ _ _ b1 a1) (by nlinarith),
    add64_eq _ _ _ _ h1 h2 (by nlinarith),
    add64_eq _ _ _ _ (abs_add_le_of _ _ _ _ h1 h2) h3 (by nlinarith)]

/-! ## divDown and cell on 64-bit integers -/

theorem divDown64_eq (n d : Int) (hn : InInt64 n) (hd : 0 < d)
    (hlow : -2 ^ 63 + d - 1 ≤ n) : divDown64 n d = some (divDown n d) := by
  unfold divDown64 divDown goDiv64 div64
  obtain ⟨hn1, hn2⟩ := hn
  by_cases h0 : n ≥ 0
  · rw [if_pos h0, if_pos h0, if_neg (ne_of_gt hd)]
    have h1 : 0 ≤ n.tdiv d := Int.tdiv_nonneg h0 (le_of_lt hd)
    have h2 : n.tdiv d ≤ n := by
      rw [Int.tdiv_eq_ediv h0 (le_of_lt hd)]
      exact Int.ediv_le_self _ h0
    rw [wrap64_of_inInt64 _ ⟨by omega, by omega⟩]
  · rw [if_neg h0, if_neg h0, if_neg (ne_of_gt hd)]
    have e : add64 (sub64 n d) 1 = n - d + 1 := by
      unfold add64 sub64
      rw [wrap64_add_left]
      exact wrap64_of_inInt64 _ ⟨by omega, by omega⟩
    rw [e]
    have hneg : n - d + 1 = -(d - 1 - n) := by ring
    have hnn : 0 ≤ d - 1 - n := by omega
    have h1 : 0 ≤ (d - 1 - n).tdiv d := Int.tdiv_nonneg hnn (le_of_lt hd)
    have h2 : (d - 1 - n).tdiv d ≤ d - 1 - n := by
      rw [Int.tdiv_eq_ediv hnn (le_of_lt hd)]
      exact Int.ediv_le_self _ hnn
    rw [hneg, Int.neg_tdiv, wrap64_of_inInt64 _ ⟨by omega, by omega⟩]

/-- Over unbounded integers: for every integer n and every d > 0, divDown n d is the
floor of n/d, the unique q with q*d <= n < (q+1)*d. -/
theorem divDown_is_floor (n d : Int) (hd : 0 < d) :
    divDown n d * d ≤ n ∧ n < (divDown n d + 1) * d ∧
      (∀ q : Int, q * d ≤ n → n < (q + 1) * d → q = divDown n d) ∧
      divDown n d = ⌊(n : ℚ) / (d : ℚ)⌋ := by
  obtain ⟨h1, h2⟩ := divDown_bounds n d hd
  refine ⟨h1, h2, ?_, ?_⟩
  · intro q hq1 hq2
    exact floor_unique n d _ _ hd hq1 hq2 h1 h2
  · symm
    rw [Int.floor_eq_iff]
    have hdq : (0 : ℚ) < (d : ℚ) := by exact_mod_cast hd
    have h1q : ((divDown n d : Int) : ℚ) * (d : ℚ) ≤ (n : ℚ) := by exact_mod_cast h1
    have h2q : (n : ℚ) < (((divDown n d : Int) : ℚ) + 1) * (d : ℚ) := by exact_mod_cast h2
    constructor
    · rw [le_div_iff₀ hdq]
      exact h1q
    · rw [div_lt_iff₀ hdq]
      exact h2q

/-- C17 as stated fails on 64-bit integers: for n = -2^63 and d = 2 the subtraction
`n - d + 1` wraps, and divDown returns 4611686018427387903, which is not the floor
-4611686018427387904 of n/d. -/
theorem divDown64_wraps :
    InInt64 (-2 ^ 63) ∧ (0 : Int) < 2 ∧
    divDown64 (-2 ^ 63) 2 = some 4611686018427387903 ∧
    ¬ ((4611686018427387903 : Int) * 2 ≤ -2 ^ 63) ∧
    ⌊((-2 ^ 63 : Int) : ℚ) / ((2 : Int) : ℚ)⌋ = -4611686018427387904 := by
  refine ⟨by unfold InInt64; decide, by decide, by decide, by decide, ?_⟩
  rw [Int.floor_eq_iff]
  constructor <;> norm_num

/-- C17, amended: for every 64-bit integer n and every d > 0 with n >= -2^63 + d - 1
(so that `n - d + 1` does not wrap), divDown(n, d) is the floor of n/d, the unique q
with q*d <= n < (q+1)*d; hence for a positive cell size and a point v whose coordinates
satisfy the same bound, cell(v, cellSize) is the address of the half-open grid cell
containing v. -/
theorem divDown64_floor (n d : Int) (v cellSize : I2) (hn : InInt64 n) (hd : 0 < d)
    (hlow : -2 ^ 63 + d - 1 ≤ n)
    (hvx : InInt64 v.X) (hvy : InInt64 v.Y) (hx : 0 < cellSize.X) (hy : 0 < cellSize.Y)
    (hlx : -2 ^ 63 + cellSize.X - 1 ≤ v.X) (hly : -2 ^ 63 + cellSize.Y - 1 ≤ v.Y) :
    (∃ q : Int, divDown64 n d = some q ∧ q * d ≤ n ∧ n < (q + 1) * d ∧
      (∀ q' : Int, q' * d ≤ n → n < (q' + 1) * d → q' = q) ∧
      q = ⌊(n : ℚ) / (d : ℚ)⌋) ∧
    (∃ c : I2, cell64 v cellSize = some c ∧
      c.X * cellSize.X ≤ v.X ∧ v.X < (c.X + 1) * cellSize.X ∧
      c.Y * cellSize.Y ≤ v.Y ∧ v.Y < (c.Y + 1) * cellSize.Y) := by
  refine ⟨⟨divDown n d, divDown64_eq n d hn hd hlow, divDown_is_floor n d hd⟩, ?_⟩
  refine ⟨⟨divDown v.X cellSize.X, divDown v.Y cellSize.Y⟩, ?_, ?_⟩
  · unfold cell64
    rw [divDown64_eq _ _ hvx hx hlx, divDown64_eq _ _ hvy hy hly]
  · obtain ⟨h1, h2⟩ := divDown_bounds v.X cellSize.X hx
    obtain ⟨h3, h4⟩ := divDown_bounds v.Y cellSize.Y hy
    exact ⟨h1, h2, h3, h4⟩

/-- C17 at n = -17, d = 16 and at the point (-1, -16) with cells of size 16. -/
theorem divDown64_floor_witness :
    divDown64 (-17) 16 = some (-2) ∧ cell64 ⟨-1, -16⟩ ⟨16, 16⟩ = some ⟨-1, -1⟩ ∧
    ∃ q : Int, divDown64 (-17) 16 = some q ∧ q * 16 ≤ -17 ∧ -17 < (q + 1) * 16 ∧
      (∀ q' : Int, q' * 16 ≤ -17 → -17 < (q' + 1) * 16 → q' = q) ∧
      q = ⌊((-17 : Int) : ℚ) / ((16 : Int) : ℚ)⌋ :=
  ⟨by decide, by decide,
    (divDown64_floor (-17) 16 ⟨-1, -16⟩ ⟨16, 16⟩ (by unfold InInt64; decide) (by decide)
      (by decide) (by unfold InInt64; decide) (by unfold InInt64; decide) (by decide)
      (by decide) (by decide) (by decide)).1⟩

/-! ## LineNearestPoint, SegmentNearestPoint and NearestPoint on 64-bit integers -/

theorem MulDiv64_eq (v : I2) (n d a b : Int) (hv : v.Within a) (hn : |n| ≤ b) (hd : d ≠ 0)
    (h : a * b ≤ 9 * 10 ^ 18) : v.MulDiv64 n d = some (v.MulDiv n d) := by
  obtain ⟨v1, v2⟩ := within_abs v a hv
  unfold I2.MulDiv64 I2.MulDiv goDiv64
  rw [if_neg hd, if_neg hd, mul64_eq _ _ _ _ v1 hn h, mul64_eq _ _ _ _ v2 hn h,
    div64_eq _ _ _ (abs_mul_le_of _ _ _ _ v1 hn) h,
    div64_eq _ _ _ (abs_mul_le_of _ _ _ _ v2 hn) h]

theorem within_MulDiv (v : I2) (n d a b : Int) (hv : v.Within a) (hn : |n| ≤ b) :
    (v.MulDiv n d).Within (a * b) := by
  obtain ⟨v1, v2⟩ := within_abs v a hv
  apply within_of_abs
  · exact le_trans (abs_tdiv_le _ _) (abs_mul_le_of _ _ _ _ v1 hn)
  · exact le_trans (abs_tdiv_le _ _) (abs_mul_le_of _ _ _ _ v2 hn)

theorem Normal64_eq (v : I2) (a : Int) (hv : v.Within a) (h : a ≤ 9 * 10 ^ 18) :
    v.Normal64 = v.Normal := by
  obtain ⟨v1, v2⟩ := within_abs v a hv
  unfold I2.Normal64 I2.Normal
  rw [neg64_eq _ _ v2 h]

theorem within_Normal (v : I2) (a : Int) (hv : v.Within a) : v.Normal.Within a := by
  obtain ⟨h1, h2, h3, h4⟩ := hv
  simp only [I2.Normal, I2.Within]
  exact ⟨by omega, by omega, by omega, by omega⟩

/-- With all coordinates of magnitude at most 20000 nothing wraps in LineNearestPoint,
and it does not panic. -/
theorem LineNearestPoint64_eq (u v p : I2) (hu : u.Within 20000) (hv : v.Within 20000)
    (hp : p.Within 20000) : LineNearestPoint64 u v p = some (LineNearestPoint u v p) := by
  unfold LineNearestPoint64 LineNearestPoint
  by_cases huv : u = v
  · rw [if_pos huv, if_pos huv]
    have hpu := within_sub p u _ _ hp hu
    simp only []
    rw [Sub64_eq p u _ _ hp hu (by norm_num), Dot64_eq _ _ _ _ hpu hpu (by norm_num)]
  · rw [if_neg huv, if_neg huv]
    have hvu := within_sub v u _ _ hv hu
    have hn := within_Normal _ _ hvu
    have hn2 := ne_of_gt (normal_dot_pos u v huv)
    have hsa : |SignedArea2 u v p| ≤ 2400000000 :=
      le_trans (signedArea2_abs_le u v p 20000 hu hv hp) (by norm_num)
    have hm := within_MulDiv _ (SignedArea2 u v p) ((v.Sub u).Normal.Dot (v.Sub u).Normal)
      _ _ hn hsa
    simp only []
    rw [Sub64_eq v u _ _ hv hu (by norm_num), Normal64_eq _ _ hvu (by norm_num),
      Dot64_eq _ _ _ _ hn hn (by norm_num),
      SignedArea2_64_eq u v p 20000 hu hv hp (by norm_num),
      MulDiv64_eq _ _ _ _ _ hn hsa hn2 (by norm_num)]
    unfold goDiv64
    rw [if_neg hn2, mul64_eq _ _ _ _ hsa hsa (by norm_num),
      div64_eq _ _ _ (abs_mul_le_of _ _ _ _ hsa hsa) (by norm_num)]
    simp only []
    rw [Sub64_eq p _ _ _ hp hm (by norm_num)]

theorem within_LineNearestPoint (u v p : I2) (hu : u.Within 20000) (hv : v.Within 20000)
    (hp : p.Within 20000) : (LineNearestPoint u v p).1.Within (10 ^ 14) := by
  unfold LineNearestPoint
  by_cases huv : u = v
  · rw [if_pos huv]
    exact within_mono _ _ _ hu (by norm_num)
  · rw [if_neg huv]
    have hvu := within_sub v u _ _ hv hu
    have hn := within_Normal _ _ hvu
    have hsa : |SignedArea2 u v p| ≤ 2400000000 :=
      le_trans (signedArea2_abs_le u v p 20000 hu hv hp) (by norm_num)
    have hm := within_MulDiv _ (SignedArea2 u v p) ((v.Sub u).Normal.Dot (v.Sub u).Normal)
      _ _ hn hsa
    exact within_mono _ _ _ (within_sub _ _ _ _ hp hm) (by norm_num)

/-- With all coordinates of magnitude at most 20000 nothing wraps in
SegmentNearestPoint, and it does not panic. -/
theorem SegmentNearestPoint64_eq (u v p : I2) (hu : u.Within 20000) (hv : v.Within 20000)
    (hp : p.Within 20000) : SegmentNearestPoint64 u v p = some (SegmentNearestPoint u v p) := by
  unfold SegmentNearestPoint64 SegmentNearestPoint
  rw [LineNearestPoint64_eq u v p hu hv hp]
  have hq := within_LineNearestPoint u v p hu hv hp
  have hqu := within_sub _ u _ _ hq hu
  have hvu := within_sub v u _ _ hv hu
  have hpu := within_sub p u _ _ hp hu
  have hvp := within_sub v p _ _ hv hp
  obtain ⟨q1, q2⟩ := within_abs _ _ hqu
  obtain ⟨w1, w2⟩ := within_abs _ _ hvu
  simp only []
  rw [Sub64_eq _ u _ _ hq hu (by norm_num), Sub64_eq v u _ _ hv hu (by norm_num),
    Sub64_eq p u _ _ hp hu (by norm_num), Sub64_eq v p _ _ hv hp (by norm_num),
    Dot64_eq _ _ _ _ hpu hpu (by norm_num), Dot64_eq _ _ _ _ hvp hvp (by norm_num),
    mul64_eq _ _ _ _ q1 (abs_Sgn_le _) (by norm_num),
    mul64_eq _ _ _ _ q2 (abs_Sgn_le _) (by norm_num),
    Abs64_eq _ (le_trans w1 (by norm_num)), Abs64_eq _ (le_trans w2 (by norm_num))]
  split_ifs <;> rfl

/-- C24 as stated fails on 64-bit integers: for p - u = (2^32, 0) the exact squared
distance is 2^64, and both functions return 0. -/
theorem SegmentNearestPoint64_degenerate_wraps :
    SegmentNearestPoint64 ⟨0, 0⟩ ⟨0, 0⟩ ⟨2 ^ 32, 0⟩ = some (⟨0, 0⟩, 0) ∧
    LineNearestPoint64 ⟨0, 0⟩ ⟨0, 0⟩ ⟨2 ^ 32, 0⟩ = some (⟨0, 0⟩, 0) ∧
    ((⟨2 ^ 32, 0⟩ : I2).Sub ⟨0, 0⟩).Dot ((⟨2 ^ 32, 0⟩ : I2).Sub ⟨0, 0⟩) = 2 ^ 64 := by
  refine ⟨by decide, by decide, by decide⟩

/-- C24, amended: for every point u and every p whose exact squared distance
(p-u).(p-u) is below 2^63 (it fits an int64) the degenerate segment is handled without
division: SegmentNearestPoint(u, u, p) and LineNearestPoint(u, u, p) (64-bit integers)
both return the point u and the exact squared distance (p-u).(p-u). -/
theorem SegmentNearestPoint64_degenerate (u p : I2)
    (h : (p.Sub u).Dot (p.Sub u) < 2 ^ 63) :
    SegmentNearestPoint64 u u p = some (u, (p.Sub u).Dot (p.Sub u)) ∧
    LineNearestPoint64 u u p = some (u, (p.Sub u).Dot (p.Sub u)) := by
  have hL : LineNearestPoint64 u u p = some (u, (p.Sub64 u).Dot64 (p.Sub64 u)) := by
    unfold LineNearestPoint64
    rw [if_pos rfl]
  have he : (p.Sub64 u).Dot64 (p.Sub64 u) = (p.Sub u).Dot (p.Sub u) := by
    simp only [I2.Sub, I2.Dot] at h
    have hx0 := mul_self_nonneg (p.X - u.X)
    have hy0 := mul_self_nonneg (p.Y - u.Y)
    have hxb : -2 ^ 32 < p.X - u.X ∧ p.X - u.X < 2 ^ 32 := by
      constructor <;> nlinarith
    have hyb : -2 ^ 32 < p.Y - u.Y ∧ p.Y - u.Y < 2 ^ 32 := by
      constructor <;> nlinarith
    have hx : sub64 p.X u.X = p.X - u.X := by
      unfold sub64
      exact wrap64_of_inInt64 _ ⟨by omega, by omega⟩
    have hy : sub64 p.Y u.Y = p.Y - u.Y := by
      unfold sub64
      exact wrap64_of_inInt64 _ ⟨by omega, by omega⟩
    simp only [I2.Sub64, I2.Dot64, I2.Sub, I2.Dot, hx, hy]
    have m1 : mul64 (p.X - u.X) (p.X - u.X) = (p.X - u.X) * (p.X - u.X) := by
      unfold mul64
      exact wrap64_of_inInt64 _ ⟨by omega, by omega⟩
    have m2 : mul64 (p.Y - u.Y) (p.Y - u.Y) = (p.Y - u.Y) * (p.Y - u.Y) := by
      unfold mul64
      exact wrap64_of_inInt64 _ ⟨by omega, by omega⟩
    rw [m1, m2]
    unfold add64
    exact wrap64_of_inInt64 _ ⟨by omega, by omega⟩
  rw [he] at hL
  refine ⟨?_, hL⟩
  unfold SegmentNearestPoint64
  rw [hL]
  simp only [if_true]

/-- C24 at u = (0,0), p = (1,1): both functions return ((0,0), 2). -/
theorem SegmentNearestPoint64_degenerate_witness :
    SegmentNearestPoint64 ⟨0, 0⟩ ⟨0, 0⟩ ⟨1, 1⟩ =
      some (⟨0, 0⟩, ((⟨1, 1⟩ : I2).Sub ⟨0, 0⟩).Dot ((⟨1, 1⟩ : I2).Sub ⟨0, 0⟩)) ∧
    LineNearestPoint64 ⟨0, 0⟩ ⟨0, 0⟩ ⟨1, 1⟩ =
      some (⟨0, 0⟩, ((⟨1, 1⟩ : I2).Sub ⟨0, 0⟩).Dot ((⟨1, 1⟩ : I2).Sub ⟨0, 0⟩)) ∧
    ((⟨1, 1⟩ : I2).Sub ⟨0, 0⟩).Dot ((⟨1, 1⟩ : I2).Sub ⟨0, 0⟩) = 2 :=
  ⟨(SegmentNearestPoint64_degenerate ⟨0, 0⟩ ⟨1, 1⟩ (by decide)).1,
    (SegmentNearestPoint64_degenerate ⟨0, 0⟩ ⟨1, 1⟩ (by decide)).2, by decide⟩

/-- C10 as stated fails on 64-bit integers: for the graph with the single edge
(0,0)-(2^32,0) the divisor `n.Dot(n)` is 2^64, which wraps to 0, so SegmentNearestPoint
panics on an integer division by zero and NearestPoint returns nothing. -/
theorem NearestPoint64_panics :
    (NewGraph.AddEdge ⟨0, 0⟩ ⟨2 ^ 32, 0⟩).HasEdge ⟨0, 0⟩ ⟨2 ^ 32, 0⟩ ∧
    SegmentNearestPoint64 ⟨0, 0⟩ ⟨2 ^ 32, 0⟩ ⟨1, 1⟩ = none ∧
    (NewGraph.AddEdge ⟨0, 0⟩ ⟨2 ^ 32, 0⟩).NearestPoint64 ⟨1, 1⟩ = none := by
  refine ⟨⟨_, rfl, by decide⟩, by decide, by decide⟩

theorem wrap64_emod4 (z : Int) : wrap64 z % 4 = z % 4 := by
  unfold wrap64
  omega

theorem sq_emod4 (x : Int) : x * x % 4 = 0 ∨ x * x % 4 = 1 := by
  obtain ⟨k, hk | hk⟩ := Int.even_or_odd' x
  · left
    have e : x * x = 4 * (k * k) := by rw [hk]; ring
    rw [e]
    omega
  · right
    have e : x * x = 4 * (k * k + k) + 1 := by rw [hk]; ring
    rw [e]
    omega

/-- A dot product of a vector with itself on 64-bit integers is never the initial
value `1<<63 - 1` of `d`: a sum of two squares is not 3 modulo 4. -/
theorem dot64_self_lt (x : I2) : x.Dot64 x < 2 ^ 63 - 1 ∧ x.Dot64 x % 4 ≠ 3 := by
  have h4 : x.Dot64 x % 4 = (x.X * x.X + x.Y * x.Y) % 4 := by
    unfold I2.Dot64 add64 mul64
    rw [wrap64_emod4, Int.add_emod, wrap64_emod4, wrap64_emod4, ← Int.add_emod]
  have hx := sq_emod4 x.X
  have hy := sq_emod4 x.Y
  have hr := wrap64_inInt64 (mul64 x.X x.X + mul64 x.Y x.Y)
  unfold InInt64 at hr
  have hd : x.Dot64 x = wrap64 (mul64 x.X x.X + mul64 x.Y x.Y) := rfl
  rw [← hd] at hr
  constructor <;> omega

/-- A quotient of a square by a sum of two squares on 64-bit integers is never the
initial value `1<<63 - 1` of `d`. -/
theorem div64_lt_sentinel (a b : Int) (ha : InInt64 a) (ha4 : a % 4 = 0 ∨ a % 4 = 1)
    (hb4 : b % 4 ≠ 3) : div64 a b < 2 ^ 63 - 1 := by
  have hr := wrap64_inInt64 (a.tdiv b)
  unfold InInt64 at hr ha
  have hd : div64 a b = wrap64 (a.tdiv b) := rfl
  rw [← hd] at hr
  by_contra hcon
  have hq : div64 a b = 2 ^ 63 - 1 := by omega
  have hn := Int.natAbs_tdiv a b
  have hle : (a.tdiv b).natAbs ≤ a.natAbs := by
    rw [hn]
    exact Nat.div_le_self _ _
  have hq' : a.tdiv b = 2 ^ 63 - 1 := by
    rw [hd] at hq
    unfold wrap64 at hq
    omega
  have hmul : (a.natAbs.div b.natAbs) * b.natAbs ≤ a.natAbs := Nat.div_mul_le_self _ _
  rw [← hn] at hmul
  have hqn : (a.tdiv b).natAbs = 2 ^ 63 - 1 := by
    rw [hq']
    rfl
  rw [hqn] at hmul
  have hb1 : b.natAbs ≤ 1 := by omega
  have hb0 : b.natAbs ≠ 0 := by
    intro h0
    rw [hn, h0] at hqn
    have : a.natAbs.div 0 = 0 := Nat.div_zero _
    rw [this] at hqn
    exact absurd hqn (by decide)
  have hb : b = 1 ∨ b = -1 := by omega
  rcases hb with rfl | rfl
  · rw [Int.tdiv_one] at hq'
    omega
  · omega

/-- SegmentNearestPoint on 64-bit integers returns a result unless the divisor
`n.Dot(n)` is zero, and never reports the initial value `1<<63 - 1` of `d`. -/
theorem SegmentNearestPoint64_some (u v p : I2)
    (h : u ≠ v → ((v.Sub64 u).Normal64).Dot64 ((v.Sub64 u).Normal64) ≠ 0) :
    ∃ (q : I2) (d : Int), SegmentNearestPoint64 u v p = some (q, d) ∧ d < 2 ^ 63 - 1 := by
  by_cases huv : u = v
  · subst huv
    refine ⟨u, (p.Sub64 u).Dot64 (p.Sub64 u), ?_, (dot64_self_lt _).1⟩
    unfold SegmentNearestPoint64 LineNearestPoint64
    simp only [if_true]
  · have hn := h huv
    have hL : ∃ (q : I2) (d : Int), LineNearestPoint64 u v p = some (q, d) ∧ d < 2 ^ 63 - 1 := by
      unfold LineNearestPoint64 I2.MulDiv64 goDiv64
      simp only [if_neg huv, if_neg hn]
      refine ⟨_, _, rfl, ?_⟩
      apply div64_lt_sentinel _ _ (wrap64_inInt64 _)
      · have := sq_emod4 (SignedArea2_64 u v p)
        rw [wrap64_emod4]
        exact this
      · exact (dot64_self_lt _).2
    obtain ⟨q, d, hqd, hd⟩ := hL
    unfold SegmentNearestPoint64
    rw [hqd]
    simp only [if_neg huv]
    split_ifs
    · exact ⟨_, _, rfl, (dot64_self_lt _).1⟩
    · exact ⟨_, _, rfl, (dot64_self_lt _).1⟩
    · exact ⟨_, _, rfl, hd⟩

/-- The state of NearestPoint on 64-bit integers after a list of edges on which
SegmentNearestPoint does not panic: its distance is at most the one it started with
and at most the one reported for every edge of the list, and it is the state it
started with or the report for an edge of the list. -/
theorem nearestPoint64_fold_spec (p : I2) (l : List (I2 × I2)) :
    ∀ s : Int × Edge × I2,
    (∀ e ∈ l, ∃ (q : I2) (d : Int), SegmentNearestPoint64 e.1 e.2 p = some (q, d)) →
    ∃ r : Int × Edge × I2,
      runEdges (fun u v (s : Option (Int × Edge × I2)) =>
        match s with
        | none => (false, none)
        | some s =>
          match SegmentNearestPoint64 u v p with
          | none => (false, none)
          | some rt =>
            if rt.2 < s.1 then (true, some (rt.2, Edge.mk u v, rt.1)) else (true, some s))
        l (some s) = (true, some r) ∧
      r.1 ≤ s.1 ∧
      (∀ e ∈ l, ∀ (q : I2) (d : Int), SegmentNearestPoint64 e.1 e.2 p = some (q, d) → r.1 ≤ d) ∧
      (r = s ∨ ∃ e ∈ l, ∃ (q : I2) (d : Int),
        SegmentNearestPoint64 e.1 e.2 p = some (q, d) ∧ r = (d, Edge.mk e.1 e.2, q)) := by
  induction l with
  | nil =>
    intro s _
    exact ⟨s, rfl, le_refl _, fun e he => absurd he (List.not_mem_nil _), Or.inl rfl⟩
  | cons e rest ih =>
    intro s hl
    obtain ⟨q, d, hqd⟩ := hl e (List.mem_cons_self _ _)
    have hrest : ∀ e' ∈ rest, ∃ (q : I2) (d : Int),
        SegmentNearestPoint64 e'.1 e'.2 p = some (q, d) :=
      fun e' h' => hl e' (List.mem_cons_of_mem _ h')
    unfold runEdges
    simp only [hqd]
    by_cases c : d < s.1
    · simp only [if_pos c, Bool.not_true, Bool.false_eq_true, if_false]
      obtain ⟨r, hr, h1, h2, h3⟩ := ih (d, Edge.mk e.1 e.2, q) hrest
      refine ⟨r, hr, le_trans h1 (le_of_lt c), ?_, ?_⟩
      · intro e' he' q' d' hq'
        rcases List.mem_cons.mp he' with rfl | hmem
        · rw [hqd] at hq'
          have : d = d' := congrArg Prod.snd (Option.some.inj hq')
          rw [← this]
          exact h1
        · exact h2 e' hmem q' d' hq'
      · rcases h3 with h3 | ⟨e', he', q', d', hq', hr'⟩
        · exact Or.inr ⟨e, List.mem_cons_self _ _, q, d, hqd, h3⟩
        · exact Or.inr ⟨e', List.mem_cons_of_mem _ he', q', d', hq', hr'⟩
    · simp only [if_neg c, Bool.not_true, Bool.false_eq_true, if_false]
      obtain ⟨r, hr, h1, h2, h3⟩ := ih s hrest
      refine ⟨r, hr, h1, ?_, ?_⟩
      · intro e' he' q' d' hq'
        rcases List.mem_cons.mp he' with rfl | hmem
        · rw [hqd] at hq'
          have : d = d' := congrArg Prod.snd (Option.some.inj hq')
          rw [← this]
          exact le_trans h1 (not_lt.mp c)
        · exact h2 e' hmem q' d' hq'
      · rcases h3 with h3 | ⟨e', he', q', d', hq', hr'⟩
        · exact Or.inl h3
        · exact Or.inr ⟨e', List.mem_cons_of_mem _ he', q', d', hq', hr'⟩

/-- With coordinates of magnitude at most 2^30 the divisor `n.Dot(n)` of
LineNearestPoint on 64-bit integers is not zero when u and v differ. -/
theorem normal_dot64_ne_zero (u v : I2) (hu : u.Within (2 ^ 30)) (hv : v.Within (2 ^ 30))
    (huv : u ≠ v) : ((v.Sub64 u).Normal64).Dot64 ((v.Sub64 u).Normal64) ≠ 0 := by
  unfold I2.Within at hu hv
  have hx : sub64 v.X u.X = v.X - u.X := by
    unfold sub64
    exact wrap64_of_inInt64 _ ⟨by omega, by omega⟩
  have hy : sub64 v.Y u.Y = v.Y - u.Y := by
    unfold sub64
    exact wrap64_of_inInt64 _ ⟨by omega, by omega⟩
  have hny : neg64 (v.Y - u.Y) = -(v.Y - u.Y) := by
    unfold neg64
    exact wrap64_of_inInt64 _ ⟨by omega, by omega⟩
  have hxb : |v.X - u.X| ≤ 2 ^ 31 := abs_le.mpr ⟨by omega, by omega⟩
  have hyb : |v.Y - u.Y| ≤ 2 ^ 31 := abs_le.mpr ⟨by omega, by omega⟩
  have hx2 : (v.X - u.X) * (v.X - u.X) ≤ 2 ^ 62 := by
    have := abs_mul_le_of _ _ _ _ hxb hxb
    rw [abs_le] at this
    norm_num at this ⊢
    exact this.2
  have hy2 : (v.Y - u.Y) * (v.Y - u.Y) ≤ 2 ^ 62 := by
    have := abs_mul_le_of _ _ _ _ hyb hyb
    rw [abs_le] at this
    norm_num at this ⊢
    exact this.2
  have hx0 := mul_self_nonneg (v.X - u.X)
  have hy0 := mul_self_nonneg (v.Y - u.Y)
  have hpos : 0 < (v.X - u.X) * (v.X - u.X) + (v.Y - u.Y) * (v.Y - u.Y) := by
    by_contra hcon
    have h1 : (v.X - u.X) * (v.X - u.X) = 0 := by omega
    have h2 : (v.Y - u.Y) * (v.Y - u.Y) = 0 := by omega
    have h3 : v.X - u.X = 0 := mul_self_eq_zero.mp h1
    have h4 : v.Y - u.Y = 0 := mul_self_eq_zero.mp h2
    apply huv
    cases u
    cases v
    simp only [I2.mk.injEq] at h3 h4 ⊢
    constructor <;> omega
  simp only [I2.Sub64, I2.Normal64, I2.Dot64, hx, hy, hny]
  have m1 : mul64 (-(v.Y - u.Y)) (-(v.Y - u.Y)) = (v.Y - u.Y) * (v.Y - u.Y) := by
    unfold mul64
    rw [neg_mul_neg]
    exact wrap64_of_inInt64 _ ⟨by omega, by omega⟩
  have m2 : mul64 (v.X - u.X) (v.X - u.X) = (v.X - u.X) * (v.X - u.X) := by
    unfold mul64
    exact wrap64_of_inInt64 _ ⟨by omega, by omega⟩
  rw [m1, m2]
  unfold add64 wrap64
  generalize (v.X - u.X) * (v.X - u.X) = A at hx2 hx0 hpos ⊢
  generalize (v.Y - u.Y) * (v.Y - u.Y) = B at hy2 hy0 hpos ⊢
  omega

/-- C10, amended: for every graph with at least one edge and every query point p such
that SegmentNearestPoint does not panic on an edge of the graph, that is, no edge
(u, v) with u ≠ v has the divisor n.Dot(n) = 0 in 64-bit arithmetic, where
n = v.Sub(u).Normal(), NearestPoint returns an edge (u, v) of the graph and the point
q = SegmentNearestPoint(u, v, p) of that edge, and the squared distance
SegmentNearestPoint reports for that edge is at most the one it reports for every edge
of the graph. -/
theorem NearestPoint64_spec (g : Graph) (p : I2) (hne : ∃ u v, g.HasEdge u v)
    (hok : ∀ u v, g.HasEdge u v → u ≠ v →
      ((v.Sub64 u).Normal64).Dot64 ((v.Sub64 u).Normal64) ≠ 0) :
    ∃ (e : Edge) (q : I2) (d : Int), g.NearestPoint64 p = some (e, q) ∧
      g.HasEdge e.U e.V ∧ SegmentNearestPoint64 e.U e.V p = some (q, d) ∧
      ∀ u v, g.HasEdge u v →
        ∃ (q' : I2) (d' : Int), SegmentNearestPoint64 u v p = some (q', d') ∧ d ≤ d' := by
  obtain ⟨u0, v0, h0⟩ := hne
  have hsome : ∀ e ∈ g.edgeList, ∃ (q : I2) (d : Int),
      SegmentNearestPoint64 e.1 e.2 p = some (q, d) := by
    intro e he
    obtain ⟨q, d, hqd, -⟩ := SegmentNearestPoint64_some e.1 e.2 p
      (hok e.1 e.2 ((mem_edgeList g e.1 e.2).mp he))
    exact ⟨q, d, hqd⟩
  obtain ⟨r, hr, -, h2, h3⟩ := nearestPoint64_fold_spec p g.edgeList
    (2 ^ 63 - 1, ⟨⟨0, 0⟩, ⟨0, 0⟩⟩, ⟨0, 0⟩) hsome
  obtain ⟨q0, d0, hq0, hd0⟩ := SegmentNearestPoint64_some u0 v0 p (hok u0 v0 h0)
  have hle0 := h2 (u0, v0) ((mem_edgeList g u0 v0).mpr h0) q0 d0 hq0
  rcases h3 with h3 | ⟨e, he, q, d, hqd, hre⟩
  · rw [h3] at hle0
    simp only at hle0
    omega
  · refine ⟨Edge.mk e.1 e.2, q, d, ?_, (mem_edgeList g e.1 e.2).mp he, hqd, ?_⟩
    · unfold Graph.NearestPoint64
      rw [AllEdges_eq_runEdges, hr, hre]
      rfl
    · intro u v huv
      obtain ⟨q', d', hq', -⟩ := SegmentNearestPoint64_some u v p (hok u v huv)
      refine ⟨q', d', hq', ?_⟩
      have := h2 (u, v) ((mem_edgeList g u v).mpr huv) q' d' hq'
      rw [hre] at this
      exact this

theorem exampleWall_within :
    ∀ u v, exampleWall.HasEdge u v → u.Within 20000 ∧ v.Within 20000 := by
  intro u v h
  have hall : ∀ e ∈ exampleWall.edgeList, e.1.Within 20000 ∧ e.2.Within 20000 := by
    unfold I2.Within
    decide
  exact hall (u, v) ((mem_edgeList exampleWall u v).mpr h)

/-- C10 at a concrete input: the wall and the query point (5,1). -/
theorem NearestPoint64_spec_witness :
    ∃ (e : Edge) (q : I2) (d : Int), exampleWall.NearestPoint64 ⟨5, 1⟩ = some (e, q) ∧
      exampleWall.HasEdge e.U e.V ∧ SegmentNearestPoint64 e.U e.V ⟨5, 1⟩ = some (q, d) ∧
      ∀ u v, exampleWall.HasEdge u v →
        ∃ (q' : I2) (d' : Int), SegmentNearestPoint64 u v ⟨5, 1⟩ = some (q', d') ∧ d ≤ d' :=
  NearestPoint64_spec exampleWall ⟨5, 1⟩ ⟨⟨0, 3⟩, ⟨0, -3⟩, ⟨_, rfl, by decide⟩⟩
    (fun u v h huv => normal_dot64_ne_zero u v
      (within_mono _ _ _ (exampleWall_within u v h).1 (by norm_num))
      (within_mono _ _ _ (exampleWall_within u v h).2 (by norm_num)) huv)

/-! ## float64: rounding to the nearest value -/

theorem log2Floor_spec : ∀ (f n : Nat), 0 < n → n < 2 ^ f →
    2 ^ log2Floor f n ≤ n ∧ n < 2 ^ (log2Floor f n + 1)
  | 0, n, h0, h => by
    simp only [pow_zero] at h
    omega
  | f + 1, n, h0, h => by
    unfold log2Floor
    split_ifs with h2
    · have h1 : n = 1 := by omega
      subst h1
      simp
    · have hn2 : 0 < n / 2 := Nat.div_pos (by omega) (by norm_num)
      have hlt : n / 2 < 2 ^ f := by
        rw [Nat.div_lt_iff_lt_mul (by norm_num)]
        rw [pow_succ] at h
        exact h
      obtain ⟨a, b⟩ := log2Floor_spec f (n / 2) hn2 hlt
      have e1 := Nat.div_add_mod n 2
      have e2 := Nat.mod_lt n (show 0 < 2 by norm_num)
      rw [pow_succ] at b
      rw [pow_succ, pow_succ, pow_succ]
      generalize 2 ^ log2Floor f (n / 2) = x at a b ⊢
      constructor <;> omega

theorem log2Floor_self (n : Nat) (h0 : 0 < n) :
    2 ^ log2Floor n n ≤ n ∧ n < 2 ^ (log2Floor n n + 1) :=
  log2Floor_spec n n h0 (Nat.lt_two_pow n)

theorem two_zpow_pos (k : Int) : (0 : ℚ) < 2 ^ k := zpow_pos (by norm_num) k

/-- The exponent of a positive rational: 2^e <= a < 2^(e+1). -/
theorem expo_spec (a : ℚ) (ha : 0 < a) : (2 : ℚ) ^ expo a ≤ a ∧ a < (2 : ℚ) ^ (expo a + 1) := by
  have hnum : 0 < a.num := Rat.num_pos.mpr ha
  have hN : 0 < a.num.natAbs := Int.natAbs_pos.mpr (ne_of_gt hnum)
  obtain ⟨n1, n2⟩ := log2Floor_self a.num.natAbs hN
  obtain ⟨d1, d2⟩ := log2Floor_self a.den a.den_pos
  have hcast : ((a.num.natAbs : Nat) : ℚ) = (a.num : ℚ) := by
    rw [← Int.cast_natCast, Int.natAbs_of_nonneg (le_of_lt hnum)]
  have ha' : a = ((a.num.natAbs : Nat) : ℚ) / ((a.den : Nat) : ℚ) := by
    rw [hcast]
    exact (Rat.num_div_den a).symm
  have hden : (0 : ℚ) < ((a.den : Nat) : ℚ) := by exact_mod_cast a.den_pos
  have n1q : (2 : ℚ) ^ (log2Floor a.num.natAbs a.num.natAbs) ≤ ((a.num.natAbs : Nat) : ℚ) := by
    exact_mod_cast n1
  have n2q : ((a.num.natAbs : Nat) : ℚ) < (2 : ℚ) ^ (log2Floor a.num.natAbs a.num.natAbs + 1) := by
    exact_mod_cast n2
  have d1q : (2 : ℚ) ^ (log2Floor a.den a.den) ≤ ((a.den : Nat) : ℚ) := by exact_mod_cast d1
  have d2q : ((a.den : Nat) : ℚ) < (2 : ℚ) ^ (log2Floor a.den a.den + 1) := by exact_mod_cast d2
  unfold expo
  simp only []
  generalize log2Floor a.num.natAbs a.num.natAbs = ln at n1q n2q ⊢
  generalize log2Floor a.den a.den = ld at d1q d2q ⊢
  have h2 : (2 : ℚ) ≠ 0 := by norm_num
  have pl : (0 : ℚ) < 2 ^ ld := pow_pos (by norm_num) ld
  have pn : (0 : ℚ) < 2 ^ ln := pow_pos (by norm_num) ln
  -- a < 2^(e0+1)
  have up : a < (2 : ℚ) ^ (((ln : Int) - (ld : Int)) + 1) := by
    rw [zpow_add_one₀ h2, zpow_sub₀ h2, zpow_natCast, zpow_natCast, ha', div_mul_eq_mul_div,
      div_lt_div_iff₀ hden pl]
    rw [pow_succ] at n2q
    calc ((a.num.natAbs : Nat) : ℚ) * 2 ^ ld < (2 ^ ln * 2) * 2 ^ ld :=
          mul_lt_mul_of_pos_right n2q pl
      _ ≤ (2 ^ ln * 2) * ((a.den : Nat) : ℚ) :=
          mul_le_mul_of_nonneg_left d1q (by positivity)
  -- 2^(e0-1) < a
  have lo : (2 : ℚ) ^ (((ln : Int) - (ld : Int)) - 1) < a := by
    rw [zpow_sub_one₀ h2, zpow_sub₀ h2, zpow_natCast, zpow_natCast, ha', ← div_eq_mul_inv,
      div_div, div_lt_div_iff₀ (by positivity) hden]
    rw [pow_succ] at d2q
    calc (2 : ℚ) ^ ln * ((a.den : Nat) : ℚ) < 2 ^ ln * (2 ^ ld * 2) :=
          mul_lt_mul_of_pos_left d2q pn
      _ ≤ ((a.num.natAbs : Nat) : ℚ) * (2 ^ ld * 2) :=
          mul_le_mul_of_nonneg_right n1q (by positivity)
  split_ifs with c
  · exact ⟨c, up⟩
  · refine ⟨le_of_lt lo, ?_⟩
    rw [sub_add_cancel]
    exact not_le.mp c

theorem expo_lt_of_lt (a : ℚ) (ha : 0 < a) (k : Int) (h : a < (2 : ℚ) ^ k) : expo a < k := by
  have h1 := lt_of_le_of_lt (expo_spec a ha).1 h
  exact (zpow_lt_zpow_iff_right₀ (by norm_num)).mp h1

theorem le_expo_of_le (a : ℚ) (ha : 0 < a) (k : Int) (h : (2 : ℚ) ^ k ≤ a) : k ≤ expo a := by
  have h1 := lt_of_le_of_lt h (expo_spec a ha).2
  have := (zpow_lt_zpow_iff_right₀ (show (1 : ℚ) < 2 by norm_num)).mp h1
  omega

theorem expo_mono (a b : ℚ) (ha : 0 < a) (h : a ≤ b) : expo a ≤ expo b :=
  le_expo_of_le b (lt_of_lt_of_le ha h) _ (le_trans (expo_spec a ha).1 h)

theorem rne_intCast (n : Int) : rne (n : ℚ) = n := by
  unfold rne
  rw [Int.floor_intCast, sub_self, if_pos (by norm_num)]

theorem floor_le_rne (x : ℚ) : ⌊x⌋ ≤ rne x := by
  unfold rne
  split_ifs <;> omega

theorem rne_le_floor_add_one (x : ℚ) : rne x ≤ ⌊x⌋ + 1 := by
  unfold rne
  split_ifs <;> omega

theorem rne_mono (x y : ℚ) (h : x ≤ y) : rne x ≤ rne y := by
  have hf : ⌊x⌋ ≤ ⌊y⌋ := Int.floor_mono h
  rcases lt_or_eq_of_le hf with hlt | heq
  · have h1 := rne_le_floor_add_one x
    have h2 := floor_le_rne y
    omega
  · unfold rne
    rw [heq]
    have hxy : x - (⌊y⌋ : ℚ) ≤ y - (⌊y⌋ : ℚ) := by linarith
    split_ifs with a b c d e f g i j <;> first | omega | (exfalso; linarith)

theorem rne_le_of_le (x : ℚ) (n : Int) (h : x ≤ (n : ℚ)) : rne x ≤ n := by
  have := rne_mono x n h
  rwa [rne_intCast] at this

theorem le_rne_of_le (x : ℚ) (n : Int) (h : (n : ℚ) ≤ x) : n ≤ rne x := by
  have := rne_mono n x h
  rwa [rne_intCast] at this

theorem ulp_pos (a : ℚ) : 0 < ulp a := two_zpow_pos _

theorem roundQ_zero : roundQ 0 = 0 := if_pos rfl

theorem roundQ_of_pos (q : ℚ) (h : 0 < q) : roundQ q = (rne (q / ulp q) : ℚ) * ulp q := by
  unfold roundQ
  rw [if_neg (ne_of_gt h), if_neg (not_lt.mpr (le_of_lt h))]

theorem roundQ_neg (q : ℚ) : roundQ (-q) = -roundQ q := by
  rcases lt_trichotomy q 0 with h | h | h
  · have h' : 0 < -q := neg_pos.mpr h
    rw [roundQ_of_pos _ h']
    unfold roundQ
    rw [if_neg (ne_of_lt h), if_pos h, neg_neg]
  · rw [h, neg_zero, roundQ_zero, neg_zero]
  · have h' : -q < 0 := neg_neg_of_pos h
    rw [roundQ_of_pos _ h]
    unfold roundQ
    rw [if_neg (ne_of_lt h'), if_pos h', neg_neg]

theorem roundQ_nonneg (q : ℚ) (h : 0 ≤ q) : 0 ≤ roundQ q := by
  rcases lt_or_eq_of_le h with h1 | h1
  · rw [roundQ_of_pos q h1]
    have h2 : (0 : ℚ) ≤ q / ulp q := div_nonneg h (le_of_lt (ulp_pos q))
    have h3 : (0 : Int) ≤ rne (q / ulp q) := le_rne_of_le _ 0 (by exact_mod_cast h2)
    exact mul_nonneg (by exact_mod_cast h3) (le_of_lt (ulp_pos q))
  · rw [← h1, roundQ_zero]

/-- A rounded positive value stays within the binade of its argument: at most
2^(e+1). -/
theorem roundQ_le_binade (q : ℚ) (h : 0 < q) :
    roundQ q ≤ (2 : ℚ) ^ (max (expo q) (-1022) + 1) := by
  rw [roundQ_of_pos q h]
  have h2 : (2 : ℚ) ≠ 0 := by norm_num
  have hu : ulp q = (2 : ℚ) ^ (max (expo q) (-1022) - 52) := rfl
  have hq : q < (2 : ℚ) ^ (max (expo q) (-1022) + 1) :=
    lt_of_lt_of_le (expo_spec q h).2 (zpow_le_zpow_right₀ (by norm_num) (by omega))
  have e : (2 : ℚ) ^ (max (expo q) (-1022) + 1) = ((2 ^ 53 : Int) : ℚ) * ulp q := by
    rw [hu]
    have : max (expo q) (-1022) + 1 = 53 + (max (expo q) (-1022) - 52) := by ring
    rw [this, zpow_add₀ h2]
    norm_num
  rw [e]
  have h3 : q / ulp q ≤ ((2 ^ 53 : Int) : ℚ) := by
    rw [div_le_iff₀ (ulp_pos q), ← e]
    exact le_of_lt hq
  have := rne_le_of_le _ _ h3
  exact mul_le_mul_of_nonneg_right (by exact_mod_cast this) (le_of_lt (ulp_pos q))

/-- A rounded value of exponent e >= -1022 is at least 2^e. -/
theorem binade_le_roundQ (q : ℚ) (h : 0 < q) (he : -1022 ≤ expo q) :
    (2 : ℚ) ^ (expo q) ≤ roundQ q := by
  rw [roundQ_of_pos q h]
  have h2 : (2 : ℚ) ≠ 0 := by norm_num
  have hu : ulp q = (2 : ℚ) ^ (expo q - 52) := by
    unfold ulp
    rw [max_eq_left he]
  have e : (2 : ℚ) ^ (expo q) = ((2 ^ 52 : Int) : ℚ) * ulp q := by
    rw [hu]
    have : expo q = 52 + (expo q - 52) := by ring
    conv_lhs => rw [this]
    rw [zpow_add₀ h2]
    norm_num
  have h3 : ((2 ^ 52 : Int) : ℚ) ≤ q / ulp q := by
    rw [le_div_iff₀ (ulp_pos q), ← e]
    exact (expo_spec q h).1
  have := le_rne_of_le _ _ h3
  rw [e]
  exact mul_le_mul_of_nonneg_right (by exact_mod_cast this) (le_of_lt (ulp_pos q))

theorem roundQ_mono_pos (x y : ℚ) (hx : 0 < x) (h : x ≤ y) : roundQ x ≤ roundQ y := by
  have hy : 0 < y := lt_of_lt_of_le hx h
  have hE := expo_mono x y hx h
  by_cases c : max (expo x) (-1022) = max (expo y) (-1022)
  · rw [roundQ_of_pos x hx, roundQ_of_pos y hy]
    have hu : ulp x = ulp y := by
      unfold ulp
      rw [c]
    rw [hu]
    have := rne_mono (x / ulp y) (y / ulp y) (div_le_div_of_nonneg_right h (le_of_lt (ulp_pos y)))
    exact mul_le_mul_of_nonneg_right (by exact_mod_cast this) (le_of_lt (ulp_pos y))
  · have hlt : max (expo x) (-1022) < expo y := by
      rcases le_total (expo y) (-1022) with h1 | h1
      · exfalso
        apply c
        rw [max_eq_right h1, max_eq_right (le_trans hE h1)]
      · rcases le_total (expo x) (-1022) with h2 | h2
        · rw [max_eq_right h2]
          rcases lt_or_eq_of_le h1 with h3 | h3
          · exact h3
          · exfalso
            apply c
            rw [max_eq_right h2, ← h3]
            simp
        · rw [max_eq_left h2]
          rcases lt_or_eq_of_le hE with h3 | h3
          · exact h3
          · exfalso
            apply c
            rw [h3]
    have hey : -1022 ≤ expo y := by
      have := le_max_right (expo x) (-1022)
      omega
    calc roundQ x ≤ (2 : ℚ) ^ (max (expo x) (-1022) + 1) := roundQ_le_binade x hx
      _ ≤ (2 : ℚ) ^ (expo y) := zpow_le_zpow_right₀ (by norm_num) (by omega)
      _ ≤ roundQ y := binade_le_roundQ y hy hey

/-- Rounding is monotone. -/
theorem roundQ_mono (x y : ℚ) (h : x ≤ y) : roundQ x ≤ roundQ y := by
  rcases lt_trichotomy x 0 with hx | hx | hx
  · rcases lt_trichotomy y 0 with hy | hy | hy
    · have := roundQ_mono_pos (-y) (-x) (neg_pos.mpr hy) (neg_le_neg h)
      rw [roundQ_neg, roundQ_neg] at this
      linarith
    · rw [hy, roundQ_zero]
      have := roundQ_nonneg (-x) (le_of_lt (neg_pos.mpr hx))
      rw [roundQ_neg] at this
      linarith
    · have h1 := roundQ_nonneg (-x) (le_of_lt (neg_pos.mpr hx))
      rw [roundQ_neg] at h1
      have h2 := roundQ_nonneg y (le_of_lt hy)
      linarith
  · rw [hx, roundQ_zero]
    exact roundQ_nonneg y (by rw [← hx]; exact h)
  · exact roundQ_mono_pos x y hx h

/-- A positive value m * 2^k with m < 2^53 and k >= -1074 is a float64 (when below
2^1024): rounding returns it. -/
theorem roundQ_exact_pos (m k : Int) (hm : 0 < m) (hm2 : m < 2 ^ 53) (hk : -1074 ≤ k) :
    roundQ ((m : ℚ) * 2 ^ k) = (m : ℚ) * 2 ^ k := by
  have h2 : (2 : ℚ) ≠ 0 := by norm_num
  have hmq : (0 : ℚ) < (m : ℚ) := by exact_mod_cast hm
  have hq : (0 : ℚ) < (m : ℚ) * 2 ^ k := mul_pos hmq (two_zpow_pos k)
  rw [roundQ_of_pos _ hq]
  have hlt : (m : ℚ) * 2 ^ k < (2 : ℚ) ^ (53 + k) := by
    rw [zpow_add₀ h2]
    have : (m : ℚ) < (2 : ℚ) ^ (53 : Int) := by
      have : ((m : Int) : ℚ) < ((2 ^ 53 : Int) : ℚ) := by exact_mod_cast hm2
      norm_num at this ⊢
      exact this
    exact mul_lt_mul_of_pos_right this (two_zpow_pos k)
  have he := expo_lt_of_lt _ hq _ hlt
  have hj : 0 ≤ k - (max (expo ((m : ℚ) * 2 ^ k)) (-1022) - 52) := by
    rcases le_total (expo ((m : ℚ) * 2 ^ k)) (-1022) with c | c
    · rw [max_eq_right c]
      omega
    · rw [max_eq_left c]
      omega
  have hu : ulp ((m : ℚ) * 2 ^ k) = (2 : ℚ) ^ (max (expo ((m : ℚ) * 2 ^ k)) (-1022) - 52) := rfl
  generalize max (expo ((m : ℚ) * 2 ^ k)) (-1022) - 52 = j at hj hu
  rw [hu]
  obtain ⟨i, hi⟩ := Int.eq_ofNat_of_zero_le hj
  have hk' : k = (i : Int) + j := by omega
  have e : (m : ℚ) * 2 ^ k / 2 ^ j = ((m * 2 ^ i : Int) : ℚ) := by
    rw [hk', zpow_add₀ h2, zpow_natCast, ← mul_assoc, mul_div_assoc, div_self (ne_of_gt (two_zpow_pos j)),
      mul_one]
    push_cast
    ring
  rw [e, rne_intCast, hk', zpow_add₀ h2, zpow_natCast]
  push_cast
  ring

theorem roundQ_exact (m k : Int) (hm : |m| ≤ 2 ^ 53) (hk : -1074 ≤ k) :
    roundQ ((m : ℚ) * 2 ^ k) = (m : ℚ) * 2 ^ k := by
  have h2 : (2 : ℚ) ≠ 0 := by norm_num
  have key : ∀ n : Int, 0 < n → n ≤ 2 ^ 53 → roundQ ((n : ℚ) * 2 ^ k) = (n : ℚ) * 2 ^ k := by
    intro n hn hn2
    rcases lt_or_eq_of_le hn2 with c | c
    · exact roundQ_exact_pos n k hn c hk
    · have e : (n : ℚ) * 2 ^ k = ((2 ^ 52 : Int) : ℚ) * 2 ^ (k + 1) := by
        rw [c, zpow_add_one₀ h2]
        push_cast
        ring
      rw [e]
      exact roundQ_exact_pos (2 ^ 52) (k + 1) (by norm_num) (by norm_num) (by omega)
  obtain ⟨h1, h3⟩ := abs_le.mp hm
  rcases lt_trichotomy m 0 with c | c | c
  · have := key (-m) (by omega) (by omega)
    have e : (m : ℚ) * 2 ^ k = -(((-m : Int) : ℚ) * 2 ^ k) := by
      push_cast
      ring
    rw [e, roundQ_neg, this]
  · rw [c]
    simp [roundQ_zero]
  · exact key m c h3

theorem roundQ_intCast (n : Int) (h : |n| ≤ 2 ^ 53) : roundQ (n : ℚ) = (n : ℚ) := by
  have := roundQ_exact n 0 h (by norm_num)
  simpa using this

/-- Rounding a rounded value changes nothing. -/
theorem roundQ_idem (q : ℚ) : roundQ (roundQ q) = roundQ q := by
  have key : ∀ x : ℚ, 0 < x → roundQ (roundQ x) = roundQ x := by
    intro x hx
    have hr := roundQ_of_pos x hx
    have hu : ulp x = (2 : ℚ) ^ (max (expo x) (-1022) - 52) := rfl
    have h0 : (0 : Int) ≤ rne (x / ulp x) :=
      le_rne_of_le _ 0 (by
        have : (0 : ℚ) ≤ x / ulp x := div_nonneg (le_of_lt hx) (le_of_lt (ulp_pos x))
        exact_mod_cast this)
    have h1 : rne (x / ulp x) ≤ 2 ^ 53 := by
      apply rne_le_of_le
      rw [div_le_iff₀ (ulp_pos x)]
      have h2 : (2 : ℚ) ≠ 0 := by norm_num
      have e : ((2 ^ 53 : Int) : ℚ) * ulp x = (2 : ℚ) ^ (max (expo x) (-1022) + 1) := by
        rw [hu]
        have : max (expo x) (-1022) + 1 = 53 + (max (expo x) (-1022) - 52) := by ring
        rw [this, zpow_add₀ h2]
        norm_num
      rw [e]
      exact le_of_lt (lt_of_lt_of_le (expo_spec x hx).2
        (zpow_le_zpow_right₀ (by norm_num) (by omega)))
    have := roundQ_exact (rne (x / ulp x)) (max (expo x) (-1022) - 52)
      (abs_le.mpr ⟨by omega, h1⟩) (by have := le_max_right (expo x) (-1022); omega)
    rw [← hu] at this
    rw [hr]
    exact this
  rcases lt_trichotomy q 0 with c | c | c
  · have := key (-q) (neg_pos.mpr c)
    rw [roundQ_neg, roundQ_neg] at this
    linarith
  · rw [c, roundQ_zero, roundQ_zero]
  · exact key q c

theorem roundQ_abs_le (q : ℚ) (m k : Int) (hm : 0 ≤ m) (hm2 : m ≤ 2 ^ 53) (hk : -1074 ≤ k)
    (h : |q| ≤ (m : ℚ) * 2 ^ k) : |roundQ q| ≤ (m : ℚ) * 2 ^ k := by
  obtain ⟨h1, h2⟩ := abs_le.mp h
  have e := roundQ_exact m k (abs_le.mpr ⟨by omega, hm2⟩) hk
  rw [abs_le]
  constructor
  · have := roundQ_mono _ _ h1
    rw [roundQ_neg, e] at this
    exact this
  · have := roundQ_mono _ _ h2
    rw [e] at this
    exact this

theorem round64_fin (q : ℚ) (h : |roundQ q| < (2 : ℚ) ^ (1024 : Int)) :
    round64 q = F64.fin (roundQ q) := by
  unfold round64
  rw [if_neg (not_le.mpr h)]

/-- The conversion of an integer of magnitude at most 2^53 is exact. -/
theorem ofInt_exact (n : Int) (h : |n| ≤ 2 ^ 53) : F64.ofInt n = F64.fin (n : ℚ) := by
  unfold F64.ofInt
  rw [round64_fin, roundQ_intCast n h]
  rw [roundQ_intCast n h]
  have : ((|n| : Int) : ℚ) ≤ ((2 ^ 53 : Int) : ℚ) := by exact_mod_cast h
  rw [Int.cast_abs] at this
  refine lt_of_le_of_lt this ?_
  norm_num

/-! ## float64: the square root of an integer -/

theorem natSqrt_spec : ∀ (f n : Nat), n < 4 ^ f →
    natSqrt f n * natSqrt f n ≤ n ∧ n < (natSqrt f n + 1) * (natSqrt f n + 1)
  | 0, n, h => by
    simp only [pow_zero] at h
    have h0 : n = 0 := by omega
    subst h0
    simp [natSqrt]
  | f + 1, n, h => by
    unfold natSqrt
    by_cases h2 : n < 2
    · rw [if_pos h2]
      have : n = 0 ∨ n = 1 := by omega
      rcases this with rfl | rfl <;> simp
    · rw [if_neg h2]
      have hlt : n / 4 < 4 ^ f := by
        rw [Nat.div_lt_iff_lt_mul (by norm_num)]
        rw [pow_succ] at h
        exact h
      obtain ⟨a, b⟩ := natSqrt_spec f (n / 4) hlt
      have e1 := Nat.div_add_mod n 4
      have e2 := Nat.mod_lt n (show 0 < 4 by norm_num)
      generalize natSqrt f (n / 4) = r at a b ⊢
      split_ifs with c
      · refine ⟨c, ?_⟩
        nlinarith
      · constructor
        · have e : 2 * r * (2 * r) = 4 * (r * r) := by ring
          rw [e]
          generalize r * r = rr at a
          omega
        · exact not_le.mp c

theorem natSqrt_self (n : Nat) :
    natSqrt n n * natSqrt n n ≤ n ∧ n < (natSqrt n n + 1) * (natSqrt n n + 1) := by
  apply natSqrt_spec
  calc n < 2 ^ n := Nat.lt_two_pow n
    _ ≤ 4 ^ n := Nat.pow_le_pow_left (by norm_num) n

/-- The digits of the root that sqrtApprox keeps, for an integer argument. -/
theorem sqrtApprox_natCast (n : Nat) :
    ((natSqrt (n * 4 ^ 100) (n * 4 ^ 100) : Nat) : ℚ) / 2 ^ 100 ≤ sqrtApprox (n : ℚ) ∧
    sqrtApprox (n : ℚ) ≤
      (((natSqrt (n * 4 ^ 100) (n * 4 ^ 100) : Nat) : ℚ) + 1 / 2) / 2 ^ 100 := by
  have hfl : ⌊(n : ℚ) * 4 ^ 100⌋.toNat = n * 4 ^ 100 := by
    have : (n : ℚ) * 4 ^ 100 = (((n * 4 ^ 100 : Nat) : Int) : ℚ) := by push_cast; ring
    rw [this, Int.floor_intCast, Int.toNat_natCast]
  unfold sqrtApprox
  rw [hfl]
  generalize natSqrt (n * 4 ^ 100) (n * 4 ^ 100) = s
  have hs : (0 : ℚ) ≤ (s : ℚ) := Nat.cast_nonneg s
  split_ifs with c
  · constructor
    · exact le_refl _
    · apply div_le_div_of_nonneg_right _ (by positivity)
      linarith
  · have e : (((2 * s + 1 : Nat) : ℚ)) / 2 ^ 101 = ((s : ℚ) + 1 / 2) / 2 ^ 100 := by
      have hP : (2 : ℚ) ^ 101 = 2 * 2 ^ 100 := by ring
      have hP0 : (0 : ℚ) < 2 ^ 100 := by positivity
      rw [hP]
      generalize (2 : ℚ) ^ 100 = P at hP0
      push_cast
      field_simp
      ring
    rw [e]
    constructor
    · apply div_le_div_of_nonneg_right _ (by positivity)
      linarith
    · exact le_refl _

theorem sqrtApprox_nonneg (n : Nat) : 0 ≤ sqrtApprox (n : ℚ) :=
  le_trans (by positivity) (sqrtApprox_natCast n).1

/-- The root of an integer up to 2^43 is below 2^22. -/
theorem sqrtApprox_le (n : Nat) (h : n ≤ 2 ^ 43) : sqrtApprox (n : ℚ) ≤ 2 ^ 22 := by
  obtain ⟨s1, -⟩ := natSqrt_self (n * 4 ^ 100)
  refine le_trans (sqrtApprox_natCast n).2 ?_
  generalize natSqrt (n * 4 ^ 100) (n * 4 ^ 100) = s at s1 ⊢
  have hs : s < 2 ^ 122 := by
    by_contra hc
    rw [not_lt] at hc
    have h1 : 2 ^ 122 * 2 ^ 122 ≤ s * s := Nat.mul_le_mul hc hc
    have h2 : n * 4 ^ 100 ≤ 2 ^ 43 * 4 ^ 100 := Nat.mul_le_mul_right _ h
    have h3 : (2 : Nat) ^ 43 * 4 ^ 100 < 2 ^ 122 * 2 ^ 122 := by norm_num
    omega
  rw [div_le_iff₀ (by positivity)]
  have hsq : (s : ℚ) + 1 ≤ 2 ^ 122 := by exact_mod_cast hs
  have : (2 : ℚ) ^ 22 * 2 ^ 100 = 2 ^ 122 := by norm_num
  rw [this]
  linarith

/-- Two integers up to 2^43 have roots that differ by at least 2^-24. -/
theorem sqrtApprox_gap (a b : Nat) (hab : a < b) (hb : b ≤ 2 ^ 43) :
    sqrtApprox (a : ℚ) + 1 / 2 ^ 24 ≤ sqrtApprox (b : ℚ) := by
  obtain ⟨a1, -⟩ := natSqrt_self (a * 4 ^ 100)
  obtain ⟨-, b2⟩ := natSqrt_self (b * 4 ^ 100)
  have hA := (sqrtApprox_natCast a).2
  have hB := (sqrtApprox_natCast b).1
  generalize natSqrt (a * 4 ^ 100) (a * 4 ^ 100) = sa at a1 hA
  generalize natSqrt (b * 4 ^ 100) (b * 4 ^ 100) = sb at b2 hB
  have hsa : sa < 3 * 2 ^ 120 := by
    by_contra hc
    rw [not_lt] at hc
    have h1 : 3 * 2 ^ 120 * (3 * 2 ^ 120) ≤ sa * sa := Nat.mul_le_mul hc hc
    have h2 : a * 4 ^ 100 ≤ 2 ^ 43 * 4 ^ 100 := Nat.mul_le_mul_right _ (by omega)
    have h3 : (2 : Nat) ^ 43 * 4 ^ 100 < 3 * 2 ^ 120 * (3 * 2 ^ 120) := by norm_num
    omega
  -- sb + 1 > sa + 2^77
  have hgap : sa + 2 ^ 77 ≤ sb := by
    by_contra hc
    rw [not_le] at hc
    have h1 : sb + 1 ≤ sa + 2 ^ 77 := by omega
    have h2 : (sb + 1) * (sb + 1) ≤ (sa + 2 ^ 77) * (sa + 2 ^ 77) := Nat.mul_le_mul h1 h1
    have h3 : (a + 1) * 4 ^ 100 ≤ b * 4 ^ 100 := Nat.mul_le_mul_right _ (by omega)
    have h4 : (sa + 2 ^ 77) * (sa + 2 ^ 77) = sa * sa + 2 ^ 78 * sa + 2 ^ 154 := by ring
    have h6 : (a + 1) * 4 ^ 100 = a * 4 ^ 100 + 4 ^ 100 := by ring
    have h8 : b * 4 ^ 100 < sa * sa + 2 ^ 78 * sa + 2 ^ 154 :=
      lt_of_lt_of_le b2 (le_trans h2 (le_of_eq h4))
    rw [h6] at h3
    generalize sa * sa = X at a1 h8
    generalize a * 4 ^ 100 = A at a1 h3
    generalize b * 4 ^ 100 = B at h3 h8
    norm_num at hsa h3 h8
    omega
  have hq : (sa : ℚ) + 2 ^ 77 ≤ (sb : ℚ) := by exact_mod_cast hgap
  have step : ((sa : ℚ) + 1 / 2) / 2 ^ 100 + 1 / 2 ^ 24 ≤ (sb : ℚ) / 2 ^ 100 := by
    have e : (1 : ℚ) / 2 ^ 24 = 2 ^ 76 / 2 ^ 100 := by norm_num
    have e2 : (2 : ℚ) ^ 77 = 2 ^ 76 + 2 ^ 76 := by norm_num
    have e3 : (1 : ℚ) ≤ 2 ^ 76 := by norm_num
    rw [e, ← add_div]
    apply div_le_div_of_nonneg_right _ (by positivity)
    rw [e2] at hq
    generalize (2 : ℚ) ^ 76 = T at hq e3 ⊢
    linarith
  linarith

/-- Two values at least 2^-24 apart and at most 2^22 round to different float64
values. -/
theorem roundQ_lt_of_gap (x y : ℚ) (hx : 0 ≤ x) (hy : y ≤ 2 ^ 22) (h : x + 1 / 2 ^ 24 ≤ y) :
    roundQ x < roundQ y := by
  have h2 : (2 : ℚ) ≠ 0 := by norm_num
  have hc := Int.le_ceil (x * 2 ^ 25)
  have hc2 := Int.ceil_lt_add_one (x * 2 ^ 25)
  have hc0 : 0 ≤ ⌈x * 2 ^ 25⌉ := Int.ceil_nonneg (by positivity)
  have hm : ⌈x * 2 ^ 25⌉ + 1 ≤ 2 ^ 53 := by
    have : ((⌈x * 2 ^ 25⌉ : Int) : ℚ) < 2 ^ 22 * 2 ^ 25 + 1 := by nlinarith
    have : ((⌈x * 2 ^ 25⌉ : Int) : ℚ) < ((2 ^ 47 + 1 : Int) : ℚ) := by
      refine lt_of_lt_of_le this ?_
      norm_num
    have := Int.cast_lt.mp this
    omega
  have e1 := roundQ_exact ⌈x * 2 ^ 25⌉ (-25) (abs_le.mpr ⟨by omega, by omega⟩) (by norm_num)
  have e2 := roundQ_exact (⌈x * 2 ^ 25⌉ + 1) (-25) (abs_le.mpr ⟨by omega, by omega⟩) (by norm_num)
  have hz : (2 : ℚ) ^ (-25 : Int) = 1 / 2 ^ 25 := by
    rw [zpow_neg]
    norm_num
  rw [hz] at e1 e2
  have l1 : x ≤ ((⌈x * 2 ^ 25⌉ : Int) : ℚ) * (1 / 2 ^ 25) := by
    rw [mul_one_div, le_div_iff₀ (by positivity)]
    exact hc
  have l2 : (((⌈x * 2 ^ 25⌉ + 1 : Int)) : ℚ) * (1 / 2 ^ 25) ≤ y := by
    rw [mul_one_div, div_le_iff₀ (by positivity)]
    push_cast
    have : x * 2 ^ 25 + 2 ≤ y * 2 ^ 25 := by
      have e : (1 : ℚ) / 2 ^ 24 * 2 ^ 25 = 2 := by norm_num
      nlinarith
    linarith
  have m1 := roundQ_mono _ _ l1
  have m2 := roundQ_mono _ _ l2
  rw [e1] at m1
  rw [e2] at m2
  have l3 : ((⌈x * 2 ^ 25⌉ : Int) : ℚ) * (1 / 2 ^ 25) <
      (((⌈x * 2 ^ 25⌉ + 1 : Int)) : ℚ) * (1 / 2 ^ 25) := by
    apply mul_lt_mul_of_pos_right _ (by positivity)
    push_cast
    linarith
  linarith

/-- For an integer from 0 to 2^43, `math.Sqrt(float64(n))` is finite and not
negative. -/
theorem sqrt_ofInt (n : Int) (h0 : 0 ≤ n) (h : n ≤ 2 ^ 43) :
    F64.sqrt (F64.ofInt n) = F64.fin (sqrtQ n) ∧ 0 ≤ sqrtQ n ∧ sqrtQ n ≤ 2 ^ 22 ∧
    sqrtQ n = roundQ (sqrtApprox (n : ℚ)) ∧ roundQ (sqrtQ n) = sqrtQ n := by
  obtain ⟨k, rfl⟩ := Int.eq_ofNat_of_zero_le h0
  have hk : k ≤ 2 ^ 43 := by exact_mod_cast h
  have hof : F64.ofInt (k : Int) = F64.fin ((k : Int) : ℚ) :=
    ofInt_exact _ (abs_le.mpr ⟨by omega, by omega⟩)
  have hnn : ¬ (((k : Int) : ℚ) < 0) := not_lt.mpr (by positivity)
  have hle := sqrtApprox_le k hk
  have hge := sqrtApprox_nonneg k
  have hab : |roundQ (sqrtApprox (k : ℚ))| ≤ ((1 : Int) : ℚ) * 2 ^ (22 : Int) := by
    apply roundQ_abs_le _ 1 22 (by norm_num) (by norm_num) (by norm_num)
    rw [abs_of_nonneg hge]
    norm_num
    exact hle
  have hfin : F64.sqrt (F64.ofInt (k : Int)) = F64.fin (roundQ (sqrtApprox (k : ℚ))) := by
    rw [hof]
    show (if ((k : Int) : ℚ) < 0 then F64.nan else round64 (sqrtApprox ((k : Int) : ℚ))) = _
    rw [if_neg hnn]
    have : (((k : Int) : ℚ)) = (k : ℚ) := by push_cast; rfl
    rw [this]
    apply round64_fin
    refine lt_of_le_of_lt hab ?_
    norm_num
  have hq : sqrtQ (k : Int) = roundQ (sqrtApprox (k : ℚ)) := by
    unfold sqrtQ
    rw [hfin]
  rw [hq]
  refine ⟨hfin, roundQ_nonneg _ hge, ?_, ?_, roundQ_idem _⟩
  · have := (abs_le.mp hab).2
    norm_num at this
    exact this
  · push_cast
    rfl

/-- On the integers from 0 to 2^43, `math.Sqrt(float64(n))` is strictly increasing. -/
theorem sqrtQ_strictMono (a b : Int) (h0 : 0 ≤ a) (hab : a < b) (hb : b ≤ 2 ^ 43) :
    sqrtQ a < sqrtQ b := by
  obtain ⟨-, -, -, ea, -⟩ := sqrt_ofInt a h0 (by omega)
  obtain ⟨-, -, -, eb, -⟩ := sqrt_ofInt b (by omega) hb
  obtain ⟨k, rfl⟩ := Int.eq_ofNat_of_zero_le h0
  obtain ⟨j, rfl⟩ := Int.eq_ofNat_of_zero_le (show (0 : Int) ≤ b by omega)
  have hkj : k < j := by exact_mod_cast hab
  have hj : j ≤ 2 ^ 43 := by exact_mod_cast hb
  rw [ea, eb]
  have e1 : (((k : Int)) : ℚ) = (k : ℚ) := by push_cast; rfl
  have e2 : (((j : Int)) : ℚ) = (j : ℚ) := by push_cast; rfl
  rw [e1, e2]
  exact roundQ_lt_of_gap _ _ (sqrtApprox_nonneg k) (sqrtApprox_le j hj) (sqrtApprox_gap k j hkj hj)

/-! ## NearestBlock on 64-bit integers and float64 -/

theorem runEdges_sim {σ τ : Type} (φ : σ → τ) (f : I2 → I2 → σ → Bool × σ)
    (g : I2 → I2 → τ → Bool × τ) (l : List (I2 × I2))
    (h : ∀ e ∈ l, ∀ s, g e.1 e.2 (φ s) = ((f e.1 e.2 s).1, φ (f e.1 e.2 s).2)) (s : σ) :
    runEdges g l (φ s) = ((runEdges f l s).1, φ (runEdges f l s).2) := by
  induction l generalizing s with
  | nil => rfl
  | cons e rest ih =>
    have he := h e (List.mem_cons_self _ _) s
    have hrest : ∀ e' ∈ rest, ∀ s, g e'.1 e'.2 (φ s) = ((f e'.1 e'.2 s).1, φ (f e'.1 e'.2 s).2) :=
      fun e' h' => h e' (List.mem_cons_of_mem _ h')
    unfold runEdges
    simp only [he]
    by_cases c : (f e.1 e.2 s).1 = true
    · simp only [c, Bool.not_true, Bool.false_eq_true, if_false]
      exact ih hrest _
    · rw [Bool.not_eq_true] at c
      simp only [c, Bool.not_false, if_true]

theorem tdiv_between (x t d : Int) (ht : 0 ≤ t) (htd : t ≤ d) (hd : 0 < d) :
    (0 ≤ x → 0 ≤ (x * t).tdiv d ∧ (x * t).tdiv d ≤ x) ∧
    (x ≤ 0 → x ≤ (x * t).tdiv d ∧ (x * t).tdiv d ≤ 0) := by
  have key : ∀ y : Int, 0 ≤ y → 0 ≤ (y * t).tdiv d ∧ (y * t).tdiv d ≤ y := by
    intro y hy
    have h1 : 0 ≤ y * t := mul_nonneg hy ht
    rw [Int.tdiv_eq_ediv h1 (le_of_lt hd)]
    refine ⟨Int.ediv_nonneg h1 (le_of_lt hd), ?_⟩
    apply Int.ediv_le_of_le_mul hd
    exact mul_le_mul_of_nonneg_left htd hy
  refine ⟨key x, fun hx => ?_⟩
  obtain ⟨h1, h2⟩ := key (-x) (by omega)
  have e : x * t = -(-x * t) := by ring
  rw [e, Int.neg_tdiv]
  constructor <;> omega

/-- The point SegmentIntersectI returns lies in every square that holds a and b. -/
theorem SegmentIntersectI_within (p q a b : I2) (m : Int) (ha : a.Within m) (hb : b.Within m)
    (h : (SegmentIntersectI p q a b).2 = true) : (SegmentIntersectI p q a b).1.Within m := by
  unfold SegmentIntersectI at h ⊢
  simp only [] at h ⊢
  split_ifs at h ⊢ with h0 h1 h2
  · push_neg at h2
    have hd := Abs_pos _ h0
    obtain ⟨a1, a2, a3, a4⟩ := ha
    obtain ⟨b1, b2, b3, b4⟩ := hb
    obtain ⟨kx1, kx2⟩ := tdiv_between (b.X - a.X) _ _ h2.1 h2.2 hd
    obtain ⟨ky1, ky2⟩ := tdiv_between (b.Y - a.Y) _ _ h2.1 h2.2 hd
    simp only [I2.Sub, I2.MulDiv, I2.Add, I2.Within]
    refine ⟨?_, ?_, ?_, ?_⟩
    · rcases le_total 0 (b.X - a.X) with c | c
      · have := kx1 c
        omega
      · have := kx2 c
        omega
    · rcases le_total 0 (b.X - a.X) with c | c
      · have := kx1 c
        omega
      · have := kx2 c
        omega
    · rcases le_total 0 (b.Y - a.Y) with c | c
      · have := ky1 c
        omega
      · have := ky2 c
        omega
    · rcases le_total 0 (b.Y - a.Y) with c | c
      · have := ky1 c
        omega
      · have := ky2 c
        omega

theorem embF_top : embF (⊤ : WithTop NNF) = F64.inf false := rfl

theorem embF_coe (x : NNF) : embF ((x : NNF) : WithTop NNF) = F64.fin x.1 := rfl

theorem embF_zero : embF (0 : WithTop NNF) = F64.fin 0 := rfl

/-- The comparison of float64 values is the order of the exact model. -/
theorem lt_embF (a b : WithTop NNF) : (embF a).lt (embF b) = decide (a < b) := by
  induction a using WithTop.recTopCoe with
  | top =>
    induction b using WithTop.recTopCoe with
    | top => simp [embF_top, F64.lt]
    | coe y => simp [embF_top, embF_coe, F64.lt]
  | coe x =>
    induction b using WithTop.recTopCoe with
    | top => simp [embF_top, embF_coe, F64.lt]
    | coe y =>
      simp only [embF_coe, F64.lt, WithTop.coe_lt_coe]
      rfl

theorem embF_eq_inf (a : WithTop NNF) : embF a = F64.inf false ↔ a = ⊤ := by
  induction a using WithTop.recTopCoe with
  | top => simp [embF_top]
  | coe x => simp [embF_coe]

theorem sqrtNN_val (n : Int) (h0 : 0 ≤ n) (h : n ≤ 2 ^ 43) : (sqrtNN n).1 = sqrtQ n := by
  obtain ⟨-, h1, -, -, h2⟩ := sqrt_ofInt n h0 h
  unfold sqrtNN
  rw [dif_pos ⟨h1, h2⟩]

theorem dot_self_nonneg (v : I2) : 0 ≤ v.Dot v := by
  unfold I2.Dot
  nlinarith [mul_self_nonneg v.X, mul_self_nonneg v.Y]

theorem dot_sub_le (u v : I2) (hu : u.Within (10 ^ 6)) (hv : v.Within (10 ^ 6)) :
    (v.Sub u).Dot (v.Sub u) ≤ 2 ^ 43 := by
  have h := dot_abs_le _ _ _ _ (within_sub v u _ _ hv hu) (within_sub v u _ _ hv hu)
  have := (abs_le.mp h).2
  norm_num at this ⊢
  omega

/-- With all coordinates of magnitude at most 10^6, Length is the float64 nearest to
the square root of the exact squared distance. -/
theorem Length64_eq (u v : I2) (hu : u.Within (10 ^ 6)) (hv : v.Within (10 ^ 6)) :
    Length64 u v = F64.fin (sqrtQ ((v.Sub u).Dot (v.Sub u))) ∧
    (Length sqrtNN u v).1 = sqrtQ ((v.Sub u).Dot (v.Sub u)) ∧
    Length64 u v = embF ((Length sqrtNN u v : NNF) : WithTop NNF) := by
  have hvu := within_sub v u _ _ hv hu
  have h0 := dot_self_nonneg (v.Sub u)
  have h1 := dot_sub_le u v hu hv
  have e1 : Length64 u v = F64.fin (sqrtQ ((v.Sub u).Dot (v.Sub u))) := by
    unfold Length64
    simp only []
    rw [Sub64_eq v u _ _ hv hu (by norm_num), Dot64_eq _ _ _ _ hvu hvu (by norm_num)]
    exact (sqrt_ofInt _ h0 h1).1
  have e2 : (Length sqrtNN u v).1 = sqrtQ ((v.Sub u).Dot (v.Sub u)) := sqrtNN_val _ h0 h1
  refine ⟨e1, e2, ?_⟩
  rw [embF_coe, e2, e1]

/-- With all coordinates of magnitude at most 10^6, Blocks on 64-bit integers is
Blocks over unbounded integers. -/
theorem Blocks64_eq (g : Graph) (start end_ : I2)
    (hg : ∀ u v, g.HasEdge u v → u.Within (10 ^ 6) ∧ v.Within (10 ^ 6))
    (hs : start.Within (10 ^ 6)) (he : end_.Within (10 ^ 6)) :
    g.Blocks64 start end_ = g.Blocks start end_ := by
  unfold Graph.Blocks64 Graph.Blocks Graph.AllEdgesFacing64 Graph.AllEdgesFacing
  rw [AllEdges_eq_runEdges, AllEdges_eq_runEdges]
  have := runEdges_sim (fun s : Unit => s)
    (fun u v s => if SignedArea2 start u v > 0 then
      (!(SegmentIntersectI u v start end_).2, s) else (true, s))
    (fun u v s => if SignedArea2_64 start u v > 0 then
      (!(SegmentIntersectI64 u v start end_).2, s) else (true, s)) g.edgeList
    (fun e hmem s => by
      obtain ⟨h1, h2⟩ := hg e.1 e.2 ((mem_edgeList g e.1 e.2).mp hmem)
      beta_reduce
      rw [SignedArea2_64_eq start e.1 e.2 _ hs h1 h2 (by norm_num),
        (segmentIntersectI64_agree e.1 e.2 start end_ h1 h2 hs he).1]) ()
  rw [this]

/-- With all coordinates of magnitude at most 10^6, NearestBlock on 64-bit integers and
float64 is NearestBlock of the exact model with the float64 square root. -/
theorem NearestBlock64_eq (g : Graph) (start end_ : I2)
    (hg : ∀ u v, g.HasEdge u v → u.Within (10 ^ 6) ∧ v.Within (10 ^ 6))
    (hs : start.Within (10 ^ 6)) (he : end_.Within (10 ^ 6)) :
    g.NearestBlock64 start end_ = g.NearestBlock sqrtNN start end_ := by
  unfold Graph.NearestBlock64 Graph.NearestBlock Graph.AllEdgesFacing64 Graph.AllEdgesFacing
  rw [AllEdges_eq_runEdges, AllEdges_eq_runEdges]
  have := runEdges_sim (fun s : Bool × WithTop NNF × I2 => (s.1, embF s.2.1, s.2.2))
    (fun u v (s : Bool × WithTop NNF × I2) => if SignedArea2 start u v > 0 then
      (let py := SegmentIntersectI u v start end_
       if !py.2 then (true, s)
       else
        let t : WithTop NNF := ((Length sqrtNN start py.1 : NNF) : WithTop NNF)
        if t < s.2.1 then (true, (true, t, py.1)) else (true, s)) else (true, s))
    (fun u v (s : Bool × F64 × I2) => if SignedArea2_64 start u v > 0 then
      (let py := SegmentIntersectI64 u v start end_
       if !py.2 then (true, s)
       else
        let t := Length64 start py.1
        if t.lt s.2.1 then (true, (true, t, py.1)) else (true, s)) else (true, s)) g.edgeList
    (fun e hmem s => by
      obtain ⟨h1, h2⟩ := hg e.1 e.2 ((mem_edgeList g e.1 e.2).mp hmem)
      beta_reduce
      rw [SignedArea2_64_eq start e.1 e.2 _ hs h1 h2 (by norm_num),
        (segmentIntersectI64_agree e.1 e.2 start end_ h1 h2 hs he).1]
      by_cases c1 : SignedArea2 start e.1 e.2 > 0
      · simp only [if_pos c1]
        by_cases c2 : (SegmentIntersectI e.1 e.2 start end_).2 = true
        · have hw := SegmentIntersectI_within e.1 e.2 start end_ _ hs he c2
          have hl := (Length64_eq start _ hs hw).2.2
          simp only [c2, Bool.not_true, Bool.false_eq_true, if_false]
          rw [hl, lt_embF]
          by_cases c3 : ((Length sqrtNN start (SegmentIntersectI e.1 e.2 start end_).1 : NNF) :
              WithTop NNF) < s.2.1
          · simp only [c3, decide_True, if_true]
          · simp only [c3, decide_False, Bool.false_eq_true, if_false]
        · rw [Bool.not_eq_true] at c2
          simp only [c2, Bool.not_false, if_true]
      · simp only [if_neg c1]) (false, ⊤, ⟨0, 0⟩)
  simp only [embF_top] at this
  rw [this]

/-- C9 as stated fails on 64-bit integers and float64: for the wall
(1,3999999999)-(1,4000000001), start = (0,0) and end = (1,4000000000) the product in
`Dot` wraps to a negative value, Length is a NaN, `t < min` is never true, and
NearestBlock returns the zero point and false although Blocks(start, end) is true. -/
theorem NearestBlock64_nan :
    (NewGraph.AddEdge ⟨1, 3999999999⟩ ⟨1, 4000000001⟩).Blocks64 ⟨0, 0⟩ ⟨1, 4000000000⟩ = true ∧
    (NewGraph.AddEdge ⟨1, 3999999999⟩ ⟨1, 4000000001⟩).NearestBlock64 ⟨0, 0⟩ ⟨1, 4000000000⟩ =
      (⟨0, 0⟩, false) ∧
    Length64 ⟨0, 0⟩ ⟨1, 4000000000⟩ = F64.nan := by
  set_option maxRecDepth 100000 in
  refine ⟨by decide!, by decide!, by decide!⟩

/-- C9, amended: for every graph and points start, end, all with coordinates of
magnitude at most 10^6 (64-bit integers and float64), NearestBlock returns found =
true exactly when Blocks(start, end) is true, and then the returned point is the
intersection point SegmentIntersectI reports for some edge facing start, and its
Euclidean distance from start (compared through the exact squared distance) is
minimal among the intersection points of all facing edges; when no facing edge
intersects it returns the zero point and false. -/
theorem NearestBlock64_spec (g : Graph) (start end_ : I2)
    (hg : ∀ u v, g.HasEdge u v → u.Within (10 ^ 6) ∧ v.Within (10 ^ 6))
    (hs : start.Within (10 ^ 6)) (he : end_.Within (10 ^ 6)) :
    (g.NearestBlock64 start end_).2 = g.Blocks64 start end_ ∧
    ((g.NearestBlock64 start end_).2 = true →
      ∃ u v, g.HasEdge u v ∧ SignedArea2_64 start u v > 0 ∧
        SegmentIntersectI64 u v start end_ = ((g.NearestBlock64 start end_).1, true) ∧
        ∀ u' v', g.HasEdge u' v' → SignedArea2_64 start u' v' > 0 →
          (SegmentIntersectI64 u' v' start end_).2 = true →
          ((g.NearestBlock64 start end_).1.Sub start).Dot
              ((g.NearestBlock64 start end_).1.Sub start) ≤
            ((SegmentIntersectI64 u' v' start end_).1.Sub start).Dot
              ((SegmentIntersectI64 u' v' start end_).1.Sub start)) ∧
    (g.Blocks64 start end_ = false → g.NearestBlock64 start end_ = (⟨0, 0⟩, false)) := by
  rw [NearestBlock64_eq g start end_ hg hs he, Blocks64_eq g start end_ hg hs he]
  obtain ⟨h1, h2, h3⟩ := nearestBlock_ideal sqrtNN g start end_
  refine ⟨h1, fun hf => ?_, h3⟩
  obtain ⟨u, v, huv, hsa, hi, hmin⟩ := h2 hf
  obtain ⟨hu, hv⟩ := hg u v huv
  refine ⟨u, v, huv, ?_, ?_, ?_⟩
  · rw [SignedArea2_64_eq start u v _ hs hu hv (by norm_num)]
    exact hsa
  · rw [(segmentIntersectI64_agree u v start end_ hu hv hs he).1]
    exact hi
  · intro u' v' huv' hsa' hi'
    obtain ⟨hu', hv'⟩ := hg u' v' huv'
    rw [SignedArea2_64_eq start u' v' _ hs hu' hv' (by norm_num)] at hsa'
    rw [(segmentIntersectI64_agree u' v' start end_ hu' hv' hs he).1] at hi' ⊢
    have hle := (hmin u' v' huv' hsa' hi').1
    have hw : (g.NearestBlock sqrtNN start end_).1.Within (10 ^ 6) := by
      have := SegmentIntersectI_within u v start end_ _ hs he (by rw [hi])
      rw [hi] at this
      exact this
    have hw' := SegmentIntersectI_within u' v' start end_ _ hs he hi'
    have e1 := (Length64_eq start _ hs hw).2.1
    have e2 := (Length64_eq start _ hs hw').2.1
    have hle' : sqrtQ (((g.NearestBlock sqrtNN start end_).1.Sub start).Dot
        ((g.NearestBlock sqrtNN start end_).1.Sub start)) ≤
        sqrtQ (((SegmentIntersectI u' v' start end_).1.Sub start).Dot
          ((SegmentIntersectI u' v' start end_).1.Sub start)) := by
      rw [← e1, ← e2]
      exact hle
    by_contra hcon
    rw [not_le] at hcon
    have := sqrtQ_strictMono _ _ (dot_self_nonneg _) hcon (dot_sub_le start _ hs hw)
    linarith

/-- C9 at a concrete input: the wall seen from (-3,0) looking at (3,0). -/
theorem NearestBlock64_spec_witness :
    (exampleWall.NearestBlock64 ⟨-3, 0⟩ ⟨3, 0⟩).2 = exampleWall.Blocks64 ⟨-3, 0⟩ ⟨3, 0⟩ ∧
    exampleWall.NearestBlock64 ⟨-3, 0⟩ ⟨3, 0⟩ = (⟨0, 0⟩, true) :=
  ⟨(NearestBlock64_spec exampleWall ⟨-3, 0⟩ ⟨3, 0⟩
      (fun u v h => ⟨within_mono _ _ _ (exampleWall_within u v h).1 (by norm_num),
        within_mono _ _ _ (exampleWall_within u v h).2 (by norm_num)⟩)
      (by unfold I2.Within; decide) (by unfold I2.Within; decide)).1,
    by
      set_option maxRecDepth 100000 in
      decide!⟩

/-! ## CellsTouchingSegment on 64-bit integers and float64: the loops as a list of cells -/

theorem axisLoop64_eq_runTouch {σ : Type} (touch : I2 → σ → Bool × σ) (q s : I2) :
    ∀ (n : Nat) (p : I2) (cs : List I2) (st : σ), axisCells64 q s n p = some cs →
      axisLoop64 touch q s n p st = some (runTouch touch cs st) := by
  intro n
  induction n with
  | zero => intro p cs st h; simp [axisCells64] at h
  | succ n ih =>
    intro p cs st h
    simp only [axisCells64] at h
    simp only [axisLoop64]
    by_cases hpq : p = q
    · rw [if_pos hpq] at h
      cases h
      by_cases hr : (touch p st).1 = true
      · simp [runTouch, hr, if_pos hpq]
      · simp [runTouch, hr]
    · rw [if_neg hpq] at h
      obtain ⟨cs', hcs', rfl⟩ := Option.map_eq_some'.mp h
      by_cases hr : (touch p st).1 = true
      · simp [runTouch, hr, hpq, ih _ _ _ hcs']
      · simp [runTouch, hr]

theorem generalLoop64_eq_runTouch {σ : Type} (touch : I2 → σ → Bool × σ) (q s : I2)
    (d : F2_64) :
    ∀ (n : Nat) (p : I2) (t : F2_64) (cs : List I2) (st : σ),
      generalCells64 q s d n p t = some cs →
      generalLoop64 touch q s d n p t st = some (runTouch touch cs st) := by
  intro n
  induction n with
  | zero => intro p t cs st h; simp [generalCells64] at h
  | succ n ih =>
    intro p t cs st h
    simp only [generalCells64] at h
    simp only [generalLoop64]
    by_cases hr : (touch p st).1 = true
    · by_cases hpq : p = q
      · rw [if_pos hpq] at h
        cases h
        simp [runTouch, hr, if_pos hpq]
      · rw [if_neg hpq] at h
        by_cases hex : ((F64.fin 1).lt t.X && (F64.fin 1).lt t.Y) = true
        · rw [if_pos hex] at h
          cases h
          simp [runTouch, hr, hpq, hex]
        · rw [if_neg hex] at h
          by_cases hlt : t.X.lt t.Y = true
          · rw [if_pos hlt] at h
            obtain ⟨cs', hcs', rfl⟩ := Option.map_eq_some'.mp h
            simp only [runTouch, hr, Bool.not_true, Bool.false_eq_true, if_false, hpq, hex,
              if_pos hlt]
            exact ih _ _ _ _ hcs'
          · rw [if_neg hlt] at h
            obtain ⟨cs', hcs', rfl⟩ := Option.map_eq_some'.mp h
            simp only [runTouch, hr, Bool.not_true, Bool.false_eq_true, if_false, hpq, hex,
              if_neg hlt]
            exact ih _ _ _ _ hcs'
    · have hne : ∃ cs', cs = p :: cs' := by
        by_cases hpq : p = q
        · rw [if_pos hpq] at h
          exact ⟨[], (Option.some.inj h).symm⟩
        · rw [if_neg hpq] at h
          by_cases hex : ((F64.fin 1).lt t.X && (F64.fin 1).lt t.Y) = true
          · rw [if_pos hex] at h
            exact ⟨[], (Option.some.inj h).symm⟩
          · rw [if_neg hex] at h
            by_cases hlt : t.X.lt t.Y = true
            · rw [if_pos hlt] at h
              obtain ⟨cs', -, rfl⟩ := Option.map_eq_some'.mp h
              exact ⟨cs', rfl⟩
            · rw [if_neg hlt] at h
              obtain ⟨cs', -, rfl⟩ := Option.map_eq_some'.mp h
              exact ⟨cs', rfl⟩
      obtain ⟨cs', rfl⟩ := hne
      simp [runTouch, hr]

/-- With enough fuel for the walk, CellsTouchingSegment on 64-bit integers and float64
runs touch over the cells of the walk and stops at the first cell on which touch
returns false. -/
theorem CellsTouchingSegment64_eq_runTouch {σ : Type} (fuel : Nat) (cellSize start end_ : I2)
    (touch : I2 → σ → Bool × σ) (st : σ) (cs : List I2)
    (h : segmentCells64 fuel cellSize start end_ = some cs) :
    CellsTouchingSegment64 fuel cellSize start end_ touch st = some (runTouch touch cs st) := by
  unfold segmentCells64 at h
  unfold CellsTouchingSegment64
  cases hp : cell64 start cellSize with
  | none => rw [hp] at h; simp at h
  | some p =>
    cases hq : cell64 end_ cellSize with
    | none => rw [hp, hq] at h; simp at h
    | some q =>
      rw [hp, hq] at h
      simp only at h ⊢
      by_cases hax : ((q.Sub64 p).Sgn.X = 0 ∨ (q.Sub64 p).Sgn.Y = 0)
      · rw [if_pos hax] at h ⊢
        exact axisLoop64_eq_runTouch touch _ _ fuel _ cs st h
      · rw [if_neg hax] at h ⊢
        exact generalLoop64_eq_runTouch touch _ _ _ fuel _ _ cs st h

theorem axisCells64_mono (q s : I2) : ∀ (n : Nat) (p : I2) (cs : List I2),
    axisCells64 q s n p = some cs → ∀ m, n ≤ m → axisCells64 q s m p = some cs := by
  intro n
  induction n with
  | zero =>
    intro p cs h
    simp [axisCells64] at h
  | succ n ih =>
    intro p cs h m hm
    obtain ⟨m, rfl⟩ : ∃ k, m = k + 1 := ⟨m - 1, by omega⟩
    simp only [axisCells64] at h ⊢
    by_cases hpq : p = q
    · rw [if_pos hpq] at h ⊢
      exact h
    · rw [if_neg hpq] at h ⊢
      cases hr : axisCells64 q s n (p.Add64 s) with
      | none =>
        rw [hr] at h
        simp at h
      | some cs' =>
        rw [hr] at h
        rw [ih _ _ hr m (by omega)]
        exact h

theorem generalCells64_mono (q s : I2) (d : F2_64) :
    ∀ (n : Nat) (p : I2) (t : F2_64) (cs : List I2),
    generalCells64 q s d n p t = some cs → ∀ m, n ≤ m → generalCells64 q s d m p t = some cs := by
  intro n
  induction n with
  | zero =>
    intro p t cs h
    simp [generalCells64] at h
  | succ n ih =>
    intro p t cs h m hm
    obtain ⟨m, rfl⟩ : ∃ k, m = k + 1 := ⟨m - 1, by omega⟩
    simp only [generalCells64] at h ⊢
    by_cases hpq : p = q
    · rw [if_pos hpq] at h ⊢
      exact h
    · rw [if_neg hpq] at h ⊢
      by_cases hex : ((F64.fin 1).lt t.X && (F64.fin 1).lt t.Y) = true
      · rw [if_pos hex] at h ⊢
        exact h
      · rw [if_neg hex] at h ⊢
        by_cases hlt : t.X.lt t.Y = true
        · rw [if_pos hlt] at h ⊢
          cases hr : generalCells64 q s d n ⟨add64 p.X s.X, p.Y⟩ ⟨t.X.add d.X, t.Y⟩ with
          | none =>
            rw [hr] at h
            simp at h
          | some cs' =>
            rw [hr] at h
            rw [ih _ _ _ hr m (by omega)]
            exact h
        · rw [if_neg hlt] at h ⊢
          cases hr : generalCells64 q s d n ⟨p.X, add64 p.Y s.Y⟩ ⟨t.X, t.Y.add d.Y⟩ with
          | none =>
            rw [hr] at h
            simp at h
          | some cs' =>
            rw [hr] at h
            rw [ih _ _ _ hr m (by omega)]
            exact h

/-- More iterations allowed do not change the cells visited. -/
theorem segmentCells64_mono (cellSize start end_ : I2) (n m : Nat) (cs : List I2)
    (h : segmentCells64 n cellSize start end_ = some cs) (hm : n ≤ m) :
    segmentCells64 m cellSize start end_ = some cs := by
  unfold segmentCells64 at h ⊢
  cases hp : cell64 start cellSize with
  | none => rw [hp] at h; simp at h
  | some p =>
    cases hq : cell64 end_ cellSize with
    | none => rw [hp, hq] at h; simp at h
    | some q =>
      rw [hp, hq] at h
      simp only at h ⊢
      by_cases hax : ((q.Sub64 p).Sgn.X = 0 ∨ (q.Sub64 p).Sgn.Y = 0)
      · rw [if_pos hax] at h ⊢
        exact axisCells64_mono _ _ _ _ _ h m hm
      · rw [if_neg hax] at h ⊢
        exact generalCells64_mono _ _ _ _ _ _ _ h m hm

theorem generalCells64_length (q s : I2) (d : F2_64) :
    ∀ (n : Nat) (p : I2) (t : F2_64) (cs : List I2),
    generalCells64 q s d n p t = some cs → cs.length ≤ n := by
  intro n
  induction n with
  | zero =>
    intro p t cs h
    simp [generalCells64] at h
  | succ n ih =>
    intro p t cs h
    simp only [generalCells64] at h
    split_ifs at h with h1 h2 h3
    · cases h
      simp
    · cases h
      simp
    · obtain ⟨cs', hcs', rfl⟩ := Option.map_eq_some'.mp h
      have := ih _ _ _ hcs'
      simp
      omega
    · obtain ⟨cs', hcs', rfl⟩ := Option.map_eq_some'.mp h
      have := ih _ _ _ hcs'
      simp
      omega

theorem generalCells64_head (q s : I2) (d : F2_64) :
    ∀ (n : Nat) (p : I2) (t : F2_64) (cs : List I2),
    generalCells64 q s d n p t = some cs → cs.head? = some p := by
  intro n p t cs h
  cases n with
  | zero => simp [generalCells64] at h
  | succ n =>
    simp only [generalCells64] at h
    split_ifs at h with h1 h2 h3
    · cases h
      rfl
    · cases h
      rfl
    · obtain ⟨cs', -, rfl⟩ := Option.map_eq_some'.mp h
      rfl
    · obtain ⟨cs', -, rfl⟩ := Option.map_eq_some'.mp h
      rfl

/-! ## CellsTouchingSegment: the range in which the integers do not wrap -/

theorem divDown_abs_le (n d : Int) (hd : 0 < d) : |divDown n d| ≤ |n| + 1 := by
  obtain ⟨h1, h2⟩ := divDown_bounds n d hd
  rw [abs_le]
  constructor
  · by_contra hc
    rw [not_le] at hc
    have h3 : divDown n d + 1 ≤ -(|n| + 1) := by omega
    have h4 : (divDown n d + 1) * d ≤ -(|n| + 1) * d :=
      mul_le_mul_of_nonneg_right h3 (le_of_lt hd)
    have h5 : -(|n| + 1) * d ≤ -(|n| + 1) := by
      have : (|n| + 1) * 1 ≤ (|n| + 1) * d :=
        mul_le_mul_of_nonneg_left (by omega) (by positivity)
      linarith
    have := neg_abs_le n
    omega
  · by_contra hc
    rw [not_le] at hc
    have h4 : (|n| + 1 + 1) * d ≤ divDown n d * d :=
      mul_le_mul_of_nonneg_right (by omega) (le_of_lt hd)
    have h5 : (|n| + 1 + 1) * 1 ≤ (|n| + 1 + 1) * d :=
      mul_le_mul_of_nonneg_left (by omega) (by positivity)
    have := le_abs_self n
    omega

/-- With coordinates of magnitude at most 2^50 and a positive cell size, `cell` does
not wrap and does not panic. -/
theorem cell64_eq (v cellSize : I2) (hv : v.Within (2 ^ 50)) (hx : 0 < cellSize.X)
    (hy : 0 < cellSize.Y) (hc : cellSize.Within (2 ^ 50)) :
    cell64 v cellSize = some (cell v cellSize) ∧ (cell v cellSize).Within (2 ^ 50 + 1) := by
  obtain ⟨v1, v2, v3, v4⟩ := hv
  obtain ⟨c1, c2, c3, c4⟩ := hc
  constructor
  · unfold cell64 cell
    rw [divDown64_eq v.X cellSize.X ⟨by omega, by omega⟩ hx (by omega),
      divDown64_eq v.Y cellSize.Y ⟨by omega, by omega⟩ hy (by omega)]
  · apply within_of_abs
    · exact le_trans (divDown_abs_le _ _ hx) (by
        have : |v.X| ≤ 2 ^ 50 := abs_le.mpr ⟨v1, v2⟩
        omega)
    · exact le_trans (divDown_abs_le _ _ hy) (by
        have : |v.Y| ≤ 2 ^ 50 := abs_le.mpr ⟨v3, v4⟩
        omega)

/-- While the cells stay far from the ends of the 64-bit range, the axis-aligned walk
on 64-bit integers is the walk over unbounded integers. -/
theorem axisCells64_eq (q s : I2) (hsX : |s.X| ≤ 1) (hsY : |s.Y| ≤ 1) :
    ∀ (n : Nat) (p : I2), |p.X| + (n : Int) ≤ 2 ^ 62 → |p.Y| + (n : Int) ≤ 2 ^ 62 →
      axisCells64 q s n p = axisCells q s n p := by
  intro n
  induction n with
  | zero => intro p _ _; rfl
  | succ n ih =>
    intro p hX hY
    simp only [axisCells64, axisCells]
    have e : p.Add64 s = p.Add s := by
      unfold I2.Add64 I2.Add add64
      rw [wrap64_of_inInt64, wrap64_of_inInt64]
      · unfold InInt64
        have := abs_le.mp hsY
        have := abs_le.mp (show |p.Y| ≤ 2 ^ 62 by push_cast at hY; omega)
        constructor <;> omega
      · unfold InInt64
        have := abs_le.mp hsX
        have := abs_le.mp (show |p.X| ≤ 2 ^ 62 by push_cast at hX; omega)
        constructor <;> omega
    rw [e]
    have hX' : |(p.Add s).X| + (n : Int) ≤ 2 ^ 62 := by
      have := abs_add p.X s.X
      simp only [I2.Add]
      push_cast at hX
      omega
    have hY' : |(p.Add s).Y| + (n : Int) ≤ 2 ^ 62 := by
      have := abs_add p.Y s.Y
      simp only [I2.Add]
      push_cast at hY
      omega
    rw [ih _ hX' hY']

/-! ## CellsTouchingSegment on 64-bit integers and float64: termination -/

theorem add_fin (x y : ℚ) (h : |roundQ (x + y)| < (2 : ℚ) ^ (1024 : Int)) :
    (F64.fin x).add (F64.fin y) = F64.fin (roundQ (x + y)) :=
  round64_fin _ h

theorem lt_fin (x y : ℚ) : (F64.fin x).lt (F64.fin y) = decide (x < y) := rfl

/-- A step of at least 2^-51 and at most 2^50 added in float64 to a parameter between
0 and 1 gives a finite parameter that is larger by at least 2^-52. -/
theorem step_increase (x dx : ℚ) (hx0 : 0 ≤ x) (hx1 : x ≤ 1) (hd : 1 / 2 ^ 51 ≤ dx)
    (hd2 : dx ≤ 2 ^ 50) :
    (F64.fin x).add (F64.fin dx) = F64.fin (roundQ (x + dx)) ∧
    x + 1 / 2 ^ 52 ≤ roundQ (x + dx) ∧ roundQ (x + dx) ≤ 2 ^ 51 := by
  have hab : |roundQ (x + dx)| ≤ ((1 : Int) : ℚ) * 2 ^ (51 : Int) := by
    apply roundQ_abs_le _ 1 51 (by norm_num) (by norm_num) (by norm_num)
    rw [abs_of_nonneg (by linarith)]
    norm_num
    linarith
  have hz : (2 : ℚ) ^ (-52 : Int) = 1 / 2 ^ 52 := by
    rw [zpow_neg]
    norm_num
  have hc := Int.le_ceil ((x + 1 / 2 ^ 52) * 2 ^ 52)
  have hc2 := Int.ceil_lt_add_one ((x + 1 / 2 ^ 52) * 2 ^ 52)
  have hc0 : 0 ≤ ⌈(x + 1 / 2 ^ 52) * 2 ^ 52⌉ := Int.ceil_nonneg (by positivity)
  have hm : ⌈(x + 1 / 2 ^ 52) * 2 ^ 52⌉ ≤ 2 ^ 53 := by
    have h1 : (x + 1 / 2 ^ 52) * 2 ^ 52 ≤ 2 ^ 53 := by
      have : x + 1 / 2 ^ 52 ≤ 2 := by
        have : (1 : ℚ) / 2 ^ 52 ≤ 1 := by norm_num
        linarith
      calc (x + 1 / 2 ^ 52) * 2 ^ 52 ≤ 2 * 2 ^ 52 :=
            mul_le_mul_of_nonneg_right this (by positivity)
        _ = 2 ^ 53 := by norm_num
    have h2 : ((⌈(x + 1 / 2 ^ 52) * 2 ^ 52⌉ : Int) : ℚ) < ((2 ^ 53 + 1 : Int) : ℚ) := by
      push_cast
      linarith
    have := Int.cast_lt.mp h2
    omega
  have e1 := roundQ_exact ⌈(x + 1 / 2 ^ 52) * 2 ^ 52⌉ (-52) (abs_le.mpr ⟨by omega, hm⟩)
    (by norm_num)
  rw [hz] at e1
  have l1 : x + 1 / 2 ^ 52 ≤ ((⌈(x + 1 / 2 ^ 52) * 2 ^ 52⌉ : Int) : ℚ) * (1 / 2 ^ 52) := by
    rw [mul_one_div, le_div_iff₀ (by positivity)]
    exact hc
  have l2 : ((⌈(x + 1 / 2 ^ 52) * 2 ^ 52⌉ : Int) : ℚ) * (1 / 2 ^ 52) ≤ x + dx := by
    rw [mul_one_div, div_le_iff₀ (by positivity)]
    have e : (x + dx) * 2 ^ 52 = (x + 1 / 2 ^ 52) * 2 ^ 52 + (dx - 1 / 2 ^ 52) * 2 ^ 52 := by ring
    have h3 : (1 : ℚ) ≤ (dx - 1 / 2 ^ 52) * 2 ^ 52 := by
      have : (1 : ℚ) / 2 ^ 51 - 1 / 2 ^ 52 ≤ dx - 1 / 2 ^ 52 := by linarith
      calc (1 : ℚ) ≤ (1 / 2 ^ 51 - 1 / 2 ^ 52) * 2 ^ 52 := by norm_num
        _ ≤ (dx - 1 / 2 ^ 52) * 2 ^ 52 := mul_le_mul_of_nonneg_right this (by positivity)
    linarith
  have m2 := roundQ_mono _ _ l2
  rw [e1] at m2
  refine ⟨add_fin _ _ (lt_of_le_of_lt hab (by norm_num)), le_trans l1 m2, ?_⟩
  have := (abs_le.mp hab).2
  norm_num at this
  exact this

theorem walkMeasure_decrease (x x' : ℚ) (hx1 : x ≤ 1) (h : x + 1 / 2 ^ 52 ≤ x') :
    walkMeasure x' + 1 ≤ walkMeasure x := by
  have h1 : (2 - x') * 2 ^ 52 ≤ (2 - x) * 2 ^ 52 - 1 := by
    have e : (2 - (x + 1 / 2 ^ 52)) * 2 ^ 52 = (2 - x) * 2 ^ 52 - 1 := by
      field_simp
      ring
    rw [← e]
    exact mul_le_mul_of_nonneg_right (by linarith) (by positivity)
  have h2 : ⌊(2 - x') * 2 ^ 52⌋ ≤ ⌊(2 - x) * 2 ^ 52⌋ - 1 := by
    rw [← Int.floor_sub_one]
    exact Int.floor_mono h1
  have h3 : 1 ≤ ⌊(2 - x) * 2 ^ 52⌋ := by
    rw [Int.le_floor]
    have : (1 : ℚ) * 2 ^ 52 ≤ (2 - x) * 2 ^ 52 :=
      mul_le_mul_of_nonneg_right (by linarith) (by positivity)
    push_cast
    linarith [show (1 : ℚ) ≤ 1 * 2 ^ 52 by norm_num]
  unfold walkMeasure
  omega

theorem walkMeasure_le (x : ℚ) (hx : 0 ≤ x) : walkMeasure x ≤ 2 ^ 53 := by
  have h1 : ⌊(2 - x) * 2 ^ 52⌋ ≤ 2 ^ 53 := by
    have : (2 - x) * 2 ^ 52 ≤ (((2 ^ 53 : Int)) : ℚ) := by
      push_cast
      have : (2 - x) * 2 ^ 52 ≤ 2 * 2 ^ 52 := mul_le_mul_of_nonneg_right (by linarith) (by positivity)
      linarith [show (2 : ℚ) * 2 ^ 52 = 2 ^ 53 by norm_num]
    have := Int.floor_mono this
    rwa [Int.floor_intCast] at this
  unfold walkMeasure
  omega

/-- The general case returns within walkMeasure t.X + walkMeasure t.Y + 1 iterations
when both steps are float64 values between 2^-51 and 2^50 and both parameters are
float64 values that are not negative. -/
theorem generalCells64_total (q s : I2) (dx dy : ℚ) (hdx : 1 / 2 ^ 51 ≤ dx)
    (hdx2 : dx ≤ 2 ^ 50) (hdy : 1 / 2 ^ 51 ≤ dy) (hdy2 : dy ≤ 2 ^ 50) :
    ∀ (n : Nat) (p : I2) (x y : ℚ), 0 ≤ x → 0 ≤ y →
      walkMeasure x + walkMeasure y + 1 ≤ n →
      ∃ cs, generalCells64 q s ⟨F64.fin dx, F64.fin dy⟩ n p ⟨F64.fin x, F64.fin y⟩ = some cs := by
  intro n
  induction n with
  | zero =>
    intro p x y _ _ h
    omega
  | succ n ih =>
    intro p x y hx hy h
    simp only [generalCells64]
    by_cases hpq : p = q
    · rw [if_pos hpq]
      exact ⟨_, rfl⟩
    · rw [if_neg hpq]
      by_cases hex : ((F64.fin 1).lt (F64.fin x) && (F64.fin 1).lt (F64.fin y)) = true
      · rw [if_pos hex]
        exact ⟨_, rfl⟩
      · rw [if_neg hex]
        rw [lt_fin, lt_fin, Bool.and_eq_true, decide_eq_true_eq, decide_eq_true_eq] at hex
        by_cases hlt : (F64.fin x).lt (F64.fin y) = true
        · rw [if_pos hlt]
          rw [lt_fin, decide_eq_true_eq] at hlt
          have hx1 : x ≤ 1 := by
            by_contra hc
            rw [not_le] at hc
            exact hex ⟨hc, lt_trans hc hlt⟩
          obtain ⟨e, inc, _⟩ := step_increase x dx hx hx1 hdx hdx2
          have hm := walkMeasure_decrease x _ hx1 inc
          obtain ⟨cs, hcs⟩ := ih ⟨add64 p.X s.X, p.Y⟩ (roundQ (x + dx)) y
            (le_trans (by positivity) inc) hy (by omega)
          rw [e, hcs]
          exact ⟨_, rfl⟩
        · rw [if_neg hlt]
          rw [lt_fin, decide_eq_true_eq, not_lt] at hlt
          have hy1 : y ≤ 1 := by
            by_contra hc
            rw [not_le] at hc
            exact hex ⟨lt_of_lt_of_le hc hlt, hc⟩
          obtain ⟨e, inc, _⟩ := step_increase y dy hy hy1 hdy hdy2
          have hm := walkMeasure_decrease y _ hy1 inc
          obtain ⟨cs, hcs⟩ := ih ⟨p.X, add64 p.Y s.Y⟩ x (roundQ (y + dy))
            hx (le_trans (by positivity) inc) (by omega)
          rw [e, hcs]
          exact ⟨_, rfl⟩

theorem div_fin (a b : Int) (ha : |a| ≤ 2 ^ 53) (hb : |b| ≤ 2 ^ 53) (hb0 : b ≠ 0)
    (h : |roundQ ((a : ℚ) / (b : ℚ))| < (2 : ℚ) ^ (1024 : Int)) :
    (F64.ofInt a).div (F64.ofInt b) = F64.fin (roundQ ((a : ℚ) / (b : ℚ))) := by
  rw [ofInt_exact a ha, ofInt_exact b hb]
  unfold F64.div
  have hbq : (b : ℚ) ≠ 0 := by exact_mod_cast hb0
  simp only [hbq, if_false]
  exact round64_fin _ h

/-- One axis of the general case with coordinates of magnitude at most 2^50: the
integers do not wrap, the divisor is positive, the step is a float64 between 2^-51 and
2^50 and the first parameter is a float64 from 0 to 2^50. -/
theorem axis_init64 (w a b : Int) (hw : 0 < w) (hw2 : w ≤ 2 ^ 50) (ha : |a| ≤ 2 ^ 50)
    (hb : |b| ≤ 2 ^ 50) (hs : Sgn (divDown b w - divDown a w) ≠ 0) :
    mul64 (sub64 b a) (Sgn (divDown b w - divDown a w)) =
      (b - a) * Sgn (divDown b w - divDown a w) ∧
    0 < (b - a) * Sgn (divDown b w - divDown a w) ∧
    (if Sgn (divDown b w - divDown a w) > 0
      then sub64 (mul64 (add64 (divDown a w) 1) w) a
      else sub64 a (mul64 (divDown a w) w)) =
      (if Sgn (divDown b w - divDown a w) > 0 then (divDown a w + 1) * w - a
        else a - divDown a w * w) ∧
    (F64.ofInt w).div (F64.ofInt ((b - a) * Sgn (divDown b w - divDown a w))) =
      F64.fin (roundQ (stepAxis w a b (Sgn (divDown b w - divDown a w)))) ∧
    1 / 2 ^ 51 ≤ roundQ (stepAxis w a b (Sgn (divDown b w - divDown a w))) ∧
    roundQ (stepAxis w a b (Sgn (divDown b w - divDown a w))) ≤ 2 ^ 50 ∧
    (F64.ofInt (if Sgn (divDown b w - divDown a w) > 0 then (divDown a w + 1) * w - a
        else a - divDown a w * w)).div
        (F64.ofInt ((b - a) * Sgn (divDown b w - divDown a w))) =
      F64.fin (roundQ (exitAxis w a b (divDown a w) (Sgn (divDown b w - divDown a w)))) ∧
    0 ≤ roundQ (exitAxis w a b (divDown a w) (Sgn (divDown b w - divDown a w))) := by
  obtain ⟨hv, hvn, hA⟩ := general_dir_pos w a b hw hs
  obtain ⟨d1, d2⟩ := divDown_bounds a w hw
  have hda := divDown_abs_le a w hw
  have hba : |b - a| ≤ 2 ^ 51 := le_trans (abs_sub_le_of _ _ _ _ hb ha) (by norm_num)
  have hsg := abs_Sgn_le (divDown b w - divDown a w)
  have hvle : (b - a) * Sgn (divDown b w - divDown a w) ≤ 2 ^ 51 := by
    have := abs_mul_le_of _ _ _ _ hba hsg
    have := (abs_le.mp this).2
    linarith
  have hA2 : (if Sgn (divDown b w - divDown a w) > 0 then (divDown a w + 1) * w - a
        else a - divDown a w * w) ≤ w := by
    split_ifs <;> linarith
  obtain ⟨a1, a2⟩ := abs_le.mp ha
  have e1 : mul64 (sub64 b a) (Sgn (divDown b w - divDown a w)) =
      (b - a) * Sgn (divDown b w - divDown a w) := by
    rw [sub64_eq _ _ _ _ hb ha (by norm_num), mul64_eq _ _ _ _ hba hsg (by norm_num)]
  have hdw : |divDown a w * w| ≤ 2 ^ 51 := by
    rw [abs_le]
    constructor <;> linarith
  have hdw1 : |(divDown a w + 1) * w| ≤ 2 ^ 51 := by
    rw [abs_le]
    constructor <;> linarith
  have hwabs : |w| ≤ 2 ^ 50 := abs_le.mpr ⟨by linarith, hw2⟩
  have e2 : (if Sgn (divDown b w - divDown a w) > 0
      then sub64 (mul64 (add64 (divDown a w) 1) w) a
      else sub64 a (mul64 (divDown a w) w)) =
      (if Sgn (divDown b w - divDown a w) > 0 then (divDown a w + 1) * w - a
        else a - divDown a w * w) := by
    have hd1 : |divDown a w + 1| ≤ 2 ^ 50 + 2 :=
      le_trans (abs_add_le_of _ _ _ _ hda (show |(1 : Int)| ≤ 1 by norm_num)) (by omega)
    have hd0 : |divDown a w| ≤ 2 ^ 50 + 1 := by omega
    split_ifs
    · rw [add64_eq _ _ _ _ hda (show |(1 : Int)| ≤ 1 by norm_num) (by omega),
        mul64_of_abs _ _ (le_trans hdw1 (by norm_num)),
        sub64_eq _ _ _ _ hdw1 ha (by norm_num)]
    · rw [mul64_of_abs _ _ (le_trans hdw (by norm_num)),
        sub64_eq _ _ _ _ ha hdw (by norm_num)]
  have hvq : (0 : ℚ) < (((b - a) * Sgn (divDown b w - divDown a w) : Int) : ℚ) := by
    exact_mod_cast hv
  have hvq2 : ((((b - a) * Sgn (divDown b w - divDown a w) : Int)) : ℚ) ≤ 2 ^ 51 := by
    have : ((((b - a) * Sgn (divDown b w - divDown a w) : Int)) : ℚ) ≤ ((2 ^ 51 : Int) : ℚ) := by
      exact_mod_cast hvle
    refine le_trans this ?_
    norm_num
  have hvq1 : (1 : ℚ) ≤ (((b - a) * Sgn (divDown b w - divDown a w) : Int) : ℚ) := by
    have : (1 : Int) ≤ (b - a) * Sgn (divDown b w - divDown a w) := by omega
    exact_mod_cast this
  have hwq : (1 : ℚ) ≤ (w : ℚ) := by
    have : (1 : Int) ≤ w := by omega
    exact_mod_cast this
  have hwq2 : (w : ℚ) ≤ 2 ^ 50 := by
    have : ((w : Int) : ℚ) ≤ ((2 ^ 50 : Int) : ℚ) := by exact_mod_cast hw2
    refine le_trans this ?_
    norm_num
  -- the step
  have hstep : stepAxis w a b (Sgn (divDown b w - divDown a w)) =
      (w : ℚ) / (((b - a) * Sgn (divDown b w - divDown a w) : Int) : ℚ) := rfl
  have hs1 : 1 / 2 ^ 51 ≤ stepAxis w a b (Sgn (divDown b w - divDown a w)) := by
    rw [hstep, div_le_div_iff₀ (by positivity) hvq]
    calc (1 : ℚ) * _ ≤ 1 * 2 ^ 51 := by linarith
      _ ≤ (w : ℚ) * 2 ^ 51 := mul_le_mul_of_nonneg_right hwq (by positivity)
  have hs2 : stepAxis w a b (Sgn (divDown b w - divDown a w)) ≤ 2 ^ 50 := by
    rw [hstep, div_le_iff₀ hvq]
    calc (w : ℚ) ≤ 2 ^ 50 * 1 := by linarith
      _ ≤ 2 ^ 50 * _ := mul_le_mul_of_nonneg_left hvq1 (by positivity)
  have z51 : (2 : ℚ) ^ (-51 : Int) = 1 / 2 ^ 51 := by
    rw [zpow_neg]
    norm_num
  have r1 : 1 / 2 ^ 51 ≤ roundQ (stepAxis w a b (Sgn (divDown b w - divDown a w))) := by
    have := roundQ_mono _ _ hs1
    have e := roundQ_exact 1 (-51) (by norm_num) (by norm_num)
    rw [z51] at e
    simp only [Int.cast_one, one_mul] at e
    rw [e] at this
    exact this
  have r2 : |roundQ (stepAxis w a b (Sgn (divDown b w - divDown a w)))| ≤
      ((1 : Int) : ℚ) * 2 ^ (50 : Int) := by
    apply roundQ_abs_le _ 1 50 (by norm_num) (by norm_num) (by norm_num)
    rw [abs_of_nonneg (le_trans (by positivity) hs1)]
    norm_num
    exact hs2
  -- the first parameter
  have hexit : exitAxis w a b (divDown a w) (Sgn (divDown b w - divDown a w)) =
      (((if Sgn (divDown b w - divDown a w) > 0 then (divDown a w + 1) * w - a
        else a - divDown a w * w : Int)) : ℚ) /
      (((b - a) * Sgn (divDown b w - divDown a w) : Int) : ℚ) := by
    unfold exitAxis
    split_ifs <;> rfl
  have hAq : (0 : ℚ) ≤ (((if Sgn (divDown b w - divDown a w) > 0 then (divDown a w + 1) * w - a
        else a - divDown a w * w : Int)) : ℚ) := by exact_mod_cast hA
  have hAq2 : (((if Sgn (divDown b w - divDown a w) > 0 then (divDown a w + 1) * w - a
        else a - divDown a w * w : Int)) : ℚ) ≤ 2 ^ 50 := by
    have : (((if Sgn (divDown b w - divDown a w) > 0 then (divDown a w + 1) * w - a
        else a - divDown a w * w : Int)) : ℚ) ≤ ((w : Int) : ℚ) := by exact_mod_cast hA2
    linarith
  have he0 : 0 ≤ exitAxis w a b (divDown a w) (Sgn (divDown b w - divDown a w)) := by
    rw [hexit]
    exact div_nonneg hAq (le_of_lt hvq)
  have he2 : exitAxis w a b (divDown a w) (Sgn (divDown b w - divDown a w)) ≤ 2 ^ 50 := by
    rw [hexit, div_le_iff₀ hvq]
    calc _ ≤ (2 : ℚ) ^ 50 * 1 := by linarith
      _ ≤ 2 ^ 50 * _ := mul_le_mul_of_nonneg_left hvq1 (by positivity)
  have r3 : |roundQ (exitAxis w a b (divDown a w) (Sgn (divDown b w - divDown a w)))| ≤
      ((1 : Int) : ℚ) * 2 ^ (50 : Int) := by
    apply roundQ_abs_le _ 1 50 (by norm_num) (by norm_num) (by norm_num)
    rw [abs_of_nonneg he0]
    norm_num
    exact he2
  have hvabs : |(b - a) * Sgn (divDown b w - divDown a w)| ≤ 2 ^ 53 := by
    rw [abs_of_pos hv]
    omega
  have hAabs : |(if Sgn (divDown b w - divDown a w) > 0 then (divDown a w + 1) * w - a
        else a - divDown a w * w)| ≤ 2 ^ 53 := by
    rw [abs_of_nonneg hA]
    omega
  refine ⟨e1, hv, e2, ?_, r1, ?_, ?_, roundQ_nonneg _ he0⟩
  · rw [hstep]
    apply div_fin _ _ (le_trans hwabs (by norm_num)) hvabs (ne_of_gt hv)
    rw [← hstep]
    exact lt_of_le_of_lt r2 (by norm_num)
  · have := (abs_le.mp r2).2
    norm_num at this
    exact this
  · rw [hexit]
    apply div_fin _ _ hAabs hvabs (ne_of_gt hv)
    rw [← hexit]
    exact lt_of_le_of_lt r3 (by norm_num)

/-! ## CellsTouchingSegment on 64-bit integers and float64: the walk in range -/

theorem divDown_within (n d : Int) (hd : 0 < d) (hn : |n| ≤ 2 ^ 50) :
    -1125899906842625 ≤ divDown n d ∧ divDown n d ≤ 1125899906842625 := by
  have := abs_le.mp (le_trans (divDown_abs_le n d hd) (show |n| + 1 ≤ 1125899906842625 by omega))
  exact this

theorem walkBound_le (cellSize start end_ : I2) (hx : 0 < cellSize.X) (hy : 0 < cellSize.Y)
    (hs : start.Within (2 ^ 50)) (he : end_.Within (2 ^ 50)) :
    walkBound cellSize start end_ ≤ 18014398509481984 := by
  obtain ⟨s1, s2⟩ := within_abs _ _ hs
  obtain ⟨e1, e2⟩ := within_abs _ _ he
  have a1 := divDown_within start.X cellSize.X hx s1
  have a2 := divDown_within start.Y cellSize.Y hy s2
  have a3 := divDown_within end_.X cellSize.X hx e1
  have a4 := divDown_within end_.Y cellSize.Y hy e2
  obtain ⟨s1, s2, s3, s4⟩ := hs
  obtain ⟨e1, e2, e3, e4⟩ := he
  norm_num at s1 s2 s3 s4 e1 e2 e3 e4
  unfold walkBound cellDist cell
  simp only []
  omega

/-- The cells and the direction of the walk, with coordinates of magnitude at most
2^50: nothing wraps. -/
theorem walk_start64 (cellSize start end_ : I2) (hx : 0 < cellSize.X) (hy : 0 < cellSize.Y)
    (hc : cellSize.Within (2 ^ 50)) (hs : start.Within (2 ^ 50)) (he : end_.Within (2 ^ 50)) :
    cell64 start cellSize = some (cell start cellSize) ∧
    cell64 end_ cellSize = some (cell end_ cellSize) ∧
    (cell end_ cellSize).Sub64 (cell start cellSize) =
      (cell end_ cellSize).Sub (cell start cellSize) := by
  obtain ⟨h1, h2⟩ := cell64_eq start cellSize hs hx hy hc
  obtain ⟨h3, h4⟩ := cell64_eq end_ cellSize he hx hy hc
  exact ⟨h1, h3, Sub64_eq _ _ _ _ h4 h2 (by norm_num)⟩

/-- The axis-aligned case with coordinates of magnitude at most 2^50: the walk on
64-bit integers is the walk over unbounded integers. -/
theorem segmentCells64_axis_case (cellSize start end_ : I2) (hx : 0 < cellSize.X)
    (hy : 0 < cellSize.Y) (hc : cellSize.Within (2 ^ 50)) (hs : start.Within (2 ^ 50))
    (he : end_.Within (2 ^ 50))
    (hax : ((cell end_ cellSize).Sub (cell start cellSize)).Sgn.X = 0 ∨
      ((cell end_ cellSize).Sub (cell start cellSize)).Sgn.Y = 0)
    (fuel : Nat) (hf : fuel ≤ 2305843009213693952) :
    segmentCells64 fuel cellSize start end_ = segmentCells fuel cellSize start end_ := by
  obtain ⟨h1, h2, h3⟩ := walk_start64 cellSize start end_ hx hy hc hs he
  obtain ⟨-, hp⟩ := cell64_eq start cellSize hs hx hy hc
  obtain ⟨p1, p2⟩ := within_abs _ _ hp
  have e64 : segmentCells64 fuel cellSize start end_ =
      axisCells64 (cell end_ cellSize) ((cell end_ cellSize).Sub (cell start cellSize)).Sgn fuel
        (cell start cellSize) := by
    unfold segmentCells64
    rw [h1, h2]
    simp only []
    rw [h3, if_pos hax]
  have e : segmentCells fuel cellSize start end_ =
      axisCells (cell end_ cellSize) ((cell end_ cellSize).Sub (cell start cellSize)).Sgn fuel
        (cell start cellSize) := by
    unfold segmentCells
    simp only []
    rw [if_pos hax]
  rw [e64, e]
  have q1 := (abs_le.mp p1)
  have q2 := (abs_le.mp p2)
  have hf' : (fuel : Int) ≤ 2305843009213693952 := by exact_mod_cast hf
  norm_num at q1 q2
  have e62 : (2 : Int) ^ 62 = 4611686018427387904 := by norm_num
  have g1 : |(cell start cellSize).X| + (fuel : Int) ≤ 2 ^ 62 := by
    have : |(cell start cellSize).X| ≤ 1125899906842625 := abs_le.mpr ⟨by omega, by omega⟩
    rw [e62]
    linarith
  have g2 : |(cell start cellSize).Y| + (fuel : Int) ≤ 2 ^ 62 := by
    have : |(cell start cellSize).Y| ≤ 1125899906842625 := abs_le.mpr ⟨by omega, by omega⟩
    rw [e62]
    linarith
  have hsx : |((cell end_ cellSize).Sub (cell start cellSize)).Sgn.X| ≤ 1 := by
    simp only [I2.Sgn]
    exact abs_Sgn_le _
  have hsy : |((cell end_ cellSize).Sub (cell start cellSize)).Sgn.Y| ≤ 1 := by
    simp only [I2.Sgn]
    exact abs_Sgn_le _
  exact axisCells64_eq _ _ hsx hsy fuel _ g1 g2

/-- The general case with coordinates of magnitude at most 2^50: the walk starts from
the rounded exact steps and parameters. -/
theorem segmentCells64_general_case (cellSize start end_ : I2) (hx : 0 < cellSize.X)
    (hy : 0 < cellSize.Y) (hc : cellSize.Within (2 ^ 50)) (hs : start.Within (2 ^ 50))
    (he : end_.Within (2 ^ 50))
    (hax : ¬ (((cell end_ cellSize).Sub (cell start cellSize)).Sgn.X = 0 ∨
      ((cell end_ cellSize).Sub (cell start cellSize)).Sgn.Y = 0))
    (fuel : Nat) :
    segmentCells64 fuel cellSize start end_ =
      generalCells64 (cell end_ cellSize) ((cell end_ cellSize).Sub (cell start cellSize)).Sgn
        ⟨F64.fin (roundQ (stepParam cellSize start end_).X),
          F64.fin (roundQ (stepParam cellSize start end_).Y)⟩ fuel (cell start cellSize)
        ⟨F64.fin (roundQ (exitParam cellSize start end_ (cell start cellSize)).X),
          F64.fin (roundQ (exitParam cellSize start end_ (cell start cellSize)).Y)⟩ ∧
    1 / 2 ^ 51 ≤ roundQ (stepParam cellSize start end_).X ∧
    roundQ (stepParam cellSize start end_).X ≤ 2 ^ 50 ∧
    1 / 2 ^ 51 ≤ roundQ (stepParam cellSize start end_).Y ∧
    roundQ (stepParam cellSize start end_).Y ≤ 2 ^ 50 ∧
    0 ≤ roundQ (exitParam cellSize start end_ (cell start cellSize)).X ∧
    0 ≤ roundQ (exitParam cellSize start end_ (cell start cellSize)).Y ∧
    0 < ((end_.Sub64 start).EMul64 ((cell end_ cellSize).Sub (cell start cellSize)).Sgn).X ∧
    0 < ((end_.Sub64 start).EMul64 ((cell end_ cellSize).Sub (cell start cellSize)).Sgn).Y := by
  obtain ⟨h1, h2, h3⟩ := walk_start64 cellSize start end_ hx hy hc hs he
  push_neg at hax
  obtain ⟨s1, s2⟩ := within_abs _ _ hs
  obtain ⟨e1, e2⟩ := within_abs _ _ he
  obtain ⟨aX1, aX2, aX3, aX4, aX5, aX6, aX7, aX8⟩ :=
    axis_init64 cellSize.X start.X end_.X hx hc.2.1 s1 e1 hax.1
  obtain ⟨aY1, aY2, aY3, aY4, aY5, aY6, aY7, aY8⟩ :=
    axis_init64 cellSize.Y start.Y end_.Y hy hc.2.2.2 s2 e2 hax.2
  have vX : ((end_.Sub64 start).EMul64 ((cell end_ cellSize).Sub (cell start cellSize)).Sgn).X =
      (end_.X - start.X) * Sgn (divDown end_.X cellSize.X - divDown start.X cellSize.X) := aX1
  have vY : ((end_.Sub64 start).EMul64 ((cell end_ cellSize).Sub (cell start cellSize)).Sgn).Y =
      (end_.Y - start.Y) * Sgn (divDown end_.Y cellSize.Y - divDown start.Y cellSize.Y) := aY1
  refine ⟨?_, aX5, aX6, aY5, aY6, aX8, aY8, by rw [vX]; exact aX2, by rw [vY]; exact aY2⟩
  unfold segmentCells64
  rw [h1, h2]
  simp only []
  rw [h3, if_neg (by push_neg; exact hax), vX, vY]
  have tX : (if ((cell end_ cellSize).Sub (cell start cellSize)).Sgn.X > 0
      then F64.ofInt (sub64 (mul64 (add64 (cell start cellSize).X 1) cellSize.X) start.X)
      else F64.ofInt (sub64 start.X (mul64 (cell start cellSize).X cellSize.X))) =
      F64.ofInt (if Sgn (divDown end_.X cellSize.X - divDown start.X cellSize.X) > 0
        then (divDown start.X cellSize.X + 1) * cellSize.X - start.X
        else start.X - divDown start.X cellSize.X * cellSize.X) := by
    rw [← aX3]
    show (if Sgn (divDown end_.X cellSize.X - divDown start.X cellSize.X) > 0 then _ else _) = _
    split_ifs <;> rfl
  have tY : (if ((cell end_ cellSize).Sub (cell start cellSize)).Sgn.Y > 0
      then F64.ofInt (sub64 (mul64 (add64 (cell start cellSize).Y 1) cellSize.Y) start.Y)
      else F64.ofInt (sub64 start.Y (mul64 (cell start cellSize).Y cellSize.Y))) =
      F64.ofInt (if Sgn (divDown end_.Y cellSize.Y - divDown start.Y cellSize.Y) > 0
        then (divDown start.Y cellSize.Y + 1) * cellSize.Y - start.Y
        else start.Y - divDown start.Y cellSize.Y * cellSize.Y) := by
    rw [← aY3]
    show (if Sgn (divDown end_.Y cellSize.Y - divDown start.Y cellSize.Y) > 0 then _ else _) = _
    split_ifs <;> rfl
  rw [tX, tY, aX4, aY4, aX7, aY7]
  rfl

/-- With a positive cell size and coordinates of magnitude at most 2^50 the walk on
64-bit integers and float64 visits a fixed list of at most walkBound64 cells, whatever
the fuel from walkBound64 on. -/
theorem segmentCells64_total (cellSize start end_ : I2) (hx : 0 < cellSize.X)
    (hy : 0 < cellSize.Y) (hc : cellSize.Within (2 ^ 50)) (hs : start.Within (2 ^ 50))
    (he : end_.Within (2 ^ 50)) :
    ∃ cs : List I2, cs ≠ [] ∧ cs.length ≤ walkBound64 cellSize start end_ ∧
      ∀ fuel, walkBound64 cellSize start end_ ≤ fuel →
        segmentCells64 fuel cellSize start end_ = some cs := by
  have hwb := walkBound_le cellSize start end_ hx hy hs he
  by_cases hax : ((cell end_ cellSize).Sub (cell start cellSize)).Sgn.X = 0 ∨
      ((cell end_ cellSize).Sub (cell start cellSize)).Sgn.Y = 0
  · obtain ⟨cs, hhead, hlen, htot⟩ := segmentCells_total cellSize start end_ hx hy
    have h0 := htot _ (le_refl _)
    rw [← segmentCells64_axis_case cellSize start end_ hx hy hc hs he hax _ (by omega)] at h0
    refine ⟨cs, ?_, ?_, fun fuel hf => segmentCells64_mono _ _ _ _ _ _ h0 ?_⟩
    · intro h
      rw [h] at hhead
      simp at hhead
    · unfold walkBound64
      omega
    · unfold walkBound64 at hf
      omega
  · obtain ⟨hg, dX1, dX2, dY1, dY2, tX, tY, -, -⟩ :=
      segmentCells64_general_case cellSize start end_ hx hy hc hs he hax 18014398509481985
    have m1 := walkMeasure_le _ tX
    have m2 := walkMeasure_le _ tY
    obtain ⟨cs, hcs⟩ := generalCells64_total (cell end_ cellSize)
      ((cell end_ cellSize).Sub (cell start cellSize)).Sgn _ _ dX1 dX2 dY1 dY2 18014398509481985
      (cell start cellSize) _ _ tX tY (by norm_num at m1 m2; omega)
    rw [← hg] at hcs
    refine ⟨cs, ?_, ?_, fun fuel hf => segmentCells64_mono _ _ _ _ _ _ hcs ?_⟩
    · intro h
      rw [hg] at hcs
      have := generalCells64_head _ _ _ _ _ _ _ hcs
      rw [h] at this
      simp at this
    · rw [hg] at hcs
      have := generalCells64_length _ _ _ _ _ _ _ hcs
      unfold walkBound64
      norm_num
      omega
    · unfold walkBound64 at hf
      norm_num at hf
      omega

/-! ## CellsTouchingSegment on 64-bit integers and float64: C15 -/

/-- In the general case of the walk from (-2^62, 0) to (2^62, 1) with cells of size
(2^61, 1) the step along X is negative, so the parameter of X never exceeds that of Y
and the row of the current cell never changes: the loop never returns. -/
theorem generalLoop64_stuck : ∀ (n : Nat) (p : I2) (tX : F64) (st : List I2), p.Y = 0 →
    (tX = F64.inf true ∨ ∃ x : ℚ, tX = F64.fin x ∧ x ≤ 0) →
    generalLoop64 recordTouch ⟨2, 1⟩ ⟨1, 1⟩ ⟨F64.fin (-1 / 4), F64.fin 1⟩ n p ⟨tX, F64.fin 1⟩ st =
      none := by
  intro n
  induction n with
  | zero => intro p tX st _ _; rfl
  | succ n ih =>
    intro p tX st hp ht
    have hpq : p ≠ ⟨2, 1⟩ := by
      intro h
      rw [h] at hp
      exact absurd hp (by decide)
    simp only [generalLoop64, recordTouch, Bool.not_true, Bool.false_eq_true, if_false, hpq]
    rcases ht with rfl | ⟨x, rfl, hx⟩
    · have e1 : ((F64.fin 1).lt (F64.inf true) && (F64.fin 1).lt (F64.fin 1)) = false := by
        simp [F64.lt]
      have e2 : (F64.inf true).lt (F64.fin 1) = true := rfl
      rw [e1, e2]
      simp only [Bool.false_eq_true, if_false, if_true]
      exact ih _ _ _ hp (Or.inl rfl)
    · have e1 : ((F64.fin 1).lt (F64.fin x) && (F64.fin 1).lt (F64.fin 1)) = false := by
        simp [F64.lt]
      have e2 : (F64.fin x).lt (F64.fin 1) = true := by
        simp only [F64.lt, decide_eq_true_eq]
        linarith
      rw [e1, e2]
      simp only [Bool.false_eq_true, if_false, if_true]
      refine ih ⟨add64 p.X 1, p.Y⟩ _ _ hp ?_
      have hneg : x + -1 / 4 < 0 := by linarith
      have key : ∀ z : ℚ, z < 0 →
          (round64 z = F64.inf true ∨ ∃ x' : ℚ, round64 z = F64.fin x' ∧ x' ≤ 0) := by
        intro z hz
        unfold round64
        split_ifs with c
        · left
          simp [hz]
        · right
          refine ⟨_, rfl, ?_⟩
          have := roundQ_mono _ _ (le_of_lt hz)
          rwa [roundQ_zero] at this
      exact key _ hneg

/-- C15 as stated fails on 64-bit integers and float64: with cells of size (2^61, 1)
the walk from (-2^62, 0) to (2^62, 1) never returns, however many iterations it is
allowed: `end.X - start.X` wraps to -2^63, so the step d.X is -0.25. -/
theorem CellsTouchingSegment64_diverges :
    (0 : Int) < (⟨2 ^ 61, 1⟩ : I2).X ∧ (0 : Int) < (⟨2 ^ 61, 1⟩ : I2).Y ∧
    ((⟨2 ^ 62, 1⟩ : I2).Sub64 ⟨-2 ^ 62, 0⟩).EMul64 ⟨1, 1⟩ = ⟨-2 ^ 63, 1⟩ ∧
    ∀ fuel : Nat,
      CellsTouchingSegment64 fuel ⟨2 ^ 61, 1⟩ ⟨-2 ^ 62, 0⟩ ⟨2 ^ 62, 1⟩ recordTouch [] = none := by
  refine ⟨by decide, by decide, by decide, fun fuel => ?_⟩
  have h1 : cell64 ⟨-2 ^ 62, 0⟩ ⟨2 ^ 61, 1⟩ = some ⟨-2, 0⟩ := by decide
  have h2 : cell64 ⟨2 ^ 62, 1⟩ ⟨2 ^ 61, 1⟩ = some ⟨2, 1⟩ := by decide
  have h3 : ((⟨2, 1⟩ : I2).Sub64 ⟨-2, 0⟩).Sgn = ⟨1, 1⟩ := by decide
  have h4 : ((⟨2 ^ 62, 1⟩ : I2).Sub64 ⟨-2 ^ 62, 0⟩).EMul64 ⟨1, 1⟩ = ⟨-2 ^ 63, 1⟩ := by decide
  have h5 : (F64.ofInt (2 ^ 61)).div (F64.ofInt (-2 ^ 63)) = F64.fin (-1 / 4) := by
    set_option maxRecDepth 100000 in
    decide!
  have h6 : (F64.ofInt 1).div (F64.ofInt 1) = F64.fin 1 := by
    set_option maxRecDepth 100000 in
    decide!
  have h7 : (F64.ofInt (sub64 (mul64 (add64 (-2) 1) (2 ^ 61)) (-2 ^ 62))).div
      (F64.ofInt (-2 ^ 63)) = F64.fin (-1 / 4) := by
    set_option maxRecDepth 100000 in
    decide!
  have h8 : (F64.ofInt (sub64 (mul64 (add64 0 1) 1) 0)).div (F64.ofInt 1) = F64.fin 1 := by
    set_option maxRecDepth 100000 in
    decide!
  unfold CellsTouchingSegment64
  rw [h1, h2]
  simp only [h3, h4]
  rw [if_neg (by decide), if_pos (by decide), if_pos (by decide), h5, h6, h7, h8]
  exact generalLoop64_stuck fuel _ _ _ rfl (Or.inr ⟨_, rfl, by norm_num⟩)

/-- C15, amended: for a cell size with both components positive and at most 2^50,
every start and end with coordinates of magnitude at most 2^50 and every touch
callback, CellsTouchingSegment (64-bit integers and float64) terminates: allowed
walkBound64 iterations or more it returns a result, the same for every allowance, after
at most walkBound64 calls to touch; and in the general case both divisors v.X, v.Y
are positive, both steps d.X, d.Y are positive float64 values, and adding a step to a
parameter between 0 and 1 gives a strictly larger finite parameter. -/
theorem CellsTouchingSegment64_terminates (cellSize start end_ : I2)
    (hx : 0 < cellSize.X) (hy : 0 < cellSize.Y) (hc : cellSize.Within (2 ^ 50))
    (hs : start.Within (2 ^ 50)) (he : end_.Within (2 ^ 50)) :
    (∀ (σ : Type) (touch : I2 → σ → Bool × σ) (st : σ),
      ∃ (r : Bool × σ) (calls : List (I2 × Bool)),
        calls.length ≤ walkBound64 cellSize start end_ ∧
        ∀ fuel, walkBound64 cellSize start end_ ≤ fuel →
          CellsTouchingSegment64 fuel cellSize start end_ touch st = some r ∧
          CellsTouchingSegment64 fuel cellSize start end_ (logTouch touch) (st, []) =
            some (r.1, (r.2, calls))) ∧
    (∀ p q : I2, cell64 start cellSize = some p → cell64 end_ cellSize = some q →
      (q.Sub64 p).Sgn.X ≠ 0 → (q.Sub64 p).Sgn.Y ≠ 0 →
      0 < ((end_.Sub64 start).EMul64 (q.Sub64 p).Sgn).X ∧
      0 < ((end_.Sub64 start).EMul64 (q.Sub64 p).Sgn).Y ∧
      ∃ dx dy : ℚ,
        (F64.ofInt cellSize.X).div (F64.ofInt ((end_.Sub64 start).EMul64 (q.Sub64 p).Sgn).X) =
          F64.fin dx ∧
        (F64.ofInt cellSize.Y).div (F64.ofInt ((end_.Sub64 start).EMul64 (q.Sub64 p).Sgn).Y) =
          F64.fin dy ∧
        0 < dx ∧ 0 < dy ∧
        ∀ x : ℚ, 0 ≤ x → x ≤ 1 →
          (∃ x' : ℚ, (F64.fin x).add (F64.fin dx) = F64.fin x' ∧ x < x') ∧
          (∃ x' : ℚ, (F64.fin x).add (F64.fin dy) = F64.fin x' ∧ x < x')) := by
  constructor
  · intro σ touch st
    obtain ⟨cs, hne, hlen, htot⟩ := segmentCells64_total cellSize start end_ hx hy hc hs he
    obtain ⟨pre, c, hlog, _, hpre, _, hr1, hr2⟩ := runTouch_log touch cs hne st []
    refine ⟨runTouch touch cs st, (runTouch (logTouch touch) cs (st, [])).2.2, ?_, ?_⟩
    · have h1 := hpre.length_le
      rw [hlog]
      simp only [List.nil_append, List.length_map] at h1 ⊢
      omega
    · intro fuel hf
      refine ⟨CellsTouchingSegment64_eq_runTouch fuel cellSize start end_ touch st cs
        (htot fuel hf), ?_⟩
      rw [CellsTouchingSegment64_eq_runTouch fuel cellSize start end_ (logTouch touch) (st, []) cs
        (htot fuel hf), ← hr1, ← hr2]
  · intro p q hp hq hsX hsY
    obtain ⟨h1, h2, h3⟩ := walk_start64 cellSize start end_ hx hy hc hs he
    rw [h1] at hp
    rw [h2] at hq
    cases hp
    cases hq
    rw [h3] at hsX hsY ⊢
    obtain ⟨sw1, sw2⟩ := within_abs _ _ hs
    obtain ⟨ew1, ew2⟩ := within_abs _ _ he
    obtain ⟨aX1, aX2, -, aX4, aX5, aX6, -, -⟩ :=
      axis_init64 cellSize.X start.X end_.X hx hc.2.1 sw1 ew1 hsX
    obtain ⟨aY1, aY2, -, aY4, aY5, aY6, -, -⟩ :=
      axis_init64 cellSize.Y start.Y end_.Y hy hc.2.2.2 sw2 ew2 hsY
    have vX : ((end_.Sub64 start).EMul64 ((cell end_ cellSize).Sub (cell start cellSize)).Sgn).X =
        (end_.X - start.X) * Sgn (divDown end_.X cellSize.X - divDown start.X cellSize.X) := aX1
    have vY : ((end_.Sub64 start).EMul64 ((cell end_ cellSize).Sub (cell start cellSize)).Sgn).Y =
        (end_.Y - start.Y) * Sgn (divDown end_.Y cellSize.Y - divDown start.Y cellSize.Y) := aY1
    rw [vX, vY]
    refine ⟨aX2, aY2, _, _, aX4, aY4, lt_of_lt_of_le (by positivity) aX5,
      lt_of_lt_of_le (by positivity) aY5, fun x hx0 hx1 => ⟨?_, ?_⟩⟩
    · obtain ⟨e, inc, _⟩ := step_increase x _ hx0 hx1 aX5 aX6
      exact ⟨_, e, lt_of_lt_of_le (by linarith [show (0 : ℚ) < 1 / 2 ^ 52 by positivity]) inc⟩
    · obtain ⟨e, inc, _⟩ := step_increase x _ hx0 hx1 aY5 aY6
      exact ⟨_, e, lt_of_lt_of_le (by linarith [show (0 : ℚ) < 1 / 2 ^ 52 by positivity]) inc⟩

/-- C15 on a general-case segment with cells of size 16, the callback recording the
cells. -/
theorem CellsTouchingSegment64_terminates_witness :
    ∃ (r : Bool × List I2) (calls : List (I2 × Bool)),
      calls.length ≤ walkBound64 ⟨16, 16⟩ ⟨3, 5⟩ ⟨40, -30⟩ ∧
      ∀ fuel, walkBound64 ⟨16, 16⟩ ⟨3, 5⟩ ⟨40, -30⟩ ≤ fuel →
        CellsTouchingSegment64 fuel ⟨16, 16⟩ ⟨3, 5⟩ ⟨40, -30⟩ recordTouch [] = some r ∧
        CellsTouchingSegment64 fuel ⟨16, 16⟩ ⟨3, 5⟩ ⟨40, -30⟩ (logTouch recordTouch) ([], []) =
          some (r.1, (r.2, calls)) :=
  (CellsTouchingSegment64_terminates ⟨16, 16⟩ ⟨3, 5⟩ ⟨40, -30⟩ (by decide) (by decide)
    (by unfold I2.Within; decide) (by unfold I2.Within; decide)
    (by unfold I2.Within; decide)).1 (List I2) recordTouch []

/-! ## CellsTouchingSegment on float64: the cells visited when no operation rounds -/

theorem add_exact (x y : ℚ) (h : IsF64 (x + y)) :
    (F64.fin x).add (F64.fin y) = F64.fin (x + y) := by
  rw [add_fin x y (by rw [h.1]; exact h.2), h.1]

/-- The walk of the general case on 64-bit integers and float64 visits the cells of the
walk in exact arithmetic when every parameter it computes is a float64 and the cell
indices stay far from the ends of the 64-bit range. -/
theorem generalCells64_exact (q s : I2) (tx ty dx dy : ℚ) (N : Nat)
    (hsX : |s.X| ≤ 1) (hsY : |s.Y| ≤ 1)
    (hX : ∀ k : Nat, k ≤ N → IsF64 (tx + (k : ℚ) * dx))
    (hY : ∀ k : Nat, k ≤ N → IsF64 (ty + (k : ℚ) * dy)) :
    ∀ (fuel i j : Nat) (p : I2), i + j + fuel ≤ N →
      |p.X| + (fuel : Int) ≤ 2 ^ 62 → |p.Y| + (fuel : Int) ≤ 2 ^ 62 →
      generalCells64 q s ⟨F64.fin dx, F64.fin dy⟩ fuel p
          ⟨F64.fin (tx + (i : ℚ) * dx), F64.fin (ty + (j : ℚ) * dy)⟩ =
        generalCells q s ⟨dx, dy⟩ fuel p ⟨tx + (i : ℚ) * dx, ty + (j : ℚ) * dy⟩ := by
  intro fuel
  induction fuel with
  | zero =>
    intro i j p _ _ _
    rfl
  | succ n ih =>
    intro i j p hN hpX hpY
    simp only [generalCells64, generalCells, lt_fin]
    have hsX' := abs_le.mp hsX
    have hsY' := abs_le.mp hsY
    have hpX' : |p.X| ≤ 2 ^ 62 - ((n : Int) + 1) := by push_cast at hpX; omega
    have hpY' : |p.Y| ≤ 2 ^ 62 - ((n : Int) + 1) := by push_cast at hpY; omega
    have hpX'' := abs_le.mp hpX'
    have hpY'' := abs_le.mp hpY'
    have aX : add64 p.X s.X = p.X + s.X := by
      unfold add64
      exact wrap64_of_inInt64 _ ⟨by omega, by omega⟩
    have aY : add64 p.Y s.Y = p.Y + s.Y := by
      unfold add64
      exact wrap64_of_inInt64 _ ⟨by omega, by omega⟩
    have eX : (F64.fin (tx + (i : ℚ) * dx)).add (F64.fin dx) =
        F64.fin (tx + ((i + 1 : Nat) : ℚ) * dx) := by
      have e : tx + ((i + 1 : Nat) : ℚ) * dx = tx + (i : ℚ) * dx + dx := by
        push_cast
        ring
      rw [e]
      apply add_exact
      rw [← e]
      exact hX _ (by omega)
    have eY : (F64.fin (ty + (j : ℚ) * dy)).add (F64.fin dy) =
        F64.fin (ty + ((j + 1 : Nat) : ℚ) * dy) := by
      have e : ty + ((j + 1 : Nat) : ℚ) * dy = ty + (j : ℚ) * dy + dy := by
        push_cast
        ring
      rw [e]
      apply add_exact
      rw [← e]
      exact hY _ (by omega)
    have cX : tx + ((i + 1 : Nat) : ℚ) * dx = tx + (i : ℚ) * dx + dx := by
      push_cast
      ring
    have cY : ty + ((j + 1 : Nat) : ℚ) * dy = ty + (j : ℚ) * dy + dy := by
      push_cast
      ring
    by_cases hpq : p = q
    · rw [if_pos hpq, if_pos hpq]
    · rw [if_neg hpq, if_neg hpq]
      by_cases hout : tx + (i : ℚ) * dx > 1 ∧ ty + (j : ℚ) * dy > 1
      · rw [if_pos hout, if_pos (by simpa using hout)]
      · rw [if_neg hout, if_neg (by simpa using hout)]
        by_cases hlt : tx + (i : ℚ) * dx < ty + (j : ℚ) * dy
        · rw [if_pos hlt, if_pos (by simpa using hlt), eX, aX]
          have h := ih (i + 1) j ⟨p.X + s.X, p.Y⟩ (by omega)
            (by
              show |p.X + s.X| + (n : Int) ≤ 2 ^ 62
              have : |p.X + s.X| ≤ |p.X| + 1 := by
                rw [abs_le]
                constructor <;> [skip; skip] <;> rw [abs_le] at hpX' <;>
                  rcases abs_cases p.X with ⟨h1, _⟩ | ⟨h1, _⟩ <;> omega
              omega)
            (by
              show |p.Y| + (n : Int) ≤ 2 ^ 62
              push_cast at hpY
              omega)
          rw [h, cX]
        · rw [if_neg hlt, if_neg (by simpa using hlt), eY, aY]
          have h := ih i (j + 1) ⟨p.X, p.Y + s.Y⟩ (by omega)
            (by
              show |p.X| + (n : Int) ≤ 2 ^ 62
              push_cast at hpX
              omega)
            (by
              show |p.Y + s.Y| + (n : Int) ≤ 2 ^ 62
              have : |p.Y + s.Y| ≤ |p.Y| + 1 := by
                rw [abs_le]
                constructor <;> [skip; skip] <;> rw [abs_le] at hpY' <;>
                  rcases abs_cases p.Y with ⟨h1, _⟩ | ⟨h1, _⟩ <;> omega
              omega)
          rw [h, cY]

/-- With coordinates of magnitude at most 2^50 and no rounding in the walk, the cells
visited on 64-bit integers and float64 are the cells of the walk in exact arithmetic. -/
theorem segmentCells64_exact (cellSize start end_ : I2) (hx : 0 < cellSize.X)
    (hy : 0 < cellSize.Y) (hc : cellSize.Within (2 ^ 50)) (hs : start.Within (2 ^ 50))
    (he : end_.Within (2 ^ 50)) (hexact : exactWalk cellSize start end_) :
    segmentCells64 (walkBound cellSize start end_) cellSize start end_ =
      segmentCells (walkBound cellSize start end_) cellSize start end_ := by
  have hwb := walkBound_le cellSize start end_ hx hy hs he
  by_cases hax : ((cell end_ cellSize).Sub (cell start cellSize)).Sgn.X = 0 ∨
      ((cell end_ cellSize).Sub (cell start cellSize)).Sgn.Y = 0
  · exact segmentCells64_axis_case cellSize start end_ hx hy hc hs he hax _ (by omega)
  · obtain ⟨hg, -⟩ := segmentCells64_general_case cellSize start end_ hx hy hc hs he hax
      (walkBound cellSize start end_)
    obtain ⟨eX, eY, eT⟩ : IsF64 (stepParam cellSize start end_).X ∧
        IsF64 (stepParam cellSize start end_).Y ∧
        ∀ k : Nat, k ≤ walkBound cellSize start end_ →
          IsF64 ((exitParam cellSize start end_ (cell start cellSize)).X +
            (k : ℚ) * (stepParam cellSize start end_).X) ∧
          IsF64 ((exitParam cellSize start end_ (cell start cellSize)).Y +
            (k : ℚ) * (stepParam cellSize start end_).Y) := by
      rcases hexact with h | h | h
      · exact absurd (Or.inl h) hax
      · exact absurd (Or.inr h) hax
      · exact h
    obtain ⟨-, hp⟩ := cell64_eq start cellSize hs hx hy hc
    obtain ⟨p1, p2⟩ := within_abs _ _ hp
    have hsX : |((cell end_ cellSize).Sub (cell start cellSize)).Sgn.X| ≤ 1 := by
      simp only [I2.Sgn]
      exact abs_Sgn_le _
    have hsY : |((cell end_ cellSize).Sub (cell start cellSize)).Sgn.Y| ≤ 1 := by
      simp only [I2.Sgn]
      exact abs_Sgn_le _
    have h0 := generalCells64_exact (cell end_ cellSize)
      ((cell end_ cellSize).Sub (cell start cellSize)).Sgn
      (exitParam cellSize start end_ (cell start cellSize)).X
      (exitParam cellSize start end_ (cell start cellSize)).Y
      (stepParam cellSize start end_).X (stepParam cellSize start end_).Y
      (walkBound cellSize start end_) hsX hsY (fun k hk => (eT k hk).1) (fun k hk => (eT k hk).2)
      (walkBound cellSize start end_) 0 0 (cell start cellSize) (by omega)
      (by
        have : ((walkBound cellSize start end_ : Nat) : Int) ≤ 18014398509481984 := by exact_mod_cast hwb
        norm_num at p1 ⊢
        omega)
      (by
        have : ((walkBound cellSize start end_ : Nat) : Int) ≤ 18014398509481984 := by exact_mod_cast hwb
        norm_num at p2 ⊢
        omega)
    simp only [Nat.cast_zero, zero_mul, add_zero] at h0
    have tX := (eT 0 (Nat.zero_le _)).1.1
    have tY := (eT 0 (Nat.zero_le _)).2.1
    simp only [Nat.cast_zero, zero_mul, add_zero] at tX tY
    rw [hg, eX.1, eY.1, tX, tY, h0, segmentCells_general_eq _ _ _ _ hax]

/-- C14, as stated, fails on the code in three ways (64-bit integers and float64, touch
recording the cells). From (0,0) to (1,1) with unit cells the cell (0,1) is touched,
whose half-open rectangle [0,1) x [1,2) holds no point of the segment. From (1,2) to
(2,0) with cells of size (2,2) the cell (1,0), whose half-open rectangle holds the end
point, is not touched. From (-4,-4) to (-8,9) with cells of size (3,3) the float64
parameters are rounded and the cell (-3,3), which holds the end point, is not
touched. -/
theorem CellsTouchingSegment64_cells_counterexample :
    (CellsTouchingSegment64 10 ⟨1, 1⟩ ⟨0, 0⟩ ⟨1, 1⟩ recordTouch [] =
        some (true, [⟨0, 0⟩, ⟨0, 1⟩, ⟨1, 1⟩]) ∧
      ¬ ∃ τ : ℝ, 0 ≤ τ ∧ τ ≤ 1 ∧
        ((0 : Int) : ℝ) * ((1 : Int) : ℝ) ≤ ((0 : Int) : ℝ) + τ * (((1 : Int) : ℝ) - ((0 : Int) : ℝ)) ∧
        ((0 : Int) : ℝ) + τ * (((1 : Int) : ℝ) - ((0 : Int) : ℝ)) < (((0 : Int) : ℝ) + 1) * ((1 : Int) : ℝ) ∧
        ((1 : Int) : ℝ) * ((1 : Int) : ℝ) ≤ ((0 : Int) : ℝ) + τ * (((1 : Int) : ℝ) - ((0 : Int) : ℝ)) ∧
        ((0 : Int) : ℝ) + τ * (((1 : Int) : ℝ) - ((0 : Int) : ℝ)) < (((1 : Int) : ℝ) + 1) * ((1 : Int) : ℝ)) ∧
    (CellsTouchingSegment64 10 ⟨2, 2⟩ ⟨1, 2⟩ ⟨2, 0⟩ recordTouch [] =
        some (true, [⟨0, 1⟩, ⟨0, 0⟩, ⟨0, -1⟩, ⟨1, -1⟩]) ∧
      cell ⟨2, 0⟩ ⟨2, 2⟩ = ⟨1, 0⟩) ∧
    (CellsTouchingSegment64 10 ⟨3, 3⟩ ⟨-4, -4⟩ ⟨-8, 9⟩ recordTouch [] =
        some (true, [⟨-2, -2⟩, ⟨-2, -1⟩, ⟨-2, 0⟩, ⟨-3, 0⟩, ⟨-3, 1⟩, ⟨-3, 2⟩]) ∧
      cell ⟨-8, 9⟩ ⟨3, 3⟩ = ⟨-3, 3⟩ ∧
      segmentCells 10 ⟨3, 3⟩ ⟨-4, -4⟩ ⟨-8, 9⟩ =
        some [⟨-2, -2⟩, ⟨-2, -1⟩, ⟨-2, 0⟩, ⟨-3, 0⟩, ⟨-3, 1⟩, ⟨-3, 2⟩, ⟨-3, 3⟩]) := by
  refine ⟨⟨?_, ?_⟩, ⟨?_, ?_⟩, ?_, ?_, ?_⟩
  · set_option maxRecDepth 100000 in decide!
  · rintro ⟨τ, -, -, -, h2, h3, -⟩
    norm_num at h2 h3
    linarith
  · set_option maxRecDepth 100000 in decide!
  · decide
  · set_option maxRecDepth 100000 in decide!
  · decide
  · set_option maxRecDepth 100000 in decide!

/-- C14, amended: for a positive cell size and a segment start-end, all coordinates of
magnitude at most 2^50, on which no float64 operation of the walk rounds (exactWalk:
the walk is axis-aligned, or its steps and parameters are float64 values), with a touch
callback that always returns true, CellsTouchingSegment (64-bit integers and float64)
returns true; every cell passed to touch, taken as the closed rectangle
[x*w, (x+1)*w] x [y*h, (y+1)*h], holds a point of the closed segment; and every cell
whose half-open rectangle [x*w, (x+1)*w) x [y*h, (y+1)*h) holds a point of the closed
segment is passed to touch, unless the walk travels in the direction (+X, -Y) and that
point is the lower-left corner (x*w, y*h) of the cell. -/
theorem CellsTouchingSegment64_cells (cellSize start end_ : I2)
    (hx : 0 < cellSize.X) (hy : 0 < cellSize.Y) (hc : cellSize.Within (2 ^ 50))
    (hs : start.Within (2 ^ 50)) (he : end_.Within (2 ^ 50))
    (hexact : exactWalk cellSize start end_) :
    ∃ cells : List I2,
      (∀ fuel, walkBound cellSize start end_ ≤ fuel →
        CellsTouchingSegment64 fuel cellSize start end_ recordTouch [] = some (true, cells)) ∧
      (∀ c ∈ cells, ∃ τ : ℝ, 0 ≤ τ ∧ τ ≤ 1 ∧
        (c.X : ℝ) * (cellSize.X : ℝ) ≤ (start.X : ℝ) + τ * ((end_.X : ℝ) - (start.X : ℝ)) ∧
        (start.X : ℝ) + τ * ((end_.X : ℝ) - (start.X : ℝ)) ≤ ((c.X : ℝ) + 1) * (cellSize.X : ℝ) ∧
        (c.Y : ℝ) * (cellSize.Y : ℝ) ≤ (start.Y : ℝ) + τ * ((end_.Y : ℝ) - (start.Y : ℝ)) ∧
        (start.Y : ℝ) + τ * ((end_.Y : ℝ) - (start.Y : ℝ)) ≤ ((c.Y : ℝ) + 1) * (cellSize.Y : ℝ)) ∧
      (∀ (c : I2) (τ : ℝ), 0 ≤ τ → τ ≤ 1 →
        (c.X : ℝ) * (cellSize.X : ℝ) ≤ (start.X : ℝ) + τ * ((end_.X : ℝ) - (start.X : ℝ)) →
        (start.X : ℝ) + τ * ((end_.X : ℝ) - (start.X : ℝ)) < ((c.X : ℝ) + 1) * (cellSize.X : ℝ) →
        (c.Y : ℝ) * (cellSize.Y : ℝ) ≤ (start.Y : ℝ) + τ * ((end_.Y : ℝ) - (start.Y : ℝ)) →
        (start.Y : ℝ) + τ * ((end_.Y : ℝ) - (start.Y : ℝ)) < ((c.Y : ℝ) + 1) * (cellSize.Y : ℝ) →
        ¬ (((cell end_ cellSize).Sub (cell start cellSize)).Sgn.X = 1 ∧
          ((cell end_ cellSize).Sub (cell start cellSize)).Sgn.Y = -1 ∧
          (c.X : ℝ) * (cellSize.X : ℝ) =
            (start.X : ℝ) + τ * ((end_.X : ℝ) - (start.X : ℝ)) ∧
          (c.Y : ℝ) * (cellSize.Y : ℝ) =
            (start.Y : ℝ) + τ * ((end_.Y : ℝ) - (start.Y : ℝ))) →
        c ∈ cells) := by
  obtain ⟨cells, htot, hsound, hcompl⟩ := segmentCells_geometry cellSize start end_ hx hy
  refine ⟨cells, fun fuel hf => ?_, hsound, hcompl⟩
  have h0 := htot _ (le_refl _)
  rw [← segmentCells64_exact cellSize start end_ hx hy hc hs he hexact] at h0
  rw [CellsTouchingSegment64_eq_runTouch fuel cellSize start end_ recordTouch [] cells
    (segmentCells64_mono _ _ _ _ _ _ h0 hf), runTouch_record, List.nil_append]

/-- C14 (amended) on a segment that travels in the direction (+X, -Y), cells of size
2: the parameters are multiples of 1/2, so no operation rounds. -/
theorem CellsTouchingSegment64_cells_witness :
    ∃ cells : List I2,
      (∀ fuel, walkBound ⟨2, 2⟩ ⟨0, 3⟩ ⟨4, 1⟩ ≤ fuel →
        CellsTouchingSegment64 fuel ⟨2, 2⟩ ⟨0, 3⟩ ⟨4, 1⟩ recordTouch [] = some (true, cells)) ∧
      (∀ c ∈ cells, ∃ τ : ℝ, 0 ≤ τ ∧ τ ≤ 1 ∧
        (c.X : ℝ) * ((2 : Int) : ℝ) ≤ ((0 : Int) : ℝ) + τ * (((4 : Int) : ℝ) - ((0 : Int) : ℝ)) ∧
        ((0 : Int) : ℝ) + τ * (((4 : Int) : ℝ) - ((0 : Int) : ℝ)) ≤ ((c.X : ℝ) + 1) * ((2 : Int) : ℝ) ∧
        (c.Y : ℝ) * ((2 : Int) : ℝ) ≤ ((3 : Int) : ℝ) + τ * (((1 : Int) : ℝ) - ((3 : Int) : ℝ)) ∧
        ((3 : Int) : ℝ) + τ * (((1 : Int) : ℝ) - ((3 : Int) : ℝ)) ≤ ((c.Y : ℝ) + 1) * ((2 : Int) : ℝ)) ∧
      (∀ (c : I2) (τ : ℝ), 0 ≤ τ → τ ≤ 1 →
        (c.X : ℝ) * ((2 : Int) : ℝ) ≤ ((0 : Int) : ℝ) + τ * (((4 : Int) : ℝ) - ((0 : Int) : ℝ)) →
        ((0 : Int) : ℝ) + τ * (((4 : Int) : ℝ) - ((0 : Int) : ℝ)) < ((c.X : ℝ) + 1) * ((2 : Int) : ℝ) →
        (c.Y : ℝ) * ((2 : Int) : ℝ) ≤ ((3 : Int) : ℝ) + τ * (((1 : Int) : ℝ) - ((3 : Int) : ℝ)) →
        ((3 : Int) : ℝ) + τ * (((1 : Int) : ℝ) - ((3 : Int) : ℝ)) < ((c.Y : ℝ) + 1) * ((2 : Int) : ℝ) →
        ¬ (((cell ⟨4, 1⟩ ⟨2, 2⟩).Sub (cell ⟨0, 3⟩ ⟨2, 2⟩)).Sgn.X = 1 ∧
          ((cell ⟨4, 1⟩ ⟨2, 2⟩).Sub (cell ⟨0, 3⟩ ⟨2, 2⟩)).Sgn.Y = -1 ∧
          (c.X : ℝ) * ((2 : Int) : ℝ) =
            ((0 : Int) : ℝ) + τ * (((4 : Int) : ℝ) - ((0 : Int) : ℝ)) ∧
          (c.Y : ℝ) * ((2 : Int) : ℝ) =
            ((3 : Int) : ℝ) + τ * (((1 : Int) : ℝ) - ((3 : Int) : ℝ))) →
        c ∈ cells) :=
  CellsTouchingSegment64_cells ⟨2, 2⟩ ⟨0, 3⟩ ⟨4, 1⟩ (by decide) (by decide)
    (by unfold I2.Within; decide) (by unfold I2.Within; decide) (by unfold I2.Within; decide)
    (by
      unfold exactWalk IsF64
      set_option maxRecDepth 100000 in decide!)

/-! ## FindPath on float64: the laws of distances and the search without overflow -/

theorem nnf_add_val (a b : NNF) : (a + b).1 = roundQ (a.1 + b.1) := by
  show (if h : 0 ≤ roundQ (a.1 + b.1) ∧ roundQ (roundQ (a.1 + b.1)) = roundQ (a.1 + b.1)
    then (⟨roundQ (a.1 + b.1), h⟩ : NNF) else 0).1 = _
  rw [dif_pos ⟨roundQ_nonneg _ (add_nonneg a.2.1 b.2.1), roundQ_idem _⟩]

theorem nnf_zero_val : (0 : NNF).1 = 0 := rfl

/-- The float64 values that are not negative obey the laws of distances: rounding is
monotone and leaves a float64 unchanged. -/
theorem distLaws_NNF : DistLaws NNF := by
  refine ⟨fun a => a.2.1, fun a => ?_, fun a b => ?_, fun a b c h => ?_⟩
  · apply Subtype.ext
    rw [nnf_add_val, nnf_zero_val, add_zero]
    exact a.2.2
  · show b.1 ≤ (a + b).1
    rw [nnf_add_val, ← b.2.2]
    conv_rhs => rw [b.2.2]
    exact roundQ_mono _ _ (by linarith [a.2.1])
  · show (a + b).1 ≤ (a + c).1
    rw [nnf_add_val, nnf_add_val]
    exact roundQ_mono _ _ (by
      have : b.1 ≤ c.1 := h
      linarith)

/-- The float64 sum of a length and a distance of at most 2^100 is the sum of the
model without overflow. -/
theorem add_embF (x : NNF) (d : WithTop NNF) (hx : x.1 ≤ 2 ^ 22)
    (h : ∀ y : NNF, d = ((y : NNF) : WithTop NNF) → y.1 ≤ 2 ^ 100) :
    (F64.fin x.1).add (embF d) = embF (((x : NNF) : WithTop NNF) + d) := by
  induction d using WithTop.recTopCoe with
  | top => rw [WithTop.add_top, embF_top]; rfl
  | coe y =>
    have hy := h y rfl
    rw [← WithTop.coe_add, embF_coe, embF_coe, nnf_add_val]
    have hab : |roundQ (x.1 + y.1)| ≤ ((1 : Int) : ℚ) * 2 ^ (101 : Int) := by
      apply roundQ_abs_le _ 1 101 (by norm_num) (by norm_num) (by norm_num)
      rw [abs_of_nonneg (add_nonneg x.2.1 y.2.1)]
      have e : ((1 : Int) : ℚ) * 2 ^ (101 : Int) = 2 ^ 100 + 2 ^ 100 := by norm_num
      rw [e]
      have : (2 : ℚ) ^ 22 ≤ 2 ^ 100 := by norm_num
      linarith
    exact add_fin _ _ (lt_of_le_of_lt hab (by norm_num))

theorem toState64_q (s : PathState NNF) : (toState64 s).q = s.q := rfl

theorem toState64_dists (s : PathState NNF) (v : I2) :
    (toState64 s).dists v = embF (s.dists v) := rfl

theorem length_le (u v : I2) (hu : u.Within (10 ^ 6)) (hv : v.Within (10 ^ 6)) :
    (Length sqrtNN u v).1 ≤ 2 ^ 22 := by
  rw [(Length64_eq u v hu hv).2.1]
  exact (sqrt_ofInt _ (dot_self_nonneg _) (dot_sub_le u v hu hv)).2.2.1

/-- One relaxation on float64 is the relaxation of the model without overflow when the
distance of the source is at most 2^100. -/
theorem relax_sim (u v : I2) (s : PathState NNF)
    (hw : v ∈ s.q → u.Within (10 ^ 6) ∧ v.Within (10 ^ 6))
    (h : ∀ y : NNF, s.dists u = ((y : NNF) : WithTop NNF) → y.1 ≤ 2 ^ 100) :
    relax64 u v (toState64 s) = toState64 (relax sqrtNN u v s) := by
  unfold relax64 relax
  rw [toState64_q]
  by_cases hv : v ∈ s.q
  · obtain ⟨wu, wv⟩ := hw hv
    have hadd : (Length64 u v).add ((toState64 s).dists u) =
        embF (((Length sqrtNN u v : NNF) : WithTop NNF) + s.dists u) := by
      rw [(Length64_eq u v wu wv).2.2, embF_coe, toState64_dists]
      exact add_embF _ _ (length_le u v wu wv) h
    rw [if_neg (not_not.mpr hv), if_neg (not_not.mpr hv), hadd, toState64_dists, lt_embF]
    by_cases hlt : ((Length sqrtNN u v : NNF) : WithTop NNF) + s.dists u < s.dists v
    · rw [if_pos hlt, if_pos (by simpa using hlt)]
      unfold toState64
      simp only [PathState64.mk.injEq, and_true]
      funext x
      by_cases hx : x = v
      · subst hx
        simp only [Function.update_same]
      · simp only [Function.update_noteq hx]
    · rw [if_neg hlt, if_neg (by simpa using hlt)]
  · rw [if_pos hv, if_pos hv]

/-- A relaxation keeps the finite distances at most c2 when the source is the target or
has a distance of at most c1, where c1 + 2^22 is at most the float64 c2. -/
theorem relax_bounded (u v : I2) (s : PathState NNF) (c1 c2 : ℚ)
    (hc : c1 + 2 ^ 22 ≤ c2) (hc2 : roundQ c2 = c2)
    (hw : v ∈ s.q → u.Within (10 ^ 6) ∧ v.Within (10 ^ 6))
    (hB : Bounded s c2)
    (hsrc : ∀ y : NNF, s.dists u = ((y : NNF) : WithTop NNF) → y.1 ≤ c1) :
    Bounded (relax sqrtNN u v s) c2 := by
  haveI := distLaws_NNF
  rcases relax_cases sqrtNN u v s with h | ⟨hb, -, hlt, hd, -⟩
  · rw [h]; exact hB
  · intro x y hxy
    rw [hd] at hxy
    by_cases hx : x = v
    · subst hx
      rw [Function.update_same] at hxy
      obtain ⟨wu, wv⟩ := hw hb
      by_cases htop : s.dists u = ⊤
      · rw [htop, WithTop.add_top] at hxy
        exact absurd hxy (by simp)
      · obtain ⟨z, hz⟩ := WithTop.ne_top_iff_exists.mp htop
        rw [← hz, ← WithTop.coe_add, WithTop.coe_eq_coe] at hxy
        rw [← hxy, nnf_add_val, ← hc2]
        apply roundQ_mono
        have := length_le u x wu wv
        have := hsrc z hz.symm
        linarith
    · rw [Function.update_noteq hx] at hxy
      exact hB x y hxy

theorem bounded_mono (s : PathState NNF) (c c' : ℚ) (h : c ≤ c') (hB : Bounded s c) :
    Bounded s c' := fun v y hy => le_trans (hB v y hy) h

/-- A loop of relaxations on float64 is the loop of the model without overflow, and the
finite distances stay at most c2, when every source either is its own target or has a
distance of at most c1 and is not a target of the loop. -/
theorem pfold_sim (c1 c2 : ℚ) (hc : c1 + 2 ^ 22 ≤ c2) (hc2 : roundQ c2 = c2)
    (hc3 : c2 ≤ 2 ^ 100) (ps : List (I2 × I2)) : ∀ (s : PathState NNF),
    (∀ p ∈ ps, p.2 ∈ s.q → p.1.Within (10 ^ 6) ∧ p.2.Within (10 ^ 6)) →
    Bounded s c2 →
    (∀ p ∈ ps, p.1 = p.2 ∨
      ((∀ y : NNF, s.dists p.1 = ((y : NNF) : WithTop NNF) → y.1 ≤ c1) ∧
        ∀ p' ∈ ps, p'.2 ∈ s.q → p'.2 ≠ p.1)) →
    ps.foldl (fun s p => relax64 p.1 p.2 s) (toState64 s) =
      toState64 (ps.foldl (fun s p => relax sqrtNN p.1 p.2 s) s) ∧
    Bounded (ps.foldl (fun s p => relax sqrtNN p.1 p.2 s) s) c2 := by
  haveI := distLaws_NNF
  induction ps with
  | nil =>
    intro s _ hB _
    exact ⟨rfl, hB⟩
  | cons p rest ih =>
    intro s hw hB hsrc
    rw [List.foldl_cons, List.foldl_cons]
    have hwp := hw p (List.mem_cons_self _ _)
    have hsim := relax_sim p.1 p.2 s hwp (fun y hy => le_trans (hB _ y hy) hc3)
    have hB' : Bounded (relax sqrtNN p.1 p.2 s) c2 := by
      rcases hsrc p (List.mem_cons_self _ _) with h | ⟨h, -⟩
      · rcases relax_cases sqrtNN p.1 p.2 s with h' | ⟨-, hne, -⟩
        · rw [h']; exact hB
        · exact absurd h hne
      · exact relax_bounded p.1 p.2 s c1 c2 hc hc2 hwp hB h
    rw [hsim]
    apply ih
    · intro p' hp' hq
      rw [relax_q] at hq
      exact hw p' (List.mem_cons_of_mem _ hp') hq
    · exact hB'
    · intro p' hp'
      rcases hsrc p' (List.mem_cons_of_mem _ hp') with h | ⟨h1, h2⟩
      · exact Or.inl h
      · right
        constructor
        · intro y hy
          apply h1 y
          rcases relax_cases sqrtNN p.1 p.2 s with h' | ⟨hb, -, -, hd, -⟩
          · rw [h'] at hy; exact hy
          · rw [hd, Function.update_noteq
              (Ne.symm (h2 p (List.mem_cons_self _ _) hb))] at hy
            exact hy
        · intro p'' hp'' hq
          rw [relax_q] at hq
          exact h2 p'' (List.mem_cons_of_mem _ hp'') hq

theorem selectMin_fold_sim (dists : I2 → WithTop NNF) (l : List I2) :
    ∀ acc : WithTop NNF × I2,
    l.foldl (fun (acc : F64 × I2) v =>
        if (embF (dists v)).lt acc.1 then (embF (dists v), v) else acc) (embF acc.1, acc.2) =
      (embF (l.foldl (fun (acc : WithTop NNF × I2) v =>
        if dists v < acc.1 then (dists v, v) else acc) acc).1,
       (l.foldl (fun (acc : WithTop NNF × I2) v =>
        if dists v < acc.1 then (dists v, v) else acc) acc).2) := by
  induction l with
  | nil => intro acc; rfl
  | cons v rest ih =>
    intro acc
    rw [List.foldl_cons, List.foldl_cons, lt_embF]
    by_cases h : dists v < acc.1
    · rw [if_pos (by simpa using h), if_pos h]
      exact ih (dists v, v)
    · rw [if_neg (by simpa using h), if_neg h]
      exact ih acc

/-- The selection loop on float64 selects the vertex of the model without overflow. -/
theorem selectMin_sim (s : PathState NNF) (l : List I2) :
    selectMin64 (toState64 s).dists l = (embF (selectMin s.dists l).1, (selectMin s.dists l).2) :=
  selectMin_fold_sim s.dists l (⊤, ⟨0, 0⟩)

theorem nat_bound_exact (j : Nat) (hj : j ≤ 2 ^ 53) :
    roundQ ((j : ℚ) * 2 ^ 22) = (j : ℚ) * 2 ^ 22 ∧ (j : ℚ) * 2 ^ 22 ≤ 2 ^ 100 := by
  constructor
  · have h := roundQ_exact (j : Int) 22 (by
      rw [abs_of_nonneg (by positivity)]
      exact_mod_cast hj) (by norm_num)
    rw [show (22 : Int) = ((22 : Nat) : Int) by rfl, zpow_natCast] at h
    simpa using h
  · have : (j : ℚ) ≤ 2 ^ 53 := by exact_mod_cast hj
    calc (j : ℚ) * 2 ^ 22 ≤ 2 ^ 53 * 2 ^ 22 := by nlinarith
      _ ≤ 2 ^ 100 := by norm_num

/-- The search loop on float64 is the search loop of the model without overflow when
the vertices of `q` and `endN` and `end` have coordinates of magnitude at most 10^6 and
the finite distances are at most j * 2^22, for j + 2 * fuel at most 2^53. -/
theorem search_sim (ro : RangeOrder) (paths : Graph) (end_ : I2) (he : end_.Within (10 ^ 6)) :
    ∀ (n : Nat) (s : PathState NNF) (j : Nat),
    (∀ v ∈ s.q, v.Within (10 ^ 6)) → (∀ v ∈ s.endN, v.Within (10 ^ 6)) →
    Bounded s ((j : ℚ) * 2 ^ 22) → j + 2 * n ≤ 2 ^ 53 →
    search64 ro paths end_ n (toState64 s) =
      (search sqrtNN ro paths end_ n s).map toState64 := by
  haveI := distLaws_NNF
  intro n
  induction n with
  | zero => intro s j _ _ _ _; rfl
  | succ n ih =>
    intro s j hq hN hB hj
    simp only [search64, search]
    rw [toState64_q, selectMin_sim]
    by_cases hpos : s.q.length > 0
    · rw [if_pos hpos, if_pos hpos]
      simp only []
      by_cases hexit : (selectMin s.dists (ro.perm (2 * n) s.q)).2 = end_ ∨
          (selectMin s.dists (ro.perm (2 * n) s.q)).1 = ⊤
      · rw [if_pos hexit, if_pos (by
          rcases hexit with h | h
          · exact Or.inl h
          · exact Or.inr ((embF_eq_inf _).mpr h))]
        rfl
      · rw [if_neg hexit, if_neg (by
          rintro (h | h)
          · exact hexit (Or.inl h)
          · exact hexit (Or.inr ((embF_eq_inf _).mp h)))]
        obtain ⟨-, hsel⟩ := selectMin_spec s.dists (ro.perm (2 * n) s.q)
        have hnt : (selectMin s.dists (ro.perm (2 * n) s.q)).1 ≠ ⊤ := fun h => hexit (Or.inr h)
        obtain ⟨hmem, -⟩ := hsel.resolve_left hnt
        have hu : (selectMin s.dists (ro.perm (2 * n) s.q)).2 ∈ s.q :=
          (ro.isPerm (2 * n) s.q).mem_iff.mp hmem
        generalize (selectMin s.dists (ro.perm (2 * n) s.q)).2 = u at hu ⊢
        obtain ⟨e0, b0⟩ := nat_bound_exact j (by omega)
        obtain ⟨e1, b1⟩ := nat_bound_exact (j + 1) (by omega)
        obtain ⟨e2, b2⟩ := nat_bound_exact (j + 2) (by omega)
        have c01 : (j : ℚ) * 2 ^ 22 + 2 ^ 22 ≤ ((j + 1 : Nat) : ℚ) * 2 ^ 22 := by
          push_cast
          linarith
        have c12 : ((j + 1 : Nat) : ℚ) * 2 ^ 22 + 2 ^ 22 ≤ ((j + 2 : Nat) : ℚ) * 2 ^ 22 := by
          push_cast
          linarith
        have hfq : ∀ v, v ∈ s.q.filter (fun v => v ≠ u) → v ∈ s.q ∧ v ≠ u := by
          intro v hv
          rw [List.mem_filter] at hv
          exact ⟨hv.1, by simpa using hv.2⟩
        -- the loop over `paths.E[u]`
        have hE := pfold_sim ((j : ℚ) * 2 ^ 22) (((j + 1 : Nat) : ℚ) * 2 ^ 22) c01 e1 b1
          ((((paths.E.lookup u).getD ∅).keys).map (fun v => (u, v)))
          { s with q := s.q.filter (fun v => v ≠ u) }
          (fun p hp hpq => by
            obtain ⟨v, -, rfl⟩ := List.mem_map.mp hp
            exact ⟨hq u hu, hq v (hfq v hpq).1⟩)
          (bounded_mono _ _ _ (le_trans (by linarith [show (0 : ℚ) ≤ 2 ^ 22 by norm_num]) c01)
            (fun v y hy => hB v y hy))
          (fun p hp => by
            obtain ⟨v, -, rfl⟩ := List.mem_map.mp hp
            right
            refine ⟨fun y hy => hB u y hy, fun p' _ hp'q => (hfq _ hp'q).2⟩)
        simp only [List.foldl_map] at hE
        obtain ⟨hE1, hE2⟩ := hE
        -- the loop over `endN`
        have hqE : (((paths.E.lookup u).getD ∅).keys.foldl (fun s v => relax sqrtNN u v s)
            { s with q := s.q.filter (fun v => v ≠ u) }).q = s.q.filter (fun v => v ≠ u) := by
          rw [foldEdges_eq, pfold_q]
        have hNE : (((paths.E.lookup u).getD ∅).keys.foldl (fun s v => relax sqrtNN u v s)
            { s with q := s.q.filter (fun v => v ≠ u) }).endN = s.endN := by
          rw [foldEdges_eq, pfold_endN]
        have hN2 := pfold_sim (((j + 1 : Nat) : ℚ) * 2 ^ 22) (((j + 2 : Nat) : ℚ) * 2 ^ 22) c12 e2 b2
          ((ro.perm (2 * n + 1) s.endN).map (fun v => (v, end_)))
          (((paths.E.lookup u).getD ∅).keys.foldl (fun s v => relax sqrtNN u v s)
            { s with q := s.q.filter (fun v => v ≠ u) })
          (fun p hp _ => by
            obtain ⟨v, hv, rfl⟩ := List.mem_map.mp hp
            exact ⟨hN v ((ro.isPerm (2 * n + 1) s.endN).mem_iff.mp hv), he⟩)
          (bounded_mono _ _ _ (le_trans (by linarith [show (0 : ℚ) ≤ 2 ^ 22 by norm_num]) c12) hE2)
          (fun p hp => by
            obtain ⟨v, -, rfl⟩ := List.mem_map.mp hp
            by_cases hve : v = end_
            · exact Or.inl hve
            · right
              refine ⟨fun y hy => hE2 v y hy, fun p' hp' _ => ?_⟩
              obtain ⟨v', -, rfl⟩ := List.mem_map.mp hp'
              exact Ne.symm hve)
        simp only [List.foldl_map] at hN2
        obtain ⟨hN1, hN3⟩ := hN2
        have e64 : ({ toState64 s with q := s.q.filter (fun v => v ≠ u) } : PathState64) =
            toState64 { s with q := s.q.filter (fun v => v ≠ u) } := rfl
        have eN : (toState64 s).endN = s.endN := rfl
        rw [e64, eN, hE1, hN1]
        refine ih _ (j + 2) ?_ ?_ hN3 (by omega)
        · intro v hv
          rw [foldEnd_eq, pfold_q, hqE] at hv
          exact hq v (hfq v hv).1
        · intro v hv
          rw [foldEnd_eq, pfold_endN, hNE] at hv
          exact hN v hv
    · rw [if_neg hpos, if_neg hpos]
      rfl

/-! ## FindPath on 64-bit integers and float64: the seeding and the whole function -/

theorem inRect_within (v ul dr : I2) (hul : ul.Within (10 ^ 6)) (hdr : dr.Within (10 ^ 6))
    (h : v.InRect ul dr = true) : v.Within (10 ^ 6) := by
  unfold I2.InRect at h
  simp only [Bool.and_eq_true, decide_eq_true_eq] at h
  obtain ⟨⟨⟨h1, h2⟩, h3⟩, h4⟩ := h
  obtain ⟨u1, u2, u3, u4⟩ := hul
  obtain ⟨d1, d2, d3, d4⟩ := hdr
  exact ⟨by omega, by omega, by omega, by omega⟩

theorem embF_update (d : I2 → WithTop NNF) (k : I2) (x : WithTop NNF) :
    (fun v => embF (Function.update d k x v)) =
      Function.update (fun v => embF (d v)) k (embF x) := by
  funext v
  by_cases h : v = k
  · subst h
    simp only [Function.update_same]
  · simp only [Function.update_noteq h]

/-- One iteration of the seeding loop on 64-bit integers and float64 is the iteration
of the model without overflow. -/
theorem seedStep_sim (obstacles : Graph) (start end_ boundsUL boundsDR : I2)
    (hg : ∀ u v, obstacles.HasEdge u v → u.Within (10 ^ 6) ∧ v.Within (10 ^ 6))
    (hs : start.Within (10 ^ 6)) (he : end_.Within (10 ^ 6))
    (hul : boundsUL.Within (10 ^ 6)) (hdr : boundsDR.Within (10 ^ 6))
    (s : PathState NNF) (e : Sigma (fun _ : I2 => Bool)) :
    seedStep64 obstacles start end_ boundsUL boundsDR (toState64 s) e =
      toState64 (seedStep sqrtNN obstacles start end_ boundsUL boundsDR s e) := by
  unfold seedStep64 seedStep
  by_cases c : (!e.2 || !e.1.InRect boundsUL boundsDR) = true
  · rw [if_pos c, if_pos c]
  · rw [if_neg c, if_neg c]
    have hin : e.1.InRect boundsUL boundsDR = true := by
      cases h : e.1.InRect boundsUL boundsDR
      · rw [h] at c
        simp at c
      · rfl
    have hw := inRect_within e.1 boundsUL boundsDR hul hdr hin
    rw [Blocks64_eq obstacles start e.1 hg hs hw, Blocks64_eq obstacles e.1 end_ hg hw he,
      (Length64_eq start e.1 hs hw).2.2]
    by_cases b1 : obstacles.Blocks start e.1 = true <;>
      by_cases b2 : obstacles.Blocks e.1 end_ = true <;>
      simp only [b1, b2, Bool.not_true, Bool.false_eq_true, if_false, Bool.not_false, if_true,
        Bool.not_eq_true, toState64, embF_update, Function.update_idem] <;> rfl

theorem seed_fold_sim (obstacles : Graph) (start end_ boundsUL boundsDR : I2)
    (hg : ∀ u v, obstacles.HasEdge u v → u.Within (10 ^ 6) ∧ v.Within (10 ^ 6))
    (hs : start.Within (10 ^ 6)) (he : end_.Within (10 ^ 6))
    (hul : boundsUL.Within (10 ^ 6)) (hdr : boundsDR.Within (10 ^ 6))
    (l : List (Sigma (fun _ : I2 => Bool))) : ∀ s : PathState NNF,
    l.foldl (seedStep64 obstacles start end_ boundsUL boundsDR) (toState64 s) =
      toState64 (l.foldl (seedStep sqrtNN obstacles start end_ boundsUL boundsDR) s) := by
  induction l with
  | nil => intro s; rfl
  | cons e rest ih =>
    intro s
    rw [List.foldl_cons, List.foldl_cons,
      seedStep_sim obstacles start end_ boundsUL boundsDR hg hs he hul hdr]
    exact ih _

/-- The seeding on 64-bit integers and float64 is the seeding of the model without
overflow. -/
theorem seed_sim (obstacles paths : Graph) (start end_ boundsUL boundsDR : I2)
    (hg : ∀ u v, obstacles.HasEdge u v → u.Within (10 ^ 6) ∧ v.Within (10 ^ 6))
    (hs : start.Within (10 ^ 6)) (he : end_.Within (10 ^ 6))
    (hul : boundsUL.Within (10 ^ 6)) (hdr : boundsDR.Within (10 ^ 6)) :
    seed64 obstacles paths start end_ boundsUL boundsDR =
      toState64 (seed sqrtNN obstacles paths start end_ boundsUL boundsDR) :=
  seed_fold_sim obstacles start end_ boundsUL boundsDR hg hs he hul hdr paths.V.entries
    { dists := fun _ => 0, prev := ∅, endN := [], q := [end_] }

theorem seed_fold_nodup (obstacles : Graph) (start end_ boundsUL boundsDR : I2)
    (l : List (Sigma (fun _ : I2 => Bool))) : ∀ s : PathState NNF, s.q.Nodup →
    (l.foldl (seedStep sqrtNN obstacles start end_ boundsUL boundsDR) s).q.Nodup := by
  haveI := distLaws_NNF
  induction l with
  | nil => intro s h; exact h
  | cons e rest ih =>
    intro s h
    rw [List.foldl_cons]
    apply ih
    by_cases c : e.2 = true ∧ e.1.InRect boundsUL boundsDR = true
    · rw [seedStep_q sqrtNN obstacles start end_ boundsUL boundsDR s e c]
      exact h.insert
    · rw [seedStep_skip sqrtNN obstacles start end_ boundsUL boundsDR s e c]
      exact h

/-- A list without repetition of points with coordinates of magnitude at most 10^6 has
at most (2 * 10^6 + 1)^2 elements. -/
theorem box_length_le (l : List I2) (hn : l.Nodup) (hw : ∀ v ∈ l, v.Within (10 ^ 6)) :
    l.length ≤ 4000004000001 := by
  have hsub : l.toFinset ⊆ ((Finset.Icc (-10 ^ 6 : Int) (10 ^ 6)) ×ˢ
      (Finset.Icc (-10 ^ 6 : Int) (10 ^ 6))).image (fun p => (⟨p.1, p.2⟩ : I2)) := by
    intro v hv
    rw [List.mem_toFinset] at hv
    have hwv := hw v hv
    unfold I2.Within at hwv
    rw [Finset.mem_image]
    refine ⟨(v.X, v.Y), ?_, rfl⟩
    rw [Finset.mem_product, Finset.mem_Icc, Finset.mem_Icc]
    exact ⟨⟨hwv.1, hwv.2.1⟩, ⟨hwv.2.2.1, hwv.2.2.2⟩⟩
  have h1 := Finset.card_le_card hsub
  rw [List.toFinset_card_of_nodup hn] at h1
  refine le_trans h1 (le_trans Finset.card_image_le ?_)
  rw [Finset.card_product, Int.card_Icc]
  have e : ((10 : Int) ^ 6 + 1 - -10 ^ 6) = ((2000001 : Nat) : Int) := by norm_num
  rw [e, Int.toNat_natCast]

theorem toState64_update2 (s : PathState NNF) (start end_ : I2) :
    (⟨Function.update (Function.update (toState64 s).dists start (F64.fin 0)) end_
        (F64.inf false), (toState64 s).prev, (toState64 s).endN, (toState64 s).q⟩ :
      PathState64) =
    toState64 ⟨Function.update (Function.update s.dists start 0) end_ ⊤, s.prev, s.endN, s.q⟩ := by
  unfold toState64
  simp only [PathState64.mk.injEq, and_true]
  rw [embF_update, embF_update]
  rfl

/-- With all coordinates of magnitude at most 10^6, FindPath on 64-bit integers and
float64 is FindPath over unbounded integers with the float64 values that are not
negative as distances: no integer wraps and no sum overflows to `+Inf`. -/
theorem FindPath64_eq (ro : RangeOrder) (obstacles paths : Graph)
    (start end_ boundsUL boundsDR : I2)
    (hg : ∀ u v, obstacles.HasEdge u v → u.Within (10 ^ 6) ∧ v.Within (10 ^ 6))
    (hs : start.Within (10 ^ 6)) (he : end_.Within (10 ^ 6))
    (hul : boundsUL.Within (10 ^ 6)) (hdr : boundsDR.Within (10 ^ 6)) :
    FindPath64 ro obstacles paths start end_ boundsUL boundsDR =
      FindPath sqrtNN ro obstacles paths start end_ boundsUL boundsDR := by
  haveI := distLaws_NNF
  unfold FindPath64 FindPath
  rw [Blocks64_eq obstacles start end_ hg hs he,
    seed_sim obstacles paths start end_ boundsUL boundsDR hg hs he hul hdr]
  by_cases hb : (!obstacles.Blocks start end_) = true
  · rw [if_pos hb, if_pos hb]
  · rw [if_neg hb, if_neg hb]
    simp only []
    generalize hS : seed sqrtNN obstacles paths start end_ boundsUL boundsDR = S
    have hcw : ∀ v, Candidate paths boundsUL boundsDR v → v.Within (10 ^ 6) :=
      fun v hv => inRect_within v boundsUL boundsDR hul hdr hv.2
    have hqw : ∀ v ∈ S.q, v.Within (10 ^ 6) := by
      intro v hv
      rw [← hS] at hv
      rcases (seed_q sqrtNN obstacles paths start end_ boundsUL boundsDR v).mp hv with h | h
      · rw [h]; exact he
      · exact hcw v h
    have hNw : ∀ v ∈ S.endN, v.Within (10 ^ 6) := fun v hv =>
      hcw v ((seed_endN sqrtNN obstacles paths start end_ boundsUL boundsDR v).mp (hS ▸ hv)).1
    have hlen : S.q.length ≤ 4000004000001 := by
      refine box_length_le _ ?_ hqw
      rw [← hS]
      exact seed_fold_nodup obstacles start end_ boundsUL boundsDR _ _ (List.nodup_singleton _)
    have hB : Bounded ⟨Function.update (Function.update S.dists start 0) end_ ⊤, S.prev,
        S.endN, S.q⟩ (((1 : Nat) : ℚ) * 2 ^ 22) := by
      intro v y hy
      simp only [] at hy
      rw [Nat.cast_one, one_mul]
      by_cases hve : v = end_
      · rw [hve, Function.update_same] at hy
        exact absurd hy (by simp)
      · rw [Function.update_noteq hve] at hy
        by_cases hvs : v = start
        · rw [hvs, Function.update_same] at hy
          have : y = 0 := (WithTop.coe_eq_coe.mp hy).symm
          rw [this, nnf_zero_val]
          norm_num
        · rw [Function.update_noteq hvs, ← hS, seed_dists] at hy
          by_cases hc : Candidate paths boundsUL boundsDR v
          · rw [if_pos hc] at hy
            by_cases hbl : obstacles.Blocks start v = true
            · rw [if_pos hbl] at hy
              exact absurd hy (by simp)
            · rw [if_neg hbl] at hy
              rw [← WithTop.coe_eq_coe.mp hy]
              exact length_le start v hs (hcw v hc)
          · rw [if_neg hc] at hy
            have : y = 0 := (WithTop.coe_eq_coe.mp hy).symm
            rw [this, nnf_zero_val]
            norm_num
    have hsim := search_sim ro paths end_ he (S.q.length + 1)
      ⟨Function.update (Function.update S.dists start 0) end_ ⊤, S.prev, S.endN, S.q⟩
      1 hqw hNw hB (by omega)
    rw [toState64_update2]
    have hq : (toState64 S).q = S.q := rfl
    have hp : (toState64 S).prev = S.prev := rfl
    have hN : (toState64 S).endN = S.endN := rfl
    rw [hq, hp, hN]
    by_cases hempty : S.prev.entries.length = 0 ∨ S.endN.length = 0
    · rw [if_pos hempty, if_pos hempty]
    · rw [if_neg hempty, if_neg hempty, hsim]
      cases search sqrtNN ro paths end_ (S.q.length + 1)
        ⟨Function.update (Function.update S.dists start 0) end_ ⊤, S.prev, S.endN, S.q⟩ with
      | none => rfl
      | some s1 => rfl

theorem acc_le_accLen {D : Type} [LinearOrder D] [Add D] [Zero D] [DistLaws D]
    (sqrt : Int → D) (l : List I2) : ∀ (a : I2) (x : D), x ≤ accLen sqrt a l x := by
  induction l with
  | nil => intro a x; exact le_refl _
  | cons b l ih =>
    intro a x
    exact le_trans (DistLaws.le_add _ _) (ih b _)

/-- The float64 length of a route of n hops between points with coordinates of
magnitude at most 10^6 is at most (j + n) * 2^22 when it starts from at most
j * 2^22. -/
theorem accLen_le (l : List I2) : ∀ (a : I2) (x : NNF) (j : Nat),
    a.Within (10 ^ 6) → (∀ v ∈ l, v.Within (10 ^ 6)) → x.1 ≤ (j : ℚ) * 2 ^ 22 →
    j + l.length ≤ 2 ^ 53 →
    (accLen sqrtNN a l x).1 ≤ ((j + l.length : Nat) : ℚ) * 2 ^ 22 := by
  induction l with
  | nil =>
    intro a x j _ _ hx _
    simpa using hx
  | cons b l ih =>
    intro a x j ha hl hx hj
    have hb := hl b (List.mem_cons_self _ _)
    simp only [List.length_cons] at hj ⊢
    have h1 : (Length sqrtNN a b + x).1 ≤ ((j + 1 : Nat) : ℚ) * 2 ^ 22 := by
      rw [nnf_add_val, ← (nat_bound_exact (j + 1) (by omega)).1]
      apply roundQ_mono
      have := length_le a b ha hb
      push_cast
      linarith
    have := ih b _ (j + 1) hb (fun v hv => hl v (List.mem_cons_of_mem _ hv)) h1 (by omega)
    rw [show j + (l.length + 1) = j + 1 + l.length by omega]
    exact this

theorem accLen64_inf (l : List I2) : ∀ (a : I2), a.Within (10 ^ 6) →
    (∀ v ∈ l, v.Within (10 ^ 6)) → accLen64 a l (F64.inf false) = F64.inf false := by
  induction l with
  | nil => intro a _ _; rfl
  | cons b l ih =>
    intro a ha hl
    have hb := hl b (List.mem_cons_self _ _)
    show accLen64 b l ((Length64 a b).add (F64.inf false)) = _
    rw [(Length64_eq a b ha hb).1]
    exact ih b hb (fun v hv => hl v (List.mem_cons_of_mem _ hv))

/-- The float64 length of a route between points with coordinates of magnitude at most
10^6 is the length of the model without overflow when that is below 2^1024, and `+Inf`
otherwise. -/
theorem accLen64_eq (l : List I2) : ∀ (a : I2) (x : NNF), a.Within (10 ^ 6) →
    (∀ v ∈ l, v.Within (10 ^ 6)) → x.1 < (2 : ℚ) ^ (1024 : Int) →
    accLen64 a l (F64.fin x.1) =
      if (accLen sqrtNN a l x).1 < (2 : ℚ) ^ (1024 : Int) then F64.fin (accLen sqrtNN a l x).1
      else F64.inf false := by
  haveI := distLaws_NNF
  induction l with
  | nil =>
    intro a x _ _ hx
    show F64.fin x.1 = if x.1 < (2 : ℚ) ^ (1024 : Int) then F64.fin x.1 else F64.inf false
    rw [if_pos hx]
  | cons b l ih =>
    intro a x ha hl hx
    have hb := hl b (List.mem_cons_self _ _)
    have hl' : ∀ v ∈ l, v.Within (10 ^ 6) := fun v hv => hl v (List.mem_cons_of_mem _ hv)
    show accLen64 b l ((Length64 a b).add (F64.fin x.1)) =
      if (accLen sqrtNN b l (Length sqrtNN a b + x)).1 < (2 : ℚ) ^ (1024 : Int)
      then F64.fin (accLen sqrtNN b l (Length sqrtNN a b + x)).1 else F64.inf false
    rw [(Length64_eq a b ha hb).2.2, embF_coe]
    have hnn : (0 : ℚ) ≤ (Length sqrtNN a b).1 + x.1 := add_nonneg (Length sqrtNN a b).2.1 x.2.1
    by_cases hy : (Length sqrtNN a b + x).1 < (2 : ℚ) ^ (1024 : Int)
    · have e : (F64.fin (Length sqrtNN a b).1).add (F64.fin x.1) =
          F64.fin (Length sqrtNN a b + x).1 := by
        rw [nnf_add_val] at hy ⊢
        exact add_fin _ _ (by rw [abs_of_nonneg (roundQ_nonneg _ hnn)]; exact hy)
      rw [e]
      exact ih b _ hb hl' hy
    · have e : (F64.fin (Length sqrtNN a b).1).add (F64.fin x.1) = F64.inf false := by
        rw [nnf_add_val] at hy
        show round64 _ = _
        unfold round64
        rw [if_pos (by rw [abs_of_nonneg (roundQ_nonneg _ hnn)]; exact not_lt.mp hy)]
        simp only [F64.inf.injEq, decide_eq_false_iff_not, not_lt]
        exact hnn
      rw [e, accLen64_inf l b hb hl']
      have hge : (Length sqrtNN a b + x).1 ≤ (accLen sqrtNN b l (Length sqrtNN a b + x)).1 :=
        acc_le_accLen sqrtNN l b _
      rw [if_neg (not_lt.mpr (le_trans (not_lt.mp hy) hge))]

/-- The vertex set `q` after seeding has at most (2 * 10^6 + 1)^2 elements when `end`
and the bounds have coordinates of magnitude at most 10^6. -/
theorem seed_q_length_le (obstacles paths : Graph) (start end_ boundsUL boundsDR : I2)
    (he : end_.Within (10 ^ 6)) (hul : boundsUL.Within (10 ^ 6))
    (hdr : boundsDR.Within (10 ^ 6)) :
    (seed sqrtNN obstacles paths start end_ boundsUL boundsDR).q.length ≤ 4000004000001 := by
  haveI := distLaws_NNF
  refine box_length_le _
    (seed_fold_nodup obstacles start end_ boundsUL boundsDR _ _ (List.nodup_singleton _)) ?_
  intro v hv
  rcases (seed_q sqrtNN obstacles paths start end_ boundsUL boundsDR v).mp hv with h | h
  · rw [h]; exact he
  · exact inRect_within v boundsUL boundsDR hul hdr h.2

/-! ## FindPath on 64-bit integers and float64: C4 and C2 -/

/-- C4, as stated, fails on the code: with the wall from (0,3) to (0,-3), the single
waypoint vertex (0, 3100000000) and the bounds (-10,-10)-(10, 4000000000), the route
(-3,0) → (0, 3100000000) → (3,0) exists (the vertex is inside the bounds, not blocked
from start and not blocked towards end, and start-end is blocked), but the squared
length 9 + 3100000000^2 of each hop exceeds 2^63 - 1, `Dot` wraps to a negative number,
`math.Sqrt` returns a NaN, no distance is ever below `+Inf`, and FindPath returns the
error "no path". -/
theorem FindPath64_no_path_counterexample :
    Candidate (NewGraph.AddEdge ⟨0, 3100000000⟩ ⟨0, 3100000000⟩) ⟨-10, -10⟩ ⟨10, 4000000000⟩
      ⟨0, 3100000000⟩ ∧
    exampleWall.Blocks64 ⟨-3, 0⟩ ⟨3, 0⟩ = true ∧
    exampleWall.Blocks64 ⟨-3, 0⟩ ⟨0, 3100000000⟩ = false ∧
    exampleWall.Blocks64 ⟨0, 3100000000⟩ ⟨3, 0⟩ = false ∧
    Length64 ⟨-3, 0⟩ ⟨0, 3100000000⟩ = F64.nan ∧
    FindPath64 RangeOrder.id exampleWall (NewGraph.AddEdge ⟨0, 3100000000⟩ ⟨0, 3100000000⟩)
      ⟨-3, 0⟩ ⟨3, 0⟩ ⟨-10, -10⟩ ⟨10, 4000000000⟩ = some PathResult.noPath := by
  refine ⟨⟨by decide, by decide⟩, ?_, ?_, ?_, ?_, ?_⟩
  · set_option maxRecDepth 100000 in decide!
  · set_option maxRecDepth 100000 in decide!
  · set_option maxRecDepth 100000 in decide!
  · set_option maxRecDepth 100000 in decide!
  · set_option maxRecDepth 100000 in decide!

theorem exampleWall_in_range :
    ∀ u v, exampleWall.HasEdge u v → u.Within (10 ^ 6) ∧ v.Within (10 ^ 6) := fun u v h =>
  ⟨within_mono _ _ _ (exampleWall_within u v h).1 (by norm_num),
    within_mono _ _ _ (exampleWall_within u v h).2 (by norm_num)⟩

theorem candidate_within (paths : Graph) (boundsUL boundsDR v : I2)
    (hul : boundsUL.Within (10 ^ 6)) (hdr : boundsDR.Within (10 ^ 6))
    (h : Candidate paths boundsUL boundsDR v) : v.Within (10 ^ 6) :=
  inRect_within v boundsUL boundsDR hul hdr h.2

theorem getLastD_within (rest : List I2) (w1 : I2) (h1 : w1.Within (10 ^ 6))
    (h : ∀ x ∈ rest, x.Within (10 ^ 6)) : (rest.getLastD w1).Within (10 ^ 6) := by
  rcases getLastD_mem rest w1 with e | e
  · rw [e]; exact h1
  · exact h _ e

/-- C4, amended: when all coordinates (of the obstacle edges, of start and end and of
the bounds) have magnitude at most 10^6, start-end is blocked and there is a sequence
of waypoint vertices w1, ..., wm inside the bounds with w1 not blocked from start,
every (wi, wi+1) an edge of the waypoint graph and wm not blocked towards end,
FindPath (64-bit integers and float64) returns a path and a nil error: neither "no
paths possible" nor "no path"; for every iteration order of the vertex maps. -/
theorem FindPath64_finds_route (ro : RangeOrder) (obstacles paths : Graph)
    (start end_ boundsUL boundsDR : I2) (w1 : I2) (rest : List I2)
    (hg : ∀ u v, obstacles.HasEdge u v → u.Within (10 ^ 6) ∧ v.Within (10 ^ 6))
    (hs : start.Within (10 ^ 6)) (he : end_.Within (10 ^ 6))
    (hul : boundsUL.Within (10 ^ 6)) (hdr : boundsDR.Within (10 ^ 6))
    (hb : obstacles.Blocks64 start end_ = true)
    (hw1 : Candidate paths boundsUL boundsDR w1)
    (hs1 : obstacles.Blocks64 start w1 = false)
    (hchain : List.Chain (fun a b => paths.HasEdge a b) w1 rest)
    (hrest : ∀ x ∈ rest, Candidate paths boundsUL boundsDR x)
    (hlast : obstacles.Blocks64 (rest.getLastD w1) end_ = false) :
    ∃ p, FindPath64 ro obstacles paths start end_ boundsUL boundsDR =
      some (PathResult.path p) := by
  haveI := distLaws_NNF
  have hww := candidate_within paths boundsUL boundsDR w1 hul hdr hw1
  have hrw : ∀ x ∈ rest, x.Within (10 ^ 6) := fun x hx =>
    candidate_within paths boundsUL boundsDR x hul hdr (hrest x hx)
  rw [Blocks64_eq obstacles start end_ hg hs he] at hb
  rw [Blocks64_eq obstacles start w1 hg hs hww] at hs1
  rw [Blocks64_eq obstacles _ end_ hg (getLastD_within rest w1 hww hrw) he] at hlast
  rw [FindPath64_eq ro obstacles paths start end_ boundsUL boundsDR hg hs he hul hdr]
  exact route_found sqrtNN ro obstacles paths start end_ boundsUL boundsDR w1 rest hb hw1 hs1
    hchain hrest hlast

/-- C4 (amended) at a concrete input: the route (-3,0) → (0,4) → (0,-4) → (3,0) around
the wall exists, and FindPath returns a path. -/
theorem FindPath64_finds_route_witness :
    ∃ p, FindPath64 RangeOrder.id exampleWall exampleAround ⟨-3, 0⟩ ⟨3, 0⟩
      ⟨-10, -10⟩ ⟨10, 10⟩ = some (PathResult.path p) :=
  FindPath64_finds_route RangeOrder.id exampleWall exampleAround ⟨-3, 0⟩ ⟨3, 0⟩
    ⟨-10, -10⟩ ⟨10, 10⟩ ⟨0, 4⟩ [⟨0, -4⟩] exampleWall_in_range
    (by unfold I2.Within; decide) (by unfold I2.Within; decide)
    (by unfold I2.Within; decide) (by unfold I2.Within; decide)
    (by set_option maxRecDepth 100000 in decide!) ⟨by decide, by decide⟩
    (by set_option maxRecDepth 100000 in decide!)
    (List.Chain.cons ⟨_, rfl, by decide⟩ List.Chain.nil)
    (fun x hx => by
      rw [List.mem_singleton] at hx
      subst hx
      exact ⟨by decide, by decide⟩)
    (by set_option maxRecDepth 100000 in decide!)

/-- C2, as stated, fails on the code: with the short wall at x = 100000 between (0,0)
and (200000,0) and the waypoint vertices A = (100000,5) and B = (100001,5), both
visible from start and from end, FindPath returns the path through B although the
route through A is shorter in exact arithmetic: of the float64 lengths that FindPath
adds up, the one through B is the smaller (200000.00024999998 against 200000.00025). -/
theorem FindPath64_shortest_counterexample :
    FindPath64 RangeOrder.id exampleGate exampleTwo ⟨0, 0⟩ ⟨200000, 0⟩ ⟨0, -10⟩ ⟨200000, 10⟩ =
      some (PathResult.path [⟨100001, 5⟩, ⟨200000, 0⟩]) ∧
    exampleGate.Blocks64 ⟨0, 0⟩ ⟨200000, 0⟩ = true ∧
    Candidate exampleTwo ⟨0, -10⟩ ⟨200000, 10⟩ ⟨100000, 5⟩ ∧
    exampleGate.Blocks64 ⟨0, 0⟩ ⟨100000, 5⟩ = false ∧
    exampleGate.Blocks64 ⟨100000, 5⟩ ⟨200000, 0⟩ = false ∧
    Real.sqrt ((((⟨100000, 5⟩ : I2).Sub ⟨0, 0⟩).Dot ((⟨100000, 5⟩ : I2).Sub ⟨0, 0⟩) : Int) : ℝ) +
      Real.sqrt ((((⟨200000, 0⟩ : I2).Sub ⟨100000, 5⟩).Dot
        ((⟨200000, 0⟩ : I2).Sub ⟨100000, 5⟩) : Int) : ℝ) <
    Real.sqrt ((((⟨100001, 5⟩ : I2).Sub ⟨0, 0⟩).Dot ((⟨100001, 5⟩ : I2).Sub ⟨0, 0⟩) : Int) : ℝ) +
      Real.sqrt ((((⟨200000, 0⟩ : I2).Sub ⟨100001, 5⟩).Dot
        ((⟨200000, 0⟩ : I2).Sub ⟨100001, 5⟩) : Int) : ℝ) ∧
    (accLen64 ⟨0, 0⟩ [⟨100001, 5⟩, ⟨200000, 0⟩] (F64.fin 0)).lt
      (accLen64 ⟨0, 0⟩ [⟨100000, 5⟩, ⟨200000, 0⟩] (F64.fin 0)) = true := by
  refine ⟨?_, ?_, ⟨by decide, by decide⟩, ?_, ?_, ?_, ?_⟩
  · set_option maxRecDepth 100000 in decide!
  · set_option maxRecDepth 100000 in decide!
  · set_option maxRecDepth 100000 in decide!
  · set_option maxRecDepth 100000 in decide!
  · have e1 : ((⟨100000, 5⟩ : I2).Sub ⟨0, 0⟩).Dot ((⟨100000, 5⟩ : I2).Sub ⟨0, 0⟩) =
        10000000025 := by decide
    have e2 : ((⟨200000, 0⟩ : I2).Sub ⟨100000, 5⟩).Dot ((⟨200000, 0⟩ : I2).Sub ⟨100000, 5⟩) =
        10000000025 := by decide
    have e3 : ((⟨100001, 5⟩ : I2).Sub ⟨0, 0⟩).Dot ((⟨100001, 5⟩ : I2).Sub ⟨0, 0⟩) =
        10000200026 := by decide
    have e4 : ((⟨200000, 0⟩ : I2).Sub ⟨100001, 5⟩).Dot ((⟨200000, 0⟩ : I2).Sub ⟨100001, 5⟩) =
        9999800026 := by decide
    rw [e1, e2, e3, e4]
    push_cast
    have hx : (0 : ℝ) ≤ 10000000025 := by norm_num
    have ha : (0 : ℝ) ≤ 10000200026 := by norm_num
    have hb : (0 : ℝ) ≤ 9999800026 := by norm_num
    have sx := Real.mul_self_sqrt hx
    have sa := Real.mul_self_sqrt ha
    have sb := Real.mul_self_sqrt hb
    have nx := Real.sqrt_nonneg 10000000025
    have na := Real.sqrt_nonneg 10000200026
    have nb := Real.sqrt_nonneg 9999800026
    generalize Real.sqrt 10000000025 = X at sx nx ⊢
    generalize Real.sqrt 10000200026 = A at sa na ⊢
    generalize Real.sqrt 9999800026 = B at sb nb ⊢
    have hAB : 10000000024 < A * B := by
      by_contra hcon
      have h1 : A * B ≤ 10000000024 := not_lt.mp hcon
      have h2 : (A * B) * (A * B) ≤ 10000000024 * 10000000024 :=
        mul_self_le_mul_self (mul_nonneg na nb) h1
      have h3 : (A * B) * (A * B) = (A * A) * (B * B) := by ring
      rw [h3, sa, sb] at h2
      norm_num at h2
    by_contra hcon
    have h1 : A + B ≤ X + X := not_lt.mp hcon
    have h2 : (A + B) * (A + B) ≤ (X + X) * (X + X) :=
      mul_self_le_mul_self (add_nonneg na nb) h1
    have h3 : (A + B) * (A + B) = A * A + B * B + 2 * (A * B) := by ring
    have h4 : (X + X) * (X + X) = 4 * (X * X) := by ring
    rw [h3, h4, sa, sb, sx] at h2
    linarith
  · set_option maxRecDepth 100000 in decide!

/-- C2, amended: when all coordinates (of the obstacle edges, of start and end and of
the bounds) have magnitude at most 10^6 and FindPath (64-bit integers and float64)
returns a path p after a search (start-end blocked), the float64 length of start → p,
added up hop by hop as FindPath does, is finite and no route
start → w1 → ... → wm → end, in which w1 is a waypoint vertex inside the bounds not
blocked from start, every (wi, wi+1) is an edge of the waypoint graph between waypoint
vertices inside the bounds, and wm is not blocked towards end, has a smaller float64
length added up the same way; for every iteration order of the vertex maps. -/
theorem FindPath64_shortest (ro : RangeOrder) (obstacles paths : Graph)
    (start end_ boundsUL boundsDR : I2) (p : List I2) (w1 : I2) (rest : List I2)
    (hg : ∀ u v, obstacles.HasEdge u v → u.Within (10 ^ 6) ∧ v.Within (10 ^ 6))
    (hs : start.Within (10 ^ 6)) (he : end_.Within (10 ^ 6))
    (hul : boundsUL.Within (10 ^ 6)) (hdr : boundsDR.Within (10 ^ 6))
    (hb : obstacles.Blocks64 start end_ = true)
    (hp : FindPath64 ro obstacles paths start end_ boundsUL boundsDR =
      some (PathResult.path p))
    (hw1 : Candidate paths boundsUL boundsDR w1)
    (hs1 : obstacles.Blocks64 start w1 = false)
    (hchain : List.Chain (fun a b => paths.HasEdge a b) w1 rest)
    (hrest : ∀ x ∈ rest, Candidate paths boundsUL boundsDR x)
    (hlast : obstacles.Blocks64 (rest.getLastD w1) end_ = false) :
    ∃ x : ℚ, accLen64 start p (F64.fin 0) = F64.fin x ∧
      (accLen64 start (w1 :: (rest ++ [end_])) (F64.fin 0)).lt (F64.fin x) = false := by
  haveI := distLaws_NNF
  have hcw : ∀ v, Candidate paths boundsUL boundsDR v → v.Within (10 ^ 6) :=
    fun v hv => candidate_within paths boundsUL boundsDR v hul hdr hv
  have hww := hcw w1 hw1
  have hrw : ∀ x ∈ rest, x.Within (10 ^ 6) := fun x hx => hcw x (hrest x hx)
  rw [Blocks64_eq obstacles start end_ hg hs he] at hb
  rw [Blocks64_eq obstacles start w1 hg hs hww] at hs1
  rw [Blocks64_eq obstacles _ end_ hg (getLastD_within rest w1 hww hrw) he] at hlast
  rw [FindPath64_eq ro obstacles paths start end_ boundsUL boundsDR hg hs he hul hdr] at hp
  have hle := route_shortest sqrtNN ro obstacles paths start end_ boundsUL boundsDR p w1 rest
    hb hp hw1 hs1 hchain hrest hlast
  -- the shape of the returned path
  have hshape : (∀ v ∈ p, v.Within (10 ^ 6)) ∧ p.length ≤ 4000004000002 := by
    rcases FindPath_blocked_spec sqrtNN ro obstacles paths start end_ boundsUL boundsDR hb with
      ⟨-, h⟩ | ⟨-, s', k', -, -, -, ⟨-, h⟩ | ⟨r', -, hc, hlen, h⟩⟩
    · rw [h] at hp
      exact absurd hp (by simp)
    · rw [h] at hp
      exact absurd hp (by simp)
    · rw [h] at hp
      have hpe : p = (end_ :: r').reverse := (PathResult.path.inj (Option.some.inj hp)).symm
      have hq := seed_q_length_le obstacles paths start end_ boundsUL boundsDR he hul hdr
      constructor
      · intro v hv
        rw [hpe, List.mem_reverse, List.mem_cons] at hv
        rcases hv with rfl | hv
        · exact he
        · exact hcw v (hc v hv).1
      · rw [hpe, List.length_reverse, List.length_cons]
        omega
  obtain ⟨hpw, hpl⟩ := hshape
  have h0 : (0 : NNF).1 < (2 : ℚ) ^ (1024 : Int) := by
    rw [nnf_zero_val]
    positivity
  have hP := accLen_le p start 0 0 hs hpw (by rw [nnf_zero_val]; norm_num) (by
    norm_num
    omega)
  have hPlt : (accLen sqrtNN start p 0).1 < (2 : ℚ) ^ (1024 : Int) := by
    refine lt_of_le_of_lt hP ?_
    have : ((0 + p.length : Nat) : ℚ) ≤ 4000004000002 := by
      rw [Nat.zero_add]
      exact_mod_cast hpl
    calc ((0 + p.length : Nat) : ℚ) * 2 ^ 22 ≤ 4000004000002 * 2 ^ 22 := by nlinarith
      _ < (2 : ℚ) ^ (1024 : Int) := by norm_num
  have e1 := accLen64_eq p start 0 hs hpw h0
  rw [if_pos hPlt, nnf_zero_val] at e1
  have e2 := accLen64_eq (w1 :: (rest ++ [end_])) start 0 hs (by
    intro v hv
    rw [List.mem_cons, List.mem_append, List.mem_singleton] at hv
    rcases hv with rfl | hv | rfl
    · exact hww
    · exact hrw v hv
    · exact he) h0
  rw [nnf_zero_val] at e2
  refine ⟨_, e1, ?_⟩
  rw [e2]
  split_ifs with c
  · show decide (_ < _) = false
    rw [decide_eq_false_iff_not, not_lt]
    exact hle
  · rfl

/-- C2 (amended) at a concrete input: the returned path (-3,0) → (0,4) → (3,0) has the
float64 length 10, and the route (-3,0) → (0,4) → (0,-4) → (3,0) is not shorter. -/
theorem FindPath64_shortest_witness :
    FindPath64 RangeOrder.id exampleWall exampleAround ⟨-3, 0⟩ ⟨3, 0⟩
      ⟨-10, -10⟩ ⟨10, 10⟩ = some (PathResult.path [⟨0, 4⟩, ⟨3, 0⟩]) ∧
    ∃ x : ℚ, accLen64 ⟨-3, 0⟩ [⟨0, 4⟩, ⟨3, 0⟩] (F64.fin 0) = F64.fin x ∧
      (accLen64 ⟨-3, 0⟩ [⟨0, 4⟩, ⟨0, -4⟩, ⟨3, 0⟩] (F64.fin 0)).lt (F64.fin x) = false :=
  ⟨by set_option maxRecDepth 100000 in decide!,
   FindPath64_shortest RangeOrder.id exampleWall exampleAround ⟨-3, 0⟩ ⟨3, 0⟩
    ⟨-10, -10⟩ ⟨10, 10⟩ [⟨0, 4⟩, ⟨3, 0⟩] ⟨0, 4⟩ [⟨0, -4⟩] exampleWall_in_range
    (by unfold I2.Within; decide) (by unfold I2.Within; decide)
    (by unfold I2.Within; decide) (by unfold I2.Within; decide)
    (by set_option maxRecDepth 100000 in decide!)
    (by set_option maxRecDepth 100000 in decide!)
    ⟨by decide, by decide⟩
    (by set_option maxRecDepth 100000 in decide!)
    (List.Chain.cons ⟨_, rfl, by decide⟩ List.Chain.nil)
    (fun x hx => by
      rw [List.mem_singleton] at hx
      subst hx
      exact ⟨by decide, by decide⟩)
    (by set_option maxRecDepth 100000 in decide!)⟩

end Vec
